import Mathlib

/-!
# biss: function registry, expression tree, canonicaliser, tokenizer and parser

A shallow embedding of the C++ sources

* `src/ast/precedence.h`, `src/ast/function.h` (function registry),
* `src/ast/ast.h`, `src/ast/ast.cpp` (expression tree, equality, rendering),
* `src/engine/engine.cpp` (`flatten`),
* `src/parser/lexer.cpp`, `src/parser/parser.cpp` (tokenizer and parser),
* `src/engine/predicate.h`, `src/engine/result.h`, `src/engine/rule.cpp`
  (rewrite rules),

followed by theorems about them.

Conventions of the embedding:

* a `const Function*` is an index into the static `ARRAY` (`Fin 21`); pointer
  equality is index equality and a pointer is never null;
* a `double` is the rational number it denotes (`ℚ`); rounding to binary64 and
  the range of binary64 are outside the model;
* `std::string_view` / `std::string` are `String` (or `List Char` inside the
  tokenizer), identifiers are ASCII;
* a thrown exception is the `Except.error` result;
* recursion of the parser is bounded by an explicit fuel argument; the
  top-level `parser.parse` supplies enough fuel for every input.
-/

/-! ## `src/ast/precedence.h` -/

namespace ast.precedence

/-- Levels of precedence (`enum class Precedence : std::uint8_t`), in
declaration order: `L6` is the loosest, `L1` the tightest. -/
inductive Precedence where
  | L6 | L5 | L4 | L3 | L2 | L1
  deriving DecidableEq

/-- Underlying `std::uint8_t` value of an enumerator. -/
def Precedence.to_uint8 : Precedence → Nat
  | .L6 => 0
  | .L5 => 1
  | .L4 => 2
  | .L3 => 3
  | .L2 => 4
  | .L1 => 5

/-- Enumerator of an underlying value (`static_cast<Precedence>`), for the
values `next` produces. -/
def Precedence.of_uint8 : Nat → Precedence
  | 0 => .L6
  | 1 => .L5
  | 2 => .L4
  | 3 => .L3
  | 4 => .L2
  | _ => .L1

instance : LE Precedence := ⟨fun a b => a.to_uint8 ≤ b.to_uint8⟩

instance : LT Precedence := ⟨fun a b => a.to_uint8 < b.to_uint8⟩

instance (a b : Precedence) : Decidable (a ≤ b) :=
  inferInstanceAs (Decidable (a.to_uint8 ≤ b.to_uint8))

instance (a b : Precedence) : Decidable (a < b) :=
  inferInstanceAs (Decidable (a.to_uint8 < b.to_uint8))

/-- Returns the next level of precedence. -/
def next (p : Precedence) : Precedence :=
  if p = Precedence.L1 then Precedence.L1 else Precedence.of_uint8 (p.to_uint8 + 1)

/-- The constant `LOWEST`. -/
def LOWEST : Precedence := Precedence.L6

end ast.precedence

/-! ## `src/ast/function.h` -/

namespace ast.function

open ast.precedence

/-- Determines how arguments in a function call may be reordered. -/
inductive Commutativity where
  | NONE | ALL | TAIL
  deriving DecidableEq

/-- Determines how nested function calls may be flattened. -/
inductive Associativity where
  | NONE | LEFT | RIGHT | ALL
  deriving DecidableEq

/-- Defines the format of function calls. -/
inductive Syntax where
  | ROUTINE | INFIX
  deriving DecidableEq

/-- Determines what number of arguments are compatible with the function. -/
inductive ArityType where
  | STATIC | DYNAMIC
  deriving DecidableEq

/-- The hash `impl::hash` (32-bit FNV-1a): `hash = (data[0] ^ hash) * PRIME`
in `std::uint32_t` arithmetic, over the characters of the text. -/
def impl.hash (data : String) : Nat :=
  data.data.foldl (fun hash c => ((c.toNat ^^^ hash) * 0x01000193) % 2 ^ 32) 0x811C9DC5

/-- Meta-data about a function recognized by the parser (`struct Function`). -/
structure Function where
  identifier : String
  syntax_ : Syntax
  commutativity : Commutativity
  associativity : Associativity
  arity_type : ArityType
  arity : Nat
  precedence : Precedence
  identifier_hash : Nat
  deriving DecidableEq

/-- Creates a new unary operator function (`Function::unary`). -/
def Function.unary (identifier : String) : Function :=
  { identifier := identifier
    syntax_ := Syntax.INFIX
    commutativity := Commutativity.ALL
    associativity := Associativity.RIGHT
    arity_type := ArityType.STATIC
    arity := 1
    precedence := Precedence.L1
    identifier_hash := impl.hash identifier }

/-- Creates a new binary operator function (`Function::binary`). -/
def Function.binary (identifier : String) (precedence : Precedence)
    (commutativity : Commutativity) (associativity : Associativity) : Function :=
  { identifier := identifier
    syntax_ := Syntax.INFIX
    commutativity := commutativity
    associativity := associativity
    arity_type := ArityType.DYNAMIC
    arity := 2
    precedence := precedence
    identifier_hash := impl.hash identifier }

/-- Creates a new routine function (`Function::routine`). -/
def Function.routine (identifier : String) (commutativity : Commutativity)
    (associativity : Associativity) (arity_type : ArityType) (arity : Nat) : Function :=
  { identifier := identifier
    syntax_ := Syntax.ROUTINE
    commutativity := commutativity
    associativity := associativity
    arity_type := arity_type
    arity := arity
    precedence := Precedence.L1
    identifier_hash := impl.hash identifier }

/-- The static catalog `ARRAY`, in source order. -/
def ARRAY : List Function :=
  [ Function.unary "-",
    Function.binary "**" .L1 .NONE .RIGHT,
    Function.binary "*" .L2 .ALL .ALL,
    Function.binary "/" .L2 .TAIL .LEFT,
    Function.binary "%" .L2 .NONE .LEFT,
    Function.binary "+" .L3 .ALL .ALL,
    Function.binary "-" .L3 .TAIL .LEFT,
    Function.binary "==" .L4 .ALL .NONE,
    Function.binary "!=" .L4 .ALL .NONE,
    Function.binary "<" .L4 .NONE .NONE,
    Function.binary "<=" .L4 .NONE .NONE,
    Function.binary ">" .L4 .NONE .NONE,
    Function.binary ">=" .L4 .NONE .NONE,
    Function.unary "!",
    Function.binary "&&" .L5 .ALL .LEFT,
    Function.binary "^^" .L5 .ALL .LEFT,
    Function.binary "||" .L6 .ALL .LEFT,
    Function.routine "sqrt" .ALL .NONE .STATIC 1,
    Function.routine "abs" .ALL .NONE .STATIC 1,
    Function.routine "min" .NONE .ALL .DYNAMIC 2,
    Function.routine "max" .NONE .ALL .DYNAMIC 2 ]

/-- A `const Function*` into `ARRAY`: the index of the entry. -/
abbrev FunctionPtr := Fin 21

/-- Dereference of a pointer into `ARRAY`. -/
def deref (p : FunctionPtr) : Function :=
  ARRAY.getD p.val (Function.unary "-")

/-- The set `IDENTIFIERS`: the identifier texts of `ARRAY`. Only membership
is ever asked of the `std::unordered_set`. -/
def IDENTIFIERS : List String :=
  ARRAY.map Function.identifier

/-- The test `arity_match` of `get`: exact for `STATIC`, a minimum for
`DYNAMIC`. -/
def arity_match (fn : Function) (arity : Nat) : Bool :=
  if fn.arity_type = ArityType.STATIC then decide (arity = fn.arity)
  else decide (arity ≥ fn.arity)

/-- The lookup `function::get`: the first entry of `ARRAY` whose arity is
compatible and whose identifier hash is the hash of the requested text;
`none` is the null pointer. The arity is a `std::uint8_t`. -/
def get (identifier : String) (arity : Nat) : Option FunctionPtr :=
  (List.finRange 21).find? fun p =>
    arity_match (deref p) arity && decide ((deref p).identifier_hash = impl.hash identifier)

end ast.function

/-! ## `src/ast/ast.h`, `src/utility.h`, `src/ast/ast.cpp` -/

namespace ast

open ast.precedence ast.function

/-- The sum type `Ast` of `Literal`, `Variable` and `Call`. -/
inductive Ast where
  | Literal (value : ℚ)
  | Variable (identifier : String)
  | Call (fn : FunctionPtr) (args : List Ast)

/-- The tolerance `EPSILON` of `double_equality`, `1e-10`. -/
def EPSILON : ℚ := mkRat 1 (10 ^ 10)

/-- Determines if two floating-point numbers are equivalent
(`double_equality` of `utility.h`). -/
def double_equality (a b : ℚ) : Bool :=
  decide (|a - b| ≤ EPSILON * max |a| |b|)

mutual
/-- The comparison `operator==` on `Ast`. -/
def Ast.eq : Ast → Ast → Bool
  | .Call f as, .Call g bs => decide (f = g) && Ast.eq_args as bs
  | .Literal a, .Literal b => double_equality a b
  | .Variable a, .Variable b => decide (a = b)
  | _, _ => false
/-- The comparison `operator==` on `std::vector<Ast>`: same length and
pairwise equal. -/
def Ast.eq_args : List Ast → List Ast → Bool
  | [], [] => true
  | a :: as, b :: bs => Ast.eq a b && Ast.eq_args as bs
  | _, _ => false
end

/-- The member `Ast::precedence`. -/
def Ast.precedence : Ast → Precedence
  | .Call fn _ => (deref fn).precedence
  | _ => Precedence.L1

/-- The test `has<Call>()`. -/
def Ast.has_Call : Ast → Bool
  | .Call _ _ => true
  | _ => false

/-- The lambda `format_operand` of `format_infix`, given the rendering
`arg_out` of the argument: it is parenthesized when the argument is a call
whose precedence is not above that of `fn`. -/
def impl.format_operand (fn : FunctionPtr) (arg : Ast) (arg_out : String) : String :=
  if arg.precedence ≤ (deref fn).precedence ∧ arg.has_Call = true then "(" ++ arg_out ++ ")"
  else arg_out

mutual
/-- The member `Ast::to_string`. `fmt` is `std::format("{}", value)` on a
`double`, which belongs to the standard library. -/
def Ast.to_string (fmt : ℚ → String) : Ast → String
  | .Call fn args =>
    if (deref fn).syntax_ = Syntax.INFIX then impl.format_infix fmt fn args
    else impl.format_routine fmt fn args
  | .Literal value => fmt value
  | .Variable identifier => identifier
/-- Formats function call with the function name between each operand
(`impl::format_infix`): prefixed for a single argument, and otherwise the
operands joined by the delimiter. -/
def impl.format_infix (fmt : ℚ → String) (fn : FunctionPtr) : List Ast → String
  | [] => ""
  | [arg] => (deref fn).identifier ++ impl.format_operand fn arg (Ast.to_string fmt arg)
  | arg :: arg' :: rest =>
    impl.format_operand fn arg (Ast.to_string fmt arg) ++
      impl.format_infix_rest fmt fn (arg' :: rest)
/-- The iterations `i > 0` of the loop of `format_infix`: the delimiter, then
the operand. -/
def impl.format_infix_rest (fmt : ℚ → String) (fn : FunctionPtr) : List Ast → String
  | [] => ""
  | arg :: rest =>
    (" " ++ (deref fn).identifier ++ " ") ++
      impl.format_operand fn arg (Ast.to_string fmt arg) ++ impl.format_infix_rest fmt fn rest
/-- Formats function call with the function name before all operands
(`impl::format_routine`). -/
def impl.format_routine (fmt : ℚ → String) (fn : FunctionPtr) : List Ast → String
  | [] => (deref fn).identifier ++ "(" ++ "" ++ ")"
  | arg :: rest =>
    (deref fn).identifier ++ "(" ++
      (Ast.to_string fmt arg ++ impl.format_routine_rest fmt rest) ++ ")"
/-- The iterations `i > 0` of the loop of `format_routine`: ", " and then the
argument. -/
def impl.format_routine_rest (fmt : ℚ → String) : List Ast → String
  | [] => ""
  | arg :: rest => ", " ++ Ast.to_string fmt arg ++ impl.format_routine_rest fmt rest
end

end ast

/-! ## `src/engine/engine.cpp` -/

namespace engine.impl

open ast ast.function

/-- The condition `associativity_match` of `flatten` for the argument at
index `i`, `last_i` being the index of the last argument. -/
def associativity_match (fn : FunctionPtr) (i last_i : Nat) : Bool :=
  (decide ((deref fn).associativity = Associativity.LEFT) && decide (i = 0)) ||
  (decide ((deref fn).associativity = Associativity.RIGHT) && decide (i = last_i)) ||
  decide ((deref fn).associativity = Associativity.ALL)

mutual
/-- The canonicaliser `flatten`. -/
def flatten : Ast → Ast
  | .Call fn args => .Call fn (flatten_loop fn (args.length - 1) 0 args)
  | t => t
/-- The `for` loop of `flatten` from index `i` on: the elements appended to
`new_args` for the remaining arguments. `last_i` is `call.args.size() - 1`
(it is read only when there is an argument, so its wrap-around for an empty
argument list is never observed). -/
def flatten_loop (fn : FunctionPtr) (last_i : Nat) : Nat → List Ast → List Ast
  | _, [] => []
  | i, arg :: rest =>
    (match flatten arg with
      | .Call sub_fn sub_args =>
        if sub_fn = fn ∧ associativity_match fn i last_i = true then sub_args
        else [.Call sub_fn sub_args]
      | flat_arg => [flat_arg]) ++ flatten_loop fn last_i (i + 1) rest
end

end engine.impl

/-! ## `src/parser/lexer.h`, `src/parser/lexer.cpp` -/

namespace parser

/-- The token sum type `Variant<char, double, std::string_view, Identifier, EOL>`:
a single symbol character, a number, a bare name, a function identifier, or
the end of the token stream. -/
inductive Token where
  | char (c : Char)
  | double (value : ℚ)
  | string_view (text : String)
  | Identifier (value : String)
  | EOL
  deriving DecidableEq

/-- The test `token.has<EOL>()`. -/
def Token.has_EOL : Token → Bool
  | .EOL => true
  | _ => false

/-- The test `token.has(c)` for a character `c`. -/
def Token.has_char : Token → Char → Bool
  | .char d, c => decide (d = c)
  | _, _ => false

/-- The member `Token::to_string`. `fmt` is `std::format("{}", t)` on a
`double`. -/
def Token.to_string (fmt : ℚ → String) : Token → String
  | .char t => String.singleton t
  | .double t => fmt t
  | .string_view t => t
  | .Identifier t => t
  | .EOL => "EOL"

/-- The message of a `parser::Error`: the format string of the `error(...)`
call that raised it, with its arguments.

* `expected_expression`: "expected an expression"
* `expected_closing`: "expected ')'"
* `not_unary identifier`: "function is not a unary operator '{}'"
* `invalid_token token`: "invalid token '{}'"
* `expected_separator`: "expected ',' or ')'"
* `no_overload identifier arity`: "no overload found for '{}' taking {} arguments"
* `unexpected trailing`: "unexpected '{}'" -/
inductive Message where
  | expected_expression
  | expected_closing
  | not_unary (identifier : String)
  | invalid_token (token : Token)
  | expected_separator
  | no_overload (identifier : String) (arity : Nat)
  | unexpected (trailing : Token)
  deriving DecidableEq

/-- What the parser can throw: a `parser::Error`, or one of the exceptions
`std::invalid_argument` and `std::out_of_range` of `std::stod`. `out_of_fuel`
is the fuel of the embedding running out; `parser.parse` never returns it. -/
inductive Failure where
  | Error (column : Nat) (msg : Message)
  | invalid_argument
  | out_of_range
  | out_of_fuel
  deriving DecidableEq

end parser

namespace lexer.impl

open parser ast.function

/-- Character categories of the tokenizer. -/
inductive Category where
  | ALPHA | DIGIT | SYMBOL | WHITESPACE
  deriving DecidableEq

/-- The test `std::isspace` in the "C" locale. -/
def isspace (c : Char) : Bool :=
  c = ' ' || (9 ≤ c.toNat && c.toNat ≤ 13)

/-- The function `categorize(char)`; `std::isalpha` and `std::isdigit` are
those of the "C" locale. -/
def categorize (c : Char) : Category :=
  if c.isAlpha || c = '_' then Category.ALPHA
  else if c.isDigit || c = '.' then Category.DIGIT
  else if isspace c then Category.WHITESPACE
  else Category.SYMBOL

/-- The loop of `categorize(std::string_view)` once the first character has
been read: `prev_cat` is the category of the previous character and `segment`
the text `str.substr(start, i - start)` read since the last change. -/
def categorize_loop (prev_cat : Category) (segment : List Char) :
    List Char → List (Category × List Char)
  | [] => [(prev_cat, segment)]
  | c :: cs =>
    if prev_cat ≠ categorize c then
      (prev_cat, segment) :: categorize_loop (categorize c) [c] cs
    else categorize_loop prev_cat (segment ++ [c]) cs

/-- The function `categorize(std::string_view)`: splits the text on change of
category. On the empty text the source emits one empty segment with the
never-assigned `prev_cat`; `uninit` stands for that indeterminate value (an
invalid enumerator behaves like `WHITESPACE` there: no token). -/
def categorize_str (uninit : Category) : List Char → List (Category × List Char)
  | [] => [(uninit, [])]
  | c :: cs => categorize_loop (categorize c) [c] cs

/-- Value of a run of decimal digits. -/
def digits_value (ds : List Char) : Nat :=
  ds.foldl (fun n d => 10 * n + (d.toNat - '0'.toNat)) 0

/-- The conversion `std::strtod`, which `std::stod` calls, on a run of digits
and decimal points: the longest prefix `digits [. digits]` with at least one
digit is converted, the rest of the run is ignored; `none` when there is no
digit to convert. -/
def strtod (segment : List Char) : Option ℚ :=
  let int_part := segment.takeWhile Char.isDigit
  let rest := segment.dropWhile Char.isDigit
  let frac_part :=
    match rest with
    | '.' :: more => more.takeWhile Char.isDigit
    | _ => []
  if int_part.isEmpty && frac_part.isEmpty then none
  else some (mkRat (digits_value (int_part ++ frac_part)) (10 ^ frac_part.length))

/-- The number `2^1024 - 2^970`, halfway between the greatest `double` and
`2^1024`: the least value that rounds to infinity. -/
def DBL_OVERFLOW : Nat :=
  179769313486231580793728971405303415079934132710037826936173778980444968292764750946649017977587207096330286416692887910946555547851940402630657488671505820681908902000708383676273854845817711531764475730270069855571366959622842914819860834936475292719074168444365510704342711559699508093042880177904174497792

/-- The number `2^1022`, the inverse of the least normalized `double`. -/
def DBL_MIN_INVERSE : Nat :=
  44942328371557897693232629769725618340449424473557664318357520289433168951375240783177119330601884005280028469967848339414697442203604155623211857659868531094441973356216371319075554900311523529863270738021251442209537670585615720368478277635206809290837627671146574559986811484619929076208839082406056034304

/-- The decimal value is in the range of `double`: `std::strtod` does not
report `ERANGE` for it. It overflows from `2^1024 - 2^970` on, the least value
that rounds to infinity; a value other than zero below `2^-1022`, the least
normalized `double`, underflows (the C libraries report `ERANGE` for it). -/
def in_range (value : ℚ) : Bool :=
  decide (value.num.natAbs < DBL_OVERFLOW * value.den) &&
    (decide (value.num = 0) || decide (value.den ≤ value.num.natAbs * DBL_MIN_INVERSE))

/-- The conversion `std::stod` on a run of digits and decimal points: the
value `std::strtod` converts, when it is in the range of `double`; `none` when
`std::stod` throws. -/
def stod (segment : List Char) : Option ℚ :=
  match strtod segment with
  | some value => if in_range value then some value else none
  | none => none

/-- The exception `std::stod` throws on a run for which it returns no value:
`std::invalid_argument` when no conversion could be performed,
`std::out_of_range` when the converted value is out of the range of
`double`. -/
def stod_exception (segment : List Char) : Failure :=
  match strtod segment with
  | some _ => Failure.out_of_range
  | none => Failure.invalid_argument

/-- The inner `while (!token)` loop of the `SYMBOL` case: `substr` is the first
`n` characters of the remaining run; it is shortened until it is a function
identifier or a single character. Returns the token and `substr.size()`. -/
def symbol_token (rest : List Char) : Nat → Token × Nat
  | 0 => (Token.char (rest.headD ' '), 1)
  | n + 1 =>
    if IDENTIFIERS.contains (String.mk (rest.take (n + 1))) then
      (Token.Identifier (String.mk (rest.take (n + 1))), n + 1)
    else if n = 0 then (Token.char (rest.headD ' '), 1)
    else symbol_token rest n

/-- The outer `while (start < segment.size())` loop of the `SYMBOL` case:
the tokens of the remaining run `rest`, each with its source offset.
`fuel` bounds the iterations; the run's length is enough. -/
def symbol_tokens : Nat → Nat → List Char → List (Token × Nat)
  | 0, _, _ => []
  | _, _, [] => []
  | fuel + 1, current_offset, c :: cs =>
    let r := symbol_token (c :: cs) (c :: cs).length
    (r.1, current_offset) ::
      symbol_tokens fuel (current_offset + r.2) ((c :: cs).drop r.2)

/-- The body of the segment loop of the `Lexer` constructor for one segment:
the tokens it pushes, each with its offset (`handle_segment`); `none` when
`std::stod` throws. -/
def segment_tokens (current_offset : Nat) :
    Category × List Char → Option (List (Token × Nat))
  | (Category.ALPHA, segment) =>
    some [(if IDENTIFIERS.contains (String.mk segment)
            then Token.Identifier (String.mk segment)
            else Token.string_view (String.mk segment), current_offset)]
  | (Category.DIGIT, segment) =>
    match stod segment with
    | some value => some [(Token.double value, current_offset)]
    | none => none
  | (Category.SYMBOL, segment) =>
    some (symbol_tokens segment.length current_offset segment)
  | (Category.WHITESPACE, _) => some []

/-- The segment loop of the `Lexer` constructor followed by the final
`handle_segment(" ", EOL{})`. -/
def tokenize_segments (current_offset : Nat) :
    List (Category × List Char) → Option (List (Token × Nat))
  | [] => some [(Token.EOL, current_offset)]
  | seg :: segs =>
    match segment_tokens current_offset seg with
    | none => none
    | some toks =>
      match tokenize_segments (current_offset + seg.2.length) segs with
      | none => none
      | some more => some (toks ++ more)

/-- The exception that leaves the segment loop of the `Lexer` constructor when
it pushes no token buffer: the one `std::stod` throws on the first `DIGIT`
segment for which it returns no value. -/
def tokenize_exception : List (Category × List Char) → Failure
  | [] => Failure.invalid_argument
  | (category, segment) :: segs =>
    if category = Category.DIGIT ∧ stod segment = none then stod_exception segment
    else tokenize_exception segs

end lexer.impl

namespace parser

open lexer.impl

/-- The tokenizer state `struct Lexer`. -/
structure Lexer where
  _tokens : List Token
  _offsets : List Nat
  _cursor : Nat
  deriving DecidableEq

/-- The constructor `Lexer::Lexer(str, fn_identifiers)` with
`fn_identifiers = IDENTIFIERS`. -/
def Lexer.new (uninit : Category) (str : String) : Except Failure Lexer :=
  match tokenize_segments 0 (categorize_str uninit str.data) with
  | none => .error (tokenize_exception (categorize_str uninit str.data))
  | some toks => .ok { _tokens := toks.map Prod.fst, _offsets := toks.map Prod.snd, _cursor := 0 }

/-- Retrieves a token from the buffer without consuming it (`Lexer::peek`). -/
def Lexer.peek (lexer : Lexer) : Token :=
  lexer._tokens.getD lexer._cursor Token.EOL

/-- Discards a token from the buffer (`Lexer::discard`). -/
def Lexer.discard (lexer : Lexer) : Lexer :=
  if lexer._cursor + 1 < lexer._tokens.length then { lexer with _cursor := lexer._cursor + 1 }
  else lexer

/-- Consumes a token from the buffer (`Lexer::read`). -/
def Lexer.read (lexer : Lexer) : Token × Lexer :=
  (lexer.peek, lexer.discard)

/-- Returns the column of start of the previous token (`Lexer::last_token_start`). -/
def Lexer.last_token_start (lexer : Lexer) : Nat :=
  if lexer._cursor = 0 then lexer._offsets.getD 0 0
  else lexer._offsets.getD (lexer._cursor - 1) 0

end parser

/-! ## `src/parser/parser.cpp` -/

namespace parser.impl

open ast ast.function ast.precedence

/-- Result of a parsing function: the tree and the tokenizer state after it,
or what was thrown. -/
abbrev Parsed := Except Failure (Ast × Lexer)

/-- Utility for throwing a syntax error at the column where the previous
token started (`impl::error`). -/
def error {α : Type} (lexer : Lexer) (msg : Message) : Except Failure α :=
  .error (Failure.Error lexer.last_token_start msg)

/-- Attempts to parse the next token as a function identifier, and returns the
function object (`impl::peek_function`). -/
def peek_function (lexer : Lexer) (arity : Nat) : Option FunctionPtr :=
  match lexer.peek with
  | .Identifier identifier => get identifier arity
  | _ => none

/-- The constant `MULTIPLICATION` of `parse_shorthand`, `function::get("*", 2)`. -/
def MULTIPLICATION : FunctionPtr :=
  (get "*" 2).getD 0

/-- The condition `next_is_primary` of `parse_shorthand`. -/
def next_is_primary : Token → Bool
  | .string_view _ => true
  | .double _ => true
  | .char c => decide (c = '(')
  | _ => false

/-- The condition of the inner `while` of `parse_precedence` on the operator
`sub_fn` that follows the right operand of `fn`. -/
def climbs (sub_fn fn : FunctionPtr) : Bool :=
  decide ((deref sub_fn).precedence > (deref fn).precedence) ||
  (decide ((deref sub_fn).precedence = (deref fn).precedence) &&
    decide ((deref fn).associativity = Associativity.RIGHT))

mutual
/-- Root of the parsing algorithm (`impl::parse_expression`). -/
def parse_expression : Nat → Lexer → Parsed
  | 0, _ => .error Failure.out_of_fuel
  | fuel + 1, lexer =>
    match parse_primary fuel lexer with
    | .error e => .error e
    | .ok (lhs, lexer) => parse_precedence fuel lexer lhs LOWEST none
/-- Parses an expression with a certain minimum precedence
(`impl::parse_precedence`): one evaluation of the outer `while` condition and,
when it holds, one iteration followed by the rest of the loop. -/
def parse_precedence : Nat → Lexer → Ast → Precedence → Option FunctionPtr → Parsed
  | 0, _, _, _, _ => .error Failure.out_of_fuel
  | fuel + 1, lexer, lhs, min, from_ =>
    match (match from_ with
      | some f => some f
      | none => peek_function lexer 2) with
    | none => .ok (lhs, lexer)
    | some fn =>
      if (deref fn).precedence ≥ min then
        match parse_primary fuel lexer.discard with
        | .error e => .error e
        | .ok (rhs, lexer) =>
          match parse_precedence_rhs fuel lexer rhs fn min with
          | .error e => .error e
          | .ok (rhs, lexer) => parse_precedence fuel lexer (.Call fn [lhs, rhs]) min from_
      else .ok (lhs, lexer)
/-- The inner `while` loop of `parse_precedence`, which extends the right
operand `rhs` of `fn`. -/
def parse_precedence_rhs : Nat → Lexer → Ast → FunctionPtr → Precedence → Parsed
  | 0, _, _, _, _ => .error Failure.out_of_fuel
  | fuel + 1, lexer, rhs, fn, min =>
    match peek_function lexer 2 with
    | none => .ok (rhs, lexer)
    | some sub_fn =>
      if climbs sub_fn fn then
        match parse_precedence fuel lexer rhs (next min) (some sub_fn) with
        | .error e => .error e
        | .ok (rhs, lexer) => parse_precedence_rhs fuel lexer rhs fn min
      else .ok (rhs, lexer)
/-- Parses "unit" expressions like parenthesized expressions, literals, unary
functions, or routine function calls (`impl::parse_primary`). -/
def parse_primary : Nat → Lexer → Parsed
  | 0, _ => .error Failure.out_of_fuel
  | fuel + 1, lexer =>
    match lexer.read with
    | (.EOL, lexer) => error lexer Message.expected_expression
    | (.char c, lexer) =>
      if c = '(' then
        match parse_expression fuel lexer with
        | .error e => .error e
        | .ok (nested, lexer) =>
          if lexer.read.1.has_char ')' then parse_shorthand fuel lexer.read.2 nested
          else error lexer.read.2 Message.expected_closing
      else error lexer (Message.invalid_token (.char c))
    | (.string_view name, lexer) => parse_shorthand fuel lexer (.Variable name)
    | (.Identifier identifier, lexer) =>
      if lexer.peek.has_char '(' then
        match parse_routine_call fuel lexer identifier with
        | .error e => .error e
        | .ok (expr, lexer) => parse_shorthand fuel lexer expr
      else
        match get identifier 1 with
        | none => error lexer (Message.not_unary identifier)
        | some fn =>
          match parse_primary fuel lexer with
          | .error e => .error e
          | .ok (arg, lexer) => parse_shorthand fuel lexer (.Call fn [arg])
    | (.double value, lexer) => parse_shorthand fuel lexer (.Literal value)
/-- Parses a routine function call (`impl::parse_routine_call`): discards the
'(' and runs the argument loop. -/
def parse_routine_call : Nat → Lexer → String → Parsed
  | 0, _, _ => .error Failure.out_of_fuel
  | fuel + 1, lexer, identifier => parse_routine_args fuel lexer.discard identifier [] true
/-- The `while (!lexer.peek().has(')'))` loop of `parse_routine_call` and what
follows it; `args` and `first` are the locals of the source. The argument
count is converted to the `std::uint8_t` parameter of `function::get`. -/
def parse_routine_args : Nat → Lexer → String → List Ast → Bool → Parsed
  | 0, _, _, _, _ => .error Failure.out_of_fuel
  | fuel + 1, lexer, identifier, args, first =>
    if lexer.peek.has_char ')' then
      match get identifier (args.length % 256) with
      | none => error lexer.discard (Message.no_overload identifier args.length)
      | some fn => .ok (.Call fn args, lexer.discard)
    else if first then
      match parse_expression fuel lexer with
      | .error e => .error e
      | .ok (arg, lexer) => parse_routine_args fuel lexer identifier (args ++ [arg]) false
    else if lexer.read.1.has_char ',' then
      match parse_expression fuel lexer.read.2 with
      | .error e => .error e
      | .ok (arg, lexer) => parse_routine_args fuel lexer identifier (args ++ [arg]) false
    else error lexer.read.2 Message.expected_separator
/-- If a primary expression immediately follows the current one (`lhs`),
interpret as a multiplication (`impl::parse_shorthand`). -/
def parse_shorthand : Nat → Lexer → Ast → Parsed
  | 0, _, _ => .error Failure.out_of_fuel
  | fuel + 1, lexer, lhs =>
    if next_is_primary lexer.peek then
      match parse_primary fuel lexer with
      | .error e => .error e
      | .ok (rhs, lexer) => .ok (.Call MULTIPLICATION [lhs, rhs], lexer)
    else .ok (lhs, lexer)
end

end parser.impl

namespace parser

open ast lexer.impl

/-- Fuel that suffices for a token buffer of the given size. -/
def fuel_for (lexer : Lexer) : Nat :=
  4 * lexer._tokens.length + 4

/-- Parses input string as an expression (`parser::parse`). `uninit` is the
indeterminate category the tokenizer reads on the empty text (see
`categorize_str`); it plays no role on any other input. -/
def parse (uninit : Category) (input : String) : Except Failure Ast :=
  match Lexer.new uninit input with
  | .error e => .error e
  | .ok lexer =>
    match impl.parse_expression (fuel_for lexer) lexer with
    | .error e => .error e
    | .ok (expr, lexer) =>
      if lexer.read.1.has_EOL then .ok expr
      else impl.error lexer.read.2 (Message.unexpected lexer.read.1)

end parser

/-! ## `src/parser/parser.cpp`, traced

The parsing functions once more, with one change: where the source calls
`error(lexer, ...)`, the tokenizer state `lexer` is recorded in what is
thrown. -/

namespace parser.traced

open ast ast.function ast.precedence parser.impl lexer.impl

/-- What a traced run of the parser throws. Where the source calls
`error(lexer, ...)`, the trace records the tokenizer state `lexer` it is
called with, from which `error` takes the column `lexer.last_token_start()`;
every other failure is kept as it is. -/
inductive Thrown where
  | raised (lexer : Lexer) (msg : Message)
  | other (e : Failure)

/-- Result of a traced parsing function. -/
abbrev Traced := Except Thrown (Ast × Lexer)

/-- The exception a traced failure stands for: `error` throws a
`parser::Error` at the column `last_token_start()` of the state it is called
with. -/
def Thrown.erase : Thrown → Failure
  | .raised lexer msg => Failure.Error lexer.last_token_start msg
  | .other e => e

/-- The result of the parsing function a traced result stands for. -/
def erase {α : Type} : Except Thrown α → Except Failure α
  | .ok r => .ok r
  | .error e => .error e.erase

/-- The function `impl::error`, traced: the state it is called with is
recorded. -/
def error {α : Type} (lexer : Lexer) (msg : Message) : Except Thrown α :=
  .error (Thrown.raised lexer msg)

mutual
/-- The function `impl::parse_expression`, traced. -/
def parse_expression : Nat → Lexer → Traced
  | 0, _ => .error (Thrown.other Failure.out_of_fuel)
  | fuel + 1, lexer =>
    match parse_primary fuel lexer with
    | .error e => .error e
    | .ok (lhs, lexer) => parse_precedence fuel lexer lhs LOWEST none
/-- The function `impl::parse_precedence`, traced: one evaluation of the outer
`while` condition and, when it holds, one iteration followed by the rest of
the loop. -/
def parse_precedence : Nat → Lexer → Ast → Precedence → Option FunctionPtr → Traced
  | 0, _, _, _, _ => .error (Thrown.other Failure.out_of_fuel)
  | fuel + 1, lexer, lhs, min, from_ =>
    match (match from_ with
      | some f => some f
      | none => peek_function lexer 2) with
    | none => .ok (lhs, lexer)
    | some fn =>
      if (deref fn).precedence ≥ min then
        match parse_primary fuel lexer.discard with
        | .error e => .error e
        | .ok (rhs, lexer) =>
          match parse_precedence_rhs fuel lexer rhs fn min with
          | .error e => .error e
          | .ok (rhs, lexer) => parse_precedence fuel lexer (.Call fn [lhs, rhs]) min from_
      else .ok (lhs, lexer)
/-- The inner `while` loop of `parse_precedence`, traced. -/
def parse_precedence_rhs : Nat → Lexer → Ast → FunctionPtr → Precedence → Traced
  | 0, _, _, _, _ => .error (Thrown.other Failure.out_of_fuel)
  | fuel + 1, lexer, rhs, fn, min =>
    match peek_function lexer 2 with
    | none => .ok (rhs, lexer)
    | some sub_fn =>
      if climbs sub_fn fn then
        match parse_precedence fuel lexer rhs (next min) (some sub_fn) with
        | .error e => .error e
        | .ok (rhs, lexer) => parse_precedence_rhs fuel lexer rhs fn min
      else .ok (rhs, lexer)
/-- The function `impl::parse_primary`, traced. -/
def parse_primary : Nat → Lexer → Traced
  | 0, _ => .error (Thrown.other Failure.out_of_fuel)
  | fuel + 1, lexer =>
    match lexer.read with
    | (.EOL, lexer) => error lexer Message.expected_expression
    | (.char c, lexer) =>
      if c = '(' then
        match parse_expression fuel lexer with
        | .error e => .error e
        | .ok (nested, lexer) =>
          if lexer.read.1.has_char ')' then parse_shorthand fuel lexer.read.2 nested
          else error lexer.read.2 Message.expected_closing
      else error lexer (Message.invalid_token (.char c))
    | (.string_view name, lexer) => parse_shorthand fuel lexer (.Variable name)
    | (.Identifier identifier, lexer) =>
      if lexer.peek.has_char '(' then
        match parse_routine_call fuel lexer identifier with
        | .error e => .error e
        | .ok (expr, lexer) => parse_shorthand fuel lexer expr
      else
        match get identifier 1 with
        | none => error lexer (Message.not_unary identifier)
        | some fn =>
          match parse_primary fuel lexer with
          | .error e => .error e
          | .ok (arg, lexer) => parse_shorthand fuel lexer (.Call fn [arg])
    | (.double value, lexer) => parse_shorthand fuel lexer (.Literal value)
/-- The function `impl::parse_routine_call`, traced: discards the '(' and runs
the argument loop. -/
def parse_routine_call : Nat → Lexer → String → Traced
  | 0, _, _ => .error (Thrown.other Failure.out_of_fuel)
  | fuel + 1, lexer, identifier => parse_routine_args fuel lexer.discard identifier [] true
/-- The argument loop of `parse_routine_call` and what follows it, traced. -/
def parse_routine_args : Nat → Lexer → String → List Ast → Bool → Traced
  | 0, _, _, _, _ => .error (Thrown.other Failure.out_of_fuel)
  | fuel + 1, lexer, identifier, args, first =>
    if lexer.peek.has_char ')' then
      match get identifier (args.length % 256) with
      | none => error lexer.discard (Message.no_overload identifier args.length)
      | some fn => .ok (.Call fn args, lexer.discard)
    else if first then
      match parse_expression fuel lexer with
      | .error e => .error e
      | .ok (arg, lexer) => parse_routine_args fuel lexer identifier (args ++ [arg]) false
    else if lexer.read.1.has_char ',' then
      match parse_expression fuel lexer.read.2 with
      | .error e => .error e
      | .ok (arg, lexer) => parse_routine_args fuel lexer identifier (args ++ [arg]) false
    else error lexer.read.2 Message.expected_separator
/-- The function `impl::parse_shorthand`, traced. -/
def parse_shorthand : Nat → Lexer → Ast → Traced
  | 0, _, _ => .error (Thrown.other Failure.out_of_fuel)
  | fuel + 1, lexer, lhs =>
    if next_is_primary lexer.peek then
      match parse_primary fuel lexer with
      | .error e => .error e
      | .ok (rhs, lexer) => .ok (.Call MULTIPLICATION [lhs, rhs], lexer)
    else .ok (lhs, lexer)
end


/-- The function `parser::parse`, traced. -/
def parse (uninit : Category) (input : String) : Except Thrown Ast :=
  match Lexer.new uninit input with
  | .error e => .error (Thrown.other e)
  | .ok lexer =>
    match parse_expression (fuel_for lexer) lexer with
    | .error e => .error e
    | .ok (expr, lexer) =>
      if lexer.read.1.has_EOL then .ok expr
      else error lexer.read.2 (Message.unexpected lexer.read.1)

end parser.traced

/-! ## `src/engine/engine.cpp`: evaluation -/

namespace engine

open ast lexer.impl

/-- Evaluates expression: currently only flattens it (`engine::evaluate_expr`). -/
def evaluate_expr (ast : Ast) : Ast :=
  impl.flatten ast

/-- Parses and evaluates string (`engine::evaluate_str`). -/
def evaluate_str (uninit : Category) (str : String) : Except parser.Failure Ast :=
  match parser.parse uninit str with
  | .error e => .error e
  | .ok ast => .ok (evaluate_expr ast)

end engine

/-! ## `src/engine/predicate.h`, `src/engine/result.h`, `src/engine/rule.h`, `src/engine/rule.cpp` -/

namespace engine.predicate

open ast ast.function

/-- The sum type `Predicate` of `Any`, `Literal`, `Tag`, `Variable` and
`Call`. A tag is a `std::uint8_t`. -/
inductive Predicate where
  | Any
  | Literal (value : Option ℚ)
  | Tag (nested : Predicate) (tag : Nat)
  | Variable
  | Call (fn : FunctionPtr) (args : List Predicate)

/-- The constructor `Call::Call(identifier, args...)`: the function is looked
up by the identifier and the number of arguments; `none` is the failed
`assert(fn)`. -/
def Call.from_identifier (identifier : String) (args : List Predicate) : Option Predicate :=
  match get identifier (args.length % 256) with
  | some fn => some (Predicate.Call fn args)
  | none => none

end engine.predicate

namespace engine.result

open ast ast.function

/-- The sum type `Result` of `Tag`, `Ast` and `Call`. -/
inductive Result where
  | Tag (value : Nat)
  | Ast (value : ast.Ast)
  | Call (fn : FunctionPtr) (args : List Result)

/-- The constructor `Call::Call(identifier, args...)`: the function is looked
up by the identifier and the number of arguments; `none` is the failed
`assert(fn)`. -/
def Call.from_identifier (identifier : String) (args : List Result) : Option Result :=
  match get identifier (args.length % 256) with
  | some fn => some (Result.Call fn args)
  | none => none

end engine.result

namespace engine.rule

open ast engine.predicate engine.result

/-- The rewrite rule `struct Rule`. -/
structure Rule where
  predicate : Predicate
  result : Result
  pivot_order : List Nat

/-- The constructor `Rule::Rule(predicate, result)`: it moves its two
arguments into the members and has an empty body; `pivot_order` is
default-initialized. -/
def Rule.new (predicate : Predicate) (result : Result) : Rule :=
  { predicate := predicate, result := result, pivot_order := [] }

/-- The `operator>` that builds a rule from a predicate and a result. -/
def operator_gt (predicate : Predicate) (result : Result) : Rule :=
  Rule.new predicate result

/-- What a call of `Rule::apply` ends in when it returns no tree: the failed
assertion. -/
inductive Abort where
  | assertion_failed
  deriving DecidableEq

/-- The member `Rule::apply`, whose body is `assert(false)`: whatever the rule
and the tree, the call aborts on the assertion. -/
def Rule.apply (_self : Rule) (_expr : Ast) : Except Abort Ast :=
  .error Abort.assertion_failed

end engine.rule

/-! ## Vocabulary of the statements -/

open ast ast.function ast.precedence engine.impl parser parser.impl lexer.impl
open engine.predicate engine.result engine.rule

/-- The argument is a call of the function `fn`. -/
def is_call_to (fn : FunctionPtr) : Ast → Bool
  | .Call g _ => decide (g = fn)
  | _ => false

/-- The arguments of a call (no arguments for another node). -/
def call_args : Ast → List Ast
  | .Call _ args => args
  | _ => []

/-- The argument `x` at index `i` would be spliced by the loop of `flatten`
for a call of `fn` whose last index is `last_i`. -/
def spliced (fn : FunctionPtr) (i last_i : Nat) (x : Ast) : Bool :=
  is_call_to fn x && associativity_match fn i last_i

/-- No argument, from index `i` on, would be spliced. -/
def no_splice (fn : FunctionPtr) (last_i : Nat) : Nat → List Ast → Bool
  | _, [] => true
  | i, x :: xs => !spliced fn i last_i x && no_splice fn last_i (i + 1) xs

mutual
/-- Every call of the tree has at least one argument. -/
def args_nonempty : Ast → Bool
  | .Call _ args => !args.isEmpty && args_nonempty_list args
  | _ => true
/-- Every call of every tree of the list has at least one argument. -/
def args_nonempty_list : List Ast → Bool
  | [] => true
  | a :: as => args_nonempty a && args_nonempty_list as
end

mutual
/-- The tree is in the normal form of `flatten`: no argument of any call would
be spliced into its parent. -/
def is_flat : Ast → Bool
  | .Call fn args => no_splice fn (args.length - 1) 0 args && is_flat_list args
  | _ => true
/-- Every tree of the list is in the normal form of `flatten`. -/
def is_flat_list : List Ast → Bool
  | [] => true
  | a :: as => is_flat a && is_flat_list as
end

/-- A tree in normal form all of whose calls have an argument. -/
def good (x : Ast) : Prop :=
  is_flat x = true ∧ args_nonempty x = true

/-- What the loop of `flatten` appends for one flattened argument. -/
def chunk (fn : FunctionPtr) (i last_i : Nat) (x : Ast) : List Ast :=
  if spliced fn i last_i x = true then call_args x else [x]

/-- The buffer ends with the end marker, which occurs nowhere else, and the
cursor is inside the buffer. -/
structure well_formed (lx : Lexer) : Prop where
  cursor_lt : lx._cursor < lx._tokens.length
  EOL_iff : ∀ i, i < lx._tokens.length →
    (lx._tokens.getD i Token.EOL = Token.EOL ↔ i + 1 = lx._tokens.length)

/-- Contribution of a token to the parenthesis depth. -/
def paren_weight : Token → Int
  | .char c => if c = '(' then 1 else if c = ')' then -1 else 0
  | _ => 0

/-- Parenthesis depth of the consumed tokens: opening minus closing
parentheses before the cursor. -/
def depth (lx : Lexer) : Int :=
  ((lx._tokens.take lx._cursor).map paren_weight).sum

/-- The state `lx'` is reached from `lx` by consuming tokens: same buffer, the
cursor did not move back, and the state is well formed. -/
structure reaches (lx lx' : Lexer) : Prop where
  tokens_eq : lx'._tokens = lx._tokens
  offsets_eq : lx'._offsets = lx._offsets
  cursor_le : lx._cursor ≤ lx'._cursor
  wf : well_formed lx'

/-- Number of tokens from the cursor to the end of the buffer. -/
def remaining (lx : Lexer) : Nat :=
  lx._tokens.length - lx._cursor

/-- Whatever the parsing function throws is a `parser::Error` (the fuel does
not run out). -/
def throws_only_Error (res : Parsed) : Prop :=
  ∀ e, res = .error e → ∃ column msg, e = Failure.Error column msg

/-- Postcondition of a parsing function started in state `lx`: it throws
nothing but a `parser::Error`, and when it returns a tree the state it leaves was reached
by consuming at least `strict` tokens whose parentheses change the depth by `d`. -/
def post (lx : Lexer) (strict : Nat) (d : Int) (res : Parsed) : Prop :=
  throws_only_Error res ∧
  ∀ t lx', res = .ok (t, lx') →
    reaches lx lx' ∧ lx._cursor + strict ≤ lx'._cursor ∧ depth lx' = depth lx + d

/-- The parsing function throws a `parser::Error`: it returns no tree. -/
def no_return (res : Parsed) : Prop :=
  throws_only_Error res ∧ ∀ t lx', res ≠ .ok (t, lx')

/-- What holds of the parsing functions run with fuel `n`. -/
structure parser_inv (n : Nat) : Prop where
  expression : ∀ lx, well_formed lx → 4 * remaining lx + 1 ≤ n →
    post lx 1 0 (parse_expression n lx)
  primary : ∀ lx, well_formed lx → 4 * remaining lx ≤ n →
    post lx 1 0 (parse_primary n lx)
  shorthand : ∀ lx lhs, well_formed lx → 4 * remaining lx + 1 ≤ n →
    post lx 0 0 (parse_shorthand n lx lhs)
  precedence_none : ∀ lx lhs min, well_formed lx → 4 * remaining lx + 1 ≤ n →
    post lx 0 0 (parse_precedence n lx lhs min none)
  precedence_some : ∀ lx lhs min f, well_formed lx → 4 * remaining lx + 1 ≤ n →
    (deref f).precedence ≥ min → no_return (parse_precedence n lx lhs min (some f))
  precedence_rhs : ∀ lx rhs fn min, well_formed lx → 4 * remaining lx + 2 ≤ n →
    (deref fn).precedence ≥ min →
    throws_only_Error (parse_precedence_rhs n lx rhs fn min) ∧
    ∀ t lx', parse_precedence_rhs n lx rhs fn min = .ok (t, lx') → lx' = lx
  routine_call : ∀ lx identifier, well_formed lx → lx.peek.has_char '(' = true →
    4 * remaining lx + 1 ≤ n → post lx 1 0 (parse_routine_call n lx identifier)
  routine_args : ∀ lx identifier args first, well_formed lx → 4 * remaining lx + 2 ≤ n →
    post lx 1 (-1) (parse_routine_args n lx identifier args first)

/-- Opening minus closing parenthesis characters of a text. -/
def char_weight (cs : List Char) : Int :=
  (cs.count '(' : Int) - (cs.count ')' : Int)

/-- Opening minus closing parenthesis tokens of a token list. -/
def tokens_weight (toks : List (Token × Nat)) : Int :=
  (toks.map fun p => paren_weight p.1).sum

/-- No token of the list is the end marker. -/
def no_EOL (toks : List (Token × Nat)) : Prop :=
  ∀ p ∈ toks, p.1 ≠ Token.EOL

/-- The tokens of a list of segments, without their offsets and without the
end marker; `none` when `std::stod` throws. -/
def lex_segments : List (Category × List Char) → Option (List Token)
  | [] => some []
  | seg :: segs =>
    match segment_tokens 0 seg, lex_segments segs with
    | some first, some more => some (first.map Prod.fst ++ more)
    | _, _ => none

/-- A piece of rendered text: a bare name, a number with its value, an
alphabetic function identifier, a symbolic operator, a blank, or one of the
characters `(`, `)`, `,`, `-`, `!`. -/
inductive Lexeme where
  | name (text : String)
  | number (text : String) (value : ℚ)
  | routine (identifier : String)
  | operator (identifier : String)
  | space
  | symbol (c : Char)

/-- The characters of a piece. -/
def Lexeme.text : Lexeme → List Char
  | .name text => text.data
  | .number text _ => text.data
  | .routine identifier => identifier.data
  | .operator identifier => identifier.data
  | .space => [' ']
  | .symbol c => [c]

/-- The category of the characters of a piece. -/
def Lexeme.category : Lexeme → Category
  | .name _ => Category.ALPHA
  | .number _ _ => Category.DIGIT
  | .routine _ => Category.ALPHA
  | .operator _ => Category.SYMBOL
  | .space => Category.WHITESPACE
  | .symbol _ => Category.SYMBOL

/-- The token of a single symbol character. -/
def symbol_char_token (c : Char) : Token :=
  if IDENTIFIERS.contains (String.mk [c]) then Token.Identifier (String.mk [c]) else Token.char c

/-- The tokens a piece stands for. -/
def Lexeme.tokens : Lexeme → List Token
  | .name text => [Token.string_view text]
  | .number _ value => [Token.double value]
  | .routine identifier => [Token.Identifier identifier]
  | .operator identifier => [Token.Identifier identifier]
  | .space => []
  | .symbol c => [symbol_char_token c]

/-- The piece is one of the single characters. -/
def Lexeme.is_symbol : Lexeme → Bool
  | .symbol _ => true
  | _ => false

/-- The piece is well formed: its characters have its category, a name is not
a function identifier, a number reads back to its value, function
identifiers are in the catalog. -/
def Lexeme.valid : Lexeme → Prop
  | .name text => text.data ≠ [] ∧ (∀ c ∈ text.data, categorize c = Category.ALPHA) ∧
      IDENTIFIERS.contains text = false
  | .number text value => text.data ≠ [] ∧ (∀ c ∈ text.data, categorize c = Category.DIGIT) ∧
      stod text.data = some value
  | .routine identifier => identifier.data ≠ [] ∧
      (∀ c ∈ identifier.data, categorize c = Category.ALPHA) ∧
      IDENTIFIERS.contains identifier = true
  | .operator identifier => identifier.data ≠ [] ∧
      (∀ c ∈ identifier.data, categorize c = Category.SYMBOL) ∧
      IDENTIFIERS.contains identifier = true
  | .space => True
  | .symbol c => c ∈ ['(', ')', ',', '-', '!']

/-- Two adjacent pieces stay apart in the tokenizer: their categories differ,
or both are single symbol characters. -/
def Lexeme.separable (a b : Lexeme) : Prop :=
  a.category ≠ b.category ∨ (a.is_symbol = true ∧ b.is_symbol = true)

/-- The pending segment `seg` of the tokenizer loop ends with the piece
`last` and stands for the tokens `toks`. -/
structure pending (prev : Category) (seg : List Char) (toks : List Token) (last : Lexeme) :
    Prop where
  category_eq : last.category = prev
  tokens_eq : (segment_tokens 0 (prev, seg)).map (List.map Prod.fst) = some toks
  symbols : last.is_symbol = true →
    (∀ c ∈ seg, c ∈ ['(', ')', ',', '-', '!']) ∧ toks = seg.map symbol_char_token

/-- The piece for the identifier of a prefix operator: a one-character
identifier is a single symbol character. -/
def prefix_lexeme (identifier : String) : Lexeme :=
  match identifier.data with
  | [c] => Lexeme.symbol c
  | _ => Lexeme.operator identifier

/-- The operand is parenthesized by `format_operand`. -/
def parenthesized (fn : FunctionPtr) (arg : Ast) : Prop :=
  arg.precedence ≤ (deref fn).precedence ∧ arg.has_Call = true

instance (fn : FunctionPtr) (arg : Ast) : Decidable (parenthesized fn arg) :=
  inferInstanceAs (Decidable (_ ∧ _))

/-- The pieces of `format_operand`, given the pieces of the argument. -/
def operand_lexemes (fn : FunctionPtr) (arg : Ast) (inner : List Lexeme) : List Lexeme :=
  if parenthesized fn arg then [Lexeme.symbol '('] ++ inner ++ [Lexeme.symbol ')'] else inner

mutual
/-- The pieces the text `Ast::to_string` is made of. -/
def lexemes (fmt : ℚ → String) : Ast → List Lexeme
  | .Call fn args =>
    if (deref fn).syntax_ = Syntax.INFIX then infix_lexemes fmt fn args
    else routine_lexemes fmt fn args
  | .Literal value => [Lexeme.number (fmt value) value]
  | .Variable identifier => [Lexeme.name identifier]
/-- The pieces of `format_infix`. -/
def infix_lexemes (fmt : ℚ → String) (fn : FunctionPtr) : List Ast → List Lexeme
  | [] => []
  | [arg] => prefix_lexeme (deref fn).identifier :: operand_lexemes fn arg (lexemes fmt arg)
  | arg :: arg' :: rest =>
    operand_lexemes fn arg (lexemes fmt arg) ++ infix_rest_lexemes fmt fn (arg' :: rest)
/-- The pieces of the iterations `i > 0` of the loop of `format_infix`. -/
def infix_rest_lexemes (fmt : ℚ → String) (fn : FunctionPtr) : List Ast → List Lexeme
  | [] => []
  | arg :: rest =>
    [Lexeme.space, Lexeme.operator (deref fn).identifier, Lexeme.space] ++
      operand_lexemes fn arg (lexemes fmt arg) ++ infix_rest_lexemes fmt fn rest
/-- The pieces of `format_routine`. -/
def routine_lexemes (fmt : ℚ → String) (fn : FunctionPtr) : List Ast → List Lexeme
  | [] => [Lexeme.routine (deref fn).identifier, Lexeme.symbol '(', Lexeme.symbol ')']
  | arg :: rest =>
    [Lexeme.routine (deref fn).identifier, Lexeme.symbol '('] ++
      (lexemes fmt arg ++ routine_rest_lexemes fmt rest) ++ [Lexeme.symbol ')']
/-- The pieces of the iterations `i > 0` of the loop of `format_routine`. -/
def routine_rest_lexemes (fmt : ℚ → String) : List Ast → List Lexeme
  | [] => []
  | arg :: rest =>
    [Lexeme.symbol ',', Lexeme.space] ++ lexemes fmt arg ++ routine_rest_lexemes fmt rest
end

/-- The tree is a call of a binary operator (infix syntax, `DYNAMIC` arity)
whose precedence is strictly above that of `fn`. -/
def tighter_binary (fn : FunctionPtr) : Ast → Prop
  | .Call g _ => (deref g).syntax_ = Syntax.INFIX ∧ (deref g).arity_type = ArityType.DYNAMIC ∧
      (deref g).precedence > (deref fn).precedence
  | _ => False

/-- The arguments of an infix call are one operand, or two of which the right
one is no binary-operator call of strictly tighter precedence. -/
def infix_shape (fn : FunctionPtr) : List Ast → Prop
  | [_] => True
  | [_, r] => ¬ tighter_binary fn r
  | _ => False

mutual
/-- The rendering of the tree reads back to the tree: every call resolves to
its own descriptor by its identifier and argument count, infix calls have the
shape `infix_shape`, names are non-empty runs of letters and underscores that
are no function identifiers, and `fmt` writes each number as a run of digits
and decimal points that `std::stod` reads back to its value. -/
def round_trips (fmt : ℚ → String) : Ast → Prop
  | .Literal value => (Lexeme.number (fmt value) value).valid
  | .Variable identifier => (Lexeme.name identifier).valid
  | .Call fn args =>
    get (deref fn).identifier (args.length % 256) = some fn ∧
      ((deref fn).syntax_ = Syntax.INFIX → infix_shape fn args) ∧ round_trips_list fmt args
/-- Every tree of the list satisfies `round_trips`. -/
def round_trips_list (fmt : ℚ → String) : List Ast → Prop
  | [] => True
  | arg :: rest => round_trips fmt arg ∧ round_trips_list fmt rest
end

/-- The piece is a blank or a single symbol character. -/
def Lexeme.is_delimiter : Lexeme → Bool
  | .space => true
  | .symbol _ => true
  | _ => false

/-- A run of valid pieces that can stand between two delimiters. -/
def block (L : List Lexeme) : Prop :=
  L ≠ [] ∧ (∀ x ∈ L, x.valid) ∧
    ∀ a b : Lexeme, a.is_delimiter = true → b.is_delimiter = true →
      List.Chain' Lexeme.separable (a :: (L ++ [b]))

/-- The tokenizer state with the tokens `pre` consumed and `rest` ahead. -/
def lexer_at (offsets : List Nat) (pre rest : List Token) : Lexer :=
  { _tokens := pre ++ rest, _offsets := offsets, _cursor := pre.length }

/-- The tokens ahead start with a token that cannot start a primary. -/
def quiet (post : List Token) : Prop :=
  ∃ f rest, post = f :: rest ∧ next_is_primary f = false

/-- The tokens ahead start with a token that ends an expression: it can
neither start a primary nor be an operator. -/
def closing (post : List Token) : Prop :=
  ∃ f rest, post = f :: rest ∧ next_is_primary f = false ∧ ∀ id, f ≠ Token.Identifier id

/-- The token, when it is a binary operator, does not make the parser climb
over the operator `g`. -/
def no_climb (g : FunctionPtr) (post : List Token) : Prop :=
  ∀ id rest h, post = Token.Identifier id :: rest → get id 2 = some h → climbs h g = false

/-- The tokens `T` are parsed by `parse_primary` to the tree `x`. -/
def parses_primary (o : List Nat) (T : List Token) (x : Ast) : Prop :=
  ∀ m pre post, quiet post → 4 * (T ++ post).length ≤ m →
    parse_primary m (lexer_at o pre (T ++ post)) = .ok (x, lexer_at o (pre ++ T) post)

/-- The tokens `T` are parsed by `parse_expression` to the tree `x`. -/
def parses_expression (o : List Nat) (T : List Token) (x : Ast) : Prop :=
  ∀ m pre post, closing post → 4 * (T ++ post).length + 1 ≤ m →
    parse_expression m (lexer_at o pre (T ++ post)) = .ok (x, lexer_at o (pre ++ T) post)

/-- Parsing an expression that starts with the tokens `T` amounts to running
the operator loop of `parse_precedence` after them with the tree `x` as left
operand, provided the tokens ahead satisfy `cond`. -/
def continues (o : List Nat) (T : List Token) (x : Ast) (cond : List Token → Prop) : Prop :=
  ∀ m pre post R, quiet post → cond post → 4 * (T ++ post).length + 1 ≤ m →
    (∀ m', 4 * post.length + 1 ≤ m' →
      parse_precedence m' (lexer_at o (pre ++ T) post) x LOWEST none = R) →
    parse_expression m (lexer_at o pre (T ++ post)) = R

/-- The tokens of the arguments of a routine call after the first: each is
preceded by a comma. -/
def rest_tokens : List (List Token) → List Token
  | [] => []
  | T :: Ts => Token.char ',' :: (T ++ rest_tokens Ts)

/-- The tokens of the rendering of a tree. -/
def rendered_tokens (fmt : ℚ → String) (t : Ast) : List Token :=
  (lexemes fmt t).flatMap Lexeme.tokens

/-- The tree is a call of an infix function on two arguments. -/
def is_binary : Ast → Prop
  | .Call g [_, _] => (deref g).syntax_ = Syntax.INFIX
  | _ => False

/-- What the parser does on the tokens of a rendered tree. -/
structure reads_back (o : List Nat) (fmt : ℚ → String) (t : Ast) : Prop where
  nonempty : rendered_tokens fmt t ≠ []
  primary : ¬ is_binary t → parses_primary o (rendered_tokens fmt t) t
  binary : ∀ g l r, t = .Call g [l, r] → (deref g).syntax_ = Syntax.INFIX →
    continues o (rendered_tokens fmt t) t (no_climb g)

/-- The operands of an infix call as `format_infix` writes them, in order. -/
def operand_texts (fmt : ℚ → String) (fn : FunctionPtr) (args : List Ast) : List String :=
  args.map fun arg => impl.format_operand fn arg (Ast.to_string fmt arg)

/-- The delimiter of `format_infix`: the identifier between two blanks. -/
def delimiter (fn : FunctionPtr) : String :=
  " " ++ (deref fn).identifier ++ " "

/-- The text is a registered function identifier. -/
def registered (text : List Char) : Bool :=
  IDENTIFIERS.contains (String.mk text)

/-- Greedy tokenization of a run of symbol characters, in the words of the
specification: at each position the token is the longest non-empty prefix of
the remaining run that is a registered identifier, or the first character
when no prefix is registered. -/
inductive greedy : List Char → List Token → Prop where
  | done : greedy [] []
  | identifier (text rest : List Char) (toks : List Token) :
      text ≠ [] → registered text = true →
      (∀ longer, longer <+: text ++ rest → text.length < longer.length →
        registered longer = false) →
      greedy rest toks → greedy (text ++ rest) (Token.Identifier (String.mk text) :: toks)
  | single (c : Char) (rest : List Char) (toks : List Token) :
      (∀ p, p ≠ [] → p <+: c :: rest → registered p = false) →
      greedy rest toks → greedy (c :: rest) (Token.char c :: toks)

/-- The token was read from the text `text`: the character of a `char`
token, the name of a `std::string_view` or `Identifier` token, a run of digits
and decimal points that `std::stod` converts to the value of a `double`
token. -/
def spelled_by : Token → List Char → Prop
  | .char c, text => text = [c]
  | .double value, text => (∀ c ∈ text, categorize c = Category.DIGIT) ∧ stod text = some value
  | .string_view name, text => text = name.data
  | .Identifier name, text => text = name.data
  | .EOL, _ => False

/-- The tokens `toks`, with their offsets, tile the text that starts at index
`offset` of the source: the text is made of blanks, which give no token, and
of the texts of the tokens in order, each token recorded with the index at
which its text begins. -/
inductive tiling : Nat → List Char → List (Token × Nat) → Prop where
  | done (offset : Nat) : tiling offset [] []
  | blank (offset : Nat) (c : Char) (rest : List Char) (toks : List (Token × Nat)) :
      categorize c = Category.WHITESPACE → tiling (offset + 1) rest toks →
      tiling offset (c :: rest) toks
  | token (offset : Nat) (tok : Token) (text rest : List Char) (toks : List (Token × Nat)) :
      text ≠ [] → spelled_by tok text → tiling (offset + text.length) rest toks →
      tiling offset (text ++ rest) ((tok, offset) :: toks)

mutual
/-- The tag ids that occur in a predicate. -/
def predicate_tags : Predicate → List Nat
  | .Tag nested tag => tag :: predicate_tags nested
  | .Call _ args => predicate_tags_list args
  | _ => []
/-- The tag ids that occur in the predicates of a list. -/
def predicate_tags_list : List Predicate → List Nat
  | [] => []
  | p :: ps => predicate_tags p ++ predicate_tags_list ps
end

mutual
/-- The tag ids a result refers to. -/
def result_tags : Result → List Nat
  | .Tag value => [value]
  | .Call _ args => result_tags_list args
  | .Ast _ => []
/-- The tag ids the results of a list refer to. -/
def result_tags_list : List Result → List Nat
  | [] => []
  | r :: rs => result_tags r ++ result_tags_list rs
end

/-- The tokens of a comma-separated argument list, given the tokens of each
argument. -/
def arguments_tokens : List (List Token) → List Token
  | [] => []
  | T :: Ts => T ++ rest_tokens Ts

mutual
/-- The tree the parser builds for the rendering of a tree: a call of a binary
operator on more than two arguments is read back as nested calls on two
arguments, nested to the left. -/
def nest : Ast → Ast
  | .Call fn args =>
    if (deref fn).syntax_ = Syntax.INFIX then infix_nest fn args else .Call fn (nest_list args)
  | .Literal value => .Literal value
  | .Variable identifier => .Variable identifier
/-- The trees of `nest` for the trees of a list. -/
def nest_list : List Ast → List Ast
  | [] => []
  | arg :: rest => nest arg :: nest_list rest
/-- The tree of `nest` for an infix call. -/
def infix_nest (fn : FunctionPtr) : List Ast → Ast
  | [] => .Call fn []
  | [arg] => .Call fn [nest arg]
  | arg :: arg' :: rest => nest_chain fn (.Call fn [nest arg, nest arg']) rest
/-- The operands after the second of an infix call: each becomes the right
argument of a call whose left argument is the tree read so far. -/
def nest_chain (fn : FunctionPtr) (lhs : Ast) : List Ast → Ast
  | [] => lhs
  | arg :: rest => nest_chain fn (.Call fn [lhs, nest arg]) rest
end

/-- What the arguments of a call must be like for its rendering to read back:
a routine call resolves to its descriptor by identifier and argument count;
an infix call has one argument and resolves as a unary operator, or has at
least two and resolves as a binary operator, no argument after the first is
a binary-operator call of strictly tighter precedence, and with more than
two arguments the operator is left-associative or fully associative. -/
def call_shape (fn : FunctionPtr) (args : List Ast) : Prop :=
  if (deref fn).syntax_ = Syntax.INFIX then
    match args with
    | [] => False
    | [_] => get (deref fn).identifier 1 = some fn
    | _ :: arg :: rest =>
      get (deref fn).identifier 2 = some fn ∧ (∀ a ∈ arg :: rest, ¬ tighter_binary fn a) ∧
        (rest ≠ [] → (deref fn).associativity = Associativity.LEFT ∨
          (deref fn).associativity = Associativity.ALL)
  else get (deref fn).identifier (args.length % 256) = some fn

mutual
/-- The rendering of the tree reads back to a tree that flattens to it: every
call has the shape `call_shape`, names are non-empty runs of letters and
underscores that are no function identifiers, and `fmt` writes each number as
a run of digits and decimal points that `std::stod` reads back to its
value. -/
def renders_back (fmt : ℚ → String) : Ast → Prop
  | .Literal value => (Lexeme.number (fmt value) value).valid
  | .Variable identifier => (Lexeme.name identifier).valid
  | .Call fn args => call_shape fn args ∧ renders_back_list fmt args
/-- Every tree of the list satisfies `renders_back`. -/
def renders_back_list (fmt : ℚ → String) : List Ast → Prop
  | [] => True
  | arg :: rest => renders_back fmt arg ∧ renders_back_list fmt rest
end

/-- What the parser does on the tokens `T`, which it reads as the tree `x`. -/
structure reads (o : List Nat) (T : List Token) (x : Ast) : Prop where
  nonempty : T ≠ []
  primary : ¬ is_binary x → parses_primary o T x
  binary : ∀ g l r, x = .Call g [l, r] → (deref g).syntax_ = Syntax.INFIX →
    continues o T x (no_climb g)

/-- The tokens of the operands after the first of an infix call, each preceded
by the operator. -/
def chain_tokens (fmt : ℚ → String) (fn : FunctionPtr) : List Ast → List Token
  | [] => []
  | arg :: rest =>
    Token.Identifier (deref fn).identifier ::
      ((operand_lexemes fn arg (lexemes fmt arg)).flatMap Lexeme.tokens ++ chain_tokens fmt fn rest)

/-- The property `Q` of trees holds of every node the parser builds, provided
it holds of the arguments: literals, variables, calls of a binary operator
found by `function::get(identifier, 2)`, calls of a unary operator found by
`function::get(identifier, 1)`, the implicit multiplication, and routine calls
found by the identifier and the number of arguments. -/
structure node_closed (Q : Ast → Prop) : Prop where
  of_literal : ∀ value, Q (.Literal value)
  of_variable : ∀ identifier, Q (.Variable identifier)
  of_binary : ∀ identifier fn lhs rhs, get identifier 2 = some fn → Q lhs → Q rhs →
    Q (.Call fn [lhs, rhs])
  of_unary : ∀ identifier fn arg, get identifier 1 = some fn → Q arg → Q (.Call fn [arg])
  of_product : ∀ lhs rhs, Q lhs → Q rhs → Q (.Call MULTIPLICATION [lhs, rhs])
  of_routine : ∀ identifier fn args, get identifier (args.length % 256) = some fn →
    (∀ a ∈ args, Q a) → Q (.Call fn args)

/-- The operator handed down by `parse_precedence`, if any, was found by
`function::get(identifier, 2)`. -/
def binary_operator (from_ : Option FunctionPtr) : Prop :=
  ∀ f, from_ = some f → ∃ identifier, get identifier 2 = some f

/-- Every tree the parsing functions return with fuel `n` has the property
`Q`, provided the trees they are given have it. -/
structure output_inv (Q : Ast → Prop) (n : Nat) : Prop where
  expression : ∀ lx r, parse_expression n lx = .ok r → Q r.1
  primary : ∀ lx r, parse_primary n lx = .ok r → Q r.1
  shorthand : ∀ lx lhs r, Q lhs → parse_shorthand n lx lhs = .ok r → Q r.1
  precedence : ∀ lx lhs min from_ r, binary_operator from_ → Q lhs →
    parse_precedence n lx lhs min from_ = .ok r → Q r.1
  precedence_rhs : ∀ lx rhs fn min r, Q rhs →
    parse_precedence_rhs n lx rhs fn min = .ok r → Q r.1
  routine_call : ∀ lx identifier r, parse_routine_call n lx identifier = .ok r → Q r.1
  routine_args : ∀ lx identifier args first r, (∀ a ∈ args, Q a) →
    parse_routine_args n lx identifier args first = .ok r → Q r.1

mutual
/-- The `Literal` and `Variable` leaves of a tree, from left to right. -/
def leaves : Ast → List Ast
  | .Call _ args => leaves_list args
  | .Literal value => [.Literal value]
  | .Variable identifier => [.Variable identifier]
/-- The leaves of the trees of a list, from left to right. -/
def leaves_list : List Ast → List Ast
  | [] => []
  | arg :: rest => leaves arg ++ leaves_list rest
end

mutual
/-- Every call of the tree has a number of arguments that satisfies the arity
constraint of its descriptor: exactly the declared arity for `STATIC`, at
least the declared arity for `DYNAMIC`. -/
def arity_ok : Ast → Bool
  | .Call fn args => arity_match (deref fn) args.length && arity_ok_list args
  | .Literal _ => true
  | .Variable _ => true
/-- Every tree of the list satisfies `arity_ok`. -/
def arity_ok_list : List Ast → Bool
  | [] => true
  | arg :: rest => arity_ok arg && arity_ok_list rest
end

/-- The normal form of one call, in the words of the specification: for an
`ALL` function no argument is a call of the same function, for a `LEFT`
function the first argument is not, for a `RIGHT` function the last argument
is not. -/
def node_normal (fn : FunctionPtr) (args : List Ast) : Prop :=
  ((deref fn).associativity = Associativity.ALL → ∀ a ∈ args, is_call_to fn a = false) ∧
  ((deref fn).associativity = Associativity.LEFT →
    ∀ a, args.head? = some a → is_call_to fn a = false) ∧
  ((deref fn).associativity = Associativity.RIGHT →
    ∀ a, args.getLast? = some a → is_call_to fn a = false)

mutual
/-- Every call of the tree satisfies `node_normal`. -/
def normal_form : Ast → Prop
  | .Call fn args => node_normal fn args ∧ normal_form_list args
  | .Literal _ => True
  | .Variable _ => True
/-- Every tree of the list satisfies `normal_form`. -/
def normal_form_list : List Ast → Prop
  | [] => True
  | arg :: rest => normal_form arg ∧ normal_form_list rest
end

/-- An operation of the interface of the tokenizer. -/
inductive Operation where
  | peek | read | discard
  deriving DecidableEq

/-- The tokenizer state after an operation. -/
def Operation.apply : Operation → Lexer → Lexer
  | .peek, lx => lx
  | .read, lx => lx.read.2
  | .discard, lx => lx.discard

/-- The tokenizer state after a sequence of operations. -/
def run : List Operation → Lexer → Lexer
  | [], lx => lx
  | op :: ops, lx => run ops (op.apply lx)

/-- A parsing function started in state `lx` leaves a state reached from `lx`
when it returns, and when it throws a `parser::Error`, the column is
`last_token_start()` of a state right after a `read` or `discard` in a state
reached from `lx`. -/
def tracks (lx : Lexer) (res : Parsed) : Prop :=
  (∀ t lx', res = .ok (t, lx') → reaches lx lx') ∧
  ∀ e, res = .error e → e = Failure.out_of_fuel ∨
    ∃ lx1 msg, reaches lx lx1 ∧ e = Failure.Error lx1.discard.last_token_start msg

/-- What holds of the columns of the errors of the parsing functions run with
fuel `n`. -/
structure error_inv (n : Nat) : Prop where
  expression : ∀ lx, well_formed lx → tracks lx (parse_expression n lx)
  primary : ∀ lx, well_formed lx → tracks lx (parse_primary n lx)
  shorthand : ∀ lx lhs, well_formed lx → tracks lx (parse_shorthand n lx lhs)
  precedence : ∀ lx lhs min from_, well_formed lx →
    tracks lx (parse_precedence n lx lhs min from_)
  precedence_rhs : ∀ lx rhs fn min, well_formed lx →
    tracks lx (parse_precedence_rhs n lx rhs fn min)
  routine_call : ∀ lx identifier, well_formed lx → tracks lx (parse_routine_call n lx identifier)
  routine_args : ∀ lx identifier args first, well_formed lx →
    tracks lx (parse_routine_args n lx identifier args first)

/-- The run of a parsing function did not stop for want of fuel. -/
def settled (res : Parsed) : Prop :=
  res ≠ .error Failure.out_of_fuel

/-- More fuel does not change a result that was reached with fuel `n`. -/
structure fuel_mono (n : Nat) : Prop where
  expression : ∀ lx, settled (parse_expression n lx) →
    parse_expression (n + 1) lx = parse_expression n lx
  precedence : ∀ lx lhs min from_, settled (parse_precedence n lx lhs min from_) →
    parse_precedence (n + 1) lx lhs min from_ = parse_precedence n lx lhs min from_
  precedence_rhs : ∀ lx rhs fn min, settled (parse_precedence_rhs n lx rhs fn min) →
    parse_precedence_rhs (n + 1) lx rhs fn min = parse_precedence_rhs n lx rhs fn min
  primary : ∀ lx, settled (parse_primary n lx) →
    parse_primary (n + 1) lx = parse_primary n lx
  routine_call : ∀ lx identifier, settled (parse_routine_call n lx identifier) →
    parse_routine_call (n + 1) lx identifier = parse_routine_call n lx identifier
  routine_args : ∀ lx identifier args first,
    settled (parse_routine_args n lx identifier args first) →
    parse_routine_args (n + 1) lx identifier args first =
      parse_routine_args n lx identifier args first
  shorthand : ∀ lx lhs, settled (parse_shorthand n lx lhs) →
    parse_shorthand (n + 1) lx lhs = parse_shorthand n lx lhs

mutual
/-- Every call of the tree has a number of arguments that, converted to the
`std::uint8_t` parameter of `function::get`, satisfies the arity constraint of
its descriptor. -/
def arity_ok_uint8 : Ast → Bool
  | .Call fn args => arity_match (deref fn) (args.length % 256) && arity_ok_uint8_list args
  | .Literal _ => true
  | .Variable _ => true
/-- Every tree of the list satisfies `arity_ok_uint8`. -/
def arity_ok_uint8_list : List Ast → Bool
  | [] => true
  | arg :: rest => arity_ok_uint8 arg && arity_ok_uint8_list rest
end

/-- The text `sqrt(1, 1, ..., 1)` with 257 arguments. -/
def sqrt_of_257 : String :=
  "sqrt(1" ++ String.join (List.replicate 256 ", 1") ++ ")"

/-- The immediately invoked lambda of `parse_primary`, together with the read
and the test for the end marker before it: the expression `expr` that
`parse_primary` then hands to `parse_shorthand`, and the tokenizer state at
that point. -/
def primary_head (fuel : Nat) (lexer : Lexer) : Parsed :=
  match lexer.read with
  | (.EOL, lexer) => error lexer Message.expected_expression
  | (.char c, lexer) =>
    if c = '(' then
      match parse_expression fuel lexer with
      | .error e => .error e
      | .ok (nested, lexer) =>
        if lexer.read.1.has_char ')' then .ok (nested, lexer.read.2)
        else error lexer.read.2 Message.expected_closing
    else error lexer (Message.invalid_token (.char c))
  | (.string_view name, lexer) => .ok (.Variable name, lexer)
  | (.Identifier identifier, lexer) =>
    if lexer.peek.has_char '(' then parse_routine_call fuel lexer identifier
    else
      match get identifier 1 with
      | none => error lexer (Message.not_unary identifier)
      | some fn =>
        match parse_primary fuel lexer with
        | .error e => .error e
        | .ok (arg, lexer) => .ok (.Call fn [arg], lexer)
  | (.double value, lexer) => .ok (.Literal value, lexer)

/-- A traced parsing function started in state `lx` leaves a state reached
from `lx` when it returns, and when it calls `error`, it does so in the state
right after a `read` or `discard` in a state reached from `lx`. -/
def tracks_t (lx : Lexer) (res : traced.Traced) : Prop :=
  (∀ t lx', res = .ok (t, lx') → reaches lx lx') ∧
  (∀ lt msg, res = .error (traced.Thrown.raised lt msg) →
    ∃ lx0, reaches lx lx0 ∧ lt = lx0.discard) ∧
  ∀ e, res = .error (traced.Thrown.other e) → e = Failure.out_of_fuel

/-- What holds of the states in which the traced parsing functions run with
fuel `n` call `error`. -/
structure trace_inv (n : Nat) : Prop where
  expression : ∀ lx, well_formed lx → tracks_t lx (traced.parse_expression n lx)
  primary : ∀ lx, well_formed lx → tracks_t lx (traced.parse_primary n lx)
  shorthand : ∀ lx lhs, well_formed lx → tracks_t lx (traced.parse_shorthand n lx lhs)
  precedence : ∀ lx lhs min from_, well_formed lx →
    tracks_t lx (traced.parse_precedence n lx lhs min from_)
  precedence_rhs : ∀ lx rhs fn min, well_formed lx →
    tracks_t lx (traced.parse_precedence_rhs n lx rhs fn min)
  routine_call : ∀ lx identifier, well_formed lx →
    tracks_t lx (traced.parse_routine_call n lx identifier)
  routine_args : ∀ lx identifier args first, well_formed lx →
    tracks_t lx (traced.parse_routine_args n lx identifier args first)

/-- The traced parsing functions run with fuel `n` stand for the parsing
functions. -/
structure sim_inv (n : Nat) : Prop where
  expression : ∀ lx, traced.erase (traced.parse_expression n lx) = parse_expression n lx
  primary : ∀ lx, traced.erase (traced.parse_primary n lx) = parse_primary n lx
  shorthand : ∀ lx lhs, traced.erase (traced.parse_shorthand n lx lhs) = parse_shorthand n lx lhs
  precedence : ∀ lx lhs min from_,
    traced.erase (traced.parse_precedence n lx lhs min from_) =
      parse_precedence n lx lhs min from_
  precedence_rhs : ∀ lx rhs fn min,
    traced.erase (traced.parse_precedence_rhs n lx rhs fn min) =
      parse_precedence_rhs n lx rhs fn min
  routine_call : ∀ lx identifier,
    traced.erase (traced.parse_routine_call n lx identifier) =
      parse_routine_call n lx identifier
  routine_args : ∀ lx identifier args first,
    traced.erase (traced.parse_routine_args n lx identifier args first) =
      parse_routine_args n lx identifier args first

/-- The tokens `T` are the head of a primary: the part of `parse_primary`
before `parse_shorthand` reads them as the expression `x`, whatever follows. -/
def heads (o : List Nat) (T : List Token) (x : Ast) : Prop :=
  ∀ m pre post, post ≠ [] → 4 * (T ++ post).length ≤ m + 1 →
    primary_head m (lexer_at o pre (T ++ post)) = .ok (x, lexer_at o (pre ++ T) post)

/-- On the tokens `S`, the rest of a token sequence that ends in the end
marker, `parse_expression` throws a `parser::Error`. -/
def throws_expression (o : List Nat) (S : List Token) : Prop :=
  ∀ m pre, well_formed (lexer_at o pre S) → 4 * S.length + 1 ≤ m →
    ∃ column msg, parse_expression m (lexer_at o pre S) = .error (Failure.Error column msg)

/-- On the tokens `S`, the rest of a token sequence that ends in the end
marker, `parse_primary` throws a `parser::Error`. -/
def throws_primary (o : List Nat) (S : List Token) : Prop :=
  ∀ m pre, well_formed (lexer_at o pre S) → 4 * S.length ≤ m →
    ∃ column msg, parse_primary m (lexer_at o pre S) = .error (Failure.Error column msg)

/-- The tokens `S`, at which an expression starts (`primary = false`) or a
primary starts (`primary = true`), run into a binary operator whose right
operand, a primary, is followed by a binary operator that climbs over it. The
operator stands in the operator loop of the expression after operands and
operators that were parsed (`pair`), or the place is further in: in the first
primary of the expression (`first`), in the right operand of an operator of
the loop (`operand`), in a parenthesised expression (`paren`), in the operand
of a unary operator (`unary`), in an argument of a routine call
(`argument_first`, `argument_later`), or in the primary that an implicit
multiplication takes after the head of a primary (`shorthand`). -/
inductive climb_ahead (o : List Nat) : Bool → List Token → Prop where
  | pair (T T2 rest : List Token) (x x2 : Ast) (cond : List Token → Prop) (op1 op2 : String)
      (fn sub_fn : FunctionPtr) :
      continues o T x cond →
      cond (Token.Identifier op1 :: (T2 ++ Token.Identifier op2 :: rest)) →
      parses_primary o T2 x2 → get op1 2 = some fn → get op2 2 = some sub_fn →
      climbs sub_fn fn = true →
      climb_ahead o false (T ++ Token.Identifier op1 :: (T2 ++ Token.Identifier op2 :: rest))
  | first (S : List Token) : climb_ahead o true S → climb_ahead o false S
  | operand (T S : List Token) (x : Ast) (cond : List Token → Prop) (op : String)
      (fn : FunctionPtr) :
      continues o T x cond → cond (Token.Identifier op :: S) → get op 2 = some fn →
      climb_ahead o true S → climb_ahead o false (T ++ Token.Identifier op :: S)
  | paren (E : List Token) : climb_ahead o false E → climb_ahead o true (Token.char '(' :: E)
  | unary (identifier : String) (fn : FunctionPtr) (h : Token) (S : List Token) :
      get identifier 1 = some fn → h.has_char '(' = false → climb_ahead o true (h :: S) →
      climb_ahead o true (Token.Identifier identifier :: h :: S)
  | argument_first (identifier : String) (h : Token) (E : List Token) :
      h.has_char ')' = false → climb_ahead o false (h :: E) →
      climb_ahead o true (Token.Identifier identifier :: Token.char '(' :: h :: E)
  | argument_later (identifier : String) (T : List Token) (x : Ast) (Ts : List (List Token))
      (xs : List Ast) (E : List Token) :
      parses_expression o T x → List.Forall₂ (parses_expression o) Ts xs →
      climb_ahead o false E →
      climb_ahead o true (Token.Identifier identifier :: Token.char '(' ::
        (T ++ (rest_tokens Ts ++ Token.char ',' :: E)))
  | shorthand (T : List Token) (x : Ast) (h : Token) (S : List Token) :
      heads o T x → T ≠ [] → next_is_primary h = true → climb_ahead o true (h :: S) →
      climb_ahead o true (T ++ h :: S)

/-! ## Lemmas -/

theorem hash_of_entry : ∀ p : FunctionPtr, (deref p).identifier_hash = impl.hash (deref p).identifier := by
  decide

theorem hash_injective_on_catalog : ∀ p q : FunctionPtr,
    impl.hash (deref p).identifier = impl.hash (deref q).identifier →
      (deref p).identifier = (deref q).identifier := by
  decide

theorem same_identifier : ∀ p q : FunctionPtr, (deref p).identifier = (deref q).identifier →
    p = q ∨ (p = 0 ∧ q = 6) ∨ (p = 6 ∧ q = 0) := by
  decide

theorem mem_IDENTIFIERS : ∀ s ∈ IDENTIFIERS, ∃ p : FunctionPtr, (deref p).identifier = s := by
  decide

theorem arity_match_iff (fn : Function) (n : Nat) :
    arity_match fn n = true ↔
      (fn.arity_type = ArityType.STATIC ∧ fn.arity = n) ∨
      (fn.arity_type = ArityType.DYNAMIC ∧ fn.arity ≤ n) := by
  unfold arity_match
  cases h : fn.arity_type <;> simp [eq_comm]

theorem minus_overloads_exclusive (n : Nat) :
    ¬ (arity_match (deref 0) n = true ∧ arity_match (deref 6) n = true) := by
  have h0 : (deref 0).arity_type = ArityType.STATIC ∧ (deref 0).arity = 1 := by decide
  have h6 : (deref 6).arity_type = ArityType.DYNAMIC ∧ (deref 6).arity = 2 := by decide
  rw [arity_match_iff, arity_match_iff, h0.1, h0.2, h6.1, h6.2]
  simp
  omega

theorem get_some {identifier : String} {n : Nat} {f : FunctionPtr}
    (h : get identifier n = some f) :
    arity_match (deref f) n = true ∧ impl.hash (deref f).identifier = impl.hash identifier := by
  unfold ast.function.get at h
  have := List.find?_some h
  simp only [Bool.and_eq_true, decide_eq_true_eq] at this
  exact ⟨this.1, by rw [← hash_of_entry]; exact this.2⟩

theorem get_of_entry {n : Nat} {p : FunctionPtr} (h : arity_match (deref p) n = true) :
    get (deref p).identifier n = some p := by
  cases hg : get (deref p).identifier n with
  | none =>
    unfold ast.function.get at hg
    rw [List.find?_eq_none] at hg
    have := hg p (List.mem_finRange p)
    simp [h, hash_of_entry] at this
  | some q =>
    obtain ⟨hq, hh⟩ := get_some hg
    have hid := hash_injective_on_catalog q p hh
    rcases same_identifier q p hid with h1 | ⟨h1, h2⟩ | ⟨h1, h2⟩
    · rw [h1]
    · subst h1; subst h2
      exact absurd ⟨hq, h⟩ (minus_overloads_exclusive n)
    · subst h1; subst h2
      exact absurd ⟨h, hq⟩ (minus_overloads_exclusive n)

theorem flatten_loop_cons (fn : FunctionPtr) (last_i i : Nat) (arg : Ast) (rest : List Ast) :
    flatten_loop fn last_i i (arg :: rest) =
      (if spliced fn i last_i (flatten arg) = true then call_args (flatten arg) else [flatten arg])
        ++ flatten_loop fn last_i (i + 1) rest := by
  rw [flatten_loop]
  congr 1
  cases h : flatten arg with
  | Literal v => simp [spliced, is_call_to]
  | Variable v => simp [spliced, is_call_to]
  | Call g sub =>
    simp only [spliced, is_call_to, call_args, Bool.and_eq_true, decide_eq_true_eq]

mutual
theorem flatten_of_is_flat : ∀ t : Ast, is_flat t = true → flatten t = t
  | .Literal _, _ => by simp [flatten]
  | .Variable _, _ => by simp [flatten]
  | .Call fn args, h => by
    simp only [is_flat, Bool.and_eq_true] at h
    simp only [flatten]
    rw [flatten_loop_of_is_flat fn (args.length - 1) 0 args h.2 h.1]
theorem flatten_loop_of_is_flat : ∀ (fn : FunctionPtr) (last_i i : Nat) (args : List Ast),
    is_flat_list args = true → no_splice fn last_i i args = true →
      flatten_loop fn last_i i args = args
  | _, _, _, [], _, _ => by simp [flatten_loop]
  | fn, last_i, i, a :: rest, h1, h2 => by
    simp only [is_flat_list, Bool.and_eq_true] at h1
    simp only [no_splice, Bool.and_eq_true, Bool.not_eq_true'] at h2
    rw [flatten_loop_cons, flatten_of_is_flat a h1.1, h2.1,
      flatten_loop_of_is_flat fn last_i (i + 1) rest h1.2 h2.2]
    simp
end

theorem is_flat_list_iff (xs : List Ast) :
    is_flat_list xs = true ↔ ∀ x ∈ xs, is_flat x = true := by
  induction xs with
  | nil => simp [is_flat_list]
  | cons a as ih => simp [is_flat_list, ih]

theorem args_nonempty_list_iff (xs : List Ast) :
    args_nonempty_list xs = true ↔ ∀ x ∈ xs, args_nonempty x = true := by
  induction xs with
  | nil => simp [args_nonempty_list]
  | cons a as ih => simp [args_nonempty_list, ih]

theorem match_none {fn : FunctionPtr} (h : (deref fn).associativity = Associativity.NONE)
    (i l : Nat) : associativity_match fn i l = false := by
  simp [associativity_match, h]

theorem match_all {fn : FunctionPtr} (h : (deref fn).associativity = Associativity.ALL)
    (i l : Nat) : associativity_match fn i l = true := by
  simp [associativity_match, h]

theorem match_left {fn : FunctionPtr} (h : (deref fn).associativity = Associativity.LEFT)
    (i l : Nat) : associativity_match fn i l = decide (i = 0) := by
  simp [associativity_match, h]

theorem match_right {fn : FunctionPtr} (h : (deref fn).associativity = Associativity.RIGHT)
    (i l : Nat) : associativity_match fn i l = decide (i = l) := by
  simp [associativity_match, h]

theorem good_call {fn : FunctionPtr} {sub : List Ast} (h : good (.Call fn sub)) :
    sub ≠ [] ∧ no_splice fn (sub.length - 1) 0 sub = true ∧ ∀ x ∈ sub, good x := by
  obtain ⟨h1, h2⟩ := h
  simp only [is_flat, Bool.and_eq_true] at h1
  simp only [args_nonempty, Bool.and_eq_true, Bool.not_eq_true', List.isEmpty_eq_false] at h2
  refine ⟨?_, h1.1, ?_⟩
  · intro h; simp [h] at h2
  · intro x hx
    exact ⟨(is_flat_list_iff sub).1 h1.2 x hx, (args_nonempty_list_iff sub).1 h2.2 x hx⟩

theorem flatten_loop_chunk (fn : FunctionPtr) (last_i i : Nat) (arg : Ast) (rest : List Ast) :
    flatten_loop fn last_i i (arg :: rest) =
      chunk fn i last_i (flatten arg) ++ flatten_loop fn last_i (i + 1) rest :=
  flatten_loop_cons fn last_i i arg rest

theorem spliced_shape {fn : FunctionPtr} {i l : Nat} {x : Ast} (h : spliced fn i l x = true) :
    x = .Call fn (call_args x) ∧ associativity_match fn i l = true := by
  cases x with
  | Literal v => simp [spliced, is_call_to] at h
  | Variable v => simp [spliced, is_call_to] at h
  | Call g sub =>
    simp only [spliced, is_call_to, Bool.and_eq_true, decide_eq_true_eq] at h
    exact ⟨by rw [h.1]; rfl, h.2⟩

theorem chunk_good {fn : FunctionPtr} {i l : Nat} {x : Ast} (h : good x) :
    chunk fn i l x ≠ [] ∧ ∀ y ∈ chunk fn i l x, good y := by
  unfold chunk
  split
  · rename_i hs
    obtain ⟨hx, _⟩ := spliced_shape hs
    rw [hx] at h
    obtain ⟨h1, _, h3⟩ := good_call h
    exact ⟨h1, h3⟩
  · simp [h]

theorem flatten_loop_good (fn : FunctionPtr) (l : Nat) :
    ∀ (args : List Ast) (i : Nat), (∀ a ∈ args, good (flatten a)) →
      (args ≠ [] → flatten_loop fn l i args ≠ []) ∧ ∀ y ∈ flatten_loop fn l i args, good y := by
  intro args
  induction args with
  | nil => intro i _; simp [flatten_loop]
  | cons a rest ih =>
    intro i hs
    rw [flatten_loop_chunk]
    have ha := @chunk_good fn i l _ (hs a (List.mem_cons_self _ _))
    have hr := ih (i + 1) (fun b hb => hs b (List.mem_cons_of_mem _ hb))
    refine ⟨fun _ => by simp [ha.1], ?_⟩
    intro y hy
    rcases List.mem_append.1 hy with h | h
    · exact ha.2 y h
    · exact hr.2 y h

theorem no_splice_of_none {fn : FunctionPtr} (h : (deref fn).associativity = Associativity.NONE)
    (l : Nat) : ∀ (xs : List Ast) (i : Nat), no_splice fn l i xs = true := by
  intro xs
  induction xs with
  | nil => intro i; simp [no_splice]
  | cons x xs ih => intro i; simp [no_splice, spliced, match_none h, ih]

theorem no_splice_of_no_call (fn : FunctionPtr) (l : Nat) :
    ∀ (xs : List Ast) (i : Nat), (∀ x ∈ xs, is_call_to fn x = false) →
      no_splice fn l i xs = true := by
  intro xs
  induction xs with
  | nil => intro i _; simp [no_splice]
  | cons x xs ih =>
    intro i h
    simp [no_splice, spliced, h x (List.mem_cons_self _ _),
      ih (i + 1) (fun y hy => h y (List.mem_cons_of_mem _ hy))]

theorem no_call_of_no_splice_all {fn : FunctionPtr}
    (h : (deref fn).associativity = Associativity.ALL) (l : Nat) :
    ∀ (xs : List Ast) (i : Nat), no_splice fn l i xs = true → ∀ x ∈ xs, is_call_to fn x = false := by
  intro xs
  induction xs with
  | nil => intro i _ x hx; simp at hx
  | cons y ys ih =>
    intro i hn x hx
    simp only [no_splice, spliced, match_all h, Bool.and_true, Bool.and_eq_true,
      Bool.not_eq_true'] at hn
    rcases List.mem_cons.1 hx with rfl | hx
    · exact hn.1
    · exact ih (i + 1) hn.2 x hx

theorem no_splice_left_pos {fn : FunctionPtr}
    (h : (deref fn).associativity = Associativity.LEFT) (l : Nat) :
    ∀ (xs : List Ast) (i : Nat), 0 < i → no_splice fn l i xs = true := by
  intro xs
  induction xs with
  | nil => intro i _; simp [no_splice]
  | cons x xs ih =>
    intro i hi
    have : i ≠ 0 := by omega
    simp [no_splice, spliced, match_left h, this, ih (i + 1) (by omega)]

theorem no_splice_left_zero {fn : FunctionPtr}
    (h : (deref fn).associativity = Associativity.LEFT) (l : Nat) (x : Ast) (xs : List Ast) :
    no_splice fn l 0 (x :: xs) = true ↔ is_call_to fn x = false := by
  simp [no_splice, spliced, match_left h, no_splice_left_pos h l xs 1 (by omega)]

theorem no_splice_right {fn : FunctionPtr}
    (h : (deref fn).associativity = Associativity.RIGHT) (x : Ast) :
    ∀ (init : List Ast) (i l : Nat), l = i + init.length →
      (no_splice fn l i (init ++ [x]) = true ↔ is_call_to fn x = false) := by
  intro init
  induction init with
  | nil =>
    intro i l hl
    simp at hl
    simp [no_splice, spliced, match_right h, hl]
  | cons y ys ih =>
    intro i l hl
    simp only [List.length_cons] at hl
    have hne : i ≠ l := by omega
    simp only [List.cons_append, no_splice, spliced, match_right h, hne, decide_False,
      Bool.and_false, Bool.not_false, Bool.true_and]
    exact ih (i + 1) l (by omega)

theorem flatten_loop_no_call_all {fn : FunctionPtr}
    (h : (deref fn).associativity = Associativity.ALL) (l : Nat) :
    ∀ (args : List Ast) (i : Nat), (∀ a ∈ args, good (flatten a)) →
      ∀ y ∈ flatten_loop fn l i args, is_call_to fn y = false := by
  intro args
  induction args with
  | nil => intro i _ y hy; simp [flatten_loop] at hy
  | cons a rest ih =>
    intro i hs y hy
    rw [flatten_loop_chunk] at hy
    rcases List.mem_append.1 hy with hy | hy
    · unfold chunk at hy
      split at hy
      · rename_i hsp
        obtain ⟨hx, _⟩ := spliced_shape hsp
        have hg := hs a (List.mem_cons_self _ _)
        rw [hx] at hg
        obtain ⟨_, h2, _⟩ := good_call hg
        exact no_call_of_no_splice_all h _ _ 0 h2 y hy
      · rename_i hsp
        simp only [List.mem_singleton] at hy
        subst hy
        simpa [spliced, match_all h] using hsp
    · exact ih (i + 1) (fun b hb => hs b (List.mem_cons_of_mem _ hb)) y hy

theorem chunk_head_left {fn : FunctionPtr}
    (h : (deref fn).associativity = Associativity.LEFT) (l : Nat) {x : Ast} (hg : good x) :
    ∃ y ys, chunk fn 0 l x = y :: ys ∧ is_call_to fn y = false := by
  unfold chunk
  split
  · rename_i hsp
    obtain ⟨hx, _⟩ := spliced_shape hsp
    rw [hx] at hg
    obtain ⟨h1, h2, _⟩ := good_call hg
    cases hsub : call_args x with
    | nil => exact absurd hsub h1
    | cons y ys =>
      rw [hsub] at h2
      exact ⟨y, ys, rfl, (no_splice_left_zero h _ y ys).1 h2⟩
  · rename_i hsp
    exact ⟨x, [], rfl, by simpa [spliced, match_left h] using hsp⟩

theorem chunk_last_right {fn : FunctionPtr}
    (h : (deref fn).associativity = Associativity.RIGHT) (l : Nat) {x : Ast} (hg : good x) :
    ∃ init y, chunk fn l l x = init ++ [y] ∧ is_call_to fn y = false := by
  unfold chunk
  split
  · rename_i hsp
    obtain ⟨hx, _⟩ := spliced_shape hsp
    rw [hx] at hg
    obtain ⟨h1, h2, _⟩ := good_call hg
    obtain ⟨init, y, hsub⟩ : ∃ init y, call_args x = init ++ [y] :=
      ⟨(call_args x).dropLast, (call_args x).getLast h1, (List.dropLast_append_getLast h1).symm⟩
    rw [hsub] at h2
    refine ⟨init, y, hsub, (no_splice_right h y init 0 _ ?_).1 h2⟩
    simp
  · rename_i hsp
    exact ⟨[], x, rfl, by simpa [spliced, match_right h] using hsp⟩

theorem flatten_loop_last_right {fn : FunctionPtr}
    (h : (deref fn).associativity = Associativity.RIGHT) (l : Nat) :
    ∀ (args : List Ast) (i : Nat), args ≠ [] → l + 1 = i + args.length →
      (∀ a ∈ args, good (flatten a)) →
      ∃ init y, flatten_loop fn l i args = init ++ [y] ∧ is_call_to fn y = false := by
  intro args
  induction args with
  | nil => intro i hne; exact absurd rfl hne
  | cons a rest ih =>
    intro i _ hl hs
    rw [flatten_loop_chunk]
    cases rest with
    | nil =>
      simp only [List.length_singleton] at hl
      have hil : i = l := by omega
      subst hil
      simp only [flatten_loop, List.append_nil]
      exact chunk_last_right h i (hs a (List.mem_cons_self _ _))
    | cons b rest' =>
      obtain ⟨init, y, hr, hy⟩ := ih (i + 1) (by simp) (by simp at hl ⊢; omega)
        (fun c hc => hs c (List.mem_cons_of_mem _ hc))
      exact ⟨chunk fn i l (flatten a) ++ init, y, by rw [hr, List.append_assoc], hy⟩

theorem flatten_loop_no_splice (fn : FunctionPtr) (args : List Ast)
    (hs : ∀ a ∈ args, good (flatten a)) :
    no_splice fn ((flatten_loop fn (args.length - 1) 0 args).length - 1) 0
      (flatten_loop fn (args.length - 1) 0 args) = true := by
  cases hassoc : (deref fn).associativity with
  | NONE => exact no_splice_of_none hassoc _ _ _
  | ALL =>
    exact no_splice_of_no_call fn _ _ _ (flatten_loop_no_call_all hassoc _ args 0 hs)
  | LEFT =>
    cases args with
    | nil => simp [flatten_loop, no_splice]
    | cons a rest =>
      rw [flatten_loop_chunk]
      obtain ⟨y, ys, hc, hy⟩ :=
        chunk_head_left hassoc ((a :: rest).length - 1) (hs a (List.mem_cons_self _ _))
      rw [hc, List.cons_append]
      exact (no_splice_left_zero hassoc _ y _).2 hy
  | RIGHT =>
    cases args with
    | nil => simp [flatten_loop, no_splice]
    | cons a rest =>
      obtain ⟨init, y, hr, hy⟩ :=
        flatten_loop_last_right hassoc ((a :: rest).length - 1) (a :: rest) 0 (by simp)
          (by simp) hs
      rw [hr]
      exact (no_splice_right hassoc y init 0 _ (by simp)).2 hy

mutual
theorem flatten_good : ∀ t : Ast, args_nonempty t = true → good (flatten t)
  | .Literal _, _ => by simp [flatten, good, is_flat, args_nonempty]
  | .Variable _, _ => by simp [flatten, good, is_flat, args_nonempty]
  | .Call fn args, h => by
    simp only [args_nonempty, Bool.and_eq_true, Bool.not_eq_true', List.isEmpty_eq_false] at h
    have hs := flatten_good_list args h.2
    have hne : args ≠ [] := by intro h0; simp [h0] at h
    have hl := flatten_loop_good fn (args.length - 1) args 0 hs
    simp only [flatten, good, is_flat, args_nonempty, Bool.and_eq_true, Bool.not_eq_true',
      List.isEmpty_eq_false]
    refine ⟨⟨flatten_loop_no_splice fn args hs, ?_⟩, ?_, ?_⟩
    · exact (is_flat_list_iff _).2 (fun y hy => (hl.2 y hy).1)
    · exact hl.1 hne
    · exact (args_nonempty_list_iff _).2 (fun y hy => (hl.2 y hy).2)
theorem flatten_good_list : ∀ args : List Ast, args_nonempty_list args = true →
    ∀ a ∈ args, good (flatten a)
  | [], _ => by intro a ha; simp at ha
  | b :: rest, h => by
    simp only [args_nonempty_list, Bool.and_eq_true] at h
    intro a ha
    rcases List.mem_cons.1 ha with rfl | ha
    · exact flatten_good _ h.1
    · exact flatten_good_list rest h.2 a ha
end

theorem EPSILON_nonneg : 0 ≤ EPSILON := by
  unfold EPSILON
  rw [Rat.mkRat_eq_div]
  positivity

theorem double_equality_refl (a : ℚ) : double_equality a a = true := by
  unfold double_equality
  simp only [sub_self, abs_zero, max_self, decide_eq_true_eq]
  exact mul_nonneg EPSILON_nonneg (abs_nonneg a)

mutual
theorem Ast_eq_refl : ∀ t : Ast, Ast.eq t t = true
  | .Literal v => by simp [Ast.eq, double_equality_refl]
  | .Variable _ => by simp [Ast.eq]
  | .Call fn args => by simp [Ast.eq, Ast_eq_args_refl args]
theorem Ast_eq_args_refl : ∀ ts : List Ast, Ast.eq_args ts ts = true
  | [] => by simp [Ast.eq_args]
  | t :: ts => by simp [Ast.eq_args, Ast_eq_refl t, Ast_eq_args_refl ts]
end

theorem peek_EOL_iff {lx : Lexer} (h : well_formed lx) :
    lx.peek = Token.EOL ↔ lx._cursor + 1 = lx._tokens.length :=
  h.EOL_iff _ h.cursor_lt

theorem discard_of_not_EOL {lx : Lexer} (h : well_formed lx) (hp : lx.peek ≠ Token.EOL) :
    lx.discard = { lx with _cursor := lx._cursor + 1 } ∧
      lx._cursor + 1 < lx._tokens.length := by
  have h1 : ¬ lx._cursor + 1 = lx._tokens.length := fun e => hp ((peek_EOL_iff h).2 e)
  have h2 := h.cursor_lt
  have h3 : lx._cursor + 1 < lx._tokens.length := by omega
  exact ⟨by simp [Lexer.discard, h3], h3⟩

theorem discard_of_EOL {lx : Lexer} (h : well_formed lx) (hp : lx.peek = Token.EOL) :
    lx.discard = lx := by
  have h1 := (peek_EOL_iff h).1 hp
  simp [Lexer.discard, h1]

theorem depth_succ (lx : Lexer) (h : lx._cursor < lx._tokens.length) :
    depth { lx with _cursor := lx._cursor + 1 } = depth lx + paren_weight lx.peek := by
  simp only [depth, Lexer.peek]
  rw [List.take_succ, List.map_append, List.sum_append, List.getD_eq_getElem?_getD,
    List.getElem?_eq_getElem h]
  simp

theorem reaches_refl {lx : Lexer} (h : well_formed lx) : reaches lx lx :=
  ⟨rfl, rfl, le_refl _, h⟩

theorem reaches_trans {a b c : Lexer} (h1 : reaches a b) (h2 : reaches b c) : reaches a c :=
  ⟨h2.tokens_eq.trans h1.tokens_eq, h2.offsets_eq.trans h1.offsets_eq,
    le_trans h1.cursor_le h2.cursor_le, h2.wf⟩

theorem reaches_discard {lx : Lexer} (h : well_formed lx) : reaches lx lx.discard := by
  by_cases hp : lx.peek = Token.EOL
  · rw [discard_of_EOL h hp]; exact reaches_refl h
  · obtain ⟨h1, h2⟩ := discard_of_not_EOL h hp
    rw [h1]
    exact ⟨rfl, rfl, by simp, ⟨h2, h.EOL_iff⟩⟩

theorem discard_step {lx : Lexer} (h : well_formed lx) (hp : lx.peek ≠ Token.EOL) :
    lx.discard._cursor = lx._cursor + 1 ∧
      depth lx.discard = depth lx + paren_weight lx.peek := by
  obtain ⟨h1, _⟩ := discard_of_not_EOL h hp
  rw [h1]
  exact ⟨rfl, depth_succ lx h.cursor_lt⟩

theorem throws_error {e : Failure} (h : ∃ column msg, e = Failure.Error column msg) :
    throws_only_Error (.error e) :=
  fun _ h' => by cases h'; exact h

theorem throws_ok (p : Ast × Lexer) : throws_only_Error (.ok p) :=
  fun _ h' => by cases h'

theorem post_error {lx : Lexer} {s : Nat} {d : Int} {e : Failure}
    (h : ∃ column msg, e = Failure.Error column msg) : post lx s d (.error e) :=
  ⟨throws_error h, fun _ _ h' => by cases h'⟩

theorem post_impl_error {lx lx0 : Lexer} {s : Nat} {d : Int} {m : Message} :
    post lx s d (impl.error lx0 m) :=
  post_error ⟨_, _, rfl⟩

theorem remaining_pos {lx : Lexer} (h : well_formed lx) : 1 ≤ remaining lx := by
  have := h.cursor_lt
  unfold remaining
  omega

theorem remaining_reaches {lx lx' : Lexer} (h : reaches lx lx') :
    remaining lx' + (lx'._cursor - lx._cursor) = remaining lx := by
  have h1 := h.wf.cursor_lt
  have h2 := h.cursor_le
  unfold remaining
  rw [h.tokens_eq] at h1 ⊢
  omega

theorem peek_function_some {lx : Lexer} {n : Nat} {f : FunctionPtr}
    (h : peek_function lx n = some f) : ∃ id, lx.peek = Token.Identifier id := by
  unfold peek_function at h
  cases hp : lx.peek <;> simp [hp] at h
  exact ⟨_, rfl⟩

theorem right_associative_is_tightest : ∀ fn : FunctionPtr,
    (deref fn).associativity = Associativity.RIGHT → (deref fn).precedence = Precedence.L1 := by
  decide

theorem climbs_ge_next {sub_fn fn : FunctionPtr} {min : Precedence}
    (h : climbs sub_fn fn = true) (hmin : (deref fn).precedence ≥ min) :
    (deref sub_fn).precedence ≥ next min := by
  unfold climbs at h
  simp only [Bool.or_eq_true, Bool.and_eq_true, decide_eq_true_eq] at h
  rcases h with h | ⟨h1, h2⟩
  · revert h hmin
    generalize (deref sub_fn).precedence = a
    generalize (deref fn).precedence = b
    cases a <;> cases b <;> cases min <;> decide
  · rw [h1, right_associative_is_tightest fn h2]
    cases min <;> decide

theorem inv_expression {n : Nat} (ih : parser_inv n) (lx : Lexer) (hwf : well_formed lx)
    (hf : 4 * remaining lx + 1 ≤ n + 1) : post lx 1 0 (parse_expression (n + 1) lx) := by
  rw [parse_expression]
  have hP := ih.primary lx hwf (by omega)
  cases hres : parse_primary n lx with
  | error e => exact post_error (hP.1 e hres)
  | ok p =>
    obtain ⟨lhs, lx1⟩ := p
    obtain ⟨hr, hc, hd⟩ := hP.2 lhs lx1 hres
    have hrem := remaining_reaches hr
    have hQ := ih.precedence_none lx1 lhs LOWEST hr.wf (by omega)
    refine ⟨hQ.1, ?_⟩
    intro t lx' hok
    obtain ⟨hr2, hc2, hd2⟩ := hQ.2 t lx' hok
    exact ⟨reaches_trans hr hr2, by omega, by omega⟩

theorem inv_shorthand {n : Nat} (ih : parser_inv n) (lx : Lexer) (lhs : Ast)
    (hwf : well_formed lx) (hf : 4 * remaining lx + 1 ≤ n + 1) :
    post lx 0 0 (parse_shorthand (n + 1) lx lhs) := by
  rw [parse_shorthand]
  split
  · have hP := ih.primary lx hwf (by omega)
    cases hres : parse_primary n lx with
    | error e => exact post_error (hP.1 e hres)
    | ok p =>
      obtain ⟨rhs, lx1⟩ := p
      obtain ⟨hr, hc, hd⟩ := hP.2 rhs lx1 hres
      refine ⟨throws_ok _, ?_⟩
      intro t lx' hok
      simp only [Except.ok.injEq, Prod.mk.injEq] at hok
      obtain ⟨_, rfl⟩ := hok
      exact ⟨hr, by omega, hd⟩
  · refine ⟨throws_ok _, ?_⟩
    intro t lx' hok
    simp only [Except.ok.injEq, Prod.mk.injEq] at hok
    obtain ⟨_, rfl⟩ := hok
    exact ⟨reaches_refl hwf, by omega, by simp⟩

theorem inv_precedence_rhs {n : Nat} (ih : parser_inv n) (lx : Lexer) (rhs : Ast)
    (fn : FunctionPtr) (min : Precedence) (hwf : well_formed lx)
    (hf : 4 * remaining lx + 2 ≤ n + 1) (hmin : (deref fn).precedence ≥ min) :
    throws_only_Error (parse_precedence_rhs (n + 1) lx rhs fn min) ∧
    ∀ t lx', parse_precedence_rhs (n + 1) lx rhs fn min = .ok (t, lx') → lx' = lx := by
  rw [parse_precedence_rhs]
  cases hpf : peek_function lx 2 with
  | none =>
    refine ⟨throws_ok _, ?_⟩
    intro t lx' hok
    simp only [Except.ok.injEq, Prod.mk.injEq] at hok
    exact hok.2.symm
  | some sub_fn =>
    simp only []
    split
    · rename_i hcl
      have hN := ih.precedence_some lx rhs (next min) sub_fn hwf (by omega)
        (climbs_ge_next hcl hmin)
      cases hres : parse_precedence n lx rhs (next min) (some sub_fn) with
      | error e =>
        refine ⟨throws_error (hN.1 e hres), ?_⟩
        intro t lx' hok
        cases hok
      | ok p => exact absurd hres (hN.2 p.1 p.2)
    · refine ⟨throws_ok _, ?_⟩
      intro t lx' hok
      simp only [Except.ok.injEq, Prod.mk.injEq] at hok
      exact hok.2.symm

theorem inv_precedence {n : Nat} (ih : parser_inv n) (lx : Lexer) (lhs : Ast)
    (min : Precedence) (from_ : Option FunctionPtr) (hwf : well_formed lx)
    (hf : 4 * remaining lx + 1 ≤ n + 1) :
    (from_ = none → post lx 0 0 (parse_precedence (n + 1) lx lhs min from_)) ∧
    (∀ f, from_ = some f → (deref f).precedence ≥ min →
      no_return (parse_precedence (n + 1) lx lhs min from_)) := by
  -- one iteration of the loop for the operator `fn`, when the condition holds
  have body : ∀ fn : FunctionPtr, (deref fn).precedence ≥ min →
      (from_ = none → ∃ id, lx.peek = Token.Identifier id) →
      (from_ = none → post lx 0 0
        (match parse_primary n lx.discard with
          | .error e => .error e
          | .ok (rhs, lexer) =>
            match parse_precedence_rhs n lexer rhs fn min with
            | .error e => .error e
            | .ok (rhs, lexer) => parse_precedence n lexer (.Call fn [lhs, rhs]) min from_)) ∧
      (∀ f, from_ = some f → (deref f).precedence ≥ min → no_return
        (match parse_primary n lx.discard with
          | .error e => .error e
          | .ok (rhs, lexer) =>
            match parse_precedence_rhs n lexer rhs fn min with
            | .error e => .error e
            | .ok (rhs, lexer) => parse_precedence n lexer (.Call fn [lhs, rhs]) min from_)) := by
    intro fn hfn hpk
    have hrd := reaches_discard hwf
    have hremd := remaining_reaches hrd
    have hP := ih.primary lx.discard hrd.wf (by omega)
    cases hres : parse_primary n lx.discard with
    | error e =>
      exact ⟨fun _ => post_error (hP.1 e hres),
        fun _ _ _ => ⟨throws_error (hP.1 e hres), fun _ _ h => by cases h⟩⟩
    | ok p =>
      obtain ⟨rhs, lx1⟩ := p
      obtain ⟨hr1, hc1, hd1⟩ := hP.2 rhs lx1 hres
      have hrem1 := remaining_reaches hr1
      have hI := ih.precedence_rhs lx1 rhs fn min hr1.wf (by omega) hfn
      dsimp only []
      cases hres2 : parse_precedence_rhs n lx1 rhs fn min with
      | error e =>
        exact ⟨fun _ => post_error (hI.1 e hres2),
          fun _ _ _ => ⟨throws_error (hI.1 e hres2), fun _ _ h => by cases h⟩⟩
      | ok p2 =>
        obtain ⟨rhs2, lx2⟩ := p2
        have hlx2 : lx2 = lx1 := hI.2 rhs2 lx2 hres2
        subst hlx2
        dsimp only []
        refine ⟨?_, ?_⟩
        · intro hnone
          subst hnone
          have hQ := ih.precedence_none lx2 (.Call fn [lhs, rhs2]) min hr1.wf (by omega)
          obtain ⟨id, hid⟩ := hpk rfl
          obtain ⟨hdc, hdd⟩ := discard_step hwf (by rw [hid]; simp)
          rw [hid] at hdd
          simp only [paren_weight, add_zero] at hdd
          refine ⟨hQ.1, ?_⟩
          intro t lx' hok
          obtain ⟨hr3, hc3, hd3⟩ := hQ.2 t lx' hok
          exact ⟨reaches_trans hrd (reaches_trans hr1 hr3), by omega, by omega⟩
        · intro f hsome hfmin
          subst hsome
          exact ih.precedence_some lx2 (.Call fn [lhs, rhs2]) min f hr1.wf (by omega) hfmin
  have stop : post lx 0 0 (.ok (lhs, lx)) := by
    refine ⟨throws_ok _, ?_⟩
    intro t lx' hok
    simp only [Except.ok.injEq, Prod.mk.injEq] at hok
    obtain ⟨_, rfl⟩ := hok
    exact ⟨reaches_refl hwf, by omega, by simp⟩
  cases from_ with
  | none =>
    refine ⟨fun _ => ?_, fun f hf => by cases hf⟩
    rw [parse_precedence]
    cases hpf : peek_function lx 2 with
    | none => exact stop
    | some fn =>
      dsimp only []
      split
      · rename_i hfn
        exact (body fn hfn (fun _ => peek_function_some hpf)).1 rfl
      · exact stop
  | some f =>
    refine ⟨fun h => (by cases h), fun g hg hgmin => ?_⟩
    cases hg
    rw [parse_precedence, if_pos hgmin]
    exact (body f hgmin (fun h => by cases h)).2 f rfl hgmin

theorem has_char_iff (tok : Token) (c : Char) : tok.has_char c = true ↔ tok = Token.char c := by
  cases tok <;> simp [Token.has_char]

theorem consume {lx : Lexer} (hwf : well_formed lx) {tok : Token} (hpk : lx.peek = tok)
    (hne : tok ≠ Token.EOL) :
    reaches lx lx.discard ∧ lx.discard._cursor = lx._cursor + 1 ∧
      depth lx.discard = depth lx + paren_weight tok ∧
      remaining lx.discard + 1 = remaining lx := by
  have hr := reaches_discard hwf
  obtain ⟨h1, h2⟩ := discard_step hwf (by rw [hpk]; exact hne)
  have h3 := remaining_reaches hr
  rw [hpk] at h2
  exact ⟨hr, h1, h2, by omega⟩

theorem post_shorthand_after {n : Nat} (ih : parser_inv n) {lx lx1 : Lexer} (expr : Ast)
    (hr : reaches lx lx1) (hc : lx._cursor + 1 ≤ lx1._cursor) (hd : depth lx1 = depth lx)
    (hf : 4 * remaining lx1 + 1 ≤ n) : post lx 1 0 (parse_shorthand n lx1 expr) := by
  have hS := ih.shorthand lx1 expr hr.wf hf
  refine ⟨hS.1, ?_⟩
  intro t lx' hok
  obtain ⟨hr2, hc2, hd2⟩ := hS.2 t lx' hok
  exact ⟨reaches_trans hr hr2, by omega, by omega⟩

theorem inv_primary {n : Nat} (ih : parser_inv n) (lx : Lexer) (hwf : well_formed lx)
    (hf : 4 * remaining lx ≤ n + 1) : post lx 1 0 (parse_primary (n + 1) lx) := by
  rw [parse_primary]
  cases hpk : lx.peek with
  | EOL =>
    have hread : lx.read = (Token.EOL, lx.discard) := by simp [Lexer.read, hpk]
    rw [hread]
    exact post_impl_error
  | char c =>
    have hread : lx.read = (Token.char c, lx.discard) := by simp [Lexer.read, hpk]
    rw [hread]
    dsimp only []
    obtain ⟨hr1, hc1, hd1, hrem1⟩ := consume hwf hpk (by simp)
    split
    · rename_i hc
      subst hc
      simp only [paren_weight, if_true] at hd1
      have hE := ih.expression lx.discard hr1.wf (by omega)
      cases hres : parse_expression n lx.discard with
      | error e => exact post_error (hE.1 e hres)
      | ok p =>
        obtain ⟨nested, lx2⟩ := p
        obtain ⟨hr2, hc2, hd2⟩ := hE.2 nested lx2 hres
        have hrem2 := remaining_reaches hr2
        dsimp only []
        split
        · rename_i hcl
          have hpk2 : lx2.peek = Token.char ')' := (has_char_iff _ _).1 hcl
          obtain ⟨hr3, hc3, hd3, hrem3⟩ := consume hr2.wf hpk2 (by simp)
          have hw : paren_weight (Token.char ')') = -1 := by decide
          rw [hw] at hd3
          exact post_shorthand_after ih nested (reaches_trans hr1 (reaches_trans hr2 hr3))
            (by simp only [Lexer.read]; omega) (by simp only [Lexer.read]; omega)
            (by simp only [Lexer.read]; omega)
        · exact post_impl_error
    · exact post_impl_error
  | string_view name =>
    have hread : lx.read = (Token.string_view name, lx.discard) := by simp [Lexer.read, hpk]
    rw [hread]
    obtain ⟨hr1, hc1, hd1, hrem1⟩ := consume hwf hpk (by simp)
    simp only [paren_weight, add_zero] at hd1
    exact post_shorthand_after ih _ hr1 (by omega) hd1 (by omega)
  | double value =>
    have hread : lx.read = (Token.double value, lx.discard) := by simp [Lexer.read, hpk]
    rw [hread]
    obtain ⟨hr1, hc1, hd1, hrem1⟩ := consume hwf hpk (by simp)
    simp only [paren_weight, add_zero] at hd1
    exact post_shorthand_after ih _ hr1 (by omega) hd1 (by omega)
  | Identifier identifier =>
    have hread : lx.read = (Token.Identifier identifier, lx.discard) := by
      simp [Lexer.read, hpk]
    rw [hread]
    dsimp only []
    obtain ⟨hr1, hc1, hd1, hrem1⟩ := consume hwf hpk (by simp)
    simp only [paren_weight, add_zero] at hd1
    split
    · rename_i hop
      have hC := ih.routine_call lx.discard identifier hr1.wf hop (by omega)
      cases hres : parse_routine_call n lx.discard identifier with
      | error e => exact post_error (hC.1 e hres)
      | ok p =>
        obtain ⟨expr, lx2⟩ := p
        obtain ⟨hr2, hc2, hd2⟩ := hC.2 expr lx2 hres
        have hrem2 := remaining_reaches hr2
        exact post_shorthand_after ih expr (reaches_trans hr1 hr2) (by omega) (by omega)
          (by omega)
    · cases hg : function.get identifier 1 with
      | none => exact post_impl_error
      | some fn =>
        dsimp only []
        have hP := ih.primary lx.discard hr1.wf (by omega)
        cases hres : parse_primary n lx.discard with
        | error e => exact post_error (hP.1 e hres)
        | ok p =>
          obtain ⟨arg, lx2⟩ := p
          obtain ⟨hr2, hc2, hd2⟩ := hP.2 arg lx2 hres
          have hrem2 := remaining_reaches hr2
          exact post_shorthand_after ih _ (reaches_trans hr1 hr2) (by omega) (by omega)
            (by omega)

theorem inv_routine_call {n : Nat} (ih : parser_inv n) (lx : Lexer) (identifier : String)
    (hwf : well_formed lx) (hop : lx.peek.has_char '(' = true)
    (hf : 4 * remaining lx + 1 ≤ n + 1) :
    post lx 1 0 (parse_routine_call (n + 1) lx identifier) := by
  rw [parse_routine_call]
  have hpk : lx.peek = Token.char '(' := (has_char_iff _ _).1 hop
  obtain ⟨hr1, hc1, hd1, hrem1⟩ := consume hwf hpk (by simp)
  have hw : paren_weight (Token.char '(') = 1 := by decide
  rw [hw] at hd1
  have hA := ih.routine_args lx.discard identifier [] true hr1.wf (by omega)
  refine ⟨hA.1, ?_⟩
  intro t lx' hok
  obtain ⟨hr2, hc2, hd2⟩ := hA.2 t lx' hok
  exact ⟨reaches_trans hr1 hr2, by omega, by omega⟩

theorem inv_routine_args {n : Nat} (ih : parser_inv n) (lx : Lexer) (identifier : String)
    (args : List Ast) (first : Bool) (hwf : well_formed lx)
    (hf : 4 * remaining lx + 2 ≤ n + 1) :
    post lx 1 (-1) (parse_routine_args (n + 1) lx identifier args first) := by
  -- an argument was parsed from state `lx1` reached from `lx`
  have more : ∀ lx1, reaches lx lx1 → depth lx1 = depth lx → 4 * remaining lx1 + 1 ≤ n →
      post lx 1 (-1)
        (match parse_expression n lx1 with
          | .error e => .error e
          | .ok (arg, lexer) => parse_routine_args n lexer identifier (args ++ [arg]) false) := by
    intro lx1 hr1 hd1 hf1
    have hE := ih.expression lx1 hr1.wf hf1
    cases hres : parse_expression n lx1 with
    | error e => exact post_error (hE.1 e hres)
    | ok p =>
      obtain ⟨arg, lx2⟩ := p
      obtain ⟨hr2, hc2, hd2⟩ := hE.2 arg lx2 hres
      have hrem2 := remaining_reaches hr2
      have hA := ih.routine_args lx2 identifier (args ++ [arg]) false hr2.wf (by omega)
      refine ⟨hA.1, ?_⟩
      intro t lx' hok
      obtain ⟨hr3, hc3, hd3⟩ := hA.2 t lx' hok
      have := hr1.cursor_le
      exact ⟨reaches_trans hr1 (reaches_trans hr2 hr3), by omega, by omega⟩
  rw [parse_routine_args]
  split
  · rename_i hcl
    have hpk : lx.peek = Token.char ')' := (has_char_iff _ _).1 hcl
    obtain ⟨hr1, hc1, hd1, hrem1⟩ := consume hwf hpk (by simp)
    have hw : paren_weight (Token.char ')') = -1 := by decide
    rw [hw] at hd1
    cases hg : function.get identifier (args.length % 256) with
    | none => exact post_impl_error
    | some fn =>
      refine ⟨throws_ok _, ?_⟩
      intro t lx' hok
      simp only [Except.ok.injEq, Prod.mk.injEq] at hok
      obtain ⟨_, rfl⟩ := hok
      exact ⟨hr1, by omega, hd1⟩
  · split
    · exact more lx (reaches_refl hwf) rfl (by omega)
    · split
      · rename_i hcm
        have hpk : lx.peek = Token.char ',' := (has_char_iff _ _).1 hcm
        obtain ⟨hr1, hc1, hd1, hrem1⟩ := consume hwf hpk (by simp)
        have hw : paren_weight (Token.char ',') = 0 := by decide
        rw [hw] at hd1
        exact more lx.discard hr1 (by omega) (by omega)
      · exact post_impl_error

theorem parser_invariant : ∀ n, parser_inv n := by
  intro n
  induction n with
  | zero =>
    exact
      { expression := fun lx hwf hf => by have := remaining_pos hwf; omega
        primary := fun lx hwf hf => by have := remaining_pos hwf; omega
        shorthand := fun lx _ hwf hf => by have := remaining_pos hwf; omega
        precedence_none := fun lx _ _ hwf hf => by have := remaining_pos hwf; omega
        precedence_some := fun lx _ _ _ hwf hf => by have := remaining_pos hwf; omega
        precedence_rhs := fun lx _ _ _ hwf hf => by have := remaining_pos hwf; omega
        routine_call := fun lx _ hwf _ hf => by have := remaining_pos hwf; omega
        routine_args := fun lx _ _ _ hwf hf => by have := remaining_pos hwf; omega }
  | succ n ih =>
    exact
      { expression := inv_expression ih
        primary := inv_primary ih
        shorthand := inv_shorthand ih
        precedence_none := fun lx lhs min hwf hf => (inv_precedence ih lx lhs min none hwf hf).1 rfl
        precedence_some := fun lx lhs min f hwf hf hmin =>
          (inv_precedence ih lx lhs min (some f) hwf hf).2 f rfl hmin
        precedence_rhs := inv_precedence_rhs ih
        routine_call := inv_routine_call ih
        routine_args := inv_routine_args ih }

theorem char_weight_append (xs ys : List Char) :
    char_weight (xs ++ ys) = char_weight xs + char_weight ys := by
  simp only [char_weight, List.count_append]
  push_cast
  ring

theorem tokens_weight_append (xs ys : List (Token × Nat)) :
    tokens_weight (xs ++ ys) = tokens_weight xs + tokens_weight ys := by
  simp [tokens_weight]

theorem char_weight_of_category {cat : Category} {seg : List Char}
    (h : ∀ c ∈ seg, categorize c = cat) (hne : cat ≠ Category.SYMBOL) : char_weight seg = 0 := by
  have h1 : '(' ∉ seg := fun hm => hne (by rw [← h _ hm]; decide)
  have h2 : ')' ∉ seg := fun hm => hne (by rw [← h _ hm]; decide)
  simp [char_weight, List.count_eq_zero_of_not_mem h1, List.count_eq_zero_of_not_mem h2]

theorem identifiers_no_paren : ∀ s ∈ IDENTIFIERS, char_weight s.data = 0 := by
  decide

theorem symbol_token_spec (rest : List Char) (hne : rest ≠ []) :
    ∀ n, n ≤ rest.length →
      1 ≤ (symbol_token rest n).2 ∧ (symbol_token rest n).2 ≤ rest.length ∧
      (symbol_token rest n).1 ≠ Token.EOL ∧
      paren_weight (symbol_token rest n).1 = char_weight (rest.take (symbol_token rest n).2) := by
  have hlen : 1 ≤ rest.length := by
    cases rest with
    | nil => exact absurd rfl hne
    | cons c cs => simp
  have single : 1 ≤ (1 : Nat) ∧ 1 ≤ rest.length ∧ Token.char (rest.headD ' ') ≠ Token.EOL ∧
      paren_weight (Token.char (rest.headD ' ')) = char_weight (rest.take 1) := by
    refine ⟨le_refl _, hlen, by simp, ?_⟩
    cases rest with
    | nil => exact absurd rfl hne
    | cons c cs =>
      simp only [List.headD_cons, List.take_succ_cons, List.take_zero, paren_weight, char_weight,
        List.count_cons, List.count_nil]
      by_cases h1 : c = '('
      · subst h1; simp
      · by_cases h2 : c = ')'
        · subst h2; simp
        · simp [h1, h2]
  intro n
  induction n with
  | zero => intro _; simpa [symbol_token] using single
  | succ n ih =>
    intro hn
    rw [symbol_token]
    split
    · rename_i hc
      have hm : String.mk (rest.take (n + 1)) ∈ IDENTIFIERS := by simpa using hc
      refine ⟨by simp, hn, by simp, ?_⟩
      have := identifiers_no_paren _ hm
      simpa [paren_weight] using this.symm
    · split
      · exact single
      · exact ih (by omega)

theorem symbol_tokens_spec : ∀ (fuel off : Nat) (rest : List Char), rest.length ≤ fuel →
    no_EOL (symbol_tokens fuel off rest) ∧
      tokens_weight (symbol_tokens fuel off rest) = char_weight rest := by
  intro fuel
  induction fuel with
  | zero =>
    intro off rest h
    have : rest = [] := List.length_eq_zero.1 (by omega)
    subst this
    simp [symbol_tokens, no_EOL, tokens_weight, char_weight]
  | succ fuel ih =>
    intro off rest h
    cases rest with
    | nil => simp [symbol_tokens, no_EOL, tokens_weight, char_weight]
    | cons c cs =>
      rw [symbol_tokens]
      obtain ⟨h1, h2, h3, h4⟩ := symbol_token_spec (c :: cs) (by simp) (c :: cs).length (le_refl _)
      have hdrop : ((c :: cs).drop (symbol_token (c :: cs) (c :: cs).length).2).length ≤ fuel := by
        rw [List.length_drop]
        omega
      obtain ⟨i1, i2⟩ := ih (off + (symbol_token (c :: cs) (c :: cs).length).2) _ hdrop
      refine ⟨?_, ?_⟩
      · intro p hp
        rcases List.mem_cons.1 hp with rfl | hp
        · exact h3
        · exact i1 p hp
      · have hsplit := char_weight_append ((c :: cs).take (symbol_token (c :: cs) (c :: cs).length).2)
          ((c :: cs).drop (symbol_token (c :: cs) (c :: cs).length).2)
        rw [List.take_append_drop] at hsplit
        rw [hsplit, ← i2, ← h4]
        simp [tokens_weight]

theorem segment_tokens_spec {off : Nat} {cat : Category} {seg : List Char}
    {toks : List (Token × Nat)} (hcat : ∀ c ∈ seg, categorize c = cat)
    (h : segment_tokens off (cat, seg) = some toks) :
    no_EOL toks ∧ tokens_weight toks = char_weight seg := by
  cases cat with
  | ALPHA =>
    rw [char_weight_of_category hcat (by simp)]
    simp only [segment_tokens, Option.some.injEq] at h
    subst h
    constructor
    · intro p hp
      simp only [List.mem_singleton] at hp
      subst hp
      dsimp only []
      split <;> simp
    · simp only [tokens_weight, List.map_cons, List.map_nil, List.sum_cons, List.sum_nil, add_zero]
      split <;> rfl
  | DIGIT =>
    rw [char_weight_of_category hcat (by simp)]
    simp only [segment_tokens] at h
    cases hs : stod seg with
    | none => simp [hs] at h
    | some v =>
      simp only [hs, Option.some.injEq] at h
      subst h
      exact ⟨by intro p hp; simp at hp; subst hp; simp, rfl⟩
  | SYMBOL =>
    simp only [segment_tokens, Option.some.injEq] at h
    subst h
    exact symbol_tokens_spec _ _ _ (le_refl _)
  | WHITESPACE =>
    rw [char_weight_of_category hcat (by simp)]
    simp only [segment_tokens, Option.some.injEq] at h
    subst h
    exact ⟨by intro p hp; simp at hp, rfl⟩

theorem categorize_loop_spec : ∀ (cs : List Char) (prev : Category) (seg : List Char),
    (∀ c ∈ seg, categorize c = prev) →
      (∀ p ∈ categorize_loop prev seg cs, ∀ c ∈ p.2, categorize c = p.1) ∧
      ((categorize_loop prev seg cs).map Prod.snd).flatten = seg ++ cs := by
  intro cs
  induction cs with
  | nil =>
    intro prev seg h
    simp only [categorize_loop, List.mem_singleton, List.map_cons, List.map_nil, List.flatten_cons,
      List.flatten_nil, List.append_nil, and_true]
    intro p hp
    subst hp
    exact h
  | cons c cs ih =>
    intro prev seg h
    rw [categorize_loop]
    split
    · obtain ⟨i1, i2⟩ := ih (categorize c) [c] (by simp)
      refine ⟨?_, ?_⟩
      · intro p hp
        rcases List.mem_cons.1 hp with rfl | hp
        · exact h
        · exact i1 p hp
      · simp [i2]
    · rename_i hcat
      have hcat' : prev = categorize c := by simpa using hcat
      obtain ⟨i1, i2⟩ := ih prev (seg ++ [c]) (by
        intro d hd
        rcases List.mem_append.1 hd with hd | hd
        · exact h d hd
        · simp only [List.mem_singleton] at hd
          rw [hd, hcat'])
      exact ⟨i1, by simp [i2]⟩

theorem categorize_str_spec (uninit : Category) (cs : List Char) :
    (∀ p ∈ categorize_str uninit cs, ∀ c ∈ p.2, categorize c = p.1) ∧
      ((categorize_str uninit cs).map Prod.snd).flatten = cs := by
  cases cs with
  | nil => simp [categorize_str]
  | cons c cs =>
    rw [categorize_str]
    have := categorize_loop_spec cs (categorize c) [c] (by simp)
    simpa using this

theorem tokenize_segments_spec : ∀ (segs : List (Category × List Char)) (off : Nat)
    (toks : List (Token × Nat)), (∀ p ∈ segs, ∀ c ∈ p.2, categorize c = p.1) →
    tokenize_segments off segs = some toks →
    ∃ body off', toks = body ++ [(Token.EOL, off')] ∧ no_EOL body ∧
      tokens_weight body = char_weight (segs.map Prod.snd).flatten := by
  intro segs
  induction segs with
  | nil =>
    intro off toks _ h
    simp only [tokenize_segments, Option.some.injEq] at h
    subst h
    exact ⟨[], off, rfl, by intro p hp; simp at hp, rfl⟩
  | cons seg segs ih =>
    intro off toks hcat h
    rw [tokenize_segments] at h
    cases h1 : segment_tokens off seg with
    | none => simp [h1] at h
    | some first =>
      cases h2 : tokenize_segments (off + seg.2.length) segs with
      | none => simp [h1, h2] at h
      | some more =>
        simp only [h1, h2, Option.some.injEq] at h
        subst h
        obtain ⟨body, off', hb, hn, hw⟩ := ih _ more
          (fun p hp => hcat p (List.mem_cons_of_mem _ hp)) h2
        obtain ⟨s1, s2⟩ := @segment_tokens_spec off seg.1 seg.2 first
          (hcat seg (List.mem_cons_self _ _)) h1
        refine ⟨first ++ body, off', by rw [hb, List.append_assoc], ?_, ?_⟩
        · intro p hp
          rcases List.mem_append.1 hp with hp | hp
          · exact s1 p hp
          · exact hn p hp
        · rw [tokens_weight_append, s2, hw, List.map_cons, List.flatten_cons, char_weight_append]

theorem Lexer_new_spec {uninit : Category} {s : String} {lx : Lexer}
    (h : Lexer.new uninit s = .ok lx) :
    lx._cursor = 0 ∧ ∃ body, lx._tokens = body ++ [Token.EOL] ∧ Token.EOL ∉ body ∧
      (body.map paren_weight).sum = char_weight s.data := by
  unfold Lexer.new at h
  cases ht : tokenize_segments 0 (categorize_str uninit s.data) with
  | none => simp [ht] at h
  | some toks =>
    simp only [ht, Except.ok.injEq] at h
    subst h
    obtain ⟨c1, c2⟩ := categorize_str_spec uninit s.data
    obtain ⟨body, off', hb, hn, hw⟩ := tokenize_segments_spec _ 0 toks c1 ht
    refine ⟨rfl, body.map Prod.fst, by simp [hb], ?_, ?_⟩
    · intro hm
      obtain ⟨p, hp, hpe⟩ := List.mem_map.1 hm
      exact hn p hp hpe
    · rw [c2] at hw
      rw [← hw, tokens_weight, List.map_map]
      rfl

theorem Lexer_new_well_formed {uninit : Category} {s : String} {lx : Lexer}
    (h : Lexer.new uninit s = .ok lx) : well_formed lx := by
  obtain ⟨h0, body, hb, hn, _⟩ := Lexer_new_spec h
  refine ⟨by rw [h0, hb]; simp, ?_⟩
  intro i hi
  rw [hb] at hi ⊢
  simp only [List.length_append, List.length_singleton] at hi ⊢
  by_cases hlt : i < body.length
  · have : (body ++ [Token.EOL]).getD i Token.EOL = body.get ⟨i, hlt⟩ := by
      simp [List.getD_eq_getElem?_getD, List.getElem?_append_left hlt,
        List.getElem?_eq_getElem hlt]
    rw [this]
    constructor
    · intro he
      exact absurd (he ▸ List.get_mem body i hlt) hn
    · intro he; omega
  · have hi' : i = body.length := by omega
    subst hi'
    simp [List.getD_eq_getElem?_getD]

theorem depth_at_end {lx : Lexer} {body : List Token} (hb : lx._tokens = body ++ [Token.EOL])
    (hc : lx._cursor + 1 = lx._tokens.length) : depth lx = (body.map paren_weight).sum := by
  have : lx._cursor = body.length := by rw [hb] at hc; simpa using hc
  simp [depth, hb, this]

/-- What `parser.parse` does once the text is tokenized. -/
theorem parse_of_tokenized {uninit : Category} {s : String} {lx : Lexer}
    (h : Lexer.new uninit s = .ok lx) :
    parse uninit s =
      match impl.parse_expression (fuel_for lx) lx with
      | .error e => .error e
      | .ok (expr, lexer) =>
        if lexer.read.1.has_EOL then .ok expr
        else impl.error lexer.read.2 (Message.unexpected lexer.read.1) := by
  unfold parse
  rw [h]

theorem has_EOL_iff (tok : Token) : tok.has_EOL = true ↔ tok = Token.EOL := by
  cases tok <;> simp [Token.has_EOL]

theorem parse_expression_post {uninit : Category} {s : String} {lx : Lexer}
    (h : Lexer.new uninit s = .ok lx) :
    post lx 1 0 (parse_expression (fuel_for lx) lx) := by
  have hwf := Lexer_new_well_formed h
  refine (parser_invariant (fuel_for lx)).expression lx hwf ?_
  unfold fuel_for remaining
  omega

/-- A tree is returned exactly when the tokenizer accepts the text, the
top-level expression parses, and the token after it is the end marker. -/
theorem parse_ok_iff (uninit : Category) (s : String) (t : Ast) :
    parse uninit s = .ok t ↔
      ∃ lx lx', Lexer.new uninit s = .ok lx ∧
        parse_expression (fuel_for lx) lx = .ok (t, lx') ∧ lx'.peek = Token.EOL := by
  constructor
  · intro h
    cases hl : Lexer.new uninit s with
    | error e => simp [parse, hl] at h
    | ok lx =>
      rw [parse_of_tokenized hl] at h
      cases hp : parse_expression (fuel_for lx) lx with
      | error e => simp [hp] at h
      | ok p =>
        obtain ⟨t', lx'⟩ := p
        simp only [hp] at h
        split at h
        · rename_i he
          simp only [Except.ok.injEq] at h
          subst h
          exact ⟨lx, lx', rfl, hp, (has_EOL_iff _).1 he⟩
        · simp [impl.error] at h
  · rintro ⟨lx, lx', hl, hp, he⟩
    rw [parse_of_tokenized hl, hp]
    simp [Lexer.read, he, Token.has_EOL]

theorem stod_exception_cases (segment : List Char) :
    stod_exception segment = Failure.invalid_argument ∨
      stod_exception segment = Failure.out_of_range := by
  unfold stod_exception
  cases strtod segment with
  | none => exact Or.inl rfl
  | some v => exact Or.inr rfl

theorem tokenize_exception_cases : ∀ segs : List (Category × List Char),
    tokenize_exception segs = Failure.invalid_argument ∨
      tokenize_exception segs = Failure.out_of_range
  | [] => Or.inl rfl
  | (cat, segment) :: segs => by
    rw [tokenize_exception]
    split
    · exact stod_exception_cases segment
    · exact tokenize_exception_cases segs

theorem Lexer_new_error {uninit : Category} {s : String} {e : Failure}
    (h : Lexer.new uninit s = .error e) :
    e = Failure.invalid_argument ∨ e = Failure.out_of_range := by
  unfold Lexer.new at h
  split at h
  · rw [← Except.error.inj h]
    exact tokenize_exception_cases _
  · cases h

/-- The parser never runs out of fuel: it returns a tree or throws a
`parser::Error`, or `std::stod` threw in the tokenizer. -/
theorem parse_total (uninit : Category) (s : String) :
    (∃ t, parse uninit s = .ok t) ∨
    (∃ column msg, parse uninit s = .error (Failure.Error column msg)) ∨
    (∃ e, (e = Failure.invalid_argument ∨ e = Failure.out_of_range) ∧
      parse uninit s = .error e ∧ Lexer.new uninit s = .error e) := by
  cases hl : Lexer.new uninit s with
  | error e =>
    exact Or.inr (Or.inr ⟨e, Lexer_new_error hl, by simp [parse, hl], rfl⟩)
  | ok lx =>
    have hpost := parse_expression_post hl
    rw [parse_of_tokenized hl]
    cases hp : parse_expression (fuel_for lx) lx with
    | error e =>
      obtain ⟨c, m, rfl⟩ := hpost.1 e hp
      exact Or.inr (Or.inl ⟨c, m, rfl⟩)
    | ok p =>
      obtain ⟨t, lx'⟩ := p
      dsimp only []
      split
      · exact Or.inl ⟨t, rfl⟩
      · exact Or.inr (Or.inl ⟨_, _, rfl⟩)

theorem count_eq_of_parse_ok {uninit : Category} {s : String} {t : Ast}
    (h : parse uninit s = .ok t) : s.data.count '(' = s.data.count ')' := by
  obtain ⟨lx, lx', hl, hp, he⟩ := (parse_ok_iff uninit s t).1 h
  obtain ⟨h0, body, hb, _, hw⟩ := Lexer_new_spec hl
  obtain ⟨hr, _, hd⟩ := (parse_expression_post hl).2 t lx' hp
  have hend := (peek_EOL_iff hr.wf).1 he
  have hd' := depth_at_end (hr.tokens_eq.trans hb) hend
  have hd0 : depth lx = 0 := by simp [depth, h0]
  rw [hd0, hd', hw] at hd
  unfold char_weight at hd
  omega

theorem symbol_tokens_fst : ∀ (fuel off : Nat) (cs : List Char),
    (symbol_tokens fuel off cs).map Prod.fst = (symbol_tokens fuel 0 cs).map Prod.fst := by
  intro fuel
  induction fuel with
  | zero => intro off cs; simp [symbol_tokens]
  | succ fuel ih =>
    intro off cs
    cases cs with
    | nil => simp [symbol_tokens]
    | cons c cs =>
      rw [symbol_tokens, symbol_tokens]
      simp only [List.map_cons]
      rw [ih (off + _), ih (0 + _)]

theorem segment_tokens_fst (off : Nat) (seg : Category × List Char) :
    (segment_tokens off seg).map (List.map Prod.fst) =
      (segment_tokens 0 seg).map (List.map Prod.fst) := by
  obtain ⟨cat, text⟩ := seg
  cases cat with
  | ALPHA => simp [segment_tokens]
  | DIGIT =>
    simp only [segment_tokens]
    cases stod text <;> simp
  | SYMBOL =>
    simp only [segment_tokens, Option.map_some']
    rw [symbol_tokens_fst]
  | WHITESPACE => simp [segment_tokens]

theorem tokenize_segments_fst : ∀ (segs : List (Category × List Char)) (off : Nat),
    (tokenize_segments off segs).map (List.map Prod.fst) =
      (lex_segments segs).map (fun toks => toks ++ [Token.EOL]) := by
  intro segs
  induction segs with
  | nil => intro off; simp [tokenize_segments, lex_segments]
  | cons seg segs ih =>
    intro off
    rw [tokenize_segments, lex_segments]
    have h1 := segment_tokens_fst off seg
    have h2 := ih (off + seg.2.length)
    cases hs : segment_tokens off seg with
    | none =>
      rw [hs] at h1
      cases h0 : segment_tokens 0 seg with
      | none => simp
      | some v => rw [h0] at h1; simp at h1
    | some first =>
      rw [hs] at h1
      cases h0 : segment_tokens 0 seg with
      | none => rw [h0] at h1; simp at h1
      | some first0 =>
        rw [h0] at h1
        simp only [Option.map_some', Option.some.injEq] at h1
        cases ht : tokenize_segments (off + seg.2.length) segs with
        | none =>
          rw [ht] at h2
          cases hl : lex_segments segs with
          | none => simp
          | some v => rw [hl] at h2; simp at h2
        | some more =>
          rw [ht] at h2
          cases hl : lex_segments segs with
          | none => rw [hl] at h2; simp at h2
          | some more0 =>
            rw [hl] at h2
            simp only [Option.map_some', Option.some.injEq] at h2
            simp [h1, h2]

theorem categorize_loop_same (prev : Category) : ∀ (cs seg rest : List Char),
    (∀ c ∈ cs, categorize c = prev) →
      categorize_loop prev seg (cs ++ rest) = categorize_loop prev (seg ++ cs) rest := by
  intro cs
  induction cs with
  | nil => intro seg rest _; simp
  | cons c cs ih =>
    intro seg rest h
    have hc : categorize c = prev := h c (List.mem_cons_self _ _)
    rw [List.cons_append, categorize_loop, if_neg (by simp [hc]),
      ih (seg ++ [c]) rest (fun d hd => h d (List.mem_cons_of_mem _ hd))]
    simp

theorem long_identifiers_not_symbols : ∀ s ∈ IDENTIFIERS, 2 ≤ s.data.length →
    ∃ c ∈ s.data, c ∉ ['(', ')', ',', '-', '!'] := by
  decide

theorem symbol_token_single (c : Char) (cs : List Char)
    (h : ∀ d ∈ c :: cs, d ∈ ['(', ')', ',', '-', '!']) :
    ∀ n, 1 ≤ n → n ≤ (c :: cs).length →
      symbol_token (c :: cs) n = (symbol_char_token c, 1) := by
  intro n
  induction n with
  | zero => intro h1; omega
  | succ n ih =>
    intro _ hn
    rw [symbol_token]
    by_cases h0 : n = 0
    · subst h0
      simp only [zero_add, List.take_succ_cons, List.take_zero, symbol_char_token, List.headD_cons]
      split <;> simp
    · have hnot : IDENTIFIERS.contains (String.mk ((c :: cs).take (n + 1))) = false := by
        by_contra hcon
        have hm : String.mk ((c :: cs).take (n + 1)) ∈ IDENTIFIERS := by simpa using hcon
        obtain ⟨d, hd, hd'⟩ := long_identifiers_not_symbols _ hm (by
          simp only [List.length_take]
          omega)
        exact hd' (h d (List.mem_of_mem_take hd))
      rw [hnot]
      simp only [Bool.false_eq_true, if_false, h0]
      exact ih (by omega) (by omega)

theorem symbol_tokens_symbols : ∀ (cs : List Char) (fuel off : Nat), cs.length ≤ fuel →
    (∀ d ∈ cs, d ∈ ['(', ')', ',', '-', '!']) →
      (symbol_tokens fuel off cs).map Prod.fst = cs.map symbol_char_token := by
  intro cs
  induction cs with
  | nil => intro fuel off _ _; cases fuel <;> simp [symbol_tokens]
  | cons c cs ih =>
    intro fuel off hf h
    cases fuel with
    | zero => simp at hf
    | succ fuel =>
      rw [symbol_tokens, symbol_token_single c cs h _ (by simp) (le_refl _)]
      simp only [List.map_cons, List.drop_succ_cons, List.drop_zero]
      rw [ih fuel _ (by simpa using hf) (fun d hd => h d (List.mem_cons_of_mem _ hd))]

theorem String_mk_data (s : String) : String.mk s.data = s := rfl

/-- The tokens of the segment made of one piece. -/
theorem segment_tokens_lexeme (x : Lexeme) (hv : x.valid) :
    (segment_tokens 0 (x.category, x.text)).map (List.map Prod.fst) = some x.tokens := by
  cases x with
  | name text =>
    obtain ⟨_, _, h3⟩ := hv
    have h3' : text ∉ IDENTIFIERS := by simpa using h3
    simp [segment_tokens, Lexeme.category, Lexeme.text, Lexeme.tokens, String_mk_data, h3']
  | number text value =>
    obtain ⟨_, _, h3⟩ := hv
    simp [segment_tokens, Lexeme.category, Lexeme.text, Lexeme.tokens, h3]
  | routine identifier =>
    obtain ⟨_, _, h3⟩ := hv
    have h3' : identifier ∈ IDENTIFIERS := by simpa using h3
    simp [segment_tokens, Lexeme.category, Lexeme.text, Lexeme.tokens, String_mk_data, h3']
  | operator identifier =>
    obtain ⟨h1, _, h3⟩ := hv
    simp only [segment_tokens, Lexeme.category, Lexeme.text, Lexeme.tokens, Option.map_some',
      Option.some.injEq]
    cases hd : identifier.data with
    | nil => exact absurd hd h1
    | cons c cs =>
      have htake : (c :: cs).take (cs.length + 1) = c :: cs :=
        List.take_of_length_le (by simp)
      have hfull : String.mk (c :: cs) = identifier := by rw [← hd]
      rw [List.length_cons, symbol_tokens, List.length_cons, symbol_token, htake, hfull, h3]
      simp only [if_true, List.map_cons]
      rw [List.drop_of_length_le (by simp)]
      cases cs.length <;> simp [symbol_tokens]
  | space => simp [segment_tokens, Lexeme.category, Lexeme.text, Lexeme.tokens]
  | symbol c =>
    simp only [segment_tokens, Lexeme.category, Lexeme.text, Lexeme.tokens, Option.map_some',
      Option.some.injEq]
    have := symbol_tokens_symbols [c] 1 0 (le_refl _) (by simpa [Lexeme.valid] using hv)
    simpa using this

theorem Lexeme.text_category {x : Lexeme} (hv : x.valid) :
    x.text ≠ [] ∧ ∀ c ∈ x.text, categorize c = x.category := by
  cases x with
  | name text => exact ⟨hv.1, hv.2.1⟩
  | number text value => exact ⟨hv.1, hv.2.1⟩
  | routine identifier => exact ⟨hv.1, hv.2.1⟩
  | operator identifier => exact ⟨hv.1, hv.2.1⟩
  | space =>
    refine ⟨by simp [Lexeme.text], ?_⟩
    intro c hc
    simp only [Lexeme.text, List.mem_singleton] at hc
    subst hc
    decide
  | symbol c =>
    refine ⟨by simp [Lexeme.text], ?_⟩
    intro d hd
    simp only [Lexeme.text, List.mem_singleton] at hd
    subst hd
    simp only [Lexeme.valid, List.mem_cons, List.mem_singleton, List.not_mem_nil, or_false] at hv
    rcases hv with h | h | h | h | h <;> subst h <;> decide

theorem Lexeme.symbol_shape {x : Lexeme} (h : x.is_symbol = true) : ∃ c, x = Lexeme.symbol c := by
  cases x <;> simp [Lexeme.is_symbol] at h
  exact ⟨_, rfl⟩

theorem pending_lexeme {x : Lexeme} (hv : x.valid) : pending x.category x.text x.tokens x := by
  refine ⟨rfl, segment_tokens_lexeme x hv, ?_⟩
  intro hs
  obtain ⟨c, rfl⟩ := Lexeme.symbol_shape hs
  exact ⟨by simpa [Lexeme.text, Lexeme.valid] using hv, by simp [Lexeme.text, Lexeme.tokens]⟩

theorem lex_segments_cons {seg : Category × List Char} {segs : List (Category × List Char)}
    {toks more : List Token}
    (h1 : (segment_tokens 0 seg).map (List.map Prod.fst) = some toks)
    (h2 : lex_segments segs = some more) : lex_segments (seg :: segs) = some (toks ++ more) := by
  rw [lex_segments, h2]
  cases hs : segment_tokens 0 seg with
  | none => rw [hs] at h1; simp at h1
  | some first =>
    rw [hs] at h1
    simp only [Option.map_some', Option.some.injEq] at h1
    simp [h1]

theorem lex_loop : ∀ (L : List Lexeme) (prev : Category) (seg : List Char) (toks : List Token)
    (last : Lexeme), pending prev seg toks last → (∀ x ∈ L, x.valid) →
    List.Chain' Lexeme.separable (last :: L) →
    lex_segments (categorize_loop prev seg (L.flatMap Lexeme.text)) =
      some (toks ++ L.flatMap Lexeme.tokens) := by
  intro L
  induction L with
  | nil =>
    intro prev seg toks last hp _ _
    simp only [List.flatMap_nil, categorize_loop, List.append_nil]
    have := lex_segments_cons hp.tokens_eq (rfl : lex_segments [] = some [])
    simpa using this
  | cons q L ih =>
    intro prev seg toks last hp hv hc
    have hq := hv q (List.mem_cons_self _ _)
    have hL : ∀ x ∈ L, x.valid := fun x hx => hv x (List.mem_cons_of_mem _ hx)
    obtain ⟨hne, hcat⟩ := Lexeme.text_category hq
    rw [List.chain'_cons] at hc
    obtain ⟨hsep, hc'⟩ := hc
    simp only [List.flatMap_cons]
    by_cases hsame : q.category = prev
    · -- the piece extends the pending run: both are single symbol characters
      have hboth : last.is_symbol = true ∧ q.is_symbol = true := by
        rcases hsep with h | h
        · exact absurd (hp.category_eq.trans hsame.symm) h
        · exact h
      obtain ⟨d, rfl⟩ := Lexeme.symbol_shape hboth.2
      obtain ⟨hsym, htoks⟩ := hp.symbols hboth.1
      have hd : d ∈ ['(', ')', ',', '-', '!'] := by simpa [Lexeme.valid] using hq
      have hprev : prev = Category.SYMBOL := by rw [← hsame]; rfl
      rw [categorize_loop_same prev _ seg _ (fun c hc => by rw [hcat c hc, hsame])]
      have hall : ∀ c ∈ seg ++ [d], c ∈ ['(', ')', ',', '-', '!'] := by
        intro c hc
        rcases List.mem_append.1 hc with hc | hc
        · exact hsym c hc
        · simp only [List.mem_singleton] at hc; rw [hc]; exact hd
      have hp' : pending prev (seg ++ [d]) (toks ++ [symbol_char_token d]) (Lexeme.symbol d) := by
        refine ⟨hsame, ?_, fun _ => ⟨hall, by simp [htoks]⟩⟩
        rw [hprev]
        simp only [segment_tokens, Option.map_some', Option.some.injEq]
        rw [symbol_tokens_symbols _ _ _ (le_refl _) hall, htoks]
        simp
      have := ih prev (seg ++ [d]) _ _ hp' hL hc'
      simpa [Lexeme.text, Lexeme.tokens] using this
    · -- the piece starts a new segment
      cases ht : q.text with
      | nil => exact absurd ht hne
      | cons c cs =>
        rw [ht] at hcat
        have hc0 : categorize c = q.category := hcat c (List.mem_cons_self _ _)
        rw [List.cons_append, categorize_loop, if_pos (by rw [hc0]; exact fun h => hsame h.symm),
          hc0, categorize_loop_same q.category cs [c] _
            (fun d hd => hcat d (List.mem_cons_of_mem _ hd))]
        have hp' := pending_lexeme hq
        rw [ht] at hp'
        have := ih q.category (c :: cs) _ _ hp' hL hc'
        rw [List.singleton_append]
        rw [lex_segments_cons hp.tokens_eq this]

/-- The tokenizer splits a text made of valid, pairwise separable pieces into
the tokens of the pieces. -/
theorem lex_lexemes (uninit : Category) (L : List Lexeme) (hne : L ≠ [])
    (hv : ∀ x ∈ L, x.valid) (hc : List.Chain' Lexeme.separable L) :
    lex_segments (categorize_str uninit (L.flatMap Lexeme.text)) =
      some (L.flatMap Lexeme.tokens) := by
  cases L with
  | nil => exact absurd rfl hne
  | cons q L =>
    have hq := hv q (List.mem_cons_self _ _)
    obtain ⟨hne', hcat⟩ := Lexeme.text_category hq
    simp only [List.flatMap_cons]
    cases ht : q.text with
    | nil => exact absurd ht hne'
    | cons c cs =>
      rw [ht] at hcat
      have hc0 : categorize c = q.category := hcat c (List.mem_cons_self _ _)
      rw [List.cons_append, categorize_str, hc0, categorize_loop_same q.category cs [c] _
        (fun d hd => hcat d (List.mem_cons_of_mem _ hd)), List.singleton_append]
      have hp' := pending_lexeme hq
      rw [ht] at hp'
      exact lex_loop L q.category (c :: cs) _ _ hp' (fun x hx => hv x (List.mem_cons_of_mem _ hx)) hc

theorem prefix_lexeme_text (identifier : String) :
    (prefix_lexeme identifier).text = identifier.data := by
  unfold prefix_lexeme
  split
  · rename_i c h; simp [Lexeme.text, h]
  · rfl

theorem operand_lexemes_text (fn : FunctionPtr) (arg : Ast) (inner : List Lexeme) (out : String)
    (h : out.data = inner.flatMap Lexeme.text) :
    ( impl.format_operand fn arg out).data = (operand_lexemes fn arg inner).flatMap Lexeme.text := by
  unfold impl.format_operand operand_lexemes parenthesized
  split
  · simp [h, Lexeme.text]
  · exact h

mutual
theorem to_string_data (fmt : ℚ → String) : ∀ t : Ast,
    (Ast.to_string fmt t).data = (lexemes fmt t).flatMap Lexeme.text
  | .Literal v => by simp [Ast.to_string, lexemes, Lexeme.text]
  | .Variable n => by simp [Ast.to_string, lexemes, Lexeme.text]
  | .Call fn args => by
    rw [Ast.to_string, lexemes]
    split
    · exact format_infix_data fmt fn args
    · exact format_routine_data fmt fn args
theorem format_infix_data (fmt : ℚ → String) (fn : FunctionPtr) : ∀ args : List Ast,
    ( impl.format_infix fmt fn args).data = (infix_lexemes fmt fn args).flatMap Lexeme.text
  | [] => by simp [ impl.format_infix, infix_lexemes]
  | [arg] => by
    rw [ impl.format_infix, infix_lexemes]
    simp [prefix_lexeme_text, operand_lexemes_text fn arg _ _ (to_string_data fmt arg)]
  | arg :: arg' :: rest => by
    rw [ impl.format_infix, infix_lexemes]
    simp [operand_lexemes_text fn arg _ _ (to_string_data fmt arg),
      format_infix_rest_data fmt fn (arg' :: rest)]
theorem format_infix_rest_data (fmt : ℚ → String) (fn : FunctionPtr) : ∀ args : List Ast,
    ( impl.format_infix_rest fmt fn args).data =
      (infix_rest_lexemes fmt fn args).flatMap Lexeme.text
  | [] => by simp [impl.format_infix_rest, infix_rest_lexemes]
  | arg :: rest => by
    rw [impl.format_infix_rest, infix_rest_lexemes]
    simp [operand_lexemes_text fn arg _ _ (to_string_data fmt arg),
      format_infix_rest_data fmt fn rest, Lexeme.text]
theorem format_routine_data (fmt : ℚ → String) (fn : FunctionPtr) : ∀ args : List Ast,
    ( impl.format_routine fmt fn args).data =
      (routine_lexemes fmt fn args).flatMap Lexeme.text
  | [] => by simp [impl.format_routine, routine_lexemes, Lexeme.text]
  | arg :: rest => by
    rw [impl.format_routine, routine_lexemes]
    simp [to_string_data fmt arg, format_routine_rest_data fmt rest, Lexeme.text]
theorem format_routine_rest_data (fmt : ℚ → String) : ∀ args : List Ast,
    ( impl.format_routine_rest fmt args).data =
      (routine_rest_lexemes fmt args).flatMap Lexeme.text
  | [] => by simp [impl.format_routine_rest, routine_rest_lexemes]
  | arg :: rest => by
    rw [impl.format_routine_rest, routine_rest_lexemes]
    simp [to_string_data fmt arg, format_routine_rest_data fmt rest, Lexeme.text]
end

theorem separable_of_category {a b : Lexeme} (h : a.category ≠ b.category) : a.separable b :=
  Or.inl h

theorem separable_symbols (c d : Char) : (Lexeme.symbol c).separable (Lexeme.symbol d) :=
  Or.inr ⟨rfl, rfl⟩

theorem separable_delimiter_symbol {a : Lexeme} (h : a.is_delimiter = true) (c : Char) :
    a.separable (Lexeme.symbol c) := by
  cases a <;> simp [Lexeme.is_delimiter] at h
  · exact Or.inl (by simp [Lexeme.category])
  · exact separable_symbols _ _

theorem separable_symbol_delimiter {b : Lexeme} (h : b.is_delimiter = true) (c : Char) :
    (Lexeme.symbol c).separable b := by
  cases b <;> simp [Lexeme.is_delimiter] at h
  · exact Or.inl (by simp [Lexeme.category])
  · exact separable_symbols _ _

theorem block_atom {x : Lexeme} (hv : x.valid)
    (hc : x.category = Category.ALPHA ∨ x.category = Category.DIGIT) : block [x] := by
  refine ⟨by simp, by simpa using hv, ?_⟩
  intro a b ha hb
  have hca : a.category = Category.WHITESPACE ∨ a.category = Category.SYMBOL := by
    cases a <;> simp [Lexeme.is_delimiter] at ha <;> simp [Lexeme.category]
  have hcb : b.category = Category.WHITESPACE ∨ b.category = Category.SYMBOL := by
    cases b <;> simp [Lexeme.is_delimiter] at hb <;> simp [Lexeme.category]
  simp only [List.singleton_append, List.chain'_cons, List.chain'_singleton, and_true]
  constructor
  · apply separable_of_category
    rcases hc with h | h <;> rcases hca with h' | h' <;> simp [h, h']
  · apply separable_of_category
    rcases hc with h | h <;> rcases hcb with h' | h' <;> simp [h, h']

theorem block_symbol_left {L : List Lexeme} (h : block L) (c : Char)
    (hc : c ∈ ['(', ')', ',', '-', '!']) : block (Lexeme.symbol c :: L) := by
  obtain ⟨_, hv, hch⟩ := h
  refine ⟨by simp, ?_, ?_⟩
  · intro x hx
    rcases List.mem_cons.1 hx with rfl | hx
    · exact hc
    · exact hv x hx
  · intro a b ha hb
    rw [List.cons_append, List.chain'_cons]
    exact ⟨separable_delimiter_symbol ha c, hch _ b rfl hb⟩

theorem block_symbol_right {L : List Lexeme} (h : block L) (c : Char)
    (hc : c ∈ ['(', ')', ',', '-', '!']) : block (L ++ [Lexeme.symbol c]) := by
  obtain ⟨_, hv, hch⟩ := h
  refine ⟨by simp, ?_, ?_⟩
  · intro x hx
    rcases List.mem_append.1 hx with hx | hx
    · exact hv x hx
    · simp only [List.mem_singleton] at hx; subst hx; exact hc
  · intro a b ha hb
    have h1 := hch a (Lexeme.symbol c) ha rfl
    have h2 : List.Chain' Lexeme.separable [Lexeme.symbol c, b] := by
      simp only [List.chain'_cons, List.chain'_singleton, and_true]
      exact separable_symbol_delimiter hb c
    have := List.chain'_split.2 ⟨(by simpa using h1 :
      List.Chain' Lexeme.separable ((a :: L) ++ [Lexeme.symbol c])), h2⟩
    simpa using this

theorem block_operand {fn : FunctionPtr} {arg : Ast} {inner : List Lexeme} (h : block inner) :
    block (operand_lexemes fn arg inner) := by
  unfold operand_lexemes
  split
  · have := block_symbol_right (block_symbol_left h '(' (by simp)) ')' (by simp)
    simpa using this
  · exact h

/-- Two blocks joined by separating pieces `M` that start and end with a
delimiter. -/
theorem block_join {A B M : List Lexeme} {m1 mk : Lexeme} {rest init : List Lexeme}
    (hA : block A) (hB : block B) (h1 : M = m1 :: rest) (hk : M = init ++ [mk])
    (hm1 : m1.is_delimiter = true) (hmk : mk.is_delimiter = true)
    (hv : ∀ x ∈ M, x.valid) (hM : List.Chain' Lexeme.separable M) : block (A ++ M ++ B) := by
  obtain ⟨hAn, hAv, hAc⟩ := hA
  obtain ⟨_, hBv, hBc⟩ := hB
  refine ⟨by simp [hAn], ?_, ?_⟩
  · intro x hx
    simp only [List.mem_append] at hx
    rcases hx with (hx | hx) | hx
    · exact hAv x hx
    · exact hv x hx
    · exact hBv x hx
  · intro a b ha hb
    have s1 : List.Chain' Lexeme.separable ((a :: A) ++ [m1]) := by simpa using hAc a m1 ha hm1
    have s2 : List.Chain' Lexeme.separable ([m1] ++ rest) := by simpa [← h1] using hM
    have s3 := List.Chain'.append_overlap s1 s2 (by simp)
    have s3' : List.Chain' Lexeme.separable ((a :: A ++ init) ++ [mk]) := by
      have : (a :: A) ++ [m1] ++ rest = (a :: A ++ init) ++ [mk] := by
        have hM' : m1 :: rest = init ++ [mk] := h1.symm.trans hk
        simp only [List.cons_append, List.append_assoc, List.singleton_append, List.nil_append,
          hM']
      rw [← this]
      exact s3
    have s4 : List.Chain' Lexeme.separable ([mk] ++ (B ++ [b])) := by simpa using hBc mk b hmk hb
    have s5 := List.Chain'.append_overlap s3' s4 (by simp)
    have : (a :: A ++ init) ++ [mk] ++ (B ++ [b]) = a :: (A ++ M ++ B ++ [b]) := by
      simp only [List.cons_append, List.append_assoc, hk]
    rw [← this]
    exact s5

theorem unary_identifier : ∀ fn : FunctionPtr, (deref fn).syntax_ = Syntax.INFIX →
    get (deref fn).identifier 1 = some fn →
      ∃ c ∈ ['-', '!'], (deref fn).identifier.data = [c] := by
  decide

theorem binary_identifier : ∀ fn : FunctionPtr, (deref fn).syntax_ = Syntax.INFIX →
    get (deref fn).identifier 2 = some fn →
      (deref fn).arity_type = ArityType.DYNAMIC ∧ (deref fn).identifier.data ≠ [] ∧
      (∀ c ∈ (deref fn).identifier.data, categorize c = Category.SYMBOL) ∧
      IDENTIFIERS.contains (deref fn).identifier = true := by
  decide

theorem routine_identifier : ∀ fn : FunctionPtr, (deref fn).syntax_ ≠ Syntax.INFIX →
    (deref fn).identifier.data ≠ [] ∧
      (∀ c ∈ (deref fn).identifier.data, categorize c = Category.ALPHA) ∧
      IDENTIFIERS.contains (deref fn).identifier = true := by
  decide

theorem get_zero_none : ∀ fn : FunctionPtr, get (deref fn).identifier 0 ≠ some fn := by
  decide

theorem block_routine {X : List Lexeme} {identifier : String} (hX : block X)
    (hv : (Lexeme.routine identifier).valid) :
    block ([Lexeme.routine identifier, Lexeme.symbol '('] ++ X ++ [Lexeme.symbol ')']) := by
  have hY := block_symbol_right (block_symbol_left hX '(' (by simp)) ')' (by simp)
  obtain ⟨_, hYv, hYc⟩ := hY
  refine ⟨by simp, ?_, ?_⟩
  · intro x hx
    simp only [List.cons_append, List.nil_append, List.mem_cons] at hx
    rcases hx with rfl | hx
    · exact hv
    · exact hYv x (by simpa using hx)
  · intro a b ha hb
    have h1 := (hYc (Lexeme.symbol '(') b rfl hb).tail
    simp only [List.cons_append, List.nil_append, List.singleton_append, List.chain'_cons]
    refine ⟨?_, ?_, ?_⟩
    · apply separable_of_category
      cases a <;> simp [Lexeme.is_delimiter] at ha <;> simp [Lexeme.category]
    · exact separable_of_category (by simp [Lexeme.category])
    · simpa using h1

theorem block_routine_rest (fmt : ℚ → String) : ∀ (rest : List Ast) (A : List Lexeme),
    block A → (∀ a ∈ rest, block (lexemes fmt a)) →
      block (A ++ routine_rest_lexemes fmt rest) := by
  intro rest
  induction rest with
  | nil => intro A hA _; simpa [routine_rest_lexemes] using hA
  | cons b rest ih =>
    intro A hA hs
    have hj := @block_join A (lexemes fmt b) [Lexeme.symbol ',', Lexeme.space]
      (Lexeme.symbol ',') Lexeme.space [Lexeme.space] [Lexeme.symbol ','] hA
      (hs b (List.mem_cons_self _ _)) rfl rfl rfl rfl
      (by
        intro x hx
        simp only [List.mem_cons, List.mem_singleton, List.not_mem_nil, or_false] at hx
        rcases hx with rfl | rfl
        · simp [Lexeme.valid]
        · trivial)
      (by
        simp only [List.chain'_cons, List.chain'_singleton, and_true]
        exact separable_of_category (by simp [Lexeme.category]))
    have := ih _ hj (fun a ha => hs a (List.mem_cons_of_mem _ ha))
    rw [routine_rest_lexemes]
    simpa [List.append_assoc] using this

mutual
theorem lexemes_block (fmt : ℚ → String) : ∀ t : Ast, round_trips fmt t → block (lexemes fmt t)
  | .Literal v, h => by
    rw [lexemes]
    exact block_atom (by simpa [round_trips] using h) (Or.inr rfl)
  | .Variable n, h => by
    rw [lexemes]
    exact block_atom (by simpa [round_trips] using h) (Or.inl rfl)
  | .Call fn args, h => by
    rw [round_trips] at h
    obtain ⟨hget, hshape, hargs⟩ := h
    have hs := lexemes_block_list fmt args hargs
    rw [lexemes]
    split
    · rename_i hinf
      have hsh := hshape hinf
      match args, hsh, hget, hs with
      | [x], _, hget, hs =>
        rw [infix_lexemes]
        obtain ⟨c, hc, hd⟩ := unary_identifier fn hinf (by simpa using hget)
        have hp : prefix_lexeme (deref fn).identifier = Lexeme.symbol c := by
          simp [prefix_lexeme, hd]
        rw [hp]
        refine block_symbol_left (block_operand (hs x (List.mem_cons_self _ _))) c ?_
        simp only [List.mem_cons, List.mem_singleton, List.not_mem_nil, or_false] at hc ⊢
        rcases hc with rfl | rfl <;> simp
      | [l, r], _, hget, hs =>
        rw [infix_lexemes, infix_rest_lexemes, infix_rest_lexemes]
        obtain ⟨_, b1, b2, b3⟩ := binary_identifier fn hinf (by simpa using hget)
        have hj := @block_join (operand_lexemes fn l (lexemes fmt l))
          (operand_lexemes fn r (lexemes fmt r))
          [Lexeme.space, Lexeme.operator (deref fn).identifier, Lexeme.space]
          Lexeme.space Lexeme.space [Lexeme.operator (deref fn).identifier, Lexeme.space]
          [Lexeme.space, Lexeme.operator (deref fn).identifier]
          (block_operand (hs l (List.mem_cons_self _ _)))
          (block_operand (hs r (List.mem_cons_of_mem _ (List.mem_cons_self _ _))))
          rfl rfl rfl rfl
          (by
            intro x hx
            simp only [List.mem_cons, List.mem_singleton, List.not_mem_nil, or_false] at hx
            rcases hx with rfl | rfl | rfl
            · trivial
            · exact ⟨b1, b2, b3⟩
            · trivial)
          (by
            simp only [List.chain'_cons, List.chain'_singleton, and_true]
            exact ⟨separable_of_category (by simp [Lexeme.category]),
              separable_of_category (by simp [Lexeme.category])⟩)
        simpa [List.append_assoc] using hj
    · rename_i hroutine
      have hv : (Lexeme.routine (deref fn).identifier).valid := routine_identifier fn hroutine
      match args, hget, hs with
      | [], hget, _ => exact absurd (by simpa using hget) (get_zero_none fn)
      | a :: rest, _, hs =>
        rw [routine_lexemes]
        exact block_routine (block_routine_rest fmt rest _ (hs a (List.mem_cons_self _ _))
          (fun b hb => hs b (List.mem_cons_of_mem _ hb))) hv
theorem lexemes_block_list (fmt : ℚ → String) : ∀ args : List Ast, round_trips_list fmt args →
    ∀ a ∈ args, block (lexemes fmt a)
  | [], _ => by intro a ha; simp at ha
  | b :: rest, h => by
    rw [round_trips_list] at h
    intro a ha
    rcases List.mem_cons.1 ha with rfl | ha
    · exact lexemes_block fmt _ h.1
    · exact lexemes_block_list fmt rest h.2 a ha
end

theorem peek_lexer_at (o : List Nat) (pre : List Token) (x : Token) (rest : List Token) :
    (lexer_at o pre (x :: rest)).peek = x := by
  simp only [lexer_at, Lexer.peek]
  rw [List.getD_eq_getElem?_getD, List.getElem?_append_right (le_refl _)]
  simp

theorem discard_lexer_at (o : List Nat) (pre : List Token) (x y : Token) (rest : List Token) :
    (lexer_at o pre (x :: y :: rest)).discard = lexer_at o (pre ++ [x]) (y :: rest) := by
  simp [lexer_at, Lexer.discard]

theorem lexer_at_append (o : List Nat) (pre A B : List Token) :
    lexer_at o (pre ++ A) B = { lexer_at o pre (A ++ B) with _cursor := pre.length + A.length } := by
  simp [lexer_at]

theorem quiet_head {post : List Token} (h : quiet post) :
    ∃ f rest, post = f :: rest ∧ next_is_primary f = false := h

theorem closing_quiet {post : List Token} (h : closing post) : quiet post := by
  obtain ⟨f, rest, h1, h2, _⟩ := h
  exact ⟨f, rest, h1, h2⟩

theorem shorthand_quiet (o : List Nat) (pre post : List Token) (x : Ast) (m : Nat)
    (hq : quiet post) : parse_shorthand (m + 1) (lexer_at o pre post) x =
      .ok (x, lexer_at o pre post) := by
  obtain ⟨f, rest, rfl, hf⟩ := hq
  rw [parse_shorthand, peek_lexer_at, if_neg (by simp [hf])]

theorem parses_primary_double (o : List Nat) (v : ℚ) :
    parses_primary o [Token.double v] (.Literal v) := by
  intro m pre post hq hm
  obtain ⟨f, rest, rfl, hf⟩ := hq
  obtain ⟨k, rfl⟩ : ∃ k, m = k + 2 := ⟨m - 2, by simp at hm; omega⟩
  rw [parse_primary]
  simp only [Lexer.read, List.singleton_append, peek_lexer_at, discard_lexer_at]
  exact shorthand_quiet o _ _ _ _ ⟨f, rest, rfl, hf⟩

theorem parses_primary_name (o : List Nat) (n : String) :
    parses_primary o [Token.string_view n] (.Variable n) := by
  intro m pre post hq hm
  obtain ⟨f, rest, rfl, hf⟩ := hq
  obtain ⟨k, rfl⟩ : ∃ k, m = k + 2 := ⟨m - 2, by simp at hm; omega⟩
  rw [parse_primary]
  simp only [Lexer.read, List.singleton_append, peek_lexer_at, discard_lexer_at]
  exact shorthand_quiet o _ _ _ _ ⟨f, rest, rfl, hf⟩

theorem peek_function_lexer_at (o : List Nat) (pre : List Token) (f : Token) (rest : List Token)
    (n : Nat) : peek_function (lexer_at o pre (f :: rest)) n =
      match f with
      | .Identifier identifier => get identifier n
      | _ => none := by
  cases f <;> simp only [peek_function, peek_lexer_at]

theorem precedence_stops (o : List Nat) (pre post : List Token) (x : Ast) (m : Nat)
    (hc : closing post) :
    parse_precedence (m + 1) (lexer_at o pre post) x LOWEST none = .ok (x, lexer_at o pre post) := by
  obtain ⟨f, rest, rfl, _, hid⟩ := hc
  rw [parse_precedence, peek_function_lexer_at]
  cases f <;> simp_all

theorem continues_expression {o : List Nat} {T : List Token} {x : Ast}
    {cond : List Token → Prop} (h : continues o T x cond)
    (hcond : ∀ post, closing post → cond post) : parses_expression o T x := by
  intro m pre post hc hm
  refine h m pre post _ (closing_quiet hc) (hcond post hc) hm ?_
  intro m' hm'
  obtain ⟨k, rfl⟩ : ∃ k, m' = k + 1 := ⟨m' - 1, by omega⟩
  exact precedence_stops o _ _ _ _ hc

theorem primary_continues {o : List Nat} {T : List Token} {x : Ast}
    (h : parses_primary o T x) (hT : T ≠ []) : continues o T x (fun _ => True) := by
  intro m pre post R hq _ hm hR
  obtain ⟨k, rfl⟩ : ∃ k, m = k + 1 := ⟨m - 1, by omega⟩
  have hlen : 1 ≤ T.length := List.length_pos.2 hT
  rw [parse_expression, h k pre post hq (by omega)]
  exact hR k (by simp at hm ⊢; omega)

theorem parses_primary_paren {o : List Nat} {T : List Token} {x : Ast}
    (h : parses_expression o T x) :
    parses_primary o (Token.char '(' :: (T ++ [Token.char ')'])) x := by
  intro m pre post hq hm
  obtain ⟨f, rest, rfl, hf⟩ := hq
  obtain ⟨k, rfl⟩ : ∃ k, m = k + 2 := ⟨m - 2, by simp at hm; omega⟩
  have hT : T ≠ [] ∨ T = [] := by by_cases h0 : T = [] <;> simp [h0]
  have hE := h (k + 1) (pre ++ [Token.char '(']) (Token.char ')' :: f :: rest)
    ⟨_, _, rfl, by decide, by simp⟩ (by simp at hm ⊢; omega)
  rw [parse_primary]
  have hshape : Token.char '(' :: (T ++ [Token.char ')']) ++ f :: rest =
      Token.char '(' :: (T ++ Token.char ')' :: f :: rest) := by simp
  rw [hshape]
  have hd : (lexer_at o pre (Token.char '(' :: (T ++ Token.char ')' :: f :: rest))).discard =
      lexer_at o (pre ++ [Token.char '(']) (T ++ Token.char ')' :: f :: rest) := by
    cases T with
    | nil => exact discard_lexer_at _ _ _ _ _
    | cons t T' => exact discard_lexer_at _ _ _ _ _
  simp only [Lexer.read, peek_lexer_at, hd, if_true, hE]
  simp only [peek_lexer_at, Token.has_char, decide_True, if_true, discard_lexer_at]
  have := shorthand_quiet o (pre ++ [Token.char '('] ++ T ++ [Token.char ')']) (f :: rest) x k
    ⟨f, rest, rfl, hf⟩
  simpa using this

theorem lowest_le (p : Precedence) : p ≥ LOWEST := by
  cases p <;> decide

theorem precedence_rhs_stops (o : List Nat) (pre post : List Token) (r : Ast) (g : FunctionPtr)
    (min : Precedence) (m : Nat) (hq : quiet post) (hnc : no_climb g post) :
    parse_precedence_rhs (m + 1) (lexer_at o pre post) r g min = .ok (r, lexer_at o pre post) := by
  obtain ⟨f, rest, rfl, _⟩ := hq
  rw [parse_precedence_rhs, peek_function_lexer_at]
  cases f with
  | Identifier id =>
    simp only []
    cases hg : get id 2 with
    | none => rfl
    | some h =>
      simp only []
      rw [if_neg (by simp [hnc id rest h rfl hg])]
  | _ => rfl

/-- One round of the operator loop: from the left operand `lhs`, the operator
`g` and its right operand are consumed and the loop goes on with their call. -/
theorem precedence_step {o : List Nat} {TR : List Token} {r : Ast} {g : FunctionPtr}
    (hr : parses_primary o TR r) (hTR : TR ≠ [])
    (hg : get (deref g).identifier 2 = some g) (lhs : Ast) (pre post : List Token) (R : Parsed)
    (hq : quiet post) (hnc : no_climb g post)
    (hR : ∀ m', 4 * post.length + 1 ≤ m' →
      parse_precedence m' (lexer_at o (pre ++ Token.Identifier (deref g).identifier :: TR) post)
        (.Call g [lhs, r]) LOWEST none = R) :
    ∀ m, 4 * (Token.Identifier (deref g).identifier :: (TR ++ post)).length + 1 ≤ m →
      parse_precedence m (lexer_at o pre (Token.Identifier (deref g).identifier :: (TR ++ post)))
        lhs LOWEST none = R := by
  intro m hm
  have hlen : 1 ≤ TR.length := List.length_pos.2 hTR
  obtain ⟨k, rfl⟩ : ∃ k, m = k + 2 := ⟨m - 2, by simp at hm; omega⟩
  rw [parse_precedence, peek_function_lexer_at]
  simp only [hg]
  rw [if_pos (lowest_le _)]
  have hd : (lexer_at o pre (Token.Identifier (deref g).identifier :: (TR ++ post))).discard =
      lexer_at o (pre ++ [Token.Identifier (deref g).identifier]) (TR ++ post) := by
    cases TR with
    | nil => exact absurd rfl hTR
    | cons t T' => exact discard_lexer_at _ _ _ _ _
  rw [hd, hr (k + 1) _ post hq (by simp at hm ⊢; omega)]
  simp only []
  rw [precedence_rhs_stops o _ post r g LOWEST k hq hnc]
  simp only []
  have := hR (k + 1) (by simp at hm ⊢; omega)
  simpa using this

theorem continues_binary {o : List Nat} {TL TR : List Token} {l r : Ast} {g : FunctionPtr}
    {condL : List Token → Prop} (hl : continues o TL l condL)
    (hcl : ∀ post, condL (Token.Identifier (deref g).identifier :: post))
    (hr : parses_primary o TR r) (hTR : TR ≠ [])
    (hg : get (deref g).identifier 2 = some g) :
    continues o (TL ++ Token.Identifier (deref g).identifier :: TR) (.Call g [l, r])
      (no_climb g) := by
  intro m pre post R hq hnc hm hR
  have hshape : TL ++ Token.Identifier (deref g).identifier :: TR ++ post =
      TL ++ Token.Identifier (deref g).identifier :: (TR ++ post) := by simp
  rw [hshape]
  refine hl m pre _ R ⟨_, _, rfl, rfl⟩ (hcl _) (by rw [← hshape]; exact hm) ?_
  refine precedence_step hr hTR hg l (pre ++ TL) post R hq hnc ?_
  intro m' hm'
  have := hR m' hm'
  simpa using this

theorem parses_primary_unary {o : List Nat} {TX : List Token} {x : Ast} {fn : FunctionPtr}
    (hx : parses_primary o TX x) (h : Token) (TX' : List Token) (hTX : TX = h :: TX')
    (hh : h.has_char '(' = false) (hg : get (deref fn).identifier 1 = some fn) :
    parses_primary o (Token.Identifier (deref fn).identifier :: TX) (.Call fn [x]) := by
  intro m pre post hq hm
  obtain ⟨k, rfl⟩ : ∃ k, m = k + 2 := ⟨m - 2, by simp at hm; omega⟩
  subst hTX
  rw [parse_primary]
  simp only [Lexer.read, List.cons_append, peek_lexer_at, discard_lexer_at, hh,
    Bool.false_eq_true, if_false, hg]
  have := hx (k + 1) (pre ++ [Token.Identifier (deref fn).identifier]) post hq
    (by simp at hm ⊢; omega)
  simp only [List.cons_append] at this
  rw [this]
  simp only []
  have hs := shorthand_quiet o (pre ++ [Token.Identifier (deref fn).identifier] ++ h :: TX') post
    (.Call fn [x]) k hq
  simpa using hs

theorem parse_expression_ok_peek {m : Nat} {lx : Lexer} {r : Ast × Lexer}
    (h : parse_expression m lx = .ok r) : lx.peek.has_char ')' = false := by
  cases m with
  | zero => simp [parse_expression] at h
  | succ k =>
    rw [parse_expression] at h
    cases hp : parse_primary k lx with
    | error e => simp [hp] at h
    | ok p =>
      cases k with
      | zero => simp [parse_primary] at hp
      | succ j =>
        rw [parse_primary] at hp
        simp only [Lexer.read] at hp
        cases hpk : lx.peek with
        | char c =>
          simp only [hpk] at hp
          by_cases hc : c = '('
          · subst hc; decide
          · simp [hc, impl.error] at hp
        | _ => rfl

theorem closing_rest (Ts : List (List Token)) (post : List Token) :
    closing (rest_tokens Ts ++ Token.char ')' :: post) := by
  cases Ts with
  | nil => exact ⟨_, _, rfl, by decide, by simp⟩
  | cons T Ts => exact ⟨_, _, rfl, by decide, by simp⟩

theorem routine_args_rest (o : List Nat) (identifier : String) (fn : FunctionPtr) :
    ∀ (Ts : List (List Token)) (xs : List Ast), List.Forall₂ (parses_expression o) Ts xs →
    ∀ (done : List Ast) (m : Nat) (pre post : List Token), post ≠ [] →
      get identifier ((done ++ xs).length % 256) = some fn →
      4 * (rest_tokens Ts ++ Token.char ')' :: post).length + 2 ≤ m →
      parse_routine_args m (lexer_at o pre (rest_tokens Ts ++ Token.char ')' :: post))
          identifier done false =
        .ok (.Call fn (done ++ xs), lexer_at o (pre ++ (rest_tokens Ts ++ [Token.char ')'])) post) := by
  intro Ts xs hall
  induction hall with
  | nil =>
    intro done m pre post hpost hg hm
    obtain ⟨k, rfl⟩ : ∃ k, m = k + 1 := ⟨m - 1, by omega⟩
    obtain ⟨y, post', rfl⟩ : ∃ y post', post = y :: post' := by
      cases post with
      | nil => exact absurd rfl hpost
      | cons y post' => exact ⟨y, post', rfl⟩
    rw [parse_routine_args]
    simp only [rest_tokens, List.nil_append, peek_lexer_at, Token.has_char, decide_True, if_true,
      List.append_nil] at hg ⊢
    rw [hg]
    simp [discard_lexer_at]
  | @cons T x Ts xs hT _ ih =>
    intro done m pre post hpost hg hm
    obtain ⟨k, rfl⟩ : ∃ k, m = k + 1 := ⟨m - 1, by omega⟩
    rw [parse_routine_args]
    have hshape : rest_tokens (T :: Ts) ++ Token.char ')' :: post =
        Token.char ',' :: (T ++ (rest_tokens Ts ++ Token.char ')' :: post)) := by
      simp [rest_tokens]
    rw [hshape]
    have hd : (lexer_at o pre (Token.char ',' ::
        (T ++ (rest_tokens Ts ++ Token.char ')' :: post)))).discard =
        lexer_at o (pre ++ [Token.char ',']) (T ++ (rest_tokens Ts ++ Token.char ')' :: post)) := by
      cases T with
      | nil =>
        cases Ts with
        | nil => exact discard_lexer_at _ _ _ _ _
        | cons T' Ts' => exact discard_lexer_at _ _ _ _ _
      | cons t T' => exact discard_lexer_at _ _ _ _ _
    have hc1 : (Token.char ',').has_char ')' = false := by decide
    have hc2 : (Token.char ',').has_char ',' = true := by decide
    simp only [Lexer.read, peek_lexer_at, hc1, hc2, Bool.false_eq_true, if_false, if_true, hd]
    rw [hshape] at hm
    rw [hT k _ _ (closing_rest Ts post) (by simp at hm ⊢; omega)]
    simp only []
    have := ih (done ++ [x]) k (pre ++ [Token.char ','] ++ T) post hpost
      (by simpa [List.append_assoc] using hg) (by simp at hm ⊢; omega)
    rw [this]
    simp [rest_tokens, List.append_assoc]

theorem parses_primary_routine {o : List Nat} {identifier : String} {fn : FunctionPtr}
    {T : List Token} {x : Ast} {Ts : List (List Token)} {xs : List Ast}
    (hT : parses_expression o T x) (hTs : List.Forall₂ (parses_expression o) Ts xs)
    (hg : get identifier ((x :: xs).length % 256) = some fn) :
    parses_primary o
      (Token.Identifier identifier :: Token.char '(' :: (T ++ rest_tokens Ts ++ [Token.char ')']))
      (.Call fn (x :: xs)) := by
  intro m pre post hq hm
  obtain ⟨k, rfl⟩ : ∃ k, m = k + 4 := ⟨m - 4, by simp at hm; omega⟩
  have hpost : post ≠ [] := by
    obtain ⟨f, rest, rfl, _⟩ := hq
    simp
  have hshape : Token.Identifier identifier :: Token.char '(' ::
      (T ++ rest_tokens Ts ++ [Token.char ')']) ++ post =
      Token.Identifier identifier :: Token.char '(' ::
        (T ++ (rest_tokens Ts ++ Token.char ')' :: post)) := by simp
  rw [hshape] at hm ⊢
  have hE := hT (k + 1) (pre ++ [Token.Identifier identifier] ++ [Token.char '('])
    (rest_tokens Ts ++ Token.char ')' :: post) (closing_rest Ts post)
    (by simp at hm ⊢; omega)
  have hd : (lexer_at o (pre ++ [Token.Identifier identifier])
      (Token.char '(' :: (T ++ (rest_tokens Ts ++ Token.char ')' :: post)))).discard =
      lexer_at o (pre ++ [Token.Identifier identifier] ++ [Token.char '('])
        (T ++ (rest_tokens Ts ++ Token.char ')' :: post)) := by
    cases T with
    | nil =>
      cases Ts with
      | nil => exact discard_lexer_at _ _ _ _ _
      | cons T' Ts' => exact discard_lexer_at _ _ _ _ _
    | cons t T' => exact discard_lexer_at _ _ _ _ _
  have hnot := parse_expression_ok_peek hE
  have hop : (Token.char '(').has_char '(' = true := by decide
  rw [parse_primary]
  simp only [Lexer.read, peek_lexer_at, discard_lexer_at, hop, if_true]
  rw [parse_routine_call, hd, parse_routine_args, hnot]
  simp only [Bool.false_eq_true, if_false, if_true, hE, List.nil_append]
  have hrest := routine_args_rest o identifier fn Ts xs hTs [x] (k + 1)
    (pre ++ [Token.Identifier identifier] ++ [Token.char '('] ++ T) post hpost
    (by simpa using hg) (by simp at hm ⊢; omega)
  rw [hrest]
  simp only []
  have hs := shorthand_quiet o (pre ++ [Token.Identifier identifier] ++ [Token.char '('] ++ T ++
    (rest_tokens Ts ++ [Token.char ')'])) post (.Call fn ([x] ++ xs)) (k + 2) hq
  simpa [List.append_assoc] using hs

theorem unary_operator : ∀ fn : FunctionPtr, (deref fn).syntax_ = Syntax.INFIX →
    get (deref fn).identifier 1 = some fn →
      (prefix_lexeme (deref fn).identifier).tokens = [Token.Identifier (deref fn).identifier] ∧
      (deref fn).precedence = Precedence.L1 := by
  decide

theorem symbol_paren_tokens :
    symbol_char_token '(' = Token.char '(' ∧ symbol_char_token ')' = Token.char ')' ∧
      symbol_char_token ',' = Token.char ',' := by
  decide

theorem operand_tokens (fn : FunctionPtr) (arg : Ast) (inner : List Lexeme) :
    (operand_lexemes fn arg inner).flatMap Lexeme.tokens =
      if parenthesized fn arg then
        Token.char '(' :: (inner.flatMap Lexeme.tokens ++ [Token.char ')'])
      else inner.flatMap Lexeme.tokens := by
  unfold operand_lexemes
  split <;> simp [Lexeme.tokens, symbol_paren_tokens]

theorem reads_back_expression {o : List Nat} {fmt : ℚ → String} {t : Ast}
    (h : reads_back o fmt t) : parses_expression o (rendered_tokens fmt t) t := by
  by_cases hb : is_binary t
  · match t, hb, h with
    | .Call g [l, r], hb, h =>
      refine continues_expression (h.binary g l r rfl hb) ?_
      intro post hc id rest k hpost
      obtain ⟨f, rest', h1, _, h3⟩ := hc
      rw [h1] at hpost
      exact absurd (List.cons.inj hpost).1 (h3 id)
  · exact continues_expression (primary_continues (h.primary hb) h.nonempty) (fun _ _ => trivial)

theorem reads_back_operand {o : List Nat} {fmt : ℚ → String} {x : Ast} (fn : FunctionPtr)
    (h : reads_back o fmt x) (hx : parenthesized fn x ∨ ¬ is_binary x) :
    parses_primary o ((operand_lexemes fn x (lexemes fmt x)).flatMap Lexeme.tokens) x ∧
      (operand_lexemes fn x (lexemes fmt x)).flatMap Lexeme.tokens ≠ [] := by
  rw [operand_tokens]
  by_cases hp : parenthesized fn x
  · rw [if_pos hp]
    exact ⟨parses_primary_paren (reads_back_expression h), by simp⟩
  · rw [if_neg hp]
    rcases hx with hx | hx
    · exact absurd hx hp
    · exact ⟨h.primary hx, h.nonempty⟩

theorem routine_rest_tokens (fmt : ℚ → String) : ∀ rest : List Ast,
    (routine_rest_lexemes fmt rest).flatMap Lexeme.tokens =
      rest_tokens (rest.map (rendered_tokens fmt)) := by
  intro rest
  induction rest with
  | nil => simp [routine_rest_lexemes, rest_tokens]
  | cons b rest ih =>
    rw [routine_rest_lexemes]
    simp [Lexeme.tokens, symbol_paren_tokens, rest_tokens, rendered_tokens, ih]

theorem le_L1 (p : Precedence) : p ≤ Precedence.L1 := by
  cases p <;> decide

theorem not_climb_of_lt {g h : FunctionPtr} (hlt : ¬ (deref h).precedence ≤ (deref g).precedence) :
    climbs g h = false := by
  have h1 : ¬ (deref h).precedence.to_uint8 ≤ (deref g).precedence.to_uint8 := hlt
  have h2 : ¬ (deref g).precedence > (deref h).precedence := by
    intro hgt
    have h3 : (deref h).precedence.to_uint8 < (deref g).precedence.to_uint8 := hgt
    omega
  have h4 : ¬ (deref g).precedence = (deref h).precedence := by
    intro heq
    rw [heq] at h1
    exact h1 (le_refl _)
  simp [climbs, h2, h4]

theorem right_operand_primary {fmt : ℚ → String} {g : FunctionPtr} {r : Ast}
    (hr : round_trips fmt r) (hs : ¬ tighter_binary g r) : parenthesized g r ∨ ¬ is_binary r := by
  by_cases hb : is_binary r
  · left
    match r, hb, hr, hs with
    | .Call h [_, _], hb, hr, hs =>
      rw [round_trips] at hr
      obtain ⟨hdyn, _, _⟩ := binary_identifier h hb (by simpa using hr.1)
      have hb' : (deref h).syntax_ = Syntax.INFIX := hb
      refine ⟨?_, rfl⟩
      have h1 : ¬ (deref g).precedence.to_uint8 < (deref h).precedence.to_uint8 :=
        fun hlt => hs ⟨hb', hdyn, hlt⟩
      have h2 : (deref h).precedence.to_uint8 ≤ (deref g).precedence.to_uint8 := by omega
      exact h2
  · exact Or.inr hb

mutual
theorem round_trips_reads_back (o : List Nat) (fmt : ℚ → String) :
    ∀ t : Ast, round_trips fmt t → reads_back o fmt t
  | .Literal v, _ => by
    refine ⟨by simp [rendered_tokens, lexemes, Lexeme.tokens], fun _ => ?_, fun g l r h => by cases h⟩
    simpa [rendered_tokens, lexemes, Lexeme.tokens] using parses_primary_double o v
  | .Variable n, _ => by
    refine ⟨by simp [rendered_tokens, lexemes, Lexeme.tokens], fun _ => ?_, fun g l r h => by cases h⟩
    simpa [rendered_tokens, lexemes, Lexeme.tokens] using parses_primary_name o n
  | .Call fn args, h => by
    rw [round_trips] at h
    obtain ⟨hget, hshape, hargs⟩ := h
    have hs := round_trips_reads_back_list o fmt args hargs
    by_cases hinf : (deref fn).syntax_ = Syntax.INFIX
    · have hsh := hshape hinf
      match args, hsh, hget, hs, hargs with
      | [x], _, hget, hs, hargs =>
        have hx := hs x (List.mem_cons_self _ _)
        obtain ⟨htok, hprec⟩ := unary_operator fn hinf (by simpa using hget)
        have hshape : rendered_tokens fmt (.Call fn [x]) =
            Token.Identifier (deref fn).identifier ::
              (operand_lexemes fn x (lexemes fmt x)).flatMap Lexeme.tokens := by
          simp [rendered_tokens, lexemes, hinf, infix_lexemes, htok]
        have hprim : parses_primary o (rendered_tokens fmt (.Call fn [x])) (.Call fn [x]) := by
          rw [hshape, operand_tokens]
          cases x with
          | Call h sub =>
            have hp : parenthesized fn (.Call h sub) := by
              refine ⟨?_, rfl⟩
              rw [hprec]
              exact le_L1 _
            rw [if_pos hp]
            have := @parses_primary_routine o (deref fn).identifier fn
              ((lexemes fmt (.Call h sub)).flatMap Lexeme.tokens) (.Call h sub) [] []
              (reads_back_expression hx) List.Forall₂.nil (by simpa using hget)
            simpa [rest_tokens] using this
          | Literal v =>
            rw [if_neg (by simp [parenthesized, Ast.has_Call])]
            have := parses_primary_unary (hx.primary (by simp [is_binary]))
              (Token.double v) [] (by simp [rendered_tokens, lexemes, Lexeme.tokens]) rfl
              (by simpa using hget)
            simpa [rendered_tokens] using this
          | Variable n =>
            rw [if_neg (by simp [parenthesized, Ast.has_Call])]
            have := parses_primary_unary (hx.primary (by simp [is_binary]))
              (Token.string_view n) [] (by simp [rendered_tokens, lexemes, Lexeme.tokens]) rfl
              (by simpa using hget)
            simpa [rendered_tokens] using this
        exact ⟨by rw [hshape]; simp, fun _ => hprim, fun g l r h => by cases h⟩
      | [l, r], hsh, hget, hs, hargs =>
        have hl := hs l (List.mem_cons_self _ _)
        have hr := hs r (List.mem_cons_of_mem _ (List.mem_cons_self _ _))
        have hrt_l : round_trips fmt l := by
          simp only [round_trips_list] at hargs; exact hargs.1
        have hrt_r : round_trips fmt r := by
          simp only [round_trips_list] at hargs; exact hargs.2.1
        have hg2 : get (deref fn).identifier 2 = some fn := by simpa using hget
        have hshape : rendered_tokens fmt (.Call fn [l, r]) =
            (operand_lexemes fn l (lexemes fmt l)).flatMap Lexeme.tokens ++
              Token.Identifier (deref fn).identifier ::
                (operand_lexemes fn r (lexemes fmt r)).flatMap Lexeme.tokens := by
          simp [rendered_tokens, lexemes, hinf, infix_lexemes, infix_rest_lexemes,
            Lexeme.tokens]
        obtain ⟨hpr, hnr⟩ := reads_back_operand fn hr
          (right_operand_primary hrt_r (by simpa [infix_shape] using hsh))
        have hcont : continues o (rendered_tokens fmt (.Call fn [l, r])) (.Call fn [l, r])
            (no_climb fn) := by
          rw [hshape]
          by_cases hlp : parenthesized fn l ∨ ¬ is_binary l
          · obtain ⟨hpl, hnl⟩ := reads_back_operand fn hl hlp
            exact continues_binary (primary_continues hpl hnl) (fun _ => trivial) hpr hnr hg2
          · have hnp : ¬ parenthesized fn l := fun h => hlp (Or.inl h)
            have hbl : is_binary l := by
              by_contra h
              exact hlp (Or.inr h)
            match l, hbl, hl, hnp with
            | .Call h [l2, r2], hbl, hl, hnp =>
              rw [operand_tokens, if_neg hnp]
              have hlt : ¬ (deref h).precedence ≤ (deref fn).precedence := by
                intro hle
                exact hnp ⟨hle, rfl⟩
              refine continues_binary (hl.binary h l2 r2 rfl hbl) ?_ hpr hnr hg2
              intro post id rest k hpost hk
              have hid : (deref fn).identifier = id := by
                have := (List.cons.inj hpost).1
                exact Token.Identifier.inj this
              rw [← hid, hg2] at hk
              cases hk
              exact not_climb_of_lt hlt
        refine ⟨by rw [hshape]; simp, fun hnb => absurd hinf hnb, ?_⟩
        intro g l' r' heq _
        cases heq
        exact hcont
    · match args, hget, hs with
      | [], hget, _ => exact absurd (by simpa using hget) (get_zero_none fn)
      | a :: rest, hget, hs =>
        have ha := hs a (List.mem_cons_self _ _)
        have hshape : rendered_tokens fmt (.Call fn (a :: rest)) =
            Token.Identifier (deref fn).identifier :: Token.char '(' ::
              (rendered_tokens fmt a ++ rest_tokens (rest.map (rendered_tokens fmt)) ++
                [Token.char ')']) := by
          simp [rendered_tokens, lexemes, hinf, routine_lexemes, Lexeme.tokens,
            symbol_paren_tokens, routine_rest_tokens]
        have hall : List.Forall₂ (parses_expression o) (rest.map (rendered_tokens fmt)) rest := by
          rw [List.forall₂_map_left_iff, List.forall₂_same]
          intro b hb
          exact reads_back_expression (hs b (List.mem_cons_of_mem _ hb))
        have hprim := @parses_primary_routine o (deref fn).identifier fn _ a _ rest
          (reads_back_expression ha) hall hget
        refine ⟨by rw [hshape]; simp, fun _ => by rw [hshape]; exact hprim, ?_⟩
        intro g l r heq hg
        cases heq
        exact absurd hg hinf
theorem round_trips_reads_back_list (o : List Nat) (fmt : ℚ → String) :
    ∀ args : List Ast, round_trips_list fmt args → ∀ a ∈ args, reads_back o fmt a
  | [], _ => by intro a ha; simp at ha
  | b :: rest, h => by
    rw [round_trips_list] at h
    intro a ha
    rcases List.mem_cons.1 ha with rfl | ha
    · exact round_trips_reads_back o fmt _ h.1
    · exact round_trips_reads_back_list o fmt rest h.2 a ha
end

theorem block_chain {L : List Lexeme} (h : block L) : List.Chain' Lexeme.separable L := by
  have := h.2.2 Lexeme.space Lexeme.space rfl rfl
  exact List.Chain'.infix (List.Chain'.tail this) ⟨[], [Lexeme.space], by simp⟩

theorem Lexer_new_rendered (uninit : Category) (fmt : ℚ → String) (t : Ast)
    (h : round_trips fmt t) :
    ∃ o, Lexer.new uninit (Ast.to_string fmt t) =
      .ok (lexer_at o [] (rendered_tokens fmt t ++ [Token.EOL])) := by
  have hb := lexemes_block fmt t h
  have hlex := lex_lexemes uninit (lexemes fmt t) hb.1 hb.2.1 (block_chain hb)
  rw [← to_string_data] at hlex
  have hfst := tokenize_segments_fst (categorize_str uninit (Ast.to_string fmt t).data) 0
  rw [hlex] at hfst
  unfold Lexer.new
  cases ht : tokenize_segments 0 (categorize_str uninit (Ast.to_string fmt t).data) with
  | none => rw [ht] at hfst; simp at hfst
  | some toks =>
    rw [ht] at hfst
    simp only [Option.map_some', Option.some.injEq] at hfst
    refine ⟨toks.map Prod.snd, ?_⟩
    simp only [lexer_at, List.nil_append, List.length_nil, hfst, rendered_tokens]

/-- Parsing the rendering of a tree that satisfies `round_trips` gives the
tree back. -/
theorem parse_to_string (uninit : Category) (fmt : ℚ → String) (t : Ast)
    (h : round_trips fmt t) : parse uninit (Ast.to_string fmt t) = .ok t := by
  obtain ⟨o, hl⟩ := Lexer_new_rendered uninit fmt t h
  have hE := reads_back_expression (round_trips_reads_back o fmt t h)
    (fuel_for (lexer_at o [] (rendered_tokens fmt t ++ [Token.EOL]))) [] [Token.EOL]
    ⟨_, _, rfl, rfl, by simp⟩
    (by simp only [fuel_for, lexer_at, List.nil_append]; omega)
  rw [parse_of_tokenized hl, hE]
  simp [Lexer.read, peek_lexer_at, Token.has_EOL]

theorem intercalate_go_operands (fmt : ℚ → String) (fn : FunctionPtr) :
    ∀ (args : List Ast) (acc : String),
      String.intercalate.go acc (delimiter fn) (operand_texts fmt fn args) =
        acc ++ impl.format_infix_rest fmt fn args := by
  intro args
  induction args with
  | nil => intro acc; simp [String.intercalate.go, operand_texts, impl.format_infix_rest]
  | cons a as ih =>
    intro acc
    have ih' := ih (acc ++ delimiter fn ++ impl.format_operand fn a (Ast.to_string fmt a))
    simp only [operand_texts, List.map_cons, String.intercalate.go] at ih' ⊢
    rw [ih', impl.format_infix_rest]
    simp only [delimiter, String.append_assoc]

theorem format_infix_intercalate (fmt : ℚ → String) (fn : FunctionPtr) (args : List Ast)
    (h : args.length ≠ 1) :
    impl.format_infix fmt fn args =
      String.intercalate (delimiter fn) (operand_texts fmt fn args) := by
  cases args with
  | nil => simp [ impl.format_infix, operand_texts, String.intercalate]
  | cons a as =>
    cases as with
    | nil => simp at h
    | cons b bs =>
      rw [ impl.format_infix]
      have := intercalate_go_operands fmt fn (b :: bs) (impl.format_operand fn a (Ast.to_string fmt a))
      simp only [operand_texts, List.map_cons, String.intercalate] at this ⊢
      rw [this]

theorem precedence_example_text (fmt : ℚ → String) :
    Ast.to_string fmt (.Call 5 [.Literal 1, .Call 2 [.Literal 2, .Literal 3]]) =
      fmt 1 ++ (" + " ++ (fmt 2 ++ (" * " ++ fmt 3))) := by
  have : Ast.to_string fmt (.Call 5 [.Literal 1, .Call 2 [.Literal 2, .Literal 3]]) =
      fmt 1 ++ ((" " ++ "+" ++ " ") ++ (fmt 2 ++ ((" " ++ "*" ++ " ") ++ fmt 3 ++ "")) ++ "") := rfl
  rw [this]
  simp [String.append_assoc]

theorem prefix_eq_take {p l : List Char} (h : p <+: l) : p = l.take p.length := by
  obtain ⟨t, rfl⟩ := h
  simp

theorem symbol_token_greedy (rest : List Char) :
    ∀ n, n ≤ rest.length →
      ((symbol_token rest n).1 = Token.Identifier (String.mk (rest.take (symbol_token rest n).2)) ∧
        1 ≤ (symbol_token rest n).2 ∧ (symbol_token rest n).2 ≤ rest.length ∧
        registered (rest.take (symbol_token rest n).2) = true ∧
        ∀ m, (symbol_token rest n).2 < m → m ≤ n → registered (rest.take m) = false) ∨
      ((symbol_token rest n).1 = Token.char (rest.headD ' ') ∧ (symbol_token rest n).2 = 1 ∧
        ∀ m, 1 ≤ m → m ≤ n → registered (rest.take m) = false) := by
  intro n
  induction n with
  | zero =>
    intro _
    right
    refine ⟨rfl, rfl, ?_⟩
    intro m h1 h2
    omega
  | succ n ih =>
    intro hn
    rw [symbol_token]
    by_cases hc : IDENTIFIERS.contains (String.mk (rest.take (n + 1))) = true
    · rw [if_pos hc]
      left
      refine ⟨rfl, by simp, hn, hc, ?_⟩
      intro m h1 h2
      simp only at h1
      omega
    · rw [if_neg hc]
      have hc' : registered (rest.take (n + 1)) = false := by simpa [registered] using hc
      by_cases h0 : n = 0
      · rw [if_pos h0]
        right
        refine ⟨rfl, rfl, ?_⟩
        intro m h1 h2
        have : m = n + 1 := by omega
        rw [this]; exact hc'
      · rw [if_neg h0]
        rcases ih (by omega) with ⟨a, b, c, d, e⟩ | ⟨a, b, c⟩
        · left
          refine ⟨a, b, c, d, ?_⟩
          intro m h1 h2
          by_cases hm : m = n + 1
          · rw [hm]; exact hc'
          · exact e m h1 (by omega)
        · right
          refine ⟨a, b, ?_⟩
          intro m h1 h2
          by_cases hm : m = n + 1
          · rw [hm]; exact hc'
          · exact c m h1 (by omega)

theorem symbol_tokens_greedy (fmt : ℚ → String) : ∀ (fuel off : Nat) (run : List Char),
    run.length ≤ fuel →
      greedy run ((symbol_tokens fuel off run).map Prod.fst) ∧
      (((symbol_tokens fuel off run).map fun p => (p.1.to_string fmt).data).flatten = run) := by
  intro fuel
  induction fuel with
  | zero =>
    intro off run h
    have : run = [] := List.length_eq_zero.1 (by omega)
    subst this
    exact ⟨by simpa [symbol_tokens] using greedy.done, by simp [symbol_tokens]⟩
  | succ fuel ih =>
    intro off run h
    cases run with
    | nil => exact ⟨by simpa [symbol_tokens] using greedy.done, by simp [symbol_tokens]⟩
    | cons c cs =>
      rw [symbol_tokens]
      have hspec := symbol_token_greedy (c :: cs) (c :: cs).length (le_refl _)
      generalize hr : symbol_token (c :: cs) (c :: cs).length = r at hspec
      obtain ⟨tok, k⟩ := r
      simp only at hspec ⊢
      rcases hspec with ⟨a, b, c', d, e⟩ | ⟨a, b, e⟩
      · have hdrop : ((c :: cs).drop k).length ≤ fuel := by
          rw [List.length_drop]; simp only [List.length_cons] at h c' ⊢; omega
        obtain ⟨g1, g2⟩ := ih (off + k) _ hdrop
        have hsplit : (c :: cs).take k ++ (c :: cs).drop k = c :: cs := List.take_append_drop _ _
        have hlen : ((c :: cs).take k).length = k := by
          rw [List.length_take]; exact Nat.min_eq_left c'
        refine ⟨?_, ?_⟩
        · rw [List.map_cons, a]
          have := greedy.identifier ((c :: cs).take k) ((c :: cs).drop k) _
            (by intro h0; rw [h0] at hlen; simp at hlen; omega) d
            (by
              intro longer hp hl
              rw [hsplit] at hp
              rw [prefix_eq_take hp]
              rw [hlen] at hl
              exact e _ hl (by
                have := List.IsPrefix.length_le hp
                exact this)) g1
          rw [hsplit] at this
          exact this
        · rw [List.map_cons, List.flatten_cons, g2, a]
          exact hsplit
      · subst b
        have hdrop : ((c :: cs).drop 1).length ≤ fuel := by
          simp only [List.length_cons] at h; simp; omega
        obtain ⟨g1, g2⟩ := ih (off + 1) _ hdrop
        refine ⟨?_, ?_⟩
        · rw [List.map_cons, a]
          simp only [List.headD_cons, List.drop_succ_cons, List.drop_zero] at g1 ⊢
          refine greedy.single c cs _ ?_ g1
          intro p hp hpre
          rw [prefix_eq_take hpre]
          exact e _ (by
            cases p with
            | nil => exact absurd rfl hp
            | cons x xs => simp) (List.IsPrefix.length_le hpre)
        · rw [List.map_cons, List.flatten_cons, g2, a]
          simp [Token.to_string, String.singleton]

theorem tiling_append {off : Nat} {a : List Char} {t1 : List (Token × Nat)}
    (h1 : tiling off a t1) : ∀ {b : List Char} {t2 : List (Token × Nat)},
    tiling (off + a.length) b t2 → tiling off (a ++ b) (t1 ++ t2) := by
  induction h1 with
  | done offset => intro b t2 h2; simpa using h2
  | blank offset c rest toks hc _ ih =>
    intro b t2 h2
    have := @ih b t2 (by
      simp only [List.length_cons] at h2
      rwa [show offset + 1 + rest.length = offset + (rest.length + 1) by omega])
    exact tiling.blank offset c (rest ++ b) (toks ++ t2) hc this
  | token offset tok text rest toks hne hsp _ ih =>
    intro b t2 h2
    have := @ih b t2 (by
      simp only [List.length_append] at h2
      rwa [show offset + text.length + rest.length = offset + (text.length + rest.length) by omega])
    have := tiling.token offset tok text (rest ++ b) (toks ++ t2) hne hsp this
    simpa [List.append_assoc] using this

theorem tiling_blanks : ∀ (seg : List Char) (off : Nat),
    (∀ c ∈ seg, categorize c = Category.WHITESPACE) → tiling off seg [] := by
  intro seg
  induction seg with
  | nil => intro off _; exact tiling.done off
  | cons c cs ih =>
    intro off h
    exact tiling.blank off c cs [] (h c (List.mem_cons_self _ _))
      (ih (off + 1) fun d hd => h d (List.mem_cons_of_mem _ hd))

theorem tiling_single (off : Nat) (tok : Token) (text : List Char) (hne : text ≠ [])
    (hsp : spelled_by tok text) : tiling off text [(tok, off)] := by
  have := tiling.token off tok text [] [] hne hsp (tiling.done _)
  simpa using this

theorem symbol_token_text (rest : List Char) (hne : rest ≠ []) : ∀ n, n ≤ rest.length →
    1 ≤ (symbol_token rest n).2 ∧ (symbol_token rest n).2 ≤ rest.length ∧
      spelled_by (symbol_token rest n).1 (rest.take (symbol_token rest n).2) := by
  have single : spelled_by (Token.char (rest.headD ' ')) (rest.take 1) := by
    cases rest with
    | nil => exact absurd rfl hne
    | cons c cs => simp [spelled_by]
  have hlen : 1 ≤ rest.length := by
    cases rest with
    | nil => exact absurd rfl hne
    | cons c cs => simp
  intro n
  induction n with
  | zero => intro _; exact ⟨le_refl _, hlen, single⟩
  | succ n ih =>
    intro hn
    rw [symbol_token]
    split
    · exact ⟨by simp, hn, by simp [spelled_by]⟩
    · split
      · exact ⟨le_refl _, hlen, single⟩
      · exact ih (by omega)

theorem symbol_tokens_tiling : ∀ (fuel off : Nat) (run : List Char), run.length ≤ fuel →
    tiling off run (symbol_tokens fuel off run) := by
  intro fuel
  induction fuel with
  | zero =>
    intro off run h
    have : run = [] := List.length_eq_zero.1 (by omega)
    subst this
    simpa [symbol_tokens] using tiling.done off
  | succ fuel ih =>
    intro off run h
    cases run with
    | nil => simpa [symbol_tokens] using tiling.done off
    | cons c cs =>
      rw [symbol_tokens]
      obtain ⟨h1, h2, h3⟩ := symbol_token_text (c :: cs) (by simp) (c :: cs).length (le_refl _)
      generalize symbol_token (c :: cs) (c :: cs).length = r at h1 h2 h3
      obtain ⟨tok, k⟩ := r
      simp only at h1 h2 h3 ⊢
      have hlen : ((c :: cs).take k).length = k := by
        rw [List.length_take]; exact Nat.min_eq_left h2
      have hdrop : ((c :: cs).drop k).length ≤ fuel := by
        rw [List.length_drop]; simp only [List.length_cons] at h h2 ⊢; omega
      have := tiling.token off tok ((c :: cs).take k) ((c :: cs).drop k) _
        (by intro h0; rw [h0] at hlen; simp at hlen; omega) h3
        (by rw [hlen]; exact ih (off + k) _ hdrop)
      rwa [List.take_append_drop] at this

theorem segment_tokens_tiling {off : Nat} {cat : Category} {seg : List Char}
    {toks : List (Token × Nat)} (hne : seg ≠ []) (hcat : ∀ c ∈ seg, categorize c = cat)
    (h : segment_tokens off (cat, seg) = some toks) : tiling off seg toks := by
  cases cat with
  | ALPHA =>
    simp only [segment_tokens, Option.some.injEq] at h
    subst h
    refine tiling_single off _ seg hne ?_
    split <;> simp [spelled_by]
  | DIGIT =>
    simp only [segment_tokens] at h
    cases hs : stod seg with
    | none => simp [hs] at h
    | some v =>
      simp only [hs, Option.some.injEq] at h
      subst h
      exact tiling_single off _ seg hne ⟨hcat, hs⟩
  | SYMBOL =>
    simp only [segment_tokens, Option.some.injEq] at h
    subst h
    exact symbol_tokens_tiling _ _ _ (le_refl _)
  | WHITESPACE =>
    simp only [segment_tokens, Option.some.injEq] at h
    subst h
    exact tiling_blanks seg off hcat

theorem tokenize_segments_tiling : ∀ (segs : List (Category × List Char)) (off : Nat)
    (toks : List (Token × Nat)), (∀ p ∈ segs, p.2 ≠ [] ∧ ∀ c ∈ p.2, categorize c = p.1) →
    tokenize_segments off segs = some toks →
    ∃ body, toks = body ++ [(Token.EOL, off + (segs.map Prod.snd).flatten.length)] ∧
      tiling off (segs.map Prod.snd).flatten body := by
  intro segs
  induction segs with
  | nil =>
    intro off toks _ h
    simp only [tokenize_segments, Option.some.injEq] at h
    subst h
    exact ⟨[], by simp, tiling.done off⟩
  | cons seg segs ih =>
    intro off toks hseg h
    rw [tokenize_segments] at h
    cases h1 : segment_tokens off seg with
    | none => simp [h1] at h
    | some first =>
      cases h2 : tokenize_segments (off + seg.2.length) segs with
      | none => simp [h1, h2] at h
      | some more =>
        simp only [h1, h2, Option.some.injEq] at h
        subst h
        obtain ⟨body, hb, ht⟩ := ih _ more (fun p hp => hseg p (List.mem_cons_of_mem _ hp)) h2
        obtain ⟨s1, s2⟩ := hseg seg (List.mem_cons_self _ _)
        have hfirst := @segment_tokens_tiling off seg.1 seg.2 first s1 s2 h1
        refine ⟨first ++ body, ?_, ?_⟩
        · rw [hb, List.append_assoc]
          simp [Nat.add_assoc]
        · simpa using tiling_append hfirst ht

theorem categorize_loop_nonempty : ∀ (cs : List Char) (prev : Category) (seg : List Char),
    seg ≠ [] → ∀ p ∈ categorize_loop prev seg cs, p.2 ≠ [] := by
  intro cs
  induction cs with
  | nil =>
    intro prev seg h p hp
    simp only [categorize_loop, List.mem_singleton] at hp
    subst hp
    exact h
  | cons c cs ih =>
    intro prev seg h p hp
    rw [categorize_loop] at hp
    split at hp
    · rcases List.mem_cons.1 hp with rfl | hp
      · exact h
      · exact ih (categorize c) [c] (by simp) p hp
    · exact ih prev (seg ++ [c]) (by simp) p hp

theorem tiling_bounds {off : Nat} {text : List Char} {toks : List (Token × Nat)}
    (h : tiling off text toks) :
    (∀ p ∈ toks, off ≤ p.2 ∧ p.2 < off + text.length) ∧ List.Pairwise (· < ·) (toks.map Prod.snd) ∧
      ∀ p ∈ toks, ∃ pre txt post, text = pre ++ txt ++ post ∧ off + pre.length = p.2 ∧
        txt ≠ [] ∧ spelled_by p.1 txt := by
  induction h with
  | done offset => simp
  | blank offset c rest toks hc _ ih =>
    obtain ⟨i1, i2, i3⟩ := ih
    refine ⟨?_, i2, ?_⟩
    · intro p hp
      have := i1 p hp
      simp only [List.length_cons]
      omega
    · intro p hp
      obtain ⟨pre, txt, post, e, l, n, sp⟩ := i3 p hp
      exact ⟨c :: pre, txt, post, by simp [e], by simp only [List.length_cons]; omega, n, sp⟩
  | token offset tok text rest toks hne hsp _ ih =>
    obtain ⟨i1, i2, i3⟩ := ih
    have hpos : 0 < text.length := List.length_pos.2 hne
    refine ⟨?_, ?_, ?_⟩
    · intro p hp
      rcases List.mem_cons.1 hp with rfl | hp
      · simp only [List.length_append]; omega
      · have := i1 p hp
        simp only [List.length_append]
        omega
    · rw [List.map_cons, List.pairwise_cons]
      refine ⟨?_, i2⟩
      intro o ho
      obtain ⟨p, hp, rfl⟩ := List.mem_map.1 ho
      have := i1 p hp
      simp only
      omega
    · intro p hp
      rcases List.mem_cons.1 hp with rfl | hp
      · exact ⟨[], text, rest, by simp, by simp, hne, hsp⟩
      · obtain ⟨pre, txt, post, e, l, n, sp⟩ := i3 p hp
        exact ⟨text ++ pre, txt, post, by simp [e], by simp only [List.length_append]; omega, n, sp⟩

theorem Lexer_new_tiling {uninit : Category} {s : String} {lx : Lexer} (hne : s.data ≠ [])
    (h : Lexer.new uninit s = .ok lx) :
    ∃ body, tiling 0 s.data body ∧ lx._tokens = body.map Prod.fst ++ [Token.EOL] ∧
      lx._offsets = body.map Prod.snd ++ [s.data.length] := by
  unfold Lexer.new at h
  cases ht : tokenize_segments 0 (categorize_str uninit s.data) with
  | none => simp [ht] at h
  | some toks =>
    simp only [ht, Except.ok.injEq] at h
    subst h
    obtain ⟨c1, c2⟩ := categorize_str_spec uninit s.data
    have hnonempty : ∀ p ∈ categorize_str uninit s.data, p.2 ≠ [] := by
      cases hd : s.data with
      | nil => exact absurd hd hne
      | cons c cs =>
        rw [categorize_str]
        exact categorize_loop_nonempty cs (categorize c) [c] (by simp)
    obtain ⟨body, hb, htile⟩ := tokenize_segments_tiling _ 0 toks
      (fun p hp => ⟨hnonempty p hp, c1 p hp⟩) ht
    rw [c2] at hb htile
    exact ⟨body, htile, by simp [hb], by simp [hb]⟩

theorem categorize_loop_collects (cat : Category) : ∀ (run seg post : List Char),
    (∀ c ∈ run, categorize c = cat) → (∀ c, post.head? = some c → categorize c ≠ cat) →
    (cat, seg ++ run) ∈ categorize_loop cat seg (run ++ post) := by
  intro run
  induction run with
  | nil =>
    intro seg post _ hpost
    cases post with
    | nil => simp [categorize_loop]
    | cons p ps =>
      have hp : cat ≠ categorize p := fun h => hpost p rfl h.symm
      simp [categorize_loop, hp]
  | cons r run ih =>
    intro seg post hrun hpost
    have hr : categorize r = cat := hrun r (List.mem_cons_self _ _)
    have := ih (seg ++ [r]) post (fun c hc => hrun c (List.mem_cons_of_mem _ hc)) hpost
    simp only [List.cons_append, categorize_loop, hr, ne_eq, not_true_eq_false, if_false]
    simpa using this

theorem categorize_loop_finds (cat : Category) (run post : List Char) (hne : run ≠ [])
    (hrun : ∀ c ∈ run, categorize c = cat)
    (hpost : ∀ c, post.head? = some c → categorize c ≠ cat) :
    ∀ (pre : List Char) (prev : Category) (seg : List Char),
      (pre = [] → prev ≠ cat) → (∀ c, pre.getLast? = some c → categorize c ≠ cat) →
      (cat, run) ∈ categorize_loop prev seg (pre ++ run ++ post) := by
  intro pre
  induction pre with
  | nil =>
    intro prev seg h0 _
    cases run with
    | nil => exact absurd rfl hne
    | cons r run =>
      have hr : categorize r = cat := hrun r (List.mem_cons_self _ _)
      rw [List.nil_append, List.cons_append, categorize_loop,
        if_pos (by rw [hr]; exact h0 rfl), hr]
      refine List.mem_cons_of_mem _ ?_
      have := categorize_loop_collects cat run [r] post
        (fun c hc => hrun c (List.mem_cons_of_mem _ hc)) hpost
      simpa using this
  | cons p pre ih =>
    intro prev seg _ hlast
    have hnext : ∀ (prev' : Category) (seg' : List Char), (pre = [] → prev' = categorize p) →
        (cat, run) ∈ categorize_loop prev' seg' (pre ++ run ++ post) := by
      intro prev' seg' hprev
      refine ih prev' seg' ?_ ?_
      · intro hpre
        rw [hprev hpre]
        exact hlast p (by simp [hpre])
      · intro c hc
        refine hlast c ?_
        cases pre with
        | nil => simp at hc
        | cons q qs => simpa [List.getLast?_cons_cons] using hc
    simp only [List.cons_append, categorize_loop]
    split
    · exact List.mem_cons_of_mem _ (hnext _ _ fun _ => rfl)
    · rename_i heq
      exact hnext _ _ fun _ => by simpa using heq

theorem categorize_str_finds (uninit cat : Category) (pre run post : List Char) (hne : run ≠ [])
    (hrun : ∀ c ∈ run, categorize c = cat)
    (hpre : ∀ c, pre.getLast? = some c → categorize c ≠ cat)
    (hpost : ∀ c, post.head? = some c → categorize c ≠ cat) :
    (cat, run) ∈ categorize_str uninit (pre ++ run ++ post) := by
  cases pre with
  | nil =>
    cases run with
    | nil => exact absurd rfl hne
    | cons r run =>
      have hr : categorize r = cat := hrun r (List.mem_cons_self _ _)
      simp only [List.nil_append, List.cons_append, categorize_str, hr]
      have := categorize_loop_collects cat run [r] post
        (fun c hc => hrun c (List.mem_cons_of_mem _ hc)) hpost
      simpa using this
  | cons p pre =>
    simp only [List.cons_append, categorize_str]
    have := categorize_loop_finds cat run post hne hrun hpost pre (categorize p) [p]
      (fun h => hpre p (by simp [h])) (by
        intro c hc
        refine hpre c ?_
        cases pre with
        | nil => simp at hc
        | cons q qs => simpa [List.getLast?_cons_cons] using hc)
    simpa using this

theorem tokenize_segments_none : ∀ (segs : List (Category × List Char)) (off : Nat)
    (seg : Category × List Char), seg ∈ segs → (∀ o, segment_tokens o seg = none) →
    tokenize_segments off segs = none := by
  intro segs
  induction segs with
  | nil => intro off seg h; simp at h
  | cons x xs ih =>
    intro off seg hmem hnone
    rw [tokenize_segments]
    rcases List.mem_cons.1 hmem with rfl | hmem
    · rw [hnone off]
    · cases segment_tokens off x with
      | none => rfl
      | some toks => simp only [ih _ seg hmem hnone]

theorem strtod_no_digit (run : List Char) (h : ∀ c ∈ run, c.isDigit = false) :
    strtod run = none := by
  have h1 : run.takeWhile Char.isDigit = [] := by
    cases run with
    | nil => rfl
    | cons c cs => simp [List.takeWhile, h c (List.mem_cons_self _ _)]
  have h2 : run.dropWhile Char.isDigit = run := by
    cases run with
    | nil => rfl
    | cons c cs => simp [List.dropWhile, h c (List.mem_cons_self _ _)]
  have hfrac : (match run with
      | '.' :: more => List.takeWhile Char.isDigit more
      | _ => []) = [] := by
    split
    · rename_i more
      cases more with
      | nil => rfl
      | cons d ds =>
        have := h d (by simp)
        simp [List.takeWhile, this]
    · rfl
  unfold strtod
  simp only [h1, h2]
  rw [if_pos]
  exact (congrArg (fun frac : List Char => ([] : List Char).isEmpty && frac.isEmpty) hfrac).trans rfl

theorem stod_no_digit (run : List Char) (h : ∀ c ∈ run, c.isDigit = false) : stod run = none := by
  unfold stod
  rw [strtod_no_digit run h]

theorem tokenize_exception_in_range : ∀ segs : List (Category × List Char),
    (∀ seg value, (Category.DIGIT, seg) ∈ segs → strtod seg = some value →
      in_range value = true) →
    tokenize_exception segs = Failure.invalid_argument
  | [], _ => rfl
  | (cat, segment) :: segs, h => by
    have ih := tokenize_exception_in_range segs
      (fun seg value hm => h seg value (List.mem_cons_of_mem _ hm))
    rw [tokenize_exception]
    split
    · rename_i hc
      obtain ⟨hcat, hs⟩ := hc
      subst hcat
      unfold stod_exception
      cases hv : strtod segment with
      | none => rfl
      | some v =>
        have hr := h segment v (List.mem_cons_self _ _) hv
        unfold stod at hs
        rw [hv] at hs
        simp [hr] at hs
    · exact ih

set_option maxRecDepth 100000 in
theorem overflowing_run_throws (uninit : Category) :
    parse uninit (String.mk ('1' :: List.replicate 400 '0' ++ [' ', '.'])) =
      .error Failure.out_of_range := by
  rfl

theorem DBL_OVERFLOW_eq : DBL_OVERFLOW = 2 ^ 1024 - 2 ^ 970 := by
  unfold DBL_OVERFLOW
  norm_num

theorem DBL_MIN_INVERSE_eq : DBL_MIN_INVERSE = 2 ^ 1022 := by
  unfold DBL_MIN_INVERSE
  norm_num

theorem last_token_start_lexer_at (o : List Nat) (pre : List Token) (x : Token)
    (post : List Token) :
    (lexer_at o (pre ++ [x]) post).last_token_start = o.getD pre.length 0 := by
  simp [lexer_at, Lexer.last_token_start]

theorem routine_args_unresolved (o : List Nat) (identifier : String) :
    ∀ (Ts : List (List Token)) (xs : List Ast), List.Forall₂ (parses_expression o) Ts xs →
    ∀ (done : List Ast) (m : Nat) (pre post : List Token), post ≠ [] →
      get identifier ((done ++ xs).length % 256) = none →
      4 * (rest_tokens Ts ++ Token.char ')' :: post).length + 2 ≤ m →
      parse_routine_args m (lexer_at o pre (rest_tokens Ts ++ Token.char ')' :: post))
          identifier done false =
        .error (Failure.Error (o.getD (pre ++ rest_tokens Ts).length 0)
          (Message.no_overload identifier (done ++ xs).length)) := by
  intro Ts xs hall
  induction hall with
  | nil =>
    intro done m pre post hpost hg hm
    obtain ⟨k, rfl⟩ : ∃ k, m = k + 1 := ⟨m - 1, by omega⟩
    obtain ⟨y, post', rfl⟩ : ∃ y post', post = y :: post' := by
      cases post with
      | nil => exact absurd rfl hpost
      | cons y post' => exact ⟨y, post', rfl⟩
    rw [parse_routine_args]
    simp only [rest_tokens, List.nil_append, peek_lexer_at, Token.has_char, decide_True, if_true,
      List.append_nil] at hg ⊢
    rw [hg]
    simp only [discard_lexer_at, impl.error, last_token_start_lexer_at]
  | @cons T x Ts xs hT _ ih =>
    intro done m pre post hpost hg hm
    obtain ⟨k, rfl⟩ : ∃ k, m = k + 1 := ⟨m - 1, by omega⟩
    rw [parse_routine_args]
    have hshape : rest_tokens (T :: Ts) ++ Token.char ')' :: post =
        Token.char ',' :: (T ++ (rest_tokens Ts ++ Token.char ')' :: post)) := by
      simp [rest_tokens]
    rw [hshape]
    have hd : (lexer_at o pre (Token.char ',' ::
        (T ++ (rest_tokens Ts ++ Token.char ')' :: post)))).discard =
        lexer_at o (pre ++ [Token.char ',']) (T ++ (rest_tokens Ts ++ Token.char ')' :: post)) := by
      cases T with
      | nil =>
        cases Ts with
        | nil => exact discard_lexer_at _ _ _ _ _
        | cons T' Ts' => exact discard_lexer_at _ _ _ _ _
      | cons t T' => exact discard_lexer_at _ _ _ _ _
    have hc1 : (Token.char ',').has_char ')' = false := by decide
    have hc2 : (Token.char ',').has_char ',' = true := by decide
    simp only [Lexer.read, peek_lexer_at, hc1, hc2, Bool.false_eq_true, if_false, if_true, hd]
    rw [hshape] at hm
    rw [hT k _ _ (closing_rest Ts post) (by simp at hm ⊢; omega)]
    simp only []
    have := ih (done ++ [x]) k (pre ++ [Token.char ','] ++ T) post hpost
      (by simpa [List.append_assoc] using hg) (by simp at hm ⊢; omega)
    rw [this]
    simp [rest_tokens, List.append_assoc]

theorem routine_call_unresolved {o : List Nat} {identifier : String}
    {Ts : List (List Token)} {xs : List Ast}
    (hTs : List.Forall₂ (parses_expression o) Ts xs)
    (hg : get identifier (xs.length % 256) = none) (m : Nat) (pre post : List Token)
    (hpost : post ≠ [])
    (hm : 4 * (Token.Identifier identifier :: Token.char '(' ::
      (arguments_tokens Ts ++ Token.char ')' :: post)).length ≤ m) :
    parse_primary m (lexer_at o pre (Token.Identifier identifier :: Token.char '(' ::
        (arguments_tokens Ts ++ Token.char ')' :: post))) =
      .error (Failure.Error (o.getD (pre.length + 2 + (arguments_tokens Ts).length) 0)
        (Message.no_overload identifier xs.length)) := by
  obtain ⟨k, rfl⟩ : ∃ k, m = k + 4 := ⟨m - 4, by simp at hm; omega⟩
  have hop : (Token.char '(').has_char '(' = true := by decide
  cases hTs with
  | nil =>
    obtain ⟨y, post', rfl⟩ : ∃ y post', post = y :: post' := by
      cases post with
      | nil => exact absurd rfl hpost
      | cons y post' => exact ⟨y, post', rfl⟩
    rw [parse_primary]
    simp only [Lexer.read, peek_lexer_at, discard_lexer_at, hop, if_true, arguments_tokens,
      List.nil_append]
    rw [parse_routine_call, discard_lexer_at, parse_routine_args]
    simp only [peek_lexer_at, Token.has_char, decide_True, if_true, List.length_nil] at hg ⊢
    rw [hg]
    simp only [discard_lexer_at, impl.error, last_token_start_lexer_at]
    simp
  | @cons T x Ts xs hT hTs =>
    have hshape : Token.Identifier identifier :: Token.char '(' ::
        (arguments_tokens (T :: Ts) ++ Token.char ')' :: post) =
        Token.Identifier identifier :: Token.char '(' ::
          (T ++ (rest_tokens Ts ++ Token.char ')' :: post)) := by simp [arguments_tokens]
    rw [hshape] at hm ⊢
    have hE := hT (k + 1) (pre ++ [Token.Identifier identifier] ++ [Token.char '('])
      (rest_tokens Ts ++ Token.char ')' :: post) (closing_rest Ts post)
      (by simp at hm ⊢; omega)
    have hd : (lexer_at o (pre ++ [Token.Identifier identifier])
        (Token.char '(' :: (T ++ (rest_tokens Ts ++ Token.char ')' :: post)))).discard =
        lexer_at o (pre ++ [Token.Identifier identifier] ++ [Token.char '('])
          (T ++ (rest_tokens Ts ++ Token.char ')' :: post)) := by
      cases T with
      | nil =>
        cases Ts with
        | nil => exact discard_lexer_at _ _ _ _ _
        | cons T' Ts' => exact discard_lexer_at _ _ _ _ _
      | cons t T' => exact discard_lexer_at _ _ _ _ _
    have hnot := parse_expression_ok_peek hE
    rw [parse_primary]
    simp only [Lexer.read, peek_lexer_at, discard_lexer_at, hop, if_true]
    rw [parse_routine_call, hd, parse_routine_args, hnot]
    simp only [Bool.false_eq_true, if_false, if_true, hE, List.nil_append]
    have hrest := routine_args_unresolved o identifier Ts xs hTs [x] (k + 1)
      (pre ++ [Token.Identifier identifier] ++ [Token.char '('] ++ T) post hpost
      (by simpa using hg) (by simp at hm ⊢; omega)
    rw [hrest]
    have hlen : (pre ++ [Token.Identifier identifier] ++ [Token.char '('] ++ T ++
        rest_tokens Ts).length = pre.length + 2 + (arguments_tokens (T :: Ts)).length := by
      simp [arguments_tokens]
      omega
    rw [hlen]
    simp

theorem not_unary_unresolved (o : List Nat) (identifier : String) (next : Token)
    (hnext : next.has_char '(' = false) (hg : get identifier 1 = none) (m : Nat)
    (pre post : List Token) :
    parse_primary (m + 1) (lexer_at o pre (Token.Identifier identifier :: next :: post)) =
      .error (Failure.Error (o.getD pre.length 0) (Message.not_unary identifier)) := by
  rw [parse_primary]
  simp only [Lexer.read, peek_lexer_at, discard_lexer_at, hnext, Bool.false_eq_true, if_false, hg,
    impl.error, last_token_start_lexer_at]

theorem parse_primary_error {uninit : Category} {s : String} {lx : Lexer} {e : Failure}
    (hlex : Lexer.new uninit s = .ok lx)
    (h : parse_primary (fuel_for lx - 1) lx = .error e) : parse uninit s = .error e := by
  rw [parse_of_tokenized hlex]
  have : fuel_for lx = (fuel_for lx - 1) + 1 := by unfold fuel_for; omega
  rw [this, parse_expression, h]

theorem Lexer_new_lexer_at {uninit : Category} {s : String} {lx : Lexer}
    (hlex : Lexer.new uninit s = .ok lx) : lx = lexer_at lx._offsets [] lx._tokens := by
  obtain ⟨h0, _⟩ := Lexer_new_spec hlex
  cases lx
  simp only [lexer_at, List.nil_append, List.length_nil] at h0 ⊢
  simp only [h0]

theorem parses_expression_double (o : List Nat) (v : ℚ) :
    parses_expression o [Token.double v] (.Literal v) :=
  continues_expression (primary_continues (parses_primary_double o v) (by simp))
    (fun _ _ => trivial)

theorem renders_back_list_iff (fmt : ℚ → String) (args : List Ast) :
    renders_back_list fmt args ↔ ∀ a ∈ args, renders_back fmt a := by
  induction args with
  | nil => simp [renders_back_list]
  | cons a rest ih => simp [renders_back_list, ih]

theorem operator_valid {fn : FunctionPtr} (hinf : (deref fn).syntax_ = Syntax.INFIX)
    (hg : get (deref fn).identifier 2 = some fn) :
    (Lexeme.operator (deref fn).identifier).valid := by
  obtain ⟨_, b1, b2, b3⟩ := binary_identifier fn hinf hg
  exact ⟨b1, b2, b3⟩

theorem block_infix_rest (fmt : ℚ → String) (fn : FunctionPtr)
    (hv : (Lexeme.operator (deref fn).identifier).valid) :
    ∀ (rest : List Ast) (A : List Lexeme), block A → (∀ a ∈ rest, block (lexemes fmt a)) →
      block (A ++ infix_rest_lexemes fmt fn rest) := by
  intro rest
  induction rest with
  | nil => intro A hA _; simpa [infix_rest_lexemes] using hA
  | cons b rest ih =>
    intro A hA hs
    have hj := @block_join A (operand_lexemes fn b (lexemes fmt b))
      [Lexeme.space, Lexeme.operator (deref fn).identifier, Lexeme.space]
      Lexeme.space Lexeme.space [Lexeme.operator (deref fn).identifier, Lexeme.space]
      [Lexeme.space, Lexeme.operator (deref fn).identifier] hA
      (block_operand (hs b (List.mem_cons_self _ _))) rfl rfl rfl rfl
      (by
        intro x hx
        simp only [List.mem_cons, List.mem_singleton, List.not_mem_nil, or_false] at hx
        rcases hx with rfl | rfl | rfl
        · trivial
        · exact hv
        · trivial)
      (by
        simp only [List.chain'_cons, List.chain'_singleton, and_true]
        exact ⟨separable_of_category (by simp [Lexeme.category]),
          separable_of_category (by simp [Lexeme.category])⟩)
    have := ih _ hj (fun a ha => hs a (List.mem_cons_of_mem _ ha))
    rw [infix_rest_lexemes]
    simpa [List.append_assoc] using this

mutual
theorem renders_back_block (fmt : ℚ → String) :
    ∀ t : Ast, renders_back fmt t → block (lexemes fmt t)
  | .Literal v, h => by
    rw [lexemes]
    exact block_atom (by simpa [renders_back] using h) (Or.inr rfl)
  | .Variable n, h => by
    rw [lexemes]
    exact block_atom (by simpa [renders_back] using h) (Or.inl rfl)
  | .Call fn args, h => by
    rw [renders_back] at h
    obtain ⟨hshape, hargs⟩ := h
    have hs := renders_back_block_list fmt args hargs
    rw [lexemes]
    unfold call_shape at hshape
    split
    · rename_i hinf
      rw [if_pos hinf] at hshape
      match args, hshape, hs with
      | [], hshape, _ => exact absurd hshape id
      | [x], hget, hs =>
        rw [infix_lexemes]
        obtain ⟨c, hc, hd⟩ := unary_identifier fn hinf hget
        have hp : prefix_lexeme (deref fn).identifier = Lexeme.symbol c := by
          simp [prefix_lexeme, hd]
        rw [hp]
        refine block_symbol_left (block_operand (hs x (List.mem_cons_self _ _))) c ?_
        simp only [List.mem_cons, List.mem_singleton, List.not_mem_nil, or_false] at hc ⊢
        rcases hc with rfl | rfl <;> simp
      | l :: r :: rest, hshape, hs =>
        rw [infix_lexemes]
        exact block_infix_rest fmt fn (operator_valid hinf hshape.1) (r :: rest) _
          (block_operand (hs l (List.mem_cons_self _ _)))
          (fun a ha => hs a (List.mem_cons_of_mem _ ha))
    · rename_i hroutine
      rw [if_neg hroutine] at hshape
      have hv : (Lexeme.routine (deref fn).identifier).valid := routine_identifier fn hroutine
      match args, hshape, hs with
      | [], hget, _ => exact absurd (by simpa using hget) (get_zero_none fn)
      | a :: rest, _, hs =>
        rw [routine_lexemes]
        exact block_routine (block_routine_rest fmt rest _ (hs a (List.mem_cons_self _ _))
          (fun b hb => hs b (List.mem_cons_of_mem _ hb))) hv
theorem renders_back_block_list (fmt : ℚ → String) :
    ∀ args : List Ast, renders_back_list fmt args → ∀ a ∈ args, block (lexemes fmt a)
  | [], _ => by intro a ha; simp at ha
  | b :: rest, h => by
    rw [renders_back_list] at h
    intro a ha
    rcases List.mem_cons.1 ha with rfl | ha
    · exact renders_back_block fmt _ h.1
    · exact renders_back_block_list fmt rest h.2 a ha
end

theorem Lexer_new_canonical (uninit : Category) (fmt : ℚ → String) (t : Ast)
    (h : renders_back fmt t) :
    ∃ o, Lexer.new uninit (Ast.to_string fmt t) =
      .ok (lexer_at o [] (rendered_tokens fmt t ++ [Token.EOL])) := by
  have hb := renders_back_block fmt t h
  have hlex := lex_lexemes uninit (lexemes fmt t) hb.1 hb.2.1 (block_chain hb)
  rw [← to_string_data] at hlex
  have hfst := tokenize_segments_fst (categorize_str uninit (Ast.to_string fmt t).data) 0
  rw [hlex] at hfst
  unfold Lexer.new
  cases ht : tokenize_segments 0 (categorize_str uninit (Ast.to_string fmt t).data) with
  | none => rw [ht] at hfst; simp at hfst
  | some toks =>
    rw [ht] at hfst
    simp only [Option.map_some', Option.some.injEq] at hfst
    refine ⟨toks.map Prod.snd, ?_⟩
    simp only [lexer_at, List.nil_append, List.length_nil, hfst, rendered_tokens]

theorem reads_expression {o : List Nat} {T : List Token} {x : Ast}
    (h : reads o T x) : parses_expression o T x := by
  by_cases hb : is_binary x
  · match x, hb, h with
    | .Call g [l, r], hb, h =>
      refine continues_expression (h.binary g l r rfl hb) ?_
      intro post hc id rest k hpost
      obtain ⟨f, rest', h1, _, h3⟩ := hc
      rw [h1] at hpost
      exact absurd (List.cons.inj hpost).1 (h3 id)
  · exact continues_expression (primary_continues (h.primary hb) h.nonempty) (fun _ _ => trivial)

theorem reads_operand {o : List Nat} {fmt : ℚ → String} {a x : Ast} (fn : FunctionPtr)
    (h : reads o (rendered_tokens fmt a) x) (hx : parenthesized fn a ∨ ¬ is_binary x) :
    parses_primary o ((operand_lexemes fn a (lexemes fmt a)).flatMap Lexeme.tokens) x ∧
      (operand_lexemes fn a (lexemes fmt a)).flatMap Lexeme.tokens ≠ [] := by
  rw [operand_tokens]
  by_cases hp : parenthesized fn a
  · rw [if_pos hp]
    exact ⟨parses_primary_paren (reads_expression h), by simp⟩
  · rw [if_neg hp]
    rcases hx with hx | hx
    · exact absurd hx hp
    · exact ⟨h.primary hx, h.nonempty⟩

theorem infix_rest_tokens (fmt : ℚ → String) (fn : FunctionPtr) : ∀ rest : List Ast,
    (infix_rest_lexemes fmt fn rest).flatMap Lexeme.tokens = chain_tokens fmt fn rest := by
  intro rest
  induction rest with
  | nil => simp [infix_rest_lexemes, chain_tokens]
  | cons b rest ih =>
    rw [infix_rest_lexemes]
    simp [Lexeme.tokens, chain_tokens, ih]

theorem no_climb_self {g : FunctionPtr} (hg : get (deref g).identifier 2 = some g)
    (h : (deref g).associativity ≠ Associativity.RIGHT) (post : List Token) :
    no_climb g (Token.Identifier (deref g).identifier :: post) := by
  intro id rest k hpost hk
  have hid : (deref g).identifier = id := Token.Identifier.inj (List.cons.inj hpost).1
  rw [← hid, hg] at hk
  cases hk
  have h1 : ¬ (deref g).precedence > (deref g).precedence := by
    intro hgt
    exact absurd (show (deref g).precedence.to_uint8 < (deref g).precedence.to_uint8 from hgt)
      (lt_irrefl _)
  simp [climbs, h1, h]

/-- The operator loop over the operands of a chain: from the left operand
`lhs`, read so far, each further operand becomes the right argument of a call
whose left argument is the tree read so far. -/
theorem chain_continues {o : List Nat} {fmt : ℚ → String} {fn : FunctionPtr}
    (hg : get (deref fn).identifier 2 = some fn) :
    ∀ (rest : List Ast) (a : Ast) (TL : List Token) (lhs : Ast) (condL : List Token → Prop),
      continues o TL lhs condL →
      (∀ post, condL (Token.Identifier (deref fn).identifier :: post)) →
      (∀ b ∈ a :: rest,
        parses_primary o ((operand_lexemes fn b (lexemes fmt b)).flatMap Lexeme.tokens) (nest b) ∧
        (operand_lexemes fn b (lexemes fmt b)).flatMap Lexeme.tokens ≠ []) →
      (rest ≠ [] → (deref fn).associativity ≠ Associativity.RIGHT) →
      continues o (TL ++ chain_tokens fmt fn (a :: rest))
        (nest_chain fn (.Call fn [lhs, nest a]) rest) (no_climb fn) := by
  intro rest
  induction rest with
  | nil =>
    intro a TL lhs condL hl hcl hops _
    obtain ⟨hp, hn⟩ := hops a (List.mem_cons_self _ _)
    have := continues_binary hl hcl hp hn hg
    simpa [chain_tokens, nest_chain] using this
  | cons b rest ih =>
    intro a TL lhs condL hl hcl hops hassoc
    obtain ⟨hp, hn⟩ := hops a (List.mem_cons_self _ _)
    have h1 := continues_binary hl hcl hp hn hg
    have h2 := ih b _ (.Call fn [lhs, nest a]) (no_climb fn) h1
      (no_climb_self hg (hassoc (by simp)))
      (fun c hc => hops c (List.mem_cons_of_mem _ hc))
      (fun _ => hassoc (by simp))
    rw [nest_chain]
    have hshape : TL ++ chain_tokens fmt fn (a :: b :: rest) =
        TL ++ Token.Identifier (deref fn).identifier ::
          (operand_lexemes fn a (lexemes fmt a)).flatMap Lexeme.tokens ++
          chain_tokens fmt fn (b :: rest) := by
      simp [chain_tokens]
    rw [hshape]
    exact h2

theorem nest_chain_binary (fn : FunctionPtr) : ∀ (rest : List Ast) (l r : Ast),
    ∃ l' r', nest_chain fn (.Call fn [l, r]) rest = .Call fn [l', r'] := by
  intro rest
  induction rest with
  | nil => intro l r; exact ⟨l, r, by rw [nest_chain]⟩
  | cons a rest ih => intro l r; rw [nest_chain]; exact ih _ _

theorem nest_is_binary {t : Ast} (h : is_binary (nest t)) :
    ∃ g a b rest, t = .Call g (a :: b :: rest) ∧ (deref g).syntax_ = Syntax.INFIX := by
  cases t with
  | Literal v => simp [nest, is_binary] at h
  | Variable n => simp [nest, is_binary] at h
  | Call g args =>
    by_cases hinf : (deref g).syntax_ = Syntax.INFIX
    · match args, h with
      | [], h => simp [nest, hinf, infix_nest, is_binary] at h
      | [x], h => simp [nest, hinf, infix_nest, is_binary] at h
      | a :: b :: rest, _ => exact ⟨g, a, b, rest, rfl, hinf⟩
    · rw [nest, if_neg hinf] at h
      match nest_list args, h with
      | [_, _], h => exact absurd h hinf

theorem operand_primary {fmt : ℚ → String} {g : FunctionPtr} {r : Ast}
    (hr : renders_back fmt r) (hs : ¬ tighter_binary g r) :
    parenthesized g r ∨ ¬ is_binary (nest r) := by
  by_cases hb : is_binary (nest r)
  · left
    obtain ⟨h, a, b, rest, rfl, hinf⟩ := nest_is_binary hb
    rw [renders_back, call_shape, if_pos hinf] at hr
    obtain ⟨hdyn, _, _⟩ := binary_identifier h hinf hr.1.1
    refine ⟨?_, rfl⟩
    have h1 : ¬ (deref g).precedence.to_uint8 < (deref h).precedence.to_uint8 :=
      fun hlt => hs ⟨hinf, hdyn, hlt⟩
    have h2 : (deref h).precedence.to_uint8 ≤ (deref g).precedence.to_uint8 := by omega
    exact h2
  · exact Or.inr hb

theorem nest_list_eq_map : ∀ args : List Ast, nest_list args = args.map nest
  | [] => by simp [nest_list]
  | a :: rest => by simp [nest_list, nest_list_eq_map rest]

mutual
theorem renders_back_reads (o : List Nat) (fmt : ℚ → String) :
    ∀ t : Ast, renders_back fmt t → reads o (rendered_tokens fmt t) (nest t)
  | .Literal v, _ => by
    rw [nest]
    refine ⟨by simp [rendered_tokens, lexemes, Lexeme.tokens], fun _ => ?_, fun g l r h => by cases h⟩
    simpa [rendered_tokens, lexemes, Lexeme.tokens] using parses_primary_double o v
  | .Variable n, _ => by
    rw [nest]
    refine ⟨by simp [rendered_tokens, lexemes, Lexeme.tokens], fun _ => ?_, fun g l r h => by cases h⟩
    simpa [rendered_tokens, lexemes, Lexeme.tokens] using parses_primary_name o n
  | .Call fn args, h => by
    rw [renders_back] at h
    obtain ⟨hshape, hargs⟩ := h
    have hs := renders_back_reads_list o fmt args hargs
    have hrb := (renders_back_list_iff fmt args).1 hargs
    unfold call_shape at hshape
    by_cases hinf : (deref fn).syntax_ = Syntax.INFIX
    · rw [if_pos hinf] at hshape
      rw [nest, if_pos hinf]
      match args, hshape, hs, hrb with
      | [], hshape, _, _ => exact absurd hshape id
      | [x], hget, hs, _ =>
        have hx := hs x (List.mem_cons_self _ _)
        obtain ⟨htok, hprec⟩ := unary_operator fn hinf hget
        have hshape : rendered_tokens fmt (.Call fn [x]) =
            Token.Identifier (deref fn).identifier ::
              (operand_lexemes fn x (lexemes fmt x)).flatMap Lexeme.tokens := by
          simp [rendered_tokens, lexemes, hinf, infix_lexemes, htok]
        rw [infix_nest]
        have hprim : parses_primary o (rendered_tokens fmt (.Call fn [x]))
            (.Call fn [nest x]) := by
          rw [hshape, operand_tokens]
          cases x with
          | Call h sub =>
            have hp : parenthesized fn (.Call h sub) := by
              refine ⟨?_, rfl⟩
              rw [hprec]
              exact le_L1 _
            rw [if_pos hp]
            have := @parses_primary_routine o (deref fn).identifier fn
              ((lexemes fmt (.Call h sub)).flatMap Lexeme.tokens) (nest (.Call h sub)) [] []
              (reads_expression hx) List.Forall₂.nil (by simpa using hget)
            simpa [rest_tokens] using this
          | Literal v =>
            rw [if_neg (by simp [parenthesized, Ast.has_Call])]
            have hx' := hx.primary (by simp [nest, is_binary])
            rw [nest] at hx' ⊢
            have := parses_primary_unary hx'
              (Token.double v) [] (by simp [rendered_tokens, lexemes, Lexeme.tokens]) rfl hget
            simpa [rendered_tokens] using this
          | Variable n =>
            rw [if_neg (by simp [parenthesized, Ast.has_Call])]
            have hx' := hx.primary (by simp [nest, is_binary])
            rw [nest] at hx' ⊢
            have := parses_primary_unary hx'
              (Token.string_view n) [] (by simp [rendered_tokens, lexemes, Lexeme.tokens]) rfl hget
            simpa [rendered_tokens] using this
        exact ⟨by rw [hshape]; simp, fun _ => hprim, fun g l r h => by cases h⟩
      | l :: r :: rest, hshape, hs, hrb =>
        obtain ⟨hg2, hnt, hassoc⟩ := hshape
        have hl := hs l (List.mem_cons_self _ _)
        have htoks : rendered_tokens fmt (.Call fn (l :: r :: rest)) =
            (operand_lexemes fn l (lexemes fmt l)).flatMap Lexeme.tokens ++
              chain_tokens fmt fn (r :: rest) := by
          simp [rendered_tokens, lexemes, hinf, infix_lexemes, infix_rest_tokens]
        have hops : ∀ b ∈ r :: rest,
            parses_primary o ((operand_lexemes fn b (lexemes fmt b)).flatMap Lexeme.tokens)
              (nest b) ∧
            (operand_lexemes fn b (lexemes fmt b)).flatMap Lexeme.tokens ≠ [] := by
          intro b hb
          exact reads_operand fn (hs b (List.mem_cons_of_mem _ hb))
            (operand_primary (hrb b (List.mem_cons_of_mem _ hb)) (hnt b hb))
        have hnr : rest ≠ [] → (deref fn).associativity ≠ Associativity.RIGHT := by
          intro hne heq
          rcases hassoc hne with h1 | h1 <;> rw [heq] at h1 <;> cases h1
        rw [infix_nest]
        have hcont : continues o (rendered_tokens fmt (.Call fn (l :: r :: rest)))
            (nest_chain fn (.Call fn [nest l, nest r]) rest) (no_climb fn) := by
          rw [htoks]
          by_cases hlp : parenthesized fn l ∨ ¬ is_binary (nest l)
          · obtain ⟨hpl, hnl⟩ := reads_operand fn hl hlp
            exact chain_continues hg2 rest r _ (nest l) _ (primary_continues hpl hnl)
              (fun _ => trivial) hops hnr
          · have hnp : ¬ parenthesized fn l := fun h => hlp (Or.inl h)
            have hbl : is_binary (nest l) := by
              by_contra h
              exact hlp (Or.inr h)
            obtain ⟨h, a, b, rest', rfl, hinf'⟩ := nest_is_binary hbl
            obtain ⟨l', r', hn⟩ : ∃ l' r', nest (.Call h (a :: b :: rest')) = .Call h [l', r'] := by
              rw [nest, if_pos hinf', infix_nest]
              exact nest_chain_binary h rest' _ _
            rw [operand_tokens, if_neg hnp]
            have hlt : ¬ (deref h).precedence ≤ (deref fn).precedence := by
              intro hle
              exact hnp ⟨hle, rfl⟩
            refine chain_continues hg2 rest r _ _ (no_climb h)
              (hl.binary h l' r' hn hinf') ?_ hops hnr
            intro post id rest'' k hpost hk
            have hid : (deref fn).identifier = id :=
              Token.Identifier.inj (List.cons.inj hpost).1
            rw [← hid, hg2] at hk
            cases hk
            exact not_climb_of_lt hlt
        obtain ⟨l', r', hn⟩ := nest_chain_binary fn rest (nest l) (nest r)
        refine ⟨by rw [htoks]; simp [chain_tokens], ?_, ?_⟩
        · intro hnb
          rw [hn] at hnb
          exact absurd hinf hnb
        · intro g l0 r0 heq _
          have hgf : g = fn := by
            rw [hn] at heq
            cases heq
            rfl
          subst hgf
          exact hcont
    · rw [if_neg hinf] at hshape
      rw [nest, if_neg hinf]
      match args, hshape, hs with
      | [], hget, _ => exact absurd (by simpa using hget) (get_zero_none fn)
      | a :: rest, hget, hs =>
        have ha := hs a (List.mem_cons_self _ _)
        have hshape : rendered_tokens fmt (.Call fn (a :: rest)) =
            Token.Identifier (deref fn).identifier :: Token.char '(' ::
              (rendered_tokens fmt a ++ rest_tokens (rest.map (rendered_tokens fmt)) ++
                [Token.char ')']) := by
          simp [rendered_tokens, lexemes, hinf, routine_lexemes, Lexeme.tokens,
            symbol_paren_tokens, routine_rest_tokens]
        have hall : List.Forall₂ (parses_expression o) (rest.map (rendered_tokens fmt))
            (nest_list rest) := by
          rw [nest_list_eq_map, List.forall₂_map_left_iff, List.forall₂_map_right_iff,
            List.forall₂_same]
          intro b hb
          exact reads_expression (hs b (List.mem_cons_of_mem _ hb))
        have hprim := @parses_primary_routine o (deref fn).identifier fn _ (nest a) _
          (nest_list rest) (reads_expression ha) hall
          (by simpa [nest_list_eq_map] using hget)
        rw [nest_list]
        refine ⟨by rw [hshape]; simp, fun _ => by rw [hshape]; exact hprim, ?_⟩
        intro g l r heq hg
        injection heq with h1 _
        subst h1
        exact absurd hg hinf
theorem renders_back_reads_list (o : List Nat) (fmt : ℚ → String) :
    ∀ args : List Ast, renders_back_list fmt args →
      ∀ a ∈ args, reads o (rendered_tokens fmt a) (nest a)
  | [], _ => by intro a ha; simp at ha
  | b :: rest, h => by
    rw [renders_back_list] at h
    intro a ha
    rcases List.mem_cons.1 ha with rfl | ha
    · exact renders_back_reads o fmt _ h.1
    · exact renders_back_reads_list o fmt rest h.2 a ha
end

/-- Parsing the rendering of a tree that satisfies `renders_back` gives the
tree `nest` of it. -/
theorem parse_to_string_nest (uninit : Category) (fmt : ℚ → String) (t : Ast)
    (h : renders_back fmt t) : parse uninit (Ast.to_string fmt t) = .ok (nest t) := by
  obtain ⟨o, hl⟩ := Lexer_new_canonical uninit fmt t h
  have hE := reads_expression (renders_back_reads o fmt t h)
    (fuel_for (lexer_at o [] (rendered_tokens fmt t ++ [Token.EOL]))) [] [Token.EOL]
    ⟨_, _, rfl, rfl, by simp⟩
    (by simp only [fuel_for, lexer_at, List.nil_append]; omega)
  rw [parse_of_tokenized hl, hE]
  simp [Lexer.read, peek_lexer_at, Token.has_EOL]

theorem flatten_pair (fn : FunctionPtr) (x y : Ast) :
    flatten (.Call fn [x, y]) =
      .Call fn (chunk fn 0 1 (flatten x) ++ chunk fn 1 1 (flatten y)) := by
  rw [flatten, flatten_loop_chunk, flatten_loop_chunk, flatten_loop]
  simp

theorem chunk_not_spliced {fn : FunctionPtr} {i l : Nat} {x : Ast}
    (h : spliced fn i l x = false) : chunk fn i l x = [x] := by
  simp [chunk, h]

theorem chunk_spliced_call {fn : FunctionPtr} {i l : Nat} {args : List Ast}
    (h : associativity_match fn i l = true) : chunk fn i l (.Call fn args) = args := by
  simp [chunk, spliced, is_call_to, h, call_args]

theorem chain_flatten (fn : FunctionPtr) : ∀ (rest : List Ast) (lhs : Ast) (pre : List Ast),
    flatten lhs = .Call fn pre → (rest ≠ [] → associativity_match fn 0 1 = true) →
    (∀ b ∈ rest, flatten (nest b) = b ∧ spliced fn 1 1 b = false) →
    flatten (nest_chain fn lhs rest) = .Call fn (pre ++ rest) := by
  intro rest
  induction rest with
  | nil => intro lhs pre h _ _; simpa [nest_chain] using h
  | cons b rest ih =>
    intro lhs pre h hleft hrest
    obtain ⟨hb1, hb2⟩ := hrest b (List.mem_cons_self _ _)
    rw [nest_chain]
    have hstep : flatten (.Call fn [lhs, nest b]) = .Call fn (pre ++ [b]) := by
      rw [flatten_pair, h, hb1, chunk_spliced_call (hleft (by simp)), chunk_not_spliced hb2]
    have := ih _ _ hstep (fun _ => hleft (by simp))
      (fun c hc => hrest c (List.mem_cons_of_mem _ hc))
    simpa [List.append_assoc] using this

theorem splice_conditions {fn : FunctionPtr} {l r : Ast} {rest : List Ast}
    (hflat : no_splice fn (rest.length + 1) 0 (l :: r :: rest) = true)
    (hassoc : rest ≠ [] → (deref fn).associativity = Associativity.LEFT ∨
      (deref fn).associativity = Associativity.ALL) :
    spliced fn 0 1 l = false ∧ (∀ b ∈ r :: rest, spliced fn 1 1 b = false) ∧
      (rest ≠ [] → associativity_match fn 0 1 = true) := by
  by_cases hr : rest = []
  · subst hr
    simp only [no_splice, List.length_nil, Nat.zero_add, Bool.and_true, Bool.and_eq_true,
      Bool.not_eq_true'] at hflat
    refine ⟨hflat.1, ?_, fun h => absurd rfl h⟩
    intro b hb
    simp only [List.mem_singleton] at hb
    subst hb
    exact hflat.2
  · rcases hassoc hr with h | h
    · have hl := (no_splice_left_zero h _ l (r :: rest)).1 hflat
      refine ⟨by simp [spliced, hl], ?_, fun _ => by simp [match_left h]⟩
      intro b _
      simp [spliced, match_left h]
    · have hall := no_call_of_no_splice_all h _ _ _ hflat
      refine ⟨by simp [spliced, hall l (List.mem_cons_self _ _)], ?_,
        fun _ => match_all h _ _⟩
      intro b hb
      simp [spliced, hall b (List.mem_cons_of_mem _ hb)]

theorem flatten_loop_nest (fn : FunctionPtr) (last_i : Nat) : ∀ (args : List Ast) (i : Nat),
    (∀ a ∈ args, flatten (nest a) = a) → no_splice fn last_i i args = true →
    flatten_loop fn last_i i (nest_list args) = args := by
  intro args
  induction args with
  | nil => intro i _ _; simp [nest_list, flatten_loop]
  | cons a rest ih =>
    intro i hfl hns
    simp only [no_splice, Bool.and_eq_true, Bool.not_eq_true'] at hns
    rw [nest_list, flatten_loop_chunk, hfl a (List.mem_cons_self _ _),
      chunk_not_spliced hns.1, ih (i + 1) (fun b hb => hfl b (List.mem_cons_of_mem _ hb)) hns.2]
    rfl

mutual
theorem flatten_nest (fmt : ℚ → String) :
    ∀ t : Ast, is_flat t = true → renders_back fmt t → flatten (nest t) = t
  | .Literal _, _, _ => by simp [nest, flatten]
  | .Variable _, _, _ => by simp [nest, flatten]
  | .Call fn args, hflat, h => by
    rw [renders_back] at h
    obtain ⟨hshape, hargs⟩ := h
    simp only [is_flat, Bool.and_eq_true] at hflat
    obtain ⟨hns, hfl⟩ := hflat
    have hs := flatten_nest_list fmt args hfl hargs
    unfold call_shape at hshape
    by_cases hinf : (deref fn).syntax_ = Syntax.INFIX
    · rw [if_pos hinf] at hshape
      rw [nest, if_pos hinf]
      match args, hshape, hs, hns with
      | [], hshape, _, _ => exact absurd hshape id
      | [x], _, hs, hns =>
        simp only [no_splice, List.length_singleton, Nat.sub_self, Bool.and_true,
          Bool.not_eq_true'] at hns
        rw [infix_nest, flatten, flatten_loop_chunk, hs x (List.mem_cons_self _ _)]
        simp only [List.length_singleton, Nat.sub_self]
        rw [chunk_not_spliced hns, flatten_loop]
        rfl
      | l :: r :: rest, hshape, hs, hns =>
        obtain ⟨_, _, hassoc⟩ := hshape
        have hns' : no_splice fn (rest.length + 1) 0 (l :: r :: rest) = true := by
          simpa using hns
        obtain ⟨c1, c2, c3⟩ := splice_conditions hns' hassoc
        rw [infix_nest]
        have hstart : flatten (.Call fn [nest l, nest r]) = .Call fn [l, r] := by
          rw [flatten_pair, hs l (List.mem_cons_self _ _),
            hs r (List.mem_cons_of_mem _ (List.mem_cons_self _ _)), chunk_not_spliced c1,
            chunk_not_spliced (c2 r (List.mem_cons_self _ _))]
          rfl
        have := chain_flatten fn rest _ _ hstart c3 (fun b hb =>
          ⟨hs b (List.mem_cons_of_mem _ (List.mem_cons_of_mem _ hb)),
            c2 b (List.mem_cons_of_mem _ hb)⟩)
        simpa using this
    · rw [nest, if_neg hinf, flatten]
      have hlen : (nest_list args).length = args.length := by simp [nest_list_eq_map]
      rw [hlen, flatten_loop_nest fn _ args 0 hs hns]
theorem flatten_nest_list (fmt : ℚ → String) :
    ∀ args : List Ast, is_flat_list args = true → renders_back_list fmt args →
      ∀ a ∈ args, flatten (nest a) = a
  | [], _, _ => by intro a ha; simp at ha
  | b :: rest, hfl, h => by
    rw [renders_back_list] at h
    simp only [is_flat_list, Bool.and_eq_true] at hfl
    intro a ha
    rcases List.mem_cons.1 ha with rfl | ha
    · exact flatten_nest fmt _ hfl.1 h.1
    · exact flatten_nest_list fmt rest hfl.2 h.2 a ha
end

/-- Evaluating the rendering of a tree in normal form that satisfies
`renders_back` gives the tree back. -/
theorem evaluate_to_string (uninit : Category) (fmt : ℚ → String) (t : Ast)
    (hflat : is_flat t = true) (h : renders_back fmt t) :
    engine.evaluate_str uninit (Ast.to_string fmt t) = .ok t := by
  unfold engine.evaluate_str engine.evaluate_expr
  rw [parse_to_string_nest uninit fmt t h]
  simp only [flatten_nest fmt t hflat h]

theorem peek_function_get {lx : Lexer} {arity : Nat} {fn : FunctionPtr}
    (h : peek_function lx arity = some fn) : ∃ identifier, get identifier arity = some fn := by
  unfold peek_function at h
  split at h
  · exact ⟨_, h⟩
  · cases h

theorem out_expression {Q : Ast → Prop} {n : Nat} (ih : output_inv Q n) (lx : Lexer)
    (r : Ast × Lexer) (h : parse_expression (n + 1) lx = .ok r) : Q r.1 := by
  rw [parse_expression] at h
  cases hp : parse_primary n lx with
  | error e => simp [hp] at h
  | ok p =>
    obtain ⟨lhs, lx1⟩ := p
    simp only [hp] at h
    exact ih.precedence _ _ _ _ _ (fun f hf => by cases hf) (ih.primary _ _ hp) h

theorem out_shorthand {Q : Ast → Prop} (hQ : node_closed Q) {n : Nat} (ih : output_inv Q n)
    (lx : Lexer) (lhs : Ast) (r : Ast × Lexer) (hl : Q lhs)
    (h : parse_shorthand (n + 1) lx lhs = .ok r) : Q r.1 := by
  rw [parse_shorthand] at h
  split at h
  · cases hp : parse_primary n lx with
    | error e => simp [hp] at h
    | ok p =>
      obtain ⟨rhs, lx1⟩ := p
      simp only [hp, Except.ok.injEq] at h
      subst h
      exact hQ.of_product _ _ hl (ih.primary _ _ hp)
  · simp only [Except.ok.injEq] at h
    subst h
    exact hl

theorem out_precedence_rhs {Q : Ast → Prop} {n : Nat} (ih : output_inv Q n)
    (lx : Lexer) (rhs : Ast) (fn : FunctionPtr) (min : Precedence) (r : Ast × Lexer)
    (hr : Q rhs) (h : parse_precedence_rhs (n + 1) lx rhs fn min = .ok r) : Q r.1 := by
  rw [parse_precedence_rhs] at h
  cases hpf : peek_function lx 2 with
  | none =>
    simp only [hpf, Except.ok.injEq] at h
    subst h
    exact hr
  | some sub_fn =>
    simp only [hpf] at h
    split at h
    · cases hres : parse_precedence n lx rhs (next min) (some sub_fn) with
      | error e => simp [hres] at h
      | ok p =>
        obtain ⟨rhs2, lx2⟩ := p
        simp only [hres] at h
        have h2 : Q rhs2 := ih.precedence _ _ _ _ _ (by
          intro f hf
          cases hf
          exact peek_function_get hpf) hr hres
        exact ih.precedence_rhs _ _ _ _ _ h2 h
    · simp only [Except.ok.injEq] at h
      subst h
      exact hr

theorem out_precedence {Q : Ast → Prop} (hQ : node_closed Q) {n : Nat} (ih : output_inv Q n)
    (lx : Lexer) (lhs : Ast) (min : Precedence) (from_ : Option FunctionPtr) (r : Ast × Lexer)
    (hfrom : binary_operator from_) (hl : Q lhs)
    (h : parse_precedence (n + 1) lx lhs min from_ = .ok r) : Q r.1 := by
  have body : ∀ fn : FunctionPtr, (∃ identifier, get identifier 2 = some fn) →
      (match parse_primary n lx.discard with
        | .error e => .error e
        | .ok (rhs, lexer) =>
          match parse_precedence_rhs n lexer rhs fn min with
          | .error e => .error e
          | .ok (rhs, lexer) =>
            parse_precedence n lexer (.Call fn [lhs, rhs]) min from_ : Parsed) = .ok r →
      Q r.1 := by
    intro fn hfn hb
    obtain ⟨identifier, hget⟩ := hfn
    cases hres : parse_primary n lx.discard with
    | error e => simp [hres] at hb
    | ok p =>
      obtain ⟨rhs, lx1⟩ := p
      simp only [hres] at hb
      cases hres2 : parse_precedence_rhs n lx1 rhs fn min with
      | error e => simp [hres2] at hb
      | ok p2 =>
        obtain ⟨rhs2, lx2⟩ := p2
        simp only [hres2] at hb
        have h1 : Q rhs := ih.primary _ _ hres
        have h2 : Q rhs2 := ih.precedence_rhs _ _ _ _ _ h1 hres2
        exact ih.precedence _ _ _ _ _ hfrom (hQ.of_binary identifier fn lhs rhs2 hget hl h2) hb
  cases from_ with
  | none =>
    rw [parse_precedence] at h
    cases hpf : peek_function lx 2 with
    | none =>
      simp only [hpf, Except.ok.injEq] at h
      subst h
      exact hl
    | some fn =>
      simp only [hpf] at h
      split at h
      · exact body fn (peek_function_get hpf) h
      · simp only [Except.ok.injEq] at h
        subst h
        exact hl
  | some f =>
    rw [parse_precedence] at h
    split at h
    · exact body f (hfrom f rfl) h
    · simp only [Except.ok.injEq] at h
      subst h
      exact hl

theorem out_routine_args {Q : Ast → Prop} (hQ : node_closed Q) {n : Nat} (ih : output_inv Q n)
    (lx : Lexer) (identifier : String) (args : List Ast) (first : Bool) (r : Ast × Lexer)
    (ha : ∀ a ∈ args, Q a)
    (h : parse_routine_args (n + 1) lx identifier args first = .ok r) : Q r.1 := by
  have more : ∀ (lx1 : Lexer),
      (match parse_expression n lx1 with
        | .error e => .error e
        | .ok (arg, lexer) =>
          parse_routine_args n lexer identifier (args ++ [arg]) false : Parsed) = .ok r →
      Q r.1 := by
    intro lx1 hb
    cases hres : parse_expression n lx1 with
    | error e => simp [hres] at hb
    | ok p =>
      obtain ⟨arg, lx2⟩ := p
      simp only [hres] at hb
      refine ih.routine_args _ _ _ _ _ ?_ hb
      intro a hm
      rcases List.mem_append.1 hm with hm | hm
      · exact ha a hm
      · simp only [List.mem_singleton] at hm
        subst hm
        exact ih.expression _ _ hres
  rw [parse_routine_args] at h
  split at h
  · cases hg : get identifier (args.length % 256) with
    | none => simp [hg, impl.error] at h
    | some fn =>
      simp only [hg, Except.ok.injEq] at h
      subst h
      exact hQ.of_routine identifier fn args hg ha
  · split at h
    · exact more _ h
    · split at h
      · exact more _ h
      · simp [impl.error] at h

theorem out_primary {Q : Ast → Prop} (hQ : node_closed Q) {n : Nat} (ih : output_inv Q n)
    (lx : Lexer) (r : Ast × Lexer) (h : parse_primary (n + 1) lx = .ok r) : Q r.1 := by
  rw [parse_primary] at h
  simp only [Lexer.read] at h
  cases hpk : lx.peek with
  | EOL => simp [hpk, impl.error] at h
  | char c =>
    simp only [hpk] at h
    split at h
    · cases hres : parse_expression n lx.discard with
      | error e => simp [hres] at h
      | ok p =>
        obtain ⟨nested, lx1⟩ := p
        simp only [hres] at h
        split at h
        · exact ih.shorthand _ _ _ (ih.expression _ _ hres) h
        · simp [impl.error] at h
    · simp [impl.error] at h
  | string_view name =>
    simp only [hpk] at h
    exact ih.shorthand _ _ _ (hQ.of_variable name) h
  | double value =>
    simp only [hpk] at h
    exact ih.shorthand _ _ _ (hQ.of_literal value) h
  | Identifier identifier =>
    simp only [hpk] at h
    split at h
    · cases hres : parse_routine_call n lx.discard identifier with
      | error e => simp [hres] at h
      | ok p =>
        obtain ⟨expr, lx1⟩ := p
        simp only [hres] at h
        exact ih.shorthand _ _ _ (ih.routine_call _ _ _ hres) h
    · cases hg : get identifier 1 with
      | none => simp [hg, impl.error] at h
      | some fn =>
        simp only [hg] at h
        cases hres : parse_primary n lx.discard with
        | error e => simp [hres] at h
        | ok p =>
          obtain ⟨arg, lx1⟩ := p
          simp only [hres] at h
          exact ih.shorthand _ _ _ (hQ.of_unary identifier fn arg hg (ih.primary _ _ hres)) h

/-- Every tree the parser returns has a property that every node it builds
has. -/
theorem output_invariant {Q : Ast → Prop} (hQ : node_closed Q) : ∀ n, output_inv Q n := by
  intro n
  induction n with
  | zero =>
    exact
      { expression := fun lx r h => by simp [parse_expression] at h
        primary := fun lx r h => by simp [parse_primary] at h
        shorthand := fun lx lhs r _ h => by simp [parse_shorthand] at h
        precedence := fun lx lhs min from_ r _ _ h => by simp [parse_precedence] at h
        precedence_rhs := fun lx rhs fn min r _ h => by simp [parse_precedence_rhs] at h
        routine_call := fun lx identifier r h => by simp [parse_routine_call] at h
        routine_args := fun lx identifier args first r _ h => by simp [parse_routine_args] at h }
  | succ n ih =>
    exact
      { expression := out_expression ih
        primary := out_primary hQ ih
        shorthand := out_shorthand hQ ih
        precedence := out_precedence hQ ih
        precedence_rhs := out_precedence_rhs ih
        routine_call := fun lx identifier r h => by
          rw [parse_routine_call] at h
          exact ih.routine_args _ _ _ _ _ (fun a ha => by simp at ha) h
        routine_args := out_routine_args hQ ih }

theorem parse_output {Q : Ast → Prop} (hQ : node_closed Q) {uninit : Category} {s : String}
    {t : Ast} (h : parse uninit s = .ok t) : Q t := by
  obtain ⟨lx, lx', _, hp, _⟩ := (parse_ok_iff uninit s t).1 h
  exact (output_invariant hQ _).expression lx (t, lx') hp

theorem get_arity_pos : ∀ (fn : FunctionPtr) (n : Nat),
    arity_match (deref fn) n = true → 1 ≤ n := by
  intro fn n h
  have h1 : ∀ fn : FunctionPtr, 1 ≤ (deref fn).arity := by decide
  have := h1 fn
  rw [arity_match_iff] at h
  rcases h with ⟨_, h⟩ | ⟨_, h⟩ <;> omega

theorem args_nonempty_closed : node_closed (fun t => args_nonempty t = true) := by
  refine ⟨fun _ => rfl, fun _ => rfl, ?_, ?_, ?_, ?_⟩
  · intro identifier fn lhs rhs _ hl hr
    simp [args_nonempty, args_nonempty_list, hl, hr]
  · intro identifier fn arg _ ha
    simp [args_nonempty, args_nonempty_list, ha]
  · intro lhs rhs hl hr
    simp [args_nonempty, args_nonempty_list, hl, hr]
  · intro identifier fn args hg ha
    have hpos : 1 ≤ args.length % 256 := by
      obtain ⟨hm, _⟩ := get_some hg
      exact get_arity_pos fn _ hm
    have hne : args ≠ [] := by
      intro h0
      subst h0
      simp at hpos
    simp only [args_nonempty, Bool.and_eq_true, Bool.not_eq_true', List.isEmpty_eq_false]
    exact ⟨by simpa using hne, (args_nonempty_list_iff args).2 ha⟩

/-- The tree `evaluate_str` returns is in the normal form of `flatten`. -/
theorem evaluate_is_flat {uninit : Category} {s : String} {t : Ast}
    (h : engine.evaluate_str uninit s = .ok t) : is_flat t = true := by
  unfold engine.evaluate_str at h
  cases hp : parse uninit s with
  | error e => simp [hp] at h
  | ok p =>
    simp only [hp, Except.ok.injEq, engine.evaluate_expr] at h
    subst h
    exact (flatten_good p (parse_output args_nonempty_closed hp)).1

theorem leaves_list_append : ∀ xs ys : List Ast,
    leaves_list (xs ++ ys) = leaves_list xs ++ leaves_list ys
  | [], ys => by simp [leaves_list]
  | x :: xs, ys => by simp [leaves_list, leaves_list_append xs ys]

theorem leaves_chunk (fn : FunctionPtr) (i l : Nat) (x : Ast) :
    leaves_list (chunk fn i l x) = leaves x := by
  unfold chunk
  split
  · rename_i hs
    obtain ⟨hx, _⟩ := spliced_shape hs
    conv_rhs => rw [hx, leaves]
  · simp [leaves_list]

mutual
theorem flatten_leaves : ∀ t : Ast, leaves (flatten t) = leaves t
  | .Literal _ => by simp [flatten]
  | .Variable _ => by simp [flatten]
  | .Call fn args => by
    rw [flatten, leaves, leaves]
    exact flatten_loop_leaves fn (args.length - 1) 0 args
theorem flatten_loop_leaves : ∀ (fn : FunctionPtr) (last_i i : Nat) (args : List Ast),
    leaves_list (flatten_loop fn last_i i args) = leaves_list args
  | _, _, _, [] => by simp [flatten_loop]
  | fn, last_i, i, a :: rest => by
    rw [flatten_loop_chunk, leaves_list_append, leaves_chunk, flatten_leaves a,
      flatten_loop_leaves fn last_i (i + 1) rest, leaves_list]
end

theorem arity_ok_list_iff (xs : List Ast) :
    arity_ok_list xs = true ↔ ∀ x ∈ xs, arity_ok x = true := by
  induction xs with
  | nil => simp [arity_ok_list]
  | cons x xs ih => simp [arity_ok_list, ih]

theorem static_arity_one : ∀ fn : FunctionPtr, (deref fn).arity_type = ArityType.STATIC →
    (deref fn).arity = 1 := by
  decide

theorem arity_pos : ∀ fn : FunctionPtr, 1 ≤ (deref fn).arity := by
  decide

theorem chunk_arity {fn : FunctionPtr} {i l : Nat} {x : Ast} (h : arity_ok x = true) :
    (∀ y ∈ chunk fn i l x, arity_ok y = true) ∧ 1 ≤ (chunk fn i l x).length ∧
      ((deref fn).arity_type = ArityType.STATIC → (chunk fn i l x).length = 1) := by
  unfold chunk
  split
  · rename_i hs
    obtain ⟨hx, _⟩ := spliced_shape hs
    rw [hx] at h
    simp only [arity_ok, Bool.and_eq_true] at h
    obtain ⟨hm, hsub⟩ := h
    have hpos := arity_pos fn
    rw [arity_match_iff] at hm
    refine ⟨(arity_ok_list_iff _).1 hsub, ?_, ?_⟩
    · rcases hm with ⟨_, hm⟩ | ⟨_, hm⟩ <;> omega
    · intro hst
      rcases hm with ⟨_, hm⟩ | ⟨hd, _⟩
      · rw [← hm, static_arity_one fn hst]
      · rw [hst] at hd
        cases hd
  · exact ⟨by simpa using h, by simp, fun _ => by simp⟩

theorem flatten_loop_arity (fn : FunctionPtr) (l : Nat) : ∀ (args : List Ast) (i : Nat),
    (∀ a ∈ args, arity_ok (flatten a) = true) →
    (∀ y ∈ flatten_loop fn l i args, arity_ok y = true) ∧
      args.length ≤ (flatten_loop fn l i args).length ∧
      ((deref fn).arity_type = ArityType.STATIC →
        (flatten_loop fn l i args).length = args.length) := by
  intro args
  induction args with
  | nil => intro i _; simp [flatten_loop]
  | cons a rest ih =>
    intro i hs
    rw [flatten_loop_chunk]
    obtain ⟨c1, c2, c3⟩ := @chunk_arity fn i l _ (hs a (List.mem_cons_self _ _))
    obtain ⟨r1, r2, r3⟩ := ih (i + 1) (fun b hb => hs b (List.mem_cons_of_mem _ hb))
    refine ⟨?_, ?_, ?_⟩
    · intro y hy
      rcases List.mem_append.1 hy with hy | hy
      · exact c1 y hy
      · exact r1 y hy
    · simp only [List.length_append, List.length_cons]
      omega
    · intro hst
      simp only [List.length_append, List.length_cons, c3 hst, r3 hst]
      omega

mutual
theorem flatten_arity_ok : ∀ t : Ast, arity_ok t = true → arity_ok (flatten t) = true
  | .Literal _, _ => by simp [flatten, arity_ok]
  | .Variable _, _ => by simp [flatten, arity_ok]
  | .Call fn args, h => by
    simp only [arity_ok, Bool.and_eq_true] at h
    obtain ⟨hm, hargs⟩ := h
    have hs := flatten_arity_ok_list args hargs
    obtain ⟨l1, l2, l3⟩ := flatten_loop_arity fn (args.length - 1) args 0 hs
    simp only [flatten, arity_ok, Bool.and_eq_true]
    refine ⟨?_, (arity_ok_list_iff _).2 l1⟩
    rw [arity_match_iff] at hm ⊢
    rcases hm with ⟨hst, hm⟩ | ⟨hd, hm⟩
    · exact Or.inl ⟨hst, by rw [l3 hst]; exact hm⟩
    · exact Or.inr ⟨hd, by omega⟩
theorem flatten_arity_ok_list : ∀ args : List Ast, arity_ok_list args = true →
    ∀ a ∈ args, arity_ok (flatten a) = true
  | [], _ => by intro a ha; simp at ha
  | b :: rest, h => by
    simp only [arity_ok_list, Bool.and_eq_true] at h
    intro a ha
    rcases List.mem_cons.1 ha with rfl | ha
    · exact flatten_arity_ok _ h.1
    · exact flatten_arity_ok_list rest h.2 a ha
end

theorem normal_form_list_iff (xs : List Ast) :
    normal_form_list xs ↔ ∀ x ∈ xs, normal_form x := by
  induction xs with
  | nil => simp [normal_form_list]
  | cons x xs ih => simp [normal_form_list, ih]

theorem node_normal_of_no_splice {fn : FunctionPtr} {args : List Ast}
    (h : no_splice fn (args.length - 1) 0 args = true) : node_normal fn args := by
  refine ⟨?_, ?_, ?_⟩
  · intro hall
    exact no_call_of_no_splice_all hall _ _ _ h
  · intro hleft a ha
    cases args with
    | nil => simp at ha
    | cons x xs =>
      simp only [List.head?_cons, Option.some.injEq] at ha
      subst ha
      exact (no_splice_left_zero hleft _ x xs).1 h
  · intro hright a ha
    by_cases hne : args = []
    · subst hne
      simp at ha
    · have hsplit := (List.dropLast_append_getLast hne).symm
      have hlast : args.getLast hne = a := by
        rw [List.getLast?_eq_getLast _ hne] at ha
        exact Option.some.inj ha
      rw [hlast] at hsplit
      rw [hsplit] at h
      refine (no_splice_right hright a args.dropLast 0 _ ?_).1 h
      simp

mutual
theorem normal_form_of_is_flat : ∀ t : Ast, is_flat t = true → normal_form t
  | .Literal _, _ => by simp [normal_form]
  | .Variable _, _ => by simp [normal_form]
  | .Call fn args, h => by
    simp only [is_flat, Bool.and_eq_true] at h
    rw [normal_form]
    exact ⟨node_normal_of_no_splice h.1,
      (normal_form_list_iff args).2 (normal_form_of_is_flat_list args h.2)⟩
theorem normal_form_of_is_flat_list : ∀ args : List Ast, is_flat_list args = true →
    ∀ a ∈ args, normal_form a
  | [], _ => by intro a ha; simp at ha
  | b :: rest, h => by
    simp only [is_flat_list, Bool.and_eq_true] at h
    intro a ha
    rcases List.mem_cons.1 ha with rfl | ha
    · exact normal_form_of_is_flat _ h.1
    · exact normal_form_of_is_flat_list rest h.2 a ha
end

theorem flatten_call_shape (fn : FunctionPtr) (args : List Ast) :
    flatten (.Call fn args) = .Call fn (flatten_loop fn (args.length - 1) 0 args) := by
  rw [flatten]

theorem flatten_loop_all {fn : FunctionPtr} (h : (deref fn).associativity = Associativity.ALL)
    (l : Nat) : ∀ (args : List Ast) (i : Nat),
    (∀ a ∈ args, ∀ sub, flatten a = .Call fn sub → ∀ y ∈ sub, is_call_to fn y = false) →
    ∀ y ∈ flatten_loop fn l i args, is_call_to fn y = false := by
  intro args
  induction args with
  | nil => intro i _ y hy; simp [flatten_loop] at hy
  | cons a rest ih =>
    intro i hs y hy
    rw [flatten_loop_chunk] at hy
    rcases List.mem_append.1 hy with hy | hy
    · unfold chunk at hy
      split at hy
      · rename_i hsp
        obtain ⟨hx, _⟩ := spliced_shape hsp
        exact hs a (List.mem_cons_self _ _) _ hx y hy
      · rename_i hsp
        simp only [List.mem_singleton] at hy
        subst hy
        simpa [spliced, match_all h] using hsp
    · exact ih (i + 1) (fun b hb => hs b (List.mem_cons_of_mem _ hb)) y hy

mutual
theorem flatten_all : ∀ (t : Ast) (fn : FunctionPtr) (sub : List Ast),
    flatten t = .Call fn sub → (deref fn).associativity = Associativity.ALL →
    ∀ y ∈ sub, is_call_to fn y = false
  | .Literal _, _, _, h, _ => by simp [flatten] at h
  | .Variable _, _, _, h, _ => by simp [flatten] at h
  | .Call g args, fn, sub, h, hall => by
    rw [flatten_call_shape] at h
    injection h with h1 h2
    subst h1
    subst h2
    exact flatten_loop_all hall _ args 0 (fun a ha sub' hsub => flatten_all_list args a ha g sub' hsub hall)
theorem flatten_all_list : ∀ (args : List Ast) (a : Ast), a ∈ args →
    ∀ (fn : FunctionPtr) (sub : List Ast), flatten a = .Call fn sub →
    (deref fn).associativity = Associativity.ALL → ∀ y ∈ sub, is_call_to fn y = false
  | [], _, ha => by simp at ha
  | b :: rest, a, ha => by
    rcases List.mem_cons.1 ha with rfl | ha
    · exact flatten_all a
    · exact flatten_all_list rest a ha
end

theorem flatten_loop_none {fn : FunctionPtr} (h : (deref fn).associativity = Associativity.NONE)
    (l : Nat) : ∀ (args : List Ast) (i : Nat),
    flatten_loop fn l i args = args.map flatten := by
  intro args
  induction args with
  | nil => intro i; simp [flatten_loop]
  | cons a rest ih =>
    intro i
    rw [flatten_loop_chunk, ih (i + 1)]
    simp [chunk, spliced, match_none h]

theorem unary_is_right : ∀ u : FunctionPtr, (deref u).syntax_ = Syntax.INFIX →
    (deref u).arity_type = ArityType.STATIC →
    (deref u).associativity = Associativity.RIGHT ∧ (deref u).arity = 1 := by
  decide

theorem flatten_single (fn : FunctionPtr) (x : Ast) :
    flatten (.Call fn [x]) = .Call fn (chunk fn 0 0 (flatten x)) := by
  rw [flatten, flatten_loop_chunk, flatten_loop]
  simp

theorem flatten_nested_single {u : FunctionPtr}
    (h : (deref u).associativity = Associativity.RIGHT) (t : Ast) :
    flatten (.Call u [.Call u [t]]) = flatten (.Call u [t]) := by
  rw [flatten_single u (.Call u [t]), flatten_single u t]
  simp [chunk, spliced, is_call_to, match_right h, call_args]

theorem apply_reaches {lx : Lexer} (h : well_formed lx) (op : Operation) :
    reaches lx (op.apply lx) := by
  cases op with
  | peek => exact reaches_refl h
  | read => exact reaches_discard h
  | discard => exact reaches_discard h

theorem run_reaches : ∀ (ops : List Operation) (lx : Lexer), well_formed lx →
    reaches lx (run ops lx) := by
  intro ops
  induction ops with
  | nil => intro lx h; exact reaches_refl h
  | cons op ops ih =>
    intro lx h
    have h1 := apply_reaches h op
    exact reaches_trans h1 (ih _ h1.wf)

theorem apply_at_EOL {lx : Lexer} (h : well_formed lx) (hp : lx.peek = Token.EOL)
    (op : Operation) : op.apply lx = lx := by
  cases op with
  | peek => rfl
  | read => exact discard_of_EOL h hp
  | discard => exact discard_of_EOL h hp

theorem run_at_EOL : ∀ (ops : List Operation) (lx : Lexer), well_formed lx →
    lx.peek = Token.EOL → run ops lx = lx := by
  intro ops
  induction ops with
  | nil => intro lx _ _; rfl
  | cons op ops ih =>
    intro lx h hp
    rw [run, apply_at_EOL h hp op]
    exact ih lx h hp

theorem peek_in_bounds {lx : Lexer} (h : well_formed lx) :
    lx._tokens.get? lx._cursor = some lx.peek := by
  have := h.cursor_lt
  simp [Lexer.peek, List.getD_eq_getElem?_getD, List.getElem?_eq_getElem this]

theorem last_token_start_eq (lx : Lexer) :
    lx.last_token_start = lx._offsets.getD (lx._cursor - 1) 0 := by
  unfold Lexer.last_token_start
  split
  · rename_i h
    rw [h]
  · rfl

theorem last_token_start_discard {lx : Lexer} (h : well_formed lx) :
    (lx.peek ≠ Token.EOL → lx.discard.last_token_start = lx._offsets.getD lx._cursor 0) ∧
    (lx.peek = Token.EOL →
      lx.discard.last_token_start = lx._offsets.getD (lx._cursor - 1) 0) := by
  constructor
  · intro hp
    rw [last_token_start_eq, (discard_of_not_EOL h hp).1]
    simp
  · intro hp
    rw [discard_of_EOL h hp, last_token_start_eq]

theorem tracks_ok {lx lx' : Lexer} (t : Ast) (h : reaches lx lx') : tracks lx (.ok (t, lx')) :=
  ⟨fun _ _ he => (by cases he; exact h), fun _ he => (by cases he)⟩

theorem tracks_error {lx lx1 : Lexer} (msg : Message) (h : reaches lx lx1) :
    tracks lx (impl.error lx1.discard msg) := by
  refine ⟨fun _ _ he => (by cases he), fun e he => ?_⟩
  cases he
  exact Or.inr ⟨lx1, msg, h, rfl⟩

theorem tracks_fuel (lx : Lexer) : tracks lx (.error Failure.out_of_fuel) :=
  ⟨fun _ _ he => (by cases he), fun _ he => (by cases he; exact Or.inl rfl)⟩

theorem tracks_sub {lx lx0 : Lexer} {r : Parsed} (hr : reaches lx lx0) (h : tracks lx0 r) :
    tracks lx r := by
  refine ⟨fun t lx' he => reaches_trans hr (h.1 t lx' he), fun e he => ?_⟩
  rcases h.2 e he with h1 | ⟨lx1, msg, h1, h2⟩
  · exact Or.inl h1
  · exact Or.inr ⟨lx1, msg, reaches_trans hr h1, h2⟩

theorem tracks_sub_error {lx lx0 : Lexer} {r : Parsed} {e : Failure} (hr : reaches lx lx0)
    (h : tracks lx0 r) (he : r = .error e) : tracks lx (.error e) := by
  rw [← he]
  exact tracks_sub hr h

theorem err_expression {n : Nat} (ih : error_inv n) (lx : Lexer) (hwf : well_formed lx) :
    tracks lx (parse_expression (n + 1) lx) := by
  rw [parse_expression]
  cases hres : parse_primary n lx with
  | error e => exact tracks_sub_error (reaches_refl hwf) (ih.primary lx hwf) hres
  | ok p =>
    obtain ⟨lhs, lx1⟩ := p
    have hr1 := (ih.primary lx hwf).1 lhs lx1 hres
    exact tracks_sub hr1 (ih.precedence lx1 lhs LOWEST none hr1.wf)

theorem err_shorthand {n : Nat} (ih : error_inv n) (lx : Lexer) (lhs : Ast)
    (hwf : well_formed lx) : tracks lx (parse_shorthand (n + 1) lx lhs) := by
  rw [parse_shorthand]
  split
  · cases hres : parse_primary n lx with
    | error e => exact tracks_sub_error (reaches_refl hwf) (ih.primary lx hwf) hres
    | ok p =>
      obtain ⟨rhs, lx1⟩ := p
      exact tracks_ok _ ((ih.primary lx hwf).1 rhs lx1 hres)
  · exact tracks_ok _ (reaches_refl hwf)

theorem err_precedence_rhs {n : Nat} (ih : error_inv n) (lx : Lexer) (rhs : Ast)
    (fn : FunctionPtr) (min : Precedence) (hwf : well_formed lx) :
    tracks lx (parse_precedence_rhs (n + 1) lx rhs fn min) := by
  rw [parse_precedence_rhs]
  cases hpf : peek_function lx 2 with
  | none => exact tracks_ok _ (reaches_refl hwf)
  | some sub_fn =>
    dsimp only []
    split
    · cases hres : parse_precedence n lx rhs (next min) (some sub_fn) with
      | error e =>
        exact tracks_sub_error (reaches_refl hwf) (ih.precedence lx rhs _ _ hwf) hres
      | ok p =>
        obtain ⟨rhs2, lx1⟩ := p
        have hr1 := (ih.precedence lx rhs _ _ hwf).1 rhs2 lx1 hres
        exact tracks_sub hr1 (ih.precedence_rhs lx1 rhs2 fn min hr1.wf)
    · exact tracks_ok _ (reaches_refl hwf)

theorem err_precedence {n : Nat} (ih : error_inv n) (lx : Lexer) (lhs : Ast)
    (min : Precedence) (from_ : Option FunctionPtr) (hwf : well_formed lx) :
    tracks lx (parse_precedence (n + 1) lx lhs min from_) := by
  have body : ∀ fn : FunctionPtr, tracks lx
      (match parse_primary n lx.discard with
        | .error e => .error e
        | .ok (rhs, lexer) =>
          match parse_precedence_rhs n lexer rhs fn min with
          | .error e => .error e
          | .ok (rhs, lexer) =>
            parse_precedence n lexer (.Call fn [lhs, rhs]) min from_ : Parsed) := by
    intro fn
    have hrd := reaches_discard hwf
    cases hres : parse_primary n lx.discard with
    | error e => exact tracks_sub_error hrd (ih.primary _ hrd.wf) hres
    | ok p =>
      obtain ⟨rhs, lx1⟩ := p
      have hr1 := reaches_trans hrd ((ih.primary _ hrd.wf).1 rhs lx1 hres)
      dsimp only []
      cases hres2 : parse_precedence_rhs n lx1 rhs fn min with
      | error e => exact tracks_sub_error hr1 (ih.precedence_rhs lx1 rhs fn min hr1.wf) hres2
      | ok p2 =>
        obtain ⟨rhs2, lx2⟩ := p2
        have hr2 := reaches_trans hr1
          ((ih.precedence_rhs lx1 rhs fn min hr1.wf).1 rhs2 lx2 hres2)
        exact tracks_sub hr2 (ih.precedence lx2 _ min from_ hr2.wf)
  cases from_ with
  | none =>
    rw [parse_precedence]
    cases hpf : peek_function lx 2 with
    | none => exact tracks_ok _ (reaches_refl hwf)
    | some fn =>
      dsimp only []
      split
      · exact body fn
      · exact tracks_ok _ (reaches_refl hwf)
  | some f =>
    rw [parse_precedence]
    split
    · exact body f
    · exact tracks_ok _ (reaches_refl hwf)

theorem err_routine_args {n : Nat} (ih : error_inv n) (lx : Lexer) (identifier : String)
    (args : List Ast) (first : Bool) (hwf : well_formed lx) :
    tracks lx (parse_routine_args (n + 1) lx identifier args first) := by
  have more : ∀ lx0 : Lexer, reaches lx lx0 → tracks lx
      (match parse_expression n lx0 with
        | .error e => .error e
        | .ok (arg, lexer) =>
          parse_routine_args n lexer identifier (args ++ [arg]) false : Parsed) := by
    intro lx0 hr0
    cases hres : parse_expression n lx0 with
    | error e => exact tracks_sub_error hr0 (ih.expression _ hr0.wf) hres
    | ok p =>
      obtain ⟨arg, lx1⟩ := p
      have hr1 := reaches_trans hr0 ((ih.expression _ hr0.wf).1 arg lx1 hres)
      exact tracks_sub hr1 (ih.routine_args lx1 identifier _ false hr1.wf)
  rw [parse_routine_args]
  split
  · cases hg : get identifier (args.length % 256) with
    | none => exact tracks_error _ (reaches_refl hwf)
    | some fn => exact tracks_ok _ (reaches_discard hwf)
  · split
    · exact more lx (reaches_refl hwf)
    · split
      · exact more _ (reaches_discard hwf)
      · exact tracks_error _ (reaches_refl hwf)

theorem err_primary {n : Nat} (ih : error_inv n) (lx : Lexer) (hwf : well_formed lx) :
    tracks lx (parse_primary (n + 1) lx) := by
  have hrd := reaches_discard hwf
  rw [parse_primary]
  simp only [Lexer.read]
  cases hpk : lx.peek with
  | EOL => exact tracks_error _ (reaches_refl hwf)
  | char c =>
    dsimp only []
    split
    · cases hres : parse_expression n lx.discard with
      | error e => exact tracks_sub_error hrd (ih.expression _ hrd.wf) hres
      | ok p =>
        obtain ⟨nested, lx1⟩ := p
        have hr1 := reaches_trans hrd ((ih.expression _ hrd.wf).1 nested lx1 hres)
        dsimp only []
        split
        · have hr2 := reaches_trans hr1 (reaches_discard hr1.wf)
          exact tracks_sub hr2 (ih.shorthand _ nested hr2.wf)
        · exact tracks_error _ hr1
    · exact tracks_error _ (reaches_refl hwf)
  | string_view name => exact tracks_sub hrd (ih.shorthand _ _ hrd.wf)
  | double value => exact tracks_sub hrd (ih.shorthand _ _ hrd.wf)
  | Identifier identifier =>
    dsimp only []
    split
    · cases hres : parse_routine_call n lx.discard identifier with
      | error e => exact tracks_sub_error hrd (ih.routine_call _ identifier hrd.wf) hres
      | ok p =>
        obtain ⟨expr, lx1⟩ := p
        have hr1 := reaches_trans hrd ((ih.routine_call _ identifier hrd.wf).1 expr lx1 hres)
        exact tracks_sub hr1 (ih.shorthand _ expr hr1.wf)
    · cases hg : get identifier 1 with
      | none => exact tracks_error _ (reaches_refl hwf)
      | some fn =>
        dsimp only []
        cases hres : parse_primary n lx.discard with
        | error e => exact tracks_sub_error hrd (ih.primary _ hrd.wf) hres
        | ok p =>
          obtain ⟨arg, lx1⟩ := p
          have hr1 := reaches_trans hrd ((ih.primary _ hrd.wf).1 arg lx1 hres)
          exact tracks_sub hr1 (ih.shorthand _ _ hr1.wf)

/-- The columns of the errors of the parsing functions. -/
theorem error_invariant : ∀ n, error_inv n := by
  intro n
  induction n with
  | zero =>
    exact
      { expression := fun lx _ => by rw [parse_expression]; exact tracks_fuel lx
        primary := fun lx _ => by rw [parse_primary]; exact tracks_fuel lx
        shorthand := fun lx lhs _ => by rw [parse_shorthand]; exact tracks_fuel lx
        precedence := fun lx lhs min from_ _ => by rw [parse_precedence]; exact tracks_fuel lx
        precedence_rhs := fun lx rhs fn min _ => by
          rw [parse_precedence_rhs]; exact tracks_fuel lx
        routine_call := fun lx identifier _ => by rw [parse_routine_call]; exact tracks_fuel lx
        routine_args := fun lx identifier args first _ => by
          rw [parse_routine_args]; exact tracks_fuel lx }
  | succ n ih =>
    exact
      { expression := err_expression ih
        primary := err_primary ih
        shorthand := err_shorthand ih
        precedence := err_precedence ih
        precedence_rhs := err_precedence_rhs ih
        routine_call := fun lx identifier hwf => by
          rw [parse_routine_call]
          exact tracks_sub (reaches_discard hwf) (ih.routine_args _ identifier [] true
            (reaches_discard hwf).wf)
        routine_args := err_routine_args ih }

/-- The column of a `parser::Error` of `parse` is `last_token_start()` right
after the `read` or `discard` of a state the parser reached. -/
theorem parse_error_column {uninit : Category} {s : String} {lx : Lexer} {column : Nat}
    {msg : Message} (hlex : Lexer.new uninit s = .ok lx)
    (h : parse uninit s = .error (Failure.Error column msg)) :
    ∃ lx1, reaches lx lx1 ∧ column = lx1.discard.last_token_start := by
  have hwf := Lexer_new_well_formed hlex
  have ht := (error_invariant (fuel_for lx)).expression lx hwf
  rw [parse_of_tokenized hlex] at h
  cases hres : parse_expression (fuel_for lx) lx with
  | error e =>
    rw [hres] at h
    simp only [Except.error.injEq] at h
    rcases ht.2 e hres with h1 | ⟨lx1, m, h1, h2⟩
    · rw [h1] at h; cases h
    · rw [h2] at h
      injection h with hc _
      exact ⟨lx1, h1, hc.symm⟩
  | ok p =>
    obtain ⟨t, lx1⟩ := p
    have hr1 := ht.1 t lx1 hres
    rw [hres] at h
    dsimp only [] at h
    split at h
    · cases h
    · simp only [impl.error, Lexer.read, Except.error.injEq] at h
      injection h with hc _
      exact ⟨lx1, hr1, hc.symm⟩

theorem no_return_throws {res : Parsed} (h : no_return res) :
    ∃ column msg, res = .error (Failure.Error column msg) := by
  cases hres : res with
  | error e =>
    obtain ⟨c, m, rfl⟩ := h.1 e hres
    exact ⟨c, m, rfl⟩
  | ok p => exact absurd hres (h.2 p.1 p.2)

theorem precedence_from_throws {n : Nat} {lx : Lexer} (lhs : Ast) {min : Precedence}
    {f : FunctionPtr} (hwf : well_formed lx) (hn : 4 * remaining lx + 1 ≤ n)
    (hmin : (deref f).precedence ≥ min) :
    ∃ column msg, parse_precedence n lx lhs min (some f) = .error (Failure.Error column msg) :=
  no_return_throws ((parser_invariant n).precedence_some lx lhs min f hwf hn hmin)

theorem precedence_rhs_climb_throws {n : Nat} {lx : Lexer} (rhs : Ast) {fn sub_fn : FunctionPtr}
    {min : Precedence} (hwf : well_formed lx) (hn : 4 * remaining lx + 2 ≤ n)
    (hmin : (deref fn).precedence ≥ min) (hpf : peek_function lx 2 = some sub_fn)
    (hcl : climbs sub_fn fn = true) :
    ∃ column msg, parse_precedence_rhs n lx rhs fn min = .error (Failure.Error column msg) := by
  obtain ⟨k, rfl⟩ : ∃ k, n = k + 1 := ⟨n - 1, by omega⟩
  obtain ⟨c, m, h⟩ := precedence_from_throws rhs hwf (show 4 * remaining lx + 1 ≤ k by omega)
    (climbs_ge_next hcl hmin)
  refine ⟨c, m, ?_⟩
  rw [parse_precedence_rhs, hpf]
  simp only [hcl, if_true, h]

theorem discard_lexer_at_cons (o : List Nat) (pre : List Token) (x : Token) (rest : List Token)
    (h : rest ≠ []) : (lexer_at o pre (x :: rest)).discard = lexer_at o (pre ++ [x]) rest := by
  cases rest with
  | nil => exact absurd rfl h
  | cons y ys => exact discard_lexer_at _ _ _ _ _

theorem well_formed_lexer_at {lx : Lexer} (hwf : well_formed lx) (pre post : List Token)
    (h : lx._tokens = pre ++ post) (hp : post ≠ []) :
    well_formed (lexer_at lx._offsets pre post) := by
  refine ⟨?_, ?_⟩
  · have : 0 < post.length := List.length_pos.2 hp
    simp only [lexer_at, List.length_append]
    omega
  · intro i hi
    have := hwf.EOL_iff i (by rw [h]; exact hi)
    simpa [lexer_at, ← h] using this

/-- One iteration of the operator loop of `parse_precedence` whose right
operand is followed by an operator that climbs throws a `parser::Error`. -/
theorem precedence_loop_climb_throws {n : Nat} {o : List Nat} {pre T2 rest : List Token}
    {x2 : Ast} {op1 op2 : String} {fn sub_fn : FunctionPtr} (lhs : Ast) {min : Precedence}
    (hwf : well_formed (lexer_at o pre (Token.Identifier op1 :: (T2 ++ Token.Identifier op2 :: rest))))
    (hn : 4 * remaining (lexer_at o pre (Token.Identifier op1 ::
      (T2 ++ Token.Identifier op2 :: rest))) + 1 ≤ n)
    (h2 : parses_primary o T2 x2) (hfn : get op1 2 = some fn)
    (hmin : (deref fn).precedence ≥ min) (hsub : get op2 2 = some sub_fn)
    (hcl : climbs sub_fn fn = true) :
    ∃ column msg,
      parse_precedence n (lexer_at o pre (Token.Identifier op1 ::
        (T2 ++ Token.Identifier op2 :: rest))) lhs min none =
        .error (Failure.Error column msg) := by
  have hrem0 : remaining (lexer_at o pre (Token.Identifier op1 ::
      (T2 ++ Token.Identifier op2 :: rest))) = T2.length + rest.length + 2 := by
    simp only [remaining, lexer_at, List.length_append, List.length_cons]
    omega
  rw [hrem0] at hn
  obtain ⟨k, rfl⟩ : ∃ k, n = k + 1 := ⟨n - 1, by omega⟩
  have hq2 : quiet (Token.Identifier op2 :: rest) := ⟨_, _, rfl, rfl⟩
  have hwf2 : well_formed (lexer_at o (pre ++ [Token.Identifier op1] ++ T2)
      (Token.Identifier op2 :: rest)) :=
    well_formed_lexer_at hwf _ _ (by simp [lexer_at]) (by simp)
  have hrem : remaining (lexer_at o (pre ++ [Token.Identifier op1] ++ T2)
      (Token.Identifier op2 :: rest)) = 1 + rest.length := by
    simp only [remaining, lexer_at, List.length_append, List.length_cons, List.length_nil]
    omega
  obtain ⟨c, m, hrhs⟩ := @precedence_rhs_climb_throws k _ x2 fn sub_fn min hwf2
    (by rw [hrem]; omega) hmin
    (by rw [peek_function_lexer_at]; exact hsub) hcl
  refine ⟨c, m, ?_⟩
  rw [parse_precedence, peek_function_lexer_at]
  simp only [hfn]
  rw [if_pos hmin, discard_lexer_at_cons _ _ _ _ (by simp)]
  have e2 := h2 k (pre ++ [Token.Identifier op1]) (Token.Identifier op2 :: rest) hq2
    (by simp only [List.length_append, List.length_cons]; omega)
  rw [e2]
  simp only [hrhs]

/-- A text whose tokens begin with a primary, a binary operator, a primary and
a binary operator that climbs over the first ends in a parse error. -/
theorem climbing_operator_throws {uninit : Category} {s : String} {lx : Lexer}
    {T1 T2 rest : List Token} {x1 x2 : Ast} {op1 op2 : String} {fn sub_fn : FunctionPtr}
    (hlex : Lexer.new uninit s = .ok lx)
    (htoks : lx._tokens = T1 ++ Token.Identifier op1 :: (T2 ++ Token.Identifier op2 :: rest))
    (h1 : parses_primary lx._offsets T1 x1) (h2 : parses_primary lx._offsets T2 x2)
    (hfn : get op1 2 = some fn) (hsub : get op2 2 = some sub_fn)
    (hcl : climbs sub_fn fn = true) :
    ∃ column msg, parse uninit s = .error (Failure.Error column msg) := by
  have hwf := Lexer_new_well_formed hlex
  have hat := Lexer_new_lexer_at hlex
  rw [htoks] at hat
  have hq1 : quiet (Token.Identifier op1 :: (T2 ++ Token.Identifier op2 :: rest)) :=
    ⟨_, _, rfl, rfl⟩
  have hlen : lx._tokens.length = T1.length + 1 + (T2.length + 1 + rest.length) := by
    rw [htoks]
    simp only [List.length_append, List.length_cons]
    omega
  obtain ⟨k, hk⟩ : ∃ k, fuel_for lx = k + 1 := ⟨fuel_for lx - 1, by unfold fuel_for; omega⟩
  have hkl : k = 4 * lx._tokens.length + 3 := by unfold fuel_for at hk; omega
  have hwf1 : well_formed (lexer_at lx._offsets ([] ++ T1)
      (Token.Identifier op1 :: (T2 ++ Token.Identifier op2 :: rest))) :=
    well_formed_lexer_at hwf _ _ (by rw [htoks]; simp) (by simp)
  obtain ⟨c, m, hloop⟩ := @precedence_loop_climb_throws k lx._offsets ([] ++ T1) T2 rest x2
    op1 op2 fn sub_fn x1 LOWEST hwf1
    (by
      simp only [remaining, lexer_at, List.length_append, List.length_cons, List.length_nil]
      omega)
    h2 hfn (lowest_le _) hsub hcl
  refine ⟨c, m, ?_⟩
  rw [parse_of_tokenized hlex, hk, parse_expression, hat]
  have e1 := h1 k [] (Token.Identifier op1 :: (T2 ++ Token.Identifier op2 :: rest)) hq1
    (by simp only [List.length_append, List.length_cons]; omega)
  rw [e1]
  simp only [hloop]

theorem seq_mono (a a' : Parsed) (k k' : Ast → Lexer → Parsed) :
    settled ((match a with
      | .error e => .error e
      | .ok (t, lx) => k t lx : Parsed)) →
    (settled a → a' = a) →
    (∀ t lx, a = .ok (t, lx) → settled (k t lx) → k' t lx = k t lx) →
    ((match a' with
      | .error e => .error e
      | .ok (t, lx) => k' t lx : Parsed)) =
    ((match a with
      | .error e => .error e
      | .ok (t, lx) => k t lx : Parsed)) := by
  intro h ha hk
  have hs : settled a := by
    intro e
    rw [e] at h
    exact h rfl
  rw [ha hs]
  cases ha2 : a with
  | error e => rfl
  | ok p =>
    obtain ⟨t, lx⟩ := p
    rw [ha2] at h
    exact hk t lx ha2 h

theorem mono_expression {n : Nat} (ih : fuel_mono n) (lx : Lexer)
    (h : settled (parse_expression (n + 1) lx)) :
    parse_expression (n + 1 + 1) lx = parse_expression (n + 1) lx := by
  rw [parse_expression] at h
  rw [parse_expression, parse_expression]
  exact seq_mono _ _ _ _ h (ih.primary lx) (fun t lx1 _ hs => ih.precedence lx1 t LOWEST none hs)

theorem mono_shorthand {n : Nat} (ih : fuel_mono n) (lx : Lexer) (lhs : Ast)
    (h : settled (parse_shorthand (n + 1) lx lhs)) :
    parse_shorthand (n + 1 + 1) lx lhs = parse_shorthand (n + 1) lx lhs := by
  rw [parse_shorthand] at h
  rw [parse_shorthand, parse_shorthand]
  split
  · rename_i hc
    rw [if_pos hc] at h
    exact seq_mono _ _ _ _ h (ih.primary lx) (fun t lx1 _ _ => rfl)
  · rfl

theorem mono_precedence_rhs {n : Nat} (ih : fuel_mono n) (lx : Lexer) (rhs : Ast)
    (fn : FunctionPtr) (min : Precedence)
    (h : settled (parse_precedence_rhs (n + 1) lx rhs fn min)) :
    parse_precedence_rhs (n + 1 + 1) lx rhs fn min = parse_precedence_rhs (n + 1) lx rhs fn min := by
  rw [parse_precedence_rhs] at h
  rw [parse_precedence_rhs, parse_precedence_rhs]
  cases hpf : peek_function lx 2 with
  | none => rfl
  | some sub_fn =>
    rw [hpf] at h
    dsimp only [] at h ⊢
    split
    · rename_i hc
      rw [if_pos hc] at h
      exact seq_mono _ _ _ _ h (ih.precedence lx rhs (next min) (some sub_fn))
        (fun t lx1 _ hs => ih.precedence_rhs lx1 t fn min hs)
    · rfl

theorem mono_precedence {n : Nat} (ih : fuel_mono n) (lx : Lexer) (lhs : Ast)
    (min : Precedence) (from_ : Option FunctionPtr)
    (h : settled (parse_precedence (n + 1) lx lhs min from_)) :
    parse_precedence (n + 1 + 1) lx lhs min from_ = parse_precedence (n + 1) lx lhs min from_ := by
  have body : ∀ fn : FunctionPtr,
      settled ((match parse_primary n lx.discard with
        | .error e => .error e
        | .ok (rhs, lexer) =>
          match parse_precedence_rhs n lexer rhs fn min with
          | .error e => .error e
          | .ok (rhs, lexer) => parse_precedence n lexer (.Call fn [lhs, rhs]) min from_ : Parsed)) →
      ((match parse_primary (n + 1) lx.discard with
        | .error e => .error e
        | .ok (rhs, lexer) =>
          match parse_precedence_rhs (n + 1) lexer rhs fn min with
          | .error e => .error e
          | .ok (rhs, lexer) =>
            parse_precedence (n + 1) lexer (.Call fn [lhs, rhs]) min from_ : Parsed)) =
      ((match parse_primary n lx.discard with
        | .error e => .error e
        | .ok (rhs, lexer) =>
          match parse_precedence_rhs n lexer rhs fn min with
          | .error e => .error e
          | .ok (rhs, lexer) => parse_precedence n lexer (.Call fn [lhs, rhs]) min from_ : Parsed)) := by
    intro fn hb
    exact seq_mono _ _ _ _ hb (ih.primary lx.discard)
      (fun t lx1 _ hs => seq_mono _ _ _ _ hs (ih.precedence_rhs lx1 t fn min)
        (fun t2 lx2 _ hs2 => ih.precedence lx2 (.Call fn [lhs, t2]) min from_ hs2))
  cases from_ with
  | none =>
    rw [parse_precedence] at h
    rw [parse_precedence, parse_precedence]
    cases hpf : peek_function lx 2 with
    | none => rfl
    | some fn =>
      rw [hpf] at h
      dsimp only [] at h ⊢
      split
      · rename_i hc
        rw [if_pos hc] at h
        exact body fn h
      · rfl
  | some f =>
    rw [parse_precedence] at h
    rw [parse_precedence, parse_precedence]
    split
    · rename_i hc
      rw [if_pos hc] at h
      exact body f h
    · rfl

theorem mono_routine_call {n : Nat} (ih : fuel_mono n) (lx : Lexer) (identifier : String)
    (h : settled (parse_routine_call (n + 1) lx identifier)) :
    parse_routine_call (n + 1 + 1) lx identifier = parse_routine_call (n + 1) lx identifier := by
  rw [parse_routine_call] at h
  rw [parse_routine_call, parse_routine_call]
  exact ih.routine_args _ _ _ _ h

theorem mono_routine_args {n : Nat} (ih : fuel_mono n) (lx : Lexer) (identifier : String)
    (args : List Ast) (first : Bool)
    (h : settled (parse_routine_args (n + 1) lx identifier args first)) :
    parse_routine_args (n + 1 + 1) lx identifier args first =
      parse_routine_args (n + 1) lx identifier args first := by
  rw [parse_routine_args] at h
  rw [parse_routine_args, parse_routine_args]
  split
  · rfl
  · rename_i h1
    rw [if_neg h1] at h
    split
    · rename_i h2
      rw [if_pos h2] at h
      exact seq_mono _ _ _ _ h (ih.expression lx)
        (fun t lx1 _ hs => ih.routine_args lx1 identifier (args ++ [t]) false hs)
    · rename_i h2
      rw [if_neg h2] at h
      split
      · rename_i h3
        rw [if_pos h3] at h
        exact seq_mono _ _ _ _ h (ih.expression lx.read.2)
          (fun t lx1 _ hs => ih.routine_args lx1 identifier (args ++ [t]) false hs)
      · rfl

theorem mono_primary {n : Nat} (ih : fuel_mono n) (lx : Lexer)
    (h : settled (parse_primary (n + 1) lx)) :
    parse_primary (n + 1 + 1) lx = parse_primary (n + 1) lx := by
  rw [parse_primary] at h
  rw [parse_primary, parse_primary]
  generalize lx.read = rd at h ⊢
  obtain ⟨tok, lx1⟩ := rd
  cases tok with
  | EOL => rfl
  | char c =>
    dsimp only [] at h ⊢
    split
    · rename_i hc
      rw [if_pos hc] at h
      refine seq_mono _ _ _ _ h (ih.expression lx1) (fun t lx2 _ hs => ?_)
      dsimp only [] at hs ⊢
      split
      · rename_i hc2
        rw [if_pos hc2] at hs
        exact ih.shorthand _ _ hs
      · rfl
    · rfl
  | string_view name => exact ih.shorthand _ _ h
  | Identifier identifier =>
    dsimp only [] at h ⊢
    split
    · rename_i hc
      rw [if_pos hc] at h
      exact seq_mono _ _ _ _ h (ih.routine_call lx1 identifier)
        (fun t lx2 _ hs => ih.shorthand lx2 t hs)
    · rename_i hc
      rw [if_neg hc] at h
      cases hg : function.get identifier 1 with
      | none => rfl
      | some fn =>
        rw [hg] at h
        exact seq_mono _ _ _ _ h (ih.primary lx1)
          (fun t lx2 _ hs => ih.shorthand lx2 (.Call fn [t]) hs)
  | double value => exact ih.shorthand _ _ h

theorem fuel_monotone : ∀ n, fuel_mono n := by
  intro n
  induction n with
  | zero =>
    exact
      { expression := fun lx h => absurd (by rw [parse_expression]) h
        precedence := fun lx _ _ _ h => absurd (by rw [parse_precedence]) h
        precedence_rhs := fun lx _ _ _ h => absurd (by rw [parse_precedence_rhs]) h
        primary := fun lx h => absurd (by rw [parse_primary]) h
        routine_call := fun lx _ h => absurd (by rw [parse_routine_call]) h
        routine_args := fun lx _ _ _ h => absurd (by rw [parse_routine_args]) h
        shorthand := fun lx _ h => absurd (by rw [parse_shorthand]) h }
  | succ n ih =>
    exact
      { expression := mono_expression ih
        precedence := mono_precedence ih
        precedence_rhs := mono_precedence_rhs ih
        primary := mono_primary ih
        routine_call := mono_routine_call ih
        routine_args := mono_routine_args ih
        shorthand := mono_shorthand ih }

theorem stable_of_step {f : Nat → Parsed} (h : ∀ n, settled (f n) → f (n + 1) = f n) :
    ∀ n m, n ≤ m → settled (f n) → f m = f n := by
  intro n m hnm hs
  induction m, hnm using Nat.le_induction with
  | base => rfl
  | succ k _ ih =>
    rw [← ih]
    exact h k (by rw [ih]; exact hs)

theorem settled_ok {p : Ast × Lexer} {r : Parsed} (h : r = .ok p) : settled r := by
  intro e
  rw [h] at e
  cases e

theorem settled_of_throws {r : Parsed} (h : throws_only_Error r) : settled r := by
  intro e
  obtain ⟨c, m, hc⟩ := h _ e
  cases hc

theorem expression_stable (lx : Lexer) (hwf : well_formed lx) :
    ∀ n, 4 * remaining lx + 1 ≤ n →
      parse_expression n lx = parse_expression (4 * remaining lx + 1) lx := by
  intro n hn
  exact stable_of_step (f := fun k => parse_expression k lx)
    (fun k hk => (fuel_monotone k).expression lx hk) _ n hn
    (settled_of_throws ((parser_invariant _).expression lx hwf (le_refl _)).1)

theorem expression_progress {lx : Lexer} (hwf : well_formed lx) {n : Nat} {t : Ast}
    {lx' : Lexer} (h : parse_expression n lx = .ok (t, lx')) :
    reaches lx lx' ∧ lx._cursor + 1 ≤ lx'._cursor := by
  have hs := stable_of_step (f := fun k => parse_expression k lx)
    (fun k hk => (fuel_monotone k).expression lx hk) n (n + (4 * remaining lx + 1))
    (by omega) (settled_ok h)
  have hp := ((parser_invariant _).expression lx hwf
    (show 4 * remaining lx + 1 ≤ n + (4 * remaining lx + 1) by omega)).2 t lx'
    (by rw [← h]; exact hs)
  exact ⟨hp.1, hp.2.1⟩

theorem primary_progress {lx : Lexer} (hwf : well_formed lx) {n : Nat} {t : Ast}
    {lx' : Lexer} (h : parse_primary n lx = .ok (t, lx')) :
    reaches lx lx' ∧ lx._cursor + 1 ≤ lx'._cursor := by
  have hs := stable_of_step (f := fun k => parse_primary k lx)
    (fun k hk => (fuel_monotone k).primary lx hk) n (n + 4 * remaining lx)
    (by omega) (settled_ok h)
  have hp := ((parser_invariant _).primary lx hwf
    (show 4 * remaining lx ≤ n + 4 * remaining lx by omega)).2 t lx'
    (by rw [← h]; exact hs)
  exact ⟨hp.1, hp.2.1⟩

theorem consumed_not_EOL {lx lx' : Lexer} (hwf : well_formed lx) (hr : reaches lx lx')
    (hc : lx._cursor + 1 ≤ lx'._cursor) : lx.peek ≠ Token.EOL := by
  intro hp
  have h1 := (peek_EOL_iff hwf).1 hp
  have h2 := hr.wf.cursor_lt
  rw [hr.tokens_eq] at h2
  omega

theorem arity_ok_uint8_list_iff (xs : List Ast) :
    arity_ok_uint8_list xs = true ↔ ∀ x ∈ xs, arity_ok_uint8 x = true := by
  induction xs with
  | nil => simp [arity_ok_uint8_list]
  | cons x xs ih => simp [arity_ok_uint8_list, ih]

theorem arity_ok_uint8_closed : node_closed (fun t => arity_ok_uint8 t = true) where
  of_literal := fun _ => rfl
  of_variable := fun _ => rfl
  of_binary := fun identifier fn lhs rhs hg hl hr => by
    have := (get_some hg).1
    simp only [arity_ok_uint8, arity_ok_uint8_list, List.length_cons, List.length_nil,
      Bool.and_eq_true, hl, hr, and_true]
    exact this
  of_unary := fun identifier fn arg hg ha => by
    have := (get_some hg).1
    simp only [arity_ok_uint8, arity_ok_uint8_list, List.length_cons, List.length_nil,
      Bool.and_eq_true, ha, and_true]
    exact this
  of_product := fun lhs rhs hl hr => by
    have : arity_match (deref MULTIPLICATION) 2 = true := by decide
    simp only [arity_ok_uint8, arity_ok_uint8_list, List.length_cons, List.length_nil,
      Bool.and_eq_true, hl, hr, and_true]
    exact this
  of_routine := fun identifier fn args hg ha => by
    have := (get_some hg).1
    simp only [arity_ok_uint8, Bool.and_eq_true]
    exact ⟨this, (arity_ok_uint8_list_iff args).2 ha⟩

theorem parse_arity_ok_uint8 {uninit : Category} {s : String} {t : Ast}
    (h : parse uninit s = .ok t) : arity_ok_uint8 t = true :=
  parse_output arity_ok_uint8_closed h

theorem round_trips_list_replicate (fmt : ℚ → String) (x : Ast) (h : round_trips fmt x) :
    ∀ n, round_trips_list fmt (List.replicate n x)
  | 0 => by simp [round_trips_list]
  | n + 1 => by
    rw [List.replicate_succ, round_trips_list]
    exact ⟨h, round_trips_list_replicate fmt x h n⟩

set_option maxRecDepth 1000000 in
theorem sqrt_of_257_rendering :
    Ast.to_string (fun _ => "1") (.Call 17 (List.replicate 257 (.Literal 1))) = sqrt_of_257 := by
  rfl

theorem parse_sqrt_of_257 (uninit : Category) :
    parse uninit sqrt_of_257 = .ok (.Call 17 (List.replicate 257 (.Literal 1))) := by
  rw [← sqrt_of_257_rendering]
  apply parse_to_string
  have h1 : (Lexeme.number "1" 1).valid := ⟨by decide, by decide, rfl⟩
  have hl : round_trips (fun _ => "1") (.Literal 1) := by
    simp only [round_trips]
    exact h1
  rw [round_trips]
  refine ⟨?_, ?_, round_trips_list_replicate _ _ hl 257⟩
  · rw [List.length_replicate]
    decide
  · intro hi
    exact absurd hi (by decide)

theorem arity_ok_replicate (fn : FunctionPtr) (n : Nat) (x : Ast) :
    arity_ok (.Call fn (List.replicate n x)) = true → arity_match (deref fn) n = true := by
  intro h
  rw [arity_ok, Bool.and_eq_true, List.length_replicate] at h
  exact h.1

theorem precedence_from_no_tree {lx : Lexer} (hwf : well_formed lx) (n : Nat) (lhs : Ast)
    {min : Precedence} {f : FunctionPtr} (hmin : (deref f).precedence ≥ min) (t : Ast)
    (lx' : Lexer) : parse_precedence n lx lhs min (some f) ≠ .ok (t, lx') := by
  intro h
  have hs := stable_of_step (f := fun k => parse_precedence k lx lhs min (some f))
    (fun k hk => (fuel_monotone k).precedence lx lhs min (some f) hk) n
    (n + (4 * remaining lx + 1)) (by omega) (settled_ok h)
  obtain ⟨c, m, he⟩ := @precedence_from_throws (n + (4 * remaining lx + 1)) lx lhs min f hwf
    (by omega) hmin
  simp only [he, h] at hs
  cases hs

theorem precedence_rhs_iteration_throws {lx : Lexer} (hwf : well_formed lx) (n : Nat)
    (rhs : Ast) {fn sub_fn : FunctionPtr} {min : Precedence}
    (hmin : (deref fn).precedence ≥ min) (hpf : peek_function lx 2 = some sub_fn)
    (hcl : climbs sub_fn fn = true) (t : Ast) (lx' : Lexer) :
    parse_precedence_rhs n lx rhs fn min ≠ .ok (t, lx') := by
  intro h
  have hs := stable_of_step (f := fun k => parse_precedence_rhs k lx rhs fn min)
    (fun k hk => (fuel_monotone k).precedence_rhs lx rhs fn min hk) n
    (n + (4 * remaining lx + 2)) (by omega) (settled_ok h)
  obtain ⟨c, m, he⟩ := @precedence_rhs_climb_throws (n + (4 * remaining lx + 2)) lx rhs fn
    sub_fn min hwf (by omega) hmin hpf hcl
  simp only [he, h] at hs
  cases hs

theorem climbs_iff (sub_fn fn : FunctionPtr) :
    climbs sub_fn fn = true ↔
      ((deref sub_fn).precedence > (deref fn).precedence ∨
        ((deref sub_fn).precedence = (deref fn).precedence ∧
          (deref fn).associativity = Associativity.RIGHT)) := by
  unfold climbs
  simp only [Bool.or_eq_true, Bool.and_eq_true, decide_eq_true_eq]

theorem right_binary_is_power : ∀ fn : FunctionPtr,
    (deref fn).associativity = Associativity.RIGHT → arity_match (deref fn) 2 = true →
      fn = 1 ∧ (deref fn).identifier = "**" := by
  decide

theorem parse_terminates_of_tokenized {uninit : Category} {s : String} {lx : Lexer}
    (h : Lexer.new uninit s = .ok lx) :
    (∃ t, parse uninit s = .ok t) ∨
      ∃ column msg, parse uninit s = .error (Failure.Error column msg) := by
  rcases parse_total uninit s with h1 | h2 | ⟨_, _, _, h3⟩
  · exact Or.inl h1
  · exact Or.inr h2
  · rw [h] at h3
    cases h3

mutual
theorem arity_ok_args_nonempty : ∀ t : Ast, arity_ok t = true → args_nonempty t = true
  | .Literal _, _ => rfl
  | .Variable _, _ => rfl
  | .Call fn args, h => by
    rw [arity_ok, Bool.and_eq_true] at h
    have hpos := get_arity_pos fn _ h.1
    have hne : args ≠ [] := by
      intro he
      rw [he] at hpos
      simp at hpos
    rw [args_nonempty, Bool.and_eq_true]
    refine ⟨?_, arity_ok_args_nonempty_list args h.2⟩
    cases args with
    | nil => exact absurd rfl hne
    | cons a as => rfl
theorem arity_ok_args_nonempty_list : ∀ ts : List Ast,
    arity_ok_list ts = true → args_nonempty_list ts = true
  | [], _ => rfl
  | t :: ts, h => by
    rw [arity_ok_list, Bool.and_eq_true] at h
    rw [args_nonempty_list, Bool.and_eq_true]
    exact ⟨arity_ok_args_nonempty t h.1, arity_ok_args_nonempty_list ts h.2⟩
end

theorem parse_args_nonempty {uninit : Category} {s : String} {t : Ast}
    (h : parse uninit s = .ok t) : args_nonempty t = true :=
  parse_output args_nonempty_closed h

theorem parse_primary_head (fuel : Nat) (lexer : Lexer) :
    parse_primary (fuel + 1) lexer =
      (match primary_head fuel lexer with
        | .error e => .error e
        | .ok (expr, lexer') => parse_shorthand fuel lexer' expr : Parsed) := by
  rw [parse_primary, primary_head]
  generalize lexer.read = rd
  obtain ⟨tok, lx1⟩ := rd
  cases tok with
  | EOL => rfl
  | char c =>
    dsimp only []
    split
    · cases parse_expression fuel lx1 with
      | error e => rfl
      | ok p =>
        obtain ⟨nested, lx2⟩ := p
        dsimp only []
        split <;> rfl
    · rfl
  | string_view name => rfl
  | Identifier identifier =>
    dsimp only []
    split
    · cases parse_routine_call fuel lx1 identifier with
      | error e => rfl
      | ok p => rfl
    · cases get identifier 1 with
      | none => rfl
      | some fn =>
        dsimp only []
        cases parse_primary fuel lx1 with
        | error e => rfl
        | ok p => rfl
  | double value => rfl

theorem primary_head_step (n : Nat) (lx : Lexer) (h : settled (primary_head n lx)) :
    primary_head (n + 1) lx = primary_head n lx := by
  have ih := fuel_monotone n
  unfold primary_head at h ⊢
  generalize lx.read = rd at h ⊢
  obtain ⟨tok, lx1⟩ := rd
  cases tok with
  | EOL => rfl
  | char c =>
    dsimp only [] at h ⊢
    split
    · rename_i hc
      rw [if_pos hc] at h
      have hs : settled (parse_expression n lx1) := by
        intro e
        rw [e] at h
        exact h rfl
      rw [ih.expression lx1 hs]
    · rfl
  | string_view name => rfl
  | Identifier identifier =>
    dsimp only [] at h ⊢
    split
    · rename_i hc
      rw [if_pos hc] at h
      exact ih.routine_call lx1 identifier h
    · rename_i hc
      rw [if_neg hc] at h
      cases hg : function.get identifier 1 with
      | none => rfl
      | some fn =>
        rw [hg] at h
        dsimp only [] at h ⊢
        have hs : settled (parse_primary n lx1) := by
          intro e
          rw [e] at h
          exact h rfl
        rw [ih.primary lx1 hs]
  | double value => rfl

theorem primary_head_stable {n : Nat} {lx : Lexer} {r : Ast × Lexer}
    (h : primary_head n lx = .ok r) : ∀ k, n ≤ k → primary_head k lx = .ok r := by
  intro k hk
  rw [← h]
  exact stable_of_step (f := fun j => primary_head j lx) (primary_head_step · lx) n k hk
    (settled_ok h)

theorem parse_primary_stable {n : Nat} {lx : Lexer} {r : Ast × Lexer}
    (h : parse_primary n lx = .ok r) : ∀ k, n ≤ k → parse_primary k lx = .ok r := by
  intro k hk
  rw [← h]
  exact stable_of_step (f := fun j => parse_primary j lx)
    (fun j hj => (fuel_monotone j).primary lx hj) n k hk (settled_ok h)

/-- A primary followed by a token that can start a primary: the next primary
is consumed and the product of the two is returned. -/
theorem primary_then_primary {n m : Nat} {lexer lexer1 lexer2 : Lexer} {first second : Ast}
    (h1 : primary_head n lexer = .ok (first, lexer1))
    (hnext : next_is_primary lexer1.peek = true)
    (h2 : parse_primary m lexer1 = .ok (second, lexer2)) :
    ∀ k, n + m + 2 ≤ k →
      parse_primary k lexer = .ok (.Call MULTIPLICATION [first, second], lexer2) := by
  intro k hk
  obtain ⟨j, rfl⟩ : ∃ j, k = j + 1 + 1 := ⟨k - 2, by omega⟩
  rw [parse_primary_head, primary_head_stable h1 (j + 1) (by omega)]
  dsimp only []
  rw [parse_shorthand, if_pos hnext, parse_primary_stable h2 j (by omega)]

/-- A primary followed by a token that cannot start a primary is returned as
it is. -/
theorem primary_alone {n : Nat} {lexer lexer1 : Lexer} {first : Ast}
    (h1 : primary_head n lexer = .ok (first, lexer1))
    (hnext : next_is_primary lexer1.peek = false) :
    ∀ k, n + 2 ≤ k → parse_primary k lexer = .ok (first, lexer1) := by
  intro k hk
  obtain ⟨j, rfl⟩ : ∃ j, k = j + 1 + 1 := ⟨k - 2, by omega⟩
  rw [parse_primary_head, primary_head_stable h1 (j + 1) (by omega)]
  dsimp only []
  rw [parse_shorthand, if_neg (by simp [hnext])]

theorem tracks_t_ok {lx lx' : Lexer} (t : Ast) (h : reaches lx lx') :
    tracks_t lx (.ok (t, lx')) :=
  ⟨fun _ _ he => (by cases he; exact h), fun _ _ he => (by cases he),
    fun _ he => (by cases he)⟩

theorem tracks_t_error {lx lx1 : Lexer} (msg : Message) (h : reaches lx lx1) :
    tracks_t lx (traced.error lx1.discard msg) := by
  refine ⟨fun _ _ he => (by cases he), fun lt m he => ?_, fun _ he => (by cases he)⟩
  cases he
  exact ⟨lx1, h, rfl⟩

theorem tracks_t_fuel (lx : Lexer) :
    tracks_t lx (.error (traced.Thrown.other Failure.out_of_fuel)) :=
  ⟨fun _ _ he => (by cases he), fun _ _ he => (by cases he),
    fun _ he => (by cases he; rfl)⟩

theorem tracks_t_sub {lx lx0 : Lexer} {r : traced.Traced} (hr : reaches lx lx0)
    (h : tracks_t lx0 r) : tracks_t lx r := by
  refine ⟨fun t lx' he => reaches_trans hr (h.1 t lx' he), fun lt msg he => ?_, h.2.2⟩
  obtain ⟨lx1, h1, h2⟩ := h.2.1 lt msg he
  exact ⟨lx1, reaches_trans hr h1, h2⟩

theorem tracks_t_sub_error {lx lx0 : Lexer} {r : traced.Traced} {e : traced.Thrown}
    (hr : reaches lx lx0) (h : tracks_t lx0 r) (he : r = .error e) : tracks_t lx (.error e) := by
  rw [← he]
  exact tracks_t_sub hr h

theorem trace_expression {n : Nat} (ih : trace_inv n) (lx : Lexer) (hwf : well_formed lx) :
    tracks_t lx (traced.parse_expression (n + 1) lx) := by
  rw [traced.parse_expression]
  cases hres : traced.parse_primary n lx with
  | error e => exact tracks_t_sub_error (reaches_refl hwf) (ih.primary lx hwf) hres
  | ok p =>
    obtain ⟨lhs, lx1⟩ := p
    have hr1 := (ih.primary lx hwf).1 lhs lx1 hres
    exact tracks_t_sub hr1 (ih.precedence lx1 lhs LOWEST none hr1.wf)

theorem trace_shorthand {n : Nat} (ih : trace_inv n) (lx : Lexer) (lhs : Ast)
    (hwf : well_formed lx) : tracks_t lx (traced.parse_shorthand (n + 1) lx lhs) := by
  rw [traced.parse_shorthand]
  split
  · cases hres : traced.parse_primary n lx with
    | error e => exact tracks_t_sub_error (reaches_refl hwf) (ih.primary lx hwf) hres
    | ok p =>
      obtain ⟨rhs, lx1⟩ := p
      exact tracks_t_ok _ ((ih.primary lx hwf).1 rhs lx1 hres)
  · exact tracks_t_ok _ (reaches_refl hwf)

theorem trace_precedence_rhs {n : Nat} (ih : trace_inv n) (lx : Lexer) (rhs : Ast)
    (fn : FunctionPtr) (min : Precedence) (hwf : well_formed lx) :
    tracks_t lx (traced.parse_precedence_rhs (n + 1) lx rhs fn min) := by
  rw [traced.parse_precedence_rhs]
  cases hpf : peek_function lx 2 with
  | none => exact tracks_t_ok _ (reaches_refl hwf)
  | some sub_fn =>
    dsimp only []
    split
    · cases hres : traced.parse_precedence n lx rhs (next min) (some sub_fn) with
      | error e =>
        exact tracks_t_sub_error (reaches_refl hwf) (ih.precedence lx rhs _ _ hwf) hres
      | ok p =>
        obtain ⟨rhs2, lx1⟩ := p
        have hr1 := (ih.precedence lx rhs _ _ hwf).1 rhs2 lx1 hres
        exact tracks_t_sub hr1 (ih.precedence_rhs lx1 rhs2 fn min hr1.wf)
    · exact tracks_t_ok _ (reaches_refl hwf)

theorem trace_precedence {n : Nat} (ih : trace_inv n) (lx : Lexer) (lhs : Ast)
    (min : Precedence) (from_ : Option FunctionPtr) (hwf : well_formed lx) :
    tracks_t lx (traced.parse_precedence (n + 1) lx lhs min from_) := by
  have body : ∀ fn : FunctionPtr, tracks_t lx
      (match traced.parse_primary n lx.discard with
        | .error e => .error e
        | .ok (rhs, lexer) =>
          match traced.parse_precedence_rhs n lexer rhs fn min with
          | .error e => .error e
          | .ok (rhs, lexer) =>
            traced.parse_precedence n lexer (.Call fn [lhs, rhs]) min from_ : traced.Traced) := by
    intro fn
    have hrd := reaches_discard hwf
    cases hres : traced.parse_primary n lx.discard with
    | error e => exact tracks_t_sub_error hrd (ih.primary _ hrd.wf) hres
    | ok p =>
      obtain ⟨rhs, lx1⟩ := p
      have hr1 := reaches_trans hrd ((ih.primary _ hrd.wf).1 rhs lx1 hres)
      dsimp only []
      cases hres2 : traced.parse_precedence_rhs n lx1 rhs fn min with
      | error e => exact tracks_t_sub_error hr1 (ih.precedence_rhs lx1 rhs fn min hr1.wf) hres2
      | ok p2 =>
        obtain ⟨rhs2, lx2⟩ := p2
        have hr2 := reaches_trans hr1
          ((ih.precedence_rhs lx1 rhs fn min hr1.wf).1 rhs2 lx2 hres2)
        exact tracks_t_sub hr2 (ih.precedence lx2 _ min from_ hr2.wf)
  cases from_ with
  | none =>
    rw [traced.parse_precedence]
    cases hpf : peek_function lx 2 with
    | none => exact tracks_t_ok _ (reaches_refl hwf)
    | some fn =>
      dsimp only []
      split
      · exact body fn
      · exact tracks_t_ok _ (reaches_refl hwf)
  | some f =>
    rw [traced.parse_precedence]
    split
    · exact body f
    · exact tracks_t_ok _ (reaches_refl hwf)

theorem trace_routine_args {n : Nat} (ih : trace_inv n) (lx : Lexer) (identifier : String)
    (args : List Ast) (first : Bool) (hwf : well_formed lx) :
    tracks_t lx (traced.parse_routine_args (n + 1) lx identifier args first) := by
  have more : ∀ lx0 : Lexer, reaches lx lx0 → tracks_t lx
      (match traced.parse_expression n lx0 with
        | .error e => .error e
        | .ok (arg, lexer) =>
          traced.parse_routine_args n lexer identifier (args ++ [arg]) false : traced.Traced) := by
    intro lx0 hr0
    cases hres : traced.parse_expression n lx0 with
    | error e => exact tracks_t_sub_error hr0 (ih.expression _ hr0.wf) hres
    | ok p =>
      obtain ⟨arg, lx1⟩ := p
      have hr1 := reaches_trans hr0 ((ih.expression _ hr0.wf).1 arg lx1 hres)
      exact tracks_t_sub hr1 (ih.routine_args lx1 identifier _ false hr1.wf)
  rw [traced.parse_routine_args]
  split
  · cases hg : get identifier (args.length % 256) with
    | none => exact tracks_t_error _ (reaches_refl hwf)
    | some fn => exact tracks_t_ok _ (reaches_discard hwf)
  · split
    · exact more lx (reaches_refl hwf)
    · split
      · exact more _ (reaches_discard hwf)
      · exact tracks_t_error _ (reaches_refl hwf)

theorem trace_primary {n : Nat} (ih : trace_inv n) (lx : Lexer) (hwf : well_formed lx) :
    tracks_t lx (traced.parse_primary (n + 1) lx) := by
  have hrd := reaches_discard hwf
  rw [traced.parse_primary]
  simp only [Lexer.read]
  cases hpk : lx.peek with
  | EOL => exact tracks_t_error _ (reaches_refl hwf)
  | char c =>
    dsimp only []
    split
    · cases hres : traced.parse_expression n lx.discard with
      | error e => exact tracks_t_sub_error hrd (ih.expression _ hrd.wf) hres
      | ok p =>
        obtain ⟨nested, lx1⟩ := p
        have hr1 := reaches_trans hrd ((ih.expression _ hrd.wf).1 nested lx1 hres)
        dsimp only []
        split
        · have hr2 := reaches_trans hr1 (reaches_discard hr1.wf)
          exact tracks_t_sub hr2 (ih.shorthand _ nested hr2.wf)
        · exact tracks_t_error _ hr1
    · exact tracks_t_error _ (reaches_refl hwf)
  | string_view name => exact tracks_t_sub hrd (ih.shorthand _ _ hrd.wf)
  | double value => exact tracks_t_sub hrd (ih.shorthand _ _ hrd.wf)
  | Identifier identifier =>
    dsimp only []
    split
    · cases hres : traced.parse_routine_call n lx.discard identifier with
      | error e => exact tracks_t_sub_error hrd (ih.routine_call _ identifier hrd.wf) hres
      | ok p =>
        obtain ⟨expr, lx1⟩ := p
        have hr1 := reaches_trans hrd ((ih.routine_call _ identifier hrd.wf).1 expr lx1 hres)
        exact tracks_t_sub hr1 (ih.shorthand _ expr hr1.wf)
    · cases hg : get identifier 1 with
      | none => exact tracks_t_error _ (reaches_refl hwf)
      | some fn =>
        dsimp only []
        cases hres : traced.parse_primary n lx.discard with
        | error e => exact tracks_t_sub_error hrd (ih.primary _ hrd.wf) hres
        | ok p =>
          obtain ⟨arg, lx1⟩ := p
          have hr1 := reaches_trans hrd ((ih.primary _ hrd.wf).1 arg lx1 hres)
          exact tracks_t_sub hr1 (ih.shorthand _ _ hr1.wf)

/-- The states in which the traced parsing functions call `error`. -/
theorem trace_invariant : ∀ n, trace_inv n := by
  intro n
  induction n with
  | zero =>
    exact
      { expression := fun lx _ => by rw [traced.parse_expression]; exact tracks_t_fuel lx
        primary := fun lx _ => by rw [traced.parse_primary]; exact tracks_t_fuel lx
        shorthand := fun lx lhs _ => by rw [traced.parse_shorthand]; exact tracks_t_fuel lx
        precedence := fun lx lhs min from_ _ => by rw [traced.parse_precedence]; exact tracks_t_fuel lx
        precedence_rhs := fun lx rhs fn min _ => by
          rw [traced.parse_precedence_rhs]; exact tracks_t_fuel lx
        routine_call := fun lx identifier _ => by rw [traced.parse_routine_call]; exact tracks_t_fuel lx
        routine_args := fun lx identifier args first _ => by
          rw [traced.parse_routine_args]; exact tracks_t_fuel lx }
  | succ n ih =>
    exact
      { expression := trace_expression ih
        primary := trace_primary ih
        shorthand := trace_shorthand ih
        precedence := trace_precedence ih
        precedence_rhs := trace_precedence_rhs ih
        routine_call := fun lx identifier hwf => by
          rw [traced.parse_routine_call]
          exact tracks_t_sub (reaches_discard hwf) (ih.routine_args _ identifier [] true
            (reaches_discard hwf).wf)
        routine_args := trace_routine_args ih }

theorem erase_seq (a : traced.Traced) (a' : Parsed) (k : Ast → Lexer → traced.Traced)
    (k' : Ast → Lexer → Parsed) :
    traced.erase a = a' → (∀ t lx, traced.erase (k t lx) = k' t lx) →
    traced.erase ((match a with
      | .error e => .error e
      | .ok (t, lx) => k t lx : traced.Traced)) =
    ((match a' with
      | .error e => .error e
      | .ok (t, lx) => k' t lx : Parsed)) := by
  intro ha hk
  subst ha
  cases a with
  | error e => rfl
  | ok p =>
    obtain ⟨t, lx⟩ := p
    exact hk t lx

theorem erase_seq_tree (a : traced.Traced) (a' : Parsed)
    (k : Ast → Lexer → Except traced.Thrown Ast) (k' : Ast → Lexer → Except Failure Ast) :
    traced.erase a = a' → (∀ t lx, traced.erase (k t lx) = k' t lx) →
    traced.erase ((match a with
      | .error e => .error e
      | .ok (t, lx) => k t lx : Except traced.Thrown Ast)) =
    ((match a' with
      | .error e => .error e
      | .ok (t, lx) => k' t lx : Except Failure Ast)) := by
  intro ha hk
  subst ha
  cases a with
  | error e => rfl
  | ok p =>
    obtain ⟨t, lx⟩ := p
    exact hk t lx

theorem erase_error (lx : Lexer) (msg : Message) :
    traced.erase (traced.error lx msg : traced.Traced) = impl.error lx msg :=
  rfl

theorem erase_ite (c : Prop) [Decidable c] (a b : traced.Traced) :
    traced.erase (if c then a else b) = if c then traced.erase a else traced.erase b := by
  split <;> rfl

theorem sim_expression {n : Nat} (ih : sim_inv n) (lx : Lexer) :
    traced.erase (traced.parse_expression (n + 1) lx) = parse_expression (n + 1) lx := by
  rw [traced.parse_expression, parse_expression]
  exact erase_seq _ _ _ _ (ih.primary lx) (fun t lx1 => ih.precedence lx1 t LOWEST none)

theorem sim_shorthand {n : Nat} (ih : sim_inv n) (lx : Lexer) (lhs : Ast) :
    traced.erase (traced.parse_shorthand (n + 1) lx lhs) = parse_shorthand (n + 1) lx lhs := by
  rw [traced.parse_shorthand, parse_shorthand, erase_ite]
  congr 1
  exact erase_seq _ _ _ _ (ih.primary lx) (fun t lx1 => rfl)

theorem sim_precedence_rhs {n : Nat} (ih : sim_inv n) (lx : Lexer) (rhs : Ast)
    (fn : FunctionPtr) (min : Precedence) :
    traced.erase (traced.parse_precedence_rhs (n + 1) lx rhs fn min) =
      parse_precedence_rhs (n + 1) lx rhs fn min := by
  rw [traced.parse_precedence_rhs, parse_precedence_rhs]
  cases peek_function lx 2 with
  | none => rfl
  | some sub_fn =>
    dsimp only []
    rw [erase_ite]
    congr 1
    exact erase_seq _ _ _ _ (ih.precedence lx rhs (next min) (some sub_fn))
      (fun t lx1 => ih.precedence_rhs lx1 t fn min)

theorem sim_precedence {n : Nat} (ih : sim_inv n) (lx : Lexer) (lhs : Ast)
    (min : Precedence) (from_ : Option FunctionPtr) :
    traced.erase (traced.parse_precedence (n + 1) lx lhs min from_) =
      parse_precedence (n + 1) lx lhs min from_ := by
  have body : ∀ fn : FunctionPtr,
      traced.erase ((match traced.parse_primary n lx.discard with
        | .error e => .error e
        | .ok (rhs, lexer) =>
          match traced.parse_precedence_rhs n lexer rhs fn min with
          | .error e => .error e
          | .ok (rhs, lexer) =>
            traced.parse_precedence n lexer (.Call fn [lhs, rhs]) min from_ : traced.Traced)) =
      ((match parse_primary n lx.discard with
        | .error e => .error e
        | .ok (rhs, lexer) =>
          match parse_precedence_rhs n lexer rhs fn min with
          | .error e => .error e
          | .ok (rhs, lexer) => parse_precedence n lexer (.Call fn [lhs, rhs]) min from_ : Parsed)) := by
    intro fn
    exact erase_seq _ _ _ _ (ih.primary lx.discard)
      (fun t lx1 => erase_seq _ _ _ _ (ih.precedence_rhs lx1 t fn min)
        (fun t2 lx2 => ih.precedence lx2 (.Call fn [lhs, t2]) min from_))
  cases from_ with
  | none =>
    rw [traced.parse_precedence, parse_precedence]
    cases peek_function lx 2 with
    | none => rfl
    | some fn =>
      dsimp only []
      rw [erase_ite]
      congr 1
      exact body fn
  | some f =>
    rw [traced.parse_precedence, parse_precedence, erase_ite]
    congr 1
    exact body f

theorem sim_routine_args {n : Nat} (ih : sim_inv n) (lx : Lexer) (identifier : String)
    (args : List Ast) (first : Bool) :
    traced.erase (traced.parse_routine_args (n + 1) lx identifier args first) =
      parse_routine_args (n + 1) lx identifier args first := by
  rw [traced.parse_routine_args, parse_routine_args, erase_ite, erase_ite, erase_ite]
  congr 1
  · cases function.get identifier (args.length % 256) with
    | none => rfl
    | some fn => rfl
  · congr 1
    · exact erase_seq _ _ _ _ (ih.expression lx)
        (fun t lx1 => ih.routine_args lx1 identifier (args ++ [t]) false)
    · congr 1
      exact erase_seq _ _ _ _ (ih.expression lx.read.2)
        (fun t lx1 => ih.routine_args lx1 identifier (args ++ [t]) false)

theorem sim_primary {n : Nat} (ih : sim_inv n) (lx : Lexer) :
    traced.erase (traced.parse_primary (n + 1) lx) = parse_primary (n + 1) lx := by
  rw [traced.parse_primary, parse_primary]
  generalize lx.read = rd
  obtain ⟨tok, lx1⟩ := rd
  cases tok with
  | EOL => rfl
  | char c =>
    dsimp only []
    rw [erase_ite]
    congr 1
    refine erase_seq _ _ _ _ (ih.expression lx1) (fun t lx2 => ?_)
    rw [erase_ite]
    congr 1
    exact ih.shorthand _ _
  | string_view name => exact ih.shorthand _ _
  | Identifier identifier =>
    dsimp only []
    rw [erase_ite]
    congr 1
    · exact erase_seq _ _ _ _ (ih.routine_call lx1 identifier)
        (fun t lx2 => ih.shorthand lx2 t)
    · cases function.get identifier 1 with
      | none => rfl
      | some fn =>
        exact erase_seq _ _ _ _ (ih.primary lx1) (fun t lx2 => ih.shorthand lx2 (.Call fn [t]))
  | double value => exact ih.shorthand _ _

/-- Erasing the recorded states from the traced parsing functions gives the
parsing functions. -/
theorem simulation : ∀ n, sim_inv n := by
  intro n
  induction n with
  | zero =>
    exact
      { expression := fun lx => by rw [traced.parse_expression, parse_expression]; rfl
        primary := fun lx => by rw [traced.parse_primary, parse_primary]; rfl
        shorthand := fun lx lhs => by rw [traced.parse_shorthand, parse_shorthand]; rfl
        precedence := fun lx lhs min from_ => by
          rw [traced.parse_precedence, parse_precedence]; rfl
        precedence_rhs := fun lx rhs fn min => by
          rw [traced.parse_precedence_rhs, parse_precedence_rhs]; rfl
        routine_call := fun lx identifier => by
          rw [traced.parse_routine_call, parse_routine_call]; rfl
        routine_args := fun lx identifier args first => by
          rw [traced.parse_routine_args, parse_routine_args]; rfl }
  | succ n ih =>
    exact
      { expression := sim_expression ih
        primary := sim_primary ih
        shorthand := sim_shorthand ih
        precedence := sim_precedence ih
        precedence_rhs := sim_precedence_rhs ih
        routine_call := fun lx identifier => by
          rw [traced.parse_routine_call, parse_routine_call]
          exact ih.routine_args _ _ _ _
        routine_args := sim_routine_args ih }

/-- Erasing the recorded state from the traced `parse` gives `parse`. -/
theorem parse_simulation (uninit : Category) (s : String) :
    traced.erase (traced.parse uninit s) = parse uninit s := by
  unfold traced.parse parse
  cases Lexer.new uninit s with
  | error e => rfl
  | ok lx =>
    dsimp only []
    refine erase_seq_tree _ _ _ _ ((simulation _).expression lx) (fun t lx1 => ?_)
    split <;> rfl

/-- The traced `parse` calls `error` in the state right after a `read` or
`discard` in a state the parser reached. -/
theorem parse_throw_state {uninit : Category} {s : String} {lx lt : Lexer} {msg : Message}
    (hlex : Lexer.new uninit s = .ok lx)
    (h : traced.parse uninit s = .error (traced.Thrown.raised lt msg)) :
    ∃ lx0, reaches lx lx0 ∧ lt = lx0.discard := by
  have hwf := Lexer_new_well_formed hlex
  have ht := (trace_invariant (fuel_for lx)).expression lx hwf
  unfold traced.parse at h
  rw [hlex] at h
  dsimp only [] at h
  cases hres : traced.parse_expression (fuel_for lx) lx with
  | error e =>
    rw [hres] at h
    simp only [Except.error.injEq] at h
    subst h
    exact ht.2.1 lt msg hres
  | ok p =>
    obtain ⟨t, lx1⟩ := p
    have hr1 := ht.1 t lx1 hres
    rw [hres] at h
    dsimp only [] at h
    split at h
    · cases h
    · simp only [traced.error, Lexer.read, Except.error.injEq, traced.Thrown.raised.injEq] at h
      exact ⟨lx1, hr1, h.1.symm⟩

/-- A `parser::Error` of `parse` is raised by the traced `parse` with the same
message, in a state whose `last_token_start()` is its column. -/
theorem parse_error_traced {uninit : Category} {s : String} {lx : Lexer} {column : Nat}
    {msg : Message} (hlex : Lexer.new uninit s = .ok lx)
    (h : parse uninit s = .error (Failure.Error column msg)) :
    ∃ lt, traced.parse uninit s = .error (traced.Thrown.raised lt msg) ∧
      column = lt.last_token_start := by
  have hsim := parse_simulation uninit s
  rw [h] at hsim
  cases ht : traced.parse uninit s with
  | ok t =>
    rw [ht] at hsim
    cases hsim
  | error e =>
    rw [ht] at hsim
    cases e with
    | raised lt m =>
      simp only [traced.erase, traced.Thrown.erase, Except.error.injEq,
        Failure.Error.injEq] at hsim
      obtain ⟨h1, h2⟩ := hsim
      subst h2
      exact ⟨lt, rfl, h1.symm⟩
    | other f =>
      exfalso
      simp only [traced.erase, traced.Thrown.erase, Except.error.injEq] at hsim
      subst hsim
      have hwf := Lexer_new_well_formed hlex
      have hinv := (trace_invariant (fuel_for lx)).expression lx hwf
      unfold traced.parse at ht
      rw [hlex] at ht
      dsimp only [] at ht
      cases hres : traced.parse_expression (fuel_for lx) lx with
      | error e =>
        rw [hres] at ht
        simp only [Except.error.injEq] at ht
        subst ht
        have := hinv.2.2 _ hres
        cases this
      | ok p =>
        obtain ⟨t, lx1⟩ := p
        rw [hres] at ht
        dsimp only [] at ht
        split at ht
        · cases ht
        · simp [traced.error] at ht

theorem rest_nonempty_of_wf {o : List Nat} {pre S : List Token} {x : Token}
    (hwf : well_formed (lexer_at o pre (x :: S))) (hx : x ≠ Token.EOL) : S ≠ [] := by
  intro hS
  subst hS
  have h := (peek_EOL_iff hwf).2 (by simp [lexer_at])
  rw [peek_lexer_at] at h
  exact hx h

theorem well_formed_shift {o : List Nat} {pre A B : List Token}
    (hwf : well_formed (lexer_at o pre (A ++ B))) (hB : B ≠ []) :
    well_formed (lexer_at o (pre ++ A) B) := by
  refine ⟨?_, ?_⟩
  · have : 0 < B.length := List.length_pos.2 hB
    simp only [lexer_at, List.length_append]
    omega
  · intro i hi
    have := hwf.EOL_iff i (by simpa [lexer_at, List.append_assoc] using hi)
    simpa [lexer_at, List.append_assoc] using this

theorem precedence_stable {lx : Lexer} (hwf : well_formed lx) (lhs : Ast) (min : Precedence) :
    ∀ m, 4 * remaining lx + 1 ≤ m →
      parse_precedence m lx lhs min none =
        parse_precedence (4 * remaining lx + 1) lx lhs min none := by
  intro m hm
  exact stable_of_step (f := fun k => parse_precedence k lx lhs min none)
    (fun k hk => (fuel_monotone k).precedence lx lhs min none hk) _ m hm
    (settled_of_throws ((parser_invariant _).precedence_none lx lhs min hwf (le_refl _)).1)

theorem remaining_lexer_at (o : List Nat) (pre post : List Token) :
    remaining (lexer_at o pre post) = post.length := by
  simp [remaining, lexer_at]

theorem throws_of_loop {o : List Nat} {T post : List Token} {x : Ast}
    {cond : List Token → Prop} (hc : continues o T x cond) (hq : quiet post)
    (hcond : cond post) (hpost : post ≠ [])
    (hloop : ∀ pre, well_formed (lexer_at o pre post) →
      ∃ column msg, parse_precedence (4 * post.length + 1) (lexer_at o pre post) x LOWEST none =
        .error (Failure.Error column msg)) :
    throws_expression o (T ++ post) := by
  intro m pre hwf hm
  have hwf2 := well_formed_shift hwf hpost
  obtain ⟨c, msg, hR⟩ := hloop (pre ++ T) hwf2
  refine ⟨c, msg, ?_⟩
  refine hc m pre post _ hq hcond hm ?_
  intro m' hm'
  have := precedence_stable hwf2 x LOWEST m' (by rw [remaining_lexer_at]; exact hm')
  rw [remaining_lexer_at] at this
  rw [this, hR]

theorem routine_args_throws (o : List Nat) (identifier : String) (E : List Token)
    (hE : throws_expression o E) (hne : E ≠ []) :
    ∀ (Ts : List (List Token)) (xs : List Ast), List.Forall₂ (parses_expression o) Ts xs →
    ∀ (done : List Ast) (m : Nat) (pre : List Token),
      well_formed (lexer_at o pre (rest_tokens Ts ++ Token.char ',' :: E)) →
      4 * (rest_tokens Ts ++ Token.char ',' :: E).length + 2 ≤ m →
      ∃ column msg,
        parse_routine_args m (lexer_at o pre (rest_tokens Ts ++ Token.char ',' :: E))
          identifier done false = .error (Failure.Error column msg) := by
  have hc1 : (Token.char ',').has_char ')' = false := by decide
  have hc2 : (Token.char ',').has_char ',' = true := by decide
  intro Ts xs hall
  induction hall with
  | nil =>
    intro done m pre hwf hm
    obtain ⟨k, rfl⟩ : ∃ k, m = k + 1 := ⟨m - 1, by omega⟩
    simp only [rest_tokens, List.nil_append] at hwf hm ⊢
    obtain ⟨c, msg, h⟩ := hE k (pre ++ [Token.char ','])
      (well_formed_shift (A := [Token.char ',']) hwf hne) (by simp at hm; omega)
    refine ⟨c, msg, ?_⟩
    rw [parse_routine_args]
    simp only [Lexer.read, peek_lexer_at, hc1, hc2, Bool.false_eq_true, if_false, if_true,
      discard_lexer_at_cons _ _ _ _ hne, h]
  | @cons T x Ts xs hT _ ih =>
    intro done m pre hwf hm
    obtain ⟨k, rfl⟩ : ∃ k, m = k + 1 := ⟨m - 1, by omega⟩
    have hshape : rest_tokens (T :: Ts) ++ Token.char ',' :: E =
        Token.char ',' :: (T ++ (rest_tokens Ts ++ Token.char ',' :: E)) := by
      simp [rest_tokens]
    rw [hshape] at hwf hm ⊢
    have hne2 : T ++ (rest_tokens Ts ++ Token.char ',' :: E) ≠ [] := by simp
    have hclosing : closing (rest_tokens Ts ++ Token.char ',' :: E) := by
      cases Ts with
      | nil => exact ⟨_, _, rfl, by decide, by simp⟩
      | cons T' Ts' => exact ⟨_, _, rfl, by decide, by simp⟩
    have hwf1 := well_formed_shift (A := [Token.char ',']) hwf hne2
    have hwf2 : well_formed (lexer_at o (pre ++ [Token.char ','] ++ T)
        (rest_tokens Ts ++ Token.char ',' :: E)) := well_formed_shift hwf1 (by simp)
    obtain ⟨c, msg, h⟩ := ih (done ++ [x]) k (pre ++ [Token.char ','] ++ T) hwf2
      (by simp at hm ⊢; omega)
    refine ⟨c, msg, ?_⟩
    rw [parse_routine_args]
    simp only [Lexer.read, peek_lexer_at, hc1, hc2, Bool.false_eq_true, if_false, if_true,
      discard_lexer_at_cons _ _ _ _ hne2]
    rw [hT k _ _ hclosing (by simp at hm ⊢; omega)]
    simp only [h]

/-- Where a climbing operator is ahead in operator position, the parsing
function throws a `parser::Error`. -/
theorem climb_ahead_throws {o : List Nat} {primary : Bool} {S : List Token}
    (h : climb_ahead o primary S) :
    (primary = true → throws_primary o S) ∧ (primary = false → throws_expression o S) := by
  induction h with
  | pair T T2 rest x x2 cond op1 op2 fn sub_fn hc hcond h2 hfn hsub hcl =>
    refine ⟨fun hb => (by cases hb), fun _ => ?_⟩
    refine throws_of_loop hc ⟨_, _, rfl, rfl⟩ hcond (by simp) ?_
    intro pre hwf
    exact precedence_loop_climb_throws x hwf (by rw [remaining_lexer_at]) h2 hfn (lowest_le _)
      hsub hcl
  | first S _ ih =>
    refine ⟨fun hb => (by cases hb), fun _ => ?_⟩
    intro m pre hwf hm
    obtain ⟨k, rfl⟩ : ∃ k, m = k + 1 := ⟨m - 1, by omega⟩
    obtain ⟨c, msg, h⟩ := ih.1 rfl k pre hwf (by omega)
    refine ⟨c, msg, ?_⟩
    rw [parse_expression, h]
  | operand T S x cond op fn hc hcond hfn _ ih =>
    refine ⟨fun hb => (by cases hb), fun _ => ?_⟩
    refine throws_of_loop hc ⟨_, _, rfl, rfl⟩ hcond (by simp) ?_
    intro pre hwf
    have hS := rest_nonempty_of_wf hwf (by simp)
    obtain ⟨c, msg, h⟩ := ih.1 rfl (4 * (Token.Identifier op :: S).length) (pre ++ [Token.Identifier op])
      (well_formed_shift (A := [Token.Identifier op]) hwf hS) (by simp)
    refine ⟨c, msg, ?_⟩
    rw [parse_precedence, peek_function_lexer_at]
    simp only [hfn]
    rw [if_pos (lowest_le _), discard_lexer_at_cons _ _ _ _ hS, h]
  | paren E _ ih =>
    refine ⟨fun _ => ?_, fun hb => by cases hb⟩
    intro m pre hwf hm
    obtain ⟨k, rfl⟩ : ∃ k, m = k + 1 := ⟨m - 1, by simp at hm; omega⟩
    have hE := rest_nonempty_of_wf hwf (by simp)
    obtain ⟨c, msg, h⟩ := ih.2 rfl k (pre ++ [Token.char '('])
      (well_formed_shift (A := [Token.char '(']) hwf hE) (by simp at hm; omega)
    refine ⟨c, msg, ?_⟩
    rw [parse_primary]
    simp only [Lexer.read, peek_lexer_at, discard_lexer_at_cons _ _ _ _ hE, if_true, h]
  | unary identifier fn t S hg ht _ ih =>
    refine ⟨fun _ => ?_, fun hb => by cases hb⟩
    intro m pre hwf hm
    obtain ⟨k, rfl⟩ : ∃ k, m = k + 1 := ⟨m - 1, by simp at hm; omega⟩
    obtain ⟨c, msg, h⟩ := ih.1 rfl k (pre ++ [Token.Identifier identifier])
      (well_formed_shift (A := [Token.Identifier identifier]) hwf (by simp))
      (by simp at hm ⊢; omega)
    refine ⟨c, msg, ?_⟩
    rw [parse_primary]
    simp only [Lexer.read, peek_lexer_at, discard_lexer_at, ht, Bool.false_eq_true, if_false, hg,
      h]
  | argument_first identifier t E ht _ ih =>
    refine ⟨fun _ => ?_, fun hb => by cases hb⟩
    intro m pre hwf hm
    obtain ⟨k, rfl⟩ : ∃ k, m = k + 3 := ⟨m - 3, by simp at hm; omega⟩
    have hwf1 := well_formed_shift (A := [Token.Identifier identifier]) hwf (by simp)
    have hwf2 := well_formed_shift (A := [Token.char '(']) hwf1 (by simp)
    obtain ⟨c, msg, h⟩ := ih.2 rfl k _ hwf2 (by simp at hm ⊢; omega)
    refine ⟨c, msg, ?_⟩
    have hop : (Token.char '(').has_char '(' = true := by decide
    rw [parse_primary]
    simp only [Lexer.read, peek_lexer_at, discard_lexer_at, hop, if_true]
    rw [parse_routine_call, discard_lexer_at, parse_routine_args, peek_lexer_at, ht]
    simp only [Bool.false_eq_true, if_false, if_true, h]
  | argument_later identifier T x Ts xs E hT hTs _ ih =>
    refine ⟨fun _ => ?_, fun hb => by cases hb⟩
    intro m pre hwf hm
    obtain ⟨k, rfl⟩ : ∃ k, m = k + 3 := ⟨m - 3, by simp at hm; omega⟩
    have hne : T ++ (rest_tokens Ts ++ Token.char ',' :: E) ≠ [] := by simp
    have hwf1 := well_formed_shift (A := [Token.Identifier identifier]) hwf (by simp)
    have hwf2 := well_formed_shift (A := [Token.char '(']) hwf1 hne
    have hwf3 : well_formed (lexer_at o (pre ++ [Token.Identifier identifier] ++
        [Token.char '('] ++ T) (rest_tokens Ts ++ Token.char ',' :: E)) :=
      well_formed_shift hwf2 (by simp)
    have hEne : E ≠ [] :=
      rest_nonempty_of_wf (well_formed_shift (A := rest_tokens Ts) hwf3 (by simp)) (by simp)
    have hclosing : closing (rest_tokens Ts ++ Token.char ',' :: E) := by
      cases Ts with
      | nil => exact ⟨_, _, rfl, by decide, by simp⟩
      | cons T' Ts' => exact ⟨_, _, rfl, by decide, by simp⟩
    have hfirst := hT k (pre ++ [Token.Identifier identifier] ++ [Token.char '('])
      (rest_tokens Ts ++ Token.char ',' :: E) hclosing (by simp at hm ⊢; omega)
    have hnot := parse_expression_ok_peek hfirst
    obtain ⟨c, msg, h⟩ := routine_args_throws o identifier E (ih.2 rfl) hEne Ts xs hTs [x]
      k _ hwf3 (by simp at hm ⊢; omega)
    refine ⟨c, msg, ?_⟩
    have hop : (Token.char '(').has_char '(' = true := by decide
    rw [parse_primary]
    simp only [Lexer.read, peek_lexer_at, discard_lexer_at, hop, if_true]
    rw [parse_routine_call, discard_lexer_at_cons _ _ _ _ hne, parse_routine_args, hnot]
    simp only [Bool.false_eq_true, if_false, if_true, hfirst, List.nil_append, h]
  | shorthand T x t S hh hT ht _ ih =>
    refine ⟨fun _ => ?_, fun hb => by cases hb⟩
    intro m pre hwf hm
    have hlen : 1 ≤ T.length := List.length_pos.2 hT
    obtain ⟨k, rfl⟩ : ∃ k, m = k + 2 := ⟨m - 2, by simp at hm; omega⟩
    have hwf1 := well_formed_shift hwf (show t :: S ≠ [] by simp)
    obtain ⟨c, msg, h⟩ := ih.1 rfl k (pre ++ T) hwf1 (by simp at hm ⊢; omega)
    refine ⟨c, msg, ?_⟩
    rw [parse_primary_head, hh (k + 1) pre (t :: S) (by simp) (by omega)]
    dsimp only []
    rw [parse_shorthand, peek_lexer_at, if_pos ht, h]

theorem heads_double (o : List Nat) (v : ℚ) : heads o [Token.double v] (.Literal v) := by
  intro m pre post hpost _
  unfold primary_head
  simp only [Lexer.read, List.singleton_append, peek_lexer_at,
    discard_lexer_at_cons _ _ _ _ hpost]

theorem heads_name (o : List Nat) (n : String) : heads o [Token.string_view n] (.Variable n) := by
  intro m pre post hpost _
  unfold primary_head
  simp only [Lexer.read, List.singleton_append, peek_lexer_at,
    discard_lexer_at_cons _ _ _ _ hpost]

theorem heads_paren {o : List Nat} {T : List Token} {x : Ast} (h : parses_expression o T x) :
    heads o (Token.char '(' :: (T ++ [Token.char ')'])) x := by
  intro m pre post hpost hm
  obtain ⟨k, rfl⟩ : ∃ k, m = k + 1 := ⟨m - 1, by simp at hm; omega⟩
  have hE := h (k + 1) (pre ++ [Token.char '(']) (Token.char ')' :: post)
    ⟨_, _, rfl, by decide, by simp⟩ (by simp at hm ⊢; omega)
  have hshape : Token.char '(' :: (T ++ [Token.char ')']) ++ post =
      Token.char '(' :: (T ++ Token.char ')' :: post) := by simp
  rw [hshape]
  unfold primary_head
  have hcl : (Token.char ')').has_char ')' = true := by decide
  simp only [Lexer.read, peek_lexer_at, discard_lexer_at_cons _ _ _ _
    (show T ++ Token.char ')' :: post ≠ [] by simp), if_true, hE, hcl,
    discard_lexer_at_cons _ _ _ _ hpost]
  simp [List.append_assoc]

/-- A text the tokenizer accepts and whose tokens have a climbing operator
ahead in operator position ends in a `parser::Error`. -/
theorem climb_ahead_parse {uninit : Category} {s : String} {lx : Lexer}
    (hlex : Lexer.new uninit s = .ok lx) (h : climb_ahead lx._offsets false lx._tokens) :
    ∃ column msg, parse uninit s = .error (Failure.Error column msg) := by
  have hwf := Lexer_new_well_formed hlex
  have hat := Lexer_new_lexer_at hlex
  have ht := (climb_ahead_throws h).2 rfl (fuel_for lx) [] (by rw [← hat]; exact hwf)
    (by unfold fuel_for; omega)
  rw [← hat] at ht
  obtain ⟨c, msg, he⟩ := ht
  exact ⟨c, msg, by rw [parse_of_tokenized hlex, he]⟩

theorem heads_routine {o : List Nat} {identifier : String} {fn : FunctionPtr}
    {T : List Token} {x : Ast} {Ts : List (List Token)} {xs : List Ast}
    (hT : parses_expression o T x) (hTs : List.Forall₂ (parses_expression o) Ts xs)
    (hg : get identifier ((x :: xs).length % 256) = some fn) :
    heads o
      (Token.Identifier identifier :: Token.char '(' :: (T ++ rest_tokens Ts ++ [Token.char ')']))
      (.Call fn (x :: xs)) := by
  intro m pre post hpost hm
  obtain ⟨k, rfl⟩ : ∃ k, m = k + 3 := ⟨m - 3, by simp at hm; omega⟩
  have hshape : Token.Identifier identifier :: Token.char '(' ::
      (T ++ rest_tokens Ts ++ [Token.char ')']) ++ post =
      Token.Identifier identifier :: Token.char '(' ::
        (T ++ (rest_tokens Ts ++ Token.char ')' :: post)) := by simp
  rw [hshape] at hm ⊢
  have hE := hT (k + 1) (pre ++ [Token.Identifier identifier] ++ [Token.char '('])
    (rest_tokens Ts ++ Token.char ')' :: post) (closing_rest Ts post)
    (by simp at hm ⊢; omega)
  have hne : T ++ (rest_tokens Ts ++ Token.char ')' :: post) ≠ [] := by simp
  have hnot := parse_expression_ok_peek hE
  have hop : (Token.char '(').has_char '(' = true := by decide
  unfold primary_head
  simp only [Lexer.read, peek_lexer_at, discard_lexer_at, hop, if_true]
  rw [parse_routine_call, discard_lexer_at_cons _ _ _ _ hne, parse_routine_args, hnot]
  simp only [Bool.false_eq_true, if_false, if_true, hE, List.nil_append]
  have hrest := routine_args_rest o identifier fn Ts xs hTs [x] (k + 1)
    (pre ++ [Token.Identifier identifier] ++ [Token.char '('] ++ T) post hpost
    (by simpa using hg) (by simp at hm ⊢; omega)
  rw [hrest]
  simp [List.append_assoc]

/-! ## The claims -/

/-- Outside the data model, on a tree with a call without arguments, a second
`flatten` can still change the tree: for the left-associative `/` (entry 3 of
`ARRAY`), flattening `/( /(), /(x, y) )` gives `/( /(x, y) )`, and flattening
that gives `/(x, y)`. Such a tree violates the Call invariant and the parser
builds none. -/
theorem flatten_not_idempotent_on_empty_call :
    (deref 3).identifier = "/" ∧
    arity_ok (.Call 3 [.Call 3 [], .Call 3 [.Variable "x", .Variable "y"]]) = false ∧
    flatten (.Call 3 [.Call 3 [], .Call 3 [.Variable "x", .Variable "y"]]) =
      .Call 3 [.Call 3 [.Variable "x", .Variable "y"]] ∧
    flatten (flatten (.Call 3 [.Call 3 [], .Call 3 [.Variable "x", .Variable "y"]])) =
      .Call 3 [.Variable "x", .Variable "y"] := by
  refine ⟨by decide, rfl, rfl, rfl⟩

/-- Claim C2: for every function `f` whose associativity is `ALL` (exactly
`+`, `*`, `min` and `max`) and all trees `a`, `b`, `c`, the two nestings
`f(a, f(b, c))` and `f(f(a, b), c)` flatten to the same tree; and
`1+(2+3)` and `(1+2)+3` both parse and both evaluate to the flat call
`+(1, 2, 3)`. -/
theorem flatten_associative_normalization :
    (∀ (f : FunctionPtr) (a b c : Ast), (deref f).associativity = Associativity.ALL →
      flatten (.Call f [a, .Call f [b, c]]) = flatten (.Call f [.Call f [a, b], c])) ∧
    (∀ f : FunctionPtr, (deref f).associativity = Associativity.ALL ↔
      (deref f).identifier ∈ ["+", "*", "min", "max"]) ∧
    (∀ uninit, parse uninit "1+(2+3)" =
      .ok (.Call 5 [.Literal 1, .Call 5 [.Literal 2, .Literal 3]])) ∧
    (∀ uninit, parse uninit "(1+2)+3" =
      .ok (.Call 5 [.Call 5 [.Literal 1, .Literal 2], .Literal 3])) ∧
    (∀ uninit, engine.evaluate_str uninit "1+(2+3)" =
      .ok (.Call 5 [.Literal 1, .Literal 2, .Literal 3])) ∧
    (∀ uninit, engine.evaluate_str uninit "(1+2)+3" =
      .ok (.Call 5 [.Literal 1, .Literal 2, .Literal 3])) ∧
    (get "+" 2 = some 5 ∧ (deref 5).identifier = "+") := by
  refine ⟨?_, by decide, fun _ => rfl, fun _ => rfl, fun _ => rfl, fun _ => rfl, by decide⟩
  intro f a b c h
  have hnil : ∀ l i, flatten_loop f l i [] = [] := fun l i => by rw [flatten_loop]
  simp [flatten, flatten_loop_cons, hnil, spliced, is_call_to, call_args, match_all h]

/-- Witness of `flatten_associative_normalization` for `+` and the trees
`x`, `y`, `z`. -/
theorem flatten_associative_normalization_witness :
    (deref 5).associativity = Associativity.ALL ∧
    flatten (.Call 5 [.Variable "x", .Call 5 [.Variable "y", .Variable "z"]]) =
      flatten (.Call 5 [.Call 5 [.Variable "x", .Variable "y"], .Variable "z"]) :=
  ⟨by decide, flatten_associative_normalization.1 5 _ _ _ (by decide)⟩

/-- Claim C4 fails on the code: `parse("1+2*3")` returns no tree. After `2*3`
has been combined, `parse_precedence` runs its loop again with the operator
`from` it was entered with, discards the end marker and calls
`parse_primary`, which throws "expected an expression" at column 4. -/
theorem parse_precedence_example_throws (uninit : Category) :
    parse uninit "1+2*3" = .error (Failure.Error 4 Message.expected_expression) :=
  rfl

/-- Claim C5 fails on the code: `parse("2**3**2")` returns no tree but throws
"expected an expression" at column 6, for the same reason as `1+2*3`. -/
theorem parse_right_associativity_example_throws (uninit : Category) :
    parse uninit "2**3**2" = .error (Failure.Error 6 Message.expected_expression) :=
  rfl

/-- Claim C6: every `parse_primary` ends in `parse_shorthand`: whatever the
kind of the primary (parenthesised expression, name, routine call, unary
operator call or number), `parse_primary` is its head `primary_head` followed
by `parse_shorthand` on the expression of the head. `parse_shorthand` looks at
the next token; when it can start a primary (a bare name, a number or '(')
the next primary is parsed and the result is the call of the binary
multiplication descriptor on the two (an error of that primary is passed on);
otherwise the primary is returned as it is. So whenever the head of a primary
is followed by such a token and the next primary is parsed, `parse_primary`
returns `Call(*, [first, second])`. The operand being itself parsed by
`parse_primary`, the calls nest to the right: `2(3+4)` parses to
`*(2, +(3, 4))` and `5x(1+y)` to `*(5, *(x, +(1, y)))`; after a parenthesised
expression, a routine call and a unary call, `(1+2)x`, `sqrt(4)(x)` and
`-(x)y` parse to `*(+(1, 2), x)`, `*(sqrt(4), x)` and `*(-(x), y)`. -/
theorem implicit_multiplication :
    (∀ (fuel : Nat) (lexer lexer' : Lexer) (lhs rhs : Ast),
      next_is_primary lexer.peek = true → parse_primary fuel lexer = .ok (rhs, lexer') →
      parse_shorthand (fuel + 1) lexer lhs = .ok (.Call MULTIPLICATION [lhs, rhs], lexer')) ∧
    (∀ (fuel : Nat) (lexer : Lexer) (lhs : Ast) (e : Failure),
      next_is_primary lexer.peek = true → parse_primary fuel lexer = .error e →
      parse_shorthand (fuel + 1) lexer lhs = .error e) ∧
    (∀ (fuel : Nat) (lexer : Lexer) (lhs : Ast),
      next_is_primary lexer.peek = false →
      parse_shorthand (fuel + 1) lexer lhs = .ok (lhs, lexer)) ∧
    (∀ token : Token, next_is_primary token = true ↔
      (∃ name, token = Token.string_view name) ∨ (∃ value, token = Token.double value) ∨
        token = Token.char '(') ∧
    (get "*" 2 = some MULTIPLICATION ∧ (deref MULTIPLICATION).identifier = "*" ∧
      (deref MULTIPLICATION).arity_type = ArityType.DYNAMIC ∧
      (deref MULTIPLICATION).arity = 2) ∧
    (∀ uninit, parse uninit "2(3+4)" =
      .ok (.Call MULTIPLICATION [.Literal 2, .Call 5 [.Literal 3, .Literal 4]])) ∧
    (∀ uninit, parse uninit "5x(1+y)" =
      .ok (.Call MULTIPLICATION [.Literal 5,
        .Call MULTIPLICATION [.Variable "x", .Call 5 [.Literal 1, .Variable "y"]]])) ∧
    (∀ (fuel : Nat) (lexer : Lexer),
      parse_primary (fuel + 1) lexer =
        (match primary_head fuel lexer with
          | .error e => .error e
          | .ok (expr, lexer') => parse_shorthand fuel lexer' expr : Parsed)) ∧
    (∀ (n m : Nat) (lexer lexer1 lexer2 : Lexer) (first second : Ast),
      primary_head n lexer = .ok (first, lexer1) → next_is_primary lexer1.peek = true →
      parse_primary m lexer1 = .ok (second, lexer2) →
      ∀ k, n + m + 2 ≤ k →
        parse_primary k lexer = .ok (.Call MULTIPLICATION [first, second], lexer2)) ∧
    (∀ (n : Nat) (lexer lexer1 : Lexer) (first : Ast),
      primary_head n lexer = .ok (first, lexer1) → next_is_primary lexer1.peek = false →
      ∀ k, n + 2 ≤ k → parse_primary k lexer = .ok (first, lexer1)) ∧
    (∀ uninit, parse uninit "(1+2)x" =
      .ok (.Call MULTIPLICATION [.Call 5 [.Literal 1, .Literal 2], .Variable "x"])) ∧
    (∀ uninit, parse uninit "sqrt(4)(x)" =
      .ok (.Call MULTIPLICATION [.Call 17 [.Literal 4], .Variable "x"])) ∧
    (∀ uninit, parse uninit "-(x)y" =
      .ok (.Call MULTIPLICATION [.Call 0 [.Variable "x"], .Variable "y"])) := by
  refine ⟨?_, ?_, ?_, ?_, by decide, fun _ => rfl, fun _ => rfl, parse_primary_head, ?_, ?_,
    fun _ => rfl, fun _ => rfl, fun _ => rfl⟩
  · intro fuel lexer lexer' lhs rhs h1 h2
    rw [parse_shorthand, if_pos h1, h2]
  · intro fuel lexer lhs e h1 h2
    rw [parse_shorthand, if_pos h1, h2]
  · intro fuel lexer lhs h1
    rw [parse_shorthand, if_neg (by simp [h1])]
  · intro token
    cases token <;> simp [next_is_primary]
  · intro n m lexer lexer1 lexer2 first second h1 hn h2
    exact primary_then_primary h1 hn h2
  · intro n lexer lexer1 first h1 hn
    exact primary_alone h1 hn

/-- Witness of `implicit_multiplication`: in `x y`, after `x` has been read,
the shorthand consumes `y`. -/
theorem implicit_multiplication_witness :
    parse_shorthand 3
        { _tokens := [.string_view "x", .string_view "y", .EOL], _offsets := [0, 2, 3],
          _cursor := 1 } (.Variable "x") =
      .ok (.Call MULTIPLICATION [.Variable "x", .Variable "y"],
        { _tokens := [.string_view "x", .string_view "y", .EOL], _offsets := [0, 2, 3],
          _cursor := 2 }) :=
  implicit_multiplication.1 2 _ _ _ _ rfl rfl

/-- Claim C7: whenever `function::get(identifier, n)` returns a descriptor
`f`, either `f` is `STATIC` with declared arity exactly `n` or `f` is
`DYNAMIC` with declared arity at most `n`, and when the requested text is a
catalog identifier the identifier of `f` is that text. `get("sqrt", 2)`
finds nothing (`sqrt` is `STATIC` with arity 1) and `get("min", 3)` returns
the descriptor of `min` (`DYNAMIC`, minimum 2). -/
theorem get_arity_gate :
    (∀ (identifier : String) (n : Nat) (f : FunctionPtr), get identifier n = some f →
      (((deref f).arity_type = ArityType.STATIC ∧ (deref f).arity = n) ∨
        ((deref f).arity_type = ArityType.DYNAMIC ∧ (deref f).arity ≤ n)) ∧
      (identifier ∈ IDENTIFIERS → (deref f).identifier = identifier)) ∧
    get "sqrt" 2 = none ∧
    (∃ p : FunctionPtr, (deref p).identifier = "sqrt" ∧
      (deref p).arity_type = ArityType.STATIC ∧ (deref p).arity = 1) ∧
    (get "min" 3 = some 19 ∧ (deref 19).identifier = "min" ∧
      (deref 19).arity_type = ArityType.DYNAMIC ∧ (deref 19).arity = 2) := by
  refine ⟨?_, by decide, by decide, by decide⟩
  intro identifier n f h
  obtain ⟨ha, hh⟩ := get_some h
  refine ⟨(arity_match_iff _ _).1 ha, ?_⟩
  intro hmem
  obtain ⟨p, hp⟩ := mem_IDENTIFIERS identifier hmem
  rw [← hp] at hh ⊢
  exact hash_injective_on_catalog f p hh

/-- Witness of `get_arity_gate`: the lookup of the binary `-`. -/
theorem get_arity_gate_witness :
    get "-" 2 = some 6 ∧
    ((((deref 6).arity_type = ArityType.STATIC ∧ (deref 6).arity = 2) ∨
        ((deref 6).arity_type = ArityType.DYNAMIC ∧ (deref 6).arity ≤ 2)) ∧
      ("-" ∈ IDENTIFIERS → (deref 6).identifier = "-")) :=
  ⟨by decide, get_arity_gate.1 "-" 2 6 (by decide)⟩

/-- Claim C8: for every identifier text and every arity `n`, at most one entry
of `ARRAY` has that identifier and is arity-compatible with `n`, and
`function::get` returns exactly that entry when there is one; the unary and
the binary `-` (entries 0 and 6) are never both compatible with `n`. -/
theorem get_unique_by_arity (identifier : String) (n : Nat) :
    (∀ p q : FunctionPtr,
      (deref p).identifier = identifier → arity_match (deref p) n = true →
      (deref q).identifier = identifier → arity_match (deref q) n = true → p = q) ∧
    (∀ p : FunctionPtr,
      (deref p).identifier = identifier → arity_match (deref p) n = true →
        get identifier n = some p) ∧
    ((deref 0).identifier = "-" ∧ (deref 6).identifier = "-" ∧
      ¬ (arity_match (deref 0) n = true ∧ arity_match (deref 6) n = true)) := by
  refine ⟨?_, ?_, by decide, by decide, minus_overloads_exclusive n⟩
  · intro p q hp hpa hq hqa
    have h1 := get_of_entry hpa
    have h2 := get_of_entry hqa
    rw [hp] at h1
    rw [hq] at h2
    rw [h1] at h2
    exact Option.some.inj h2
  · intro p hp hpa
    rw [← hp]
    exact get_of_entry hpa

/-- Witness of `get_unique_by_arity`: with one argument, `-` is the unary
operator. -/
theorem get_unique_by_arity_witness : get "-" 1 = some 0 :=
  (get_unique_by_arity "-" 1).2.1 0 (by decide) (by decide)

/-- Claim C9, amended: for every input text whose numbers of '(' and ')'
characters differ, `parse` returns no tree; it throws, and what it throws is
a parse error whenever the tokenizer accepts the text. `parse("(1+2")` is the
parse error "expected ')'". -/
theorem unmatched_parenthesis_rejected (uninit : Category) (s : String)
    (h : s.data.count '(' ≠ s.data.count ')') :
    (∀ t, parse uninit s ≠ .ok t) ∧
    (∃ e, parse uninit s = .error e ∧ e ≠ Failure.out_of_fuel) ∧
    (∀ lexer, Lexer.new uninit s = .ok lexer →
      ∃ column msg, parse uninit s = .error (Failure.Error column msg)) ∧
    parse uninit "(1+2" = .error (Failure.Error 3 Message.expected_closing) := by
  have hno : ∀ t, parse uninit s ≠ .ok t := fun t ht => h (count_eq_of_parse_ok ht)
  refine ⟨hno, ?_, ?_, rfl⟩
  · rcases parse_total uninit s with ⟨t, ht⟩ | ⟨c, m, he⟩ | ⟨e, he, hp, _⟩
    · exact absurd ht (hno t)
    · exact ⟨_, he, by simp⟩
    · refine ⟨e, hp, ?_⟩
      rcases he with rfl | rfl <;> simp
  · intro lexer hl
    rcases parse_total uninit s with ⟨t, ht⟩ | ⟨c, m, he⟩ | ⟨e, _, _, he⟩
    · exact absurd ht (hno t)
    · exact ⟨c, m, he⟩
    · rw [hl] at he
      cases he

/-- Witness of `unmatched_parenthesis_rejected` at the text `(1+2`. -/
theorem unmatched_parenthesis_rejected_witness :
    "(1+2".data.count '(' ≠ "(1+2".data.count ')' ∧
    ((∀ t, parse Category.ALPHA "(1+2" ≠ .ok t) ∧
      (∃ e, parse Category.ALPHA "(1+2" = .error e ∧ e ≠ Failure.out_of_fuel) ∧
      (∀ lexer, Lexer.new Category.ALPHA "(1+2" = .ok lexer →
        ∃ column msg, parse Category.ALPHA "(1+2" = .error (Failure.Error column msg)) ∧
      parse Category.ALPHA "(1+2" = .error (Failure.Error 3 Message.expected_closing)) :=
  ⟨by decide, unmatched_parenthesis_rejected Category.ALPHA "(1+2" (by decide)⟩

/-- Claim C9 as stated fails on the text `(.`: it has one '(' and no ')', yet
`parse` throws no parse error: the digit run `.` makes `std::stod` throw
`std::invalid_argument` in the `Lexer` constructor. -/
theorem unmatched_parenthesis_not_a_parse_error :
    "(.".data.count '(' ≠ "(.".data.count ')' ∧
    (∀ uninit, parse uninit "(." = .error Failure.invalid_argument) ∧
    (∀ uninit column msg, parse uninit "(." ≠ .error (Failure.Error column msg)) := by
  refine ⟨by decide, fun _ => rfl, ?_⟩
  intro uninit column msg h
  have h' : parse uninit "(." = .error Failure.invalid_argument := rfl
  rw [h'] at h
  cases h

/-- Claim C10: once the top-level expression has been parsed, `parse` returns
its tree only if the next token is the end marker, and otherwise throws the
parse error "unexpected '...'" at the column of that token; so whenever
`parse` returns a tree the cursor has reached the end marker, the last token
of the buffer: every token before it was consumed. `parse("1)")` and
`parse("1 ,")` are parse errors. -/
theorem trailing_input_rejected (uninit : Category) (s : String) :
    (∀ lexer t lexer', Lexer.new uninit s = .ok lexer →
      parse_expression (fuel_for lexer) lexer = .ok (t, lexer') → lexer'.peek ≠ Token.EOL →
      parse uninit s = .error (Failure.Error (lexer'._offsets.getD lexer'._cursor 0)
        (Message.unexpected lexer'.peek))) ∧
    (∀ t, parse uninit s = .ok t →
      ∃ lexer lexer', Lexer.new uninit s = .ok lexer ∧
        parse_expression (fuel_for lexer) lexer = .ok (t, lexer') ∧
        lexer'._tokens = lexer._tokens ∧ lexer'.peek = Token.EOL ∧
        lexer'._cursor + 1 = lexer._tokens.length ∧
        (∀ i, i < lexer'._cursor → lexer._tokens.getD i Token.EOL ≠ Token.EOL)) ∧
    parse uninit "1)" = .error (Failure.Error 1 (Message.unexpected (Token.char ')'))) ∧
    parse uninit "1 ," = .error (Failure.Error 2 (Message.unexpected (Token.char ','))) := by
  refine ⟨?_, ?_, rfl, rfl⟩
  · intro lexer t lexer' hl hp hne
    obtain ⟨hr, _, _⟩ := (parse_expression_post hl).2 t lexer' hp
    obtain ⟨hd, _⟩ := discard_of_not_EOL hr.wf hne
    rw [parse_of_tokenized hl, hp]
    have hE : lexer'.peek.has_EOL = false := by
      cases hq : lexer'.peek <;> simp_all [Token.has_EOL]
    simp only [Lexer.read, hE, Bool.false_eq_true, if_false, impl.error, hd,
      Lexer.last_token_start]
    simp
  · intro t ht
    obtain ⟨lexer, lexer', hl, hp, he⟩ := (parse_ok_iff uninit s t).1 ht
    obtain ⟨hr, _, _⟩ := (parse_expression_post hl).2 t lexer' hp
    have hend := (peek_EOL_iff hr.wf).1 he
    refine ⟨lexer, lexer', hl, hp, hr.tokens_eq, he, by rw [← hr.tokens_eq]; exact hend, ?_⟩
    intro i hi heol
    have hwf := Lexer_new_well_formed hl
    rw [hr.tokens_eq] at hend
    have := (hwf.EOL_iff i (by omega)).1 heol
    omega

/-- Witness of `trailing_input_rejected`: in `1)` the expression `1` is
parsed and the token after it is ')'. -/
theorem trailing_input_rejected_witness :
    parse Category.ALPHA "1)" =
      .error (Failure.Error
        (({ _tokens := [.double 1, .char ')', .EOL], _offsets := [0, 1, 2], _cursor := 1 } :
          Lexer)._offsets.getD 1 0)
        (Message.unexpected (Token.char ')'))) :=
  (trailing_input_rejected Category.ALPHA "1)").1
    { _tokens := [.double 1, .char ')', .EOL], _offsets := [0, 1, 2], _cursor := 0 }
    (.Literal 1)
    { _tokens := [.double 1, .char ')', .EOL], _offsets := [0, 1, 2], _cursor := 1 }
    rfl rfl (by decide)

/-- Claim C3, amended: for every source text `s` on which `parse` succeeds
with a tree `t` that satisfies `round_trips` (every call resolves to its own
descriptor by identifier and argument count, every infix call has one
argument or two of which the right one is no binary-operator call of strictly
tighter precedence, names are non-empty runs of letters and underscores
other than function identifiers, and `std::format` writes every literal as a
run of digits and decimal points that `std::stod` reads back to its value),
parsing the rendering of `t` succeeds and gives a tree identical to
`parse(s)`. -/
theorem round_trip (uninit : Category) (fmt : ℚ → String) (s : String) (t : Ast)
    (hs : parse uninit s = .ok t) (hrt : round_trips fmt t) :
    parse uninit (Ast.to_string fmt t) = parse uninit s ∧
      ∃ t', parse uninit (Ast.to_string fmt t) = .ok t' ∧ Ast.eq t' t = true := by
  have h := parse_to_string uninit fmt t hrt
  exact ⟨by rw [h, hs], t, h, Ast_eq_refl t⟩

/-- Witness of `round_trip` at the text `2(x - 2) - min(-y, 2)`, whose tree
renders as `2 * (x - 2) - min(-y, 2)`; the number 2 is written `2`. -/
theorem round_trip_witness :
    parse Category.ALPHA "2(x - 2) - min(-y, 2)" =
      .ok (.Call 6 [.Call 2 [.Literal 2, .Call 6 [.Variable "x", .Literal 2]],
        .Call 19 [.Call 0 [.Variable "y"], .Literal 2]]) ∧
    Ast.to_string (fun _ => "2")
      (.Call 6 [.Call 2 [.Literal 2, .Call 6 [.Variable "x", .Literal 2]],
        .Call 19 [.Call 0 [.Variable "y"], .Literal 2]]) = "2 * (x - 2) - min(-y, 2)" ∧
    parse Category.ALPHA (Ast.to_string (fun _ => "2")
      (.Call 6 [.Call 2 [.Literal 2, .Call 6 [.Variable "x", .Literal 2]],
        .Call 19 [.Call 0 [.Variable "y"], .Literal 2]])) =
      parse Category.ALPHA "2(x - 2) - min(-y, 2)" :=
  ⟨rfl, rfl, (round_trip Category.ALPHA (fun _ => "2") "2(x - 2) - min(-y, 2)"
    (.Call 6 [.Call 2 [.Literal 2, .Call 6 [.Variable "x", .Literal 2]],
      .Call 19 [.Call 0 [.Variable "y"], .Literal 2]]) rfl
    (by
      have hx : (Lexeme.name "x").valid := ⟨by decide, by decide, by decide⟩
      have hy : (Lexeme.name "y").valid := ⟨by decide, by decide, by decide⟩
      have h2 : (Lexeme.number "2" 2).valid := ⟨by decide, by decide, rfl⟩
      have ht : ¬ tighter_binary 6 (.Call 19 [.Call 0 [.Variable "y"], .Literal 2]) := by
        simp only [tighter_binary]
        decide
      have ht' : ¬ tighter_binary 2 (.Call 6 [.Variable "x", .Literal 2]) := by
        simp only [tighter_binary]
        decide
      have ht'' : ∀ g, ¬ tighter_binary g (.Literal 2) := by
        intro g
        simp only [tighter_binary, not_false_eq_true]
      simp only [round_trips, round_trips_list, infix_shape, and_true, hx, hy, h2, ht, ht',
        ht'', not_false_eq_true, implies_true]
      decide)).1⟩

/-- Claim C3 as stated fails. The text `+(x,y,z)` parses to the call of `+`
on three arguments, which renders as `x + y + z`, and that parses to the
nested `+(+(x, y), z)`, a different tree. The text `x+(y*z)` parses to
`+(x, *(y, z))`, which renders as `x + y * z`, and parsing that throws. -/
theorem round_trip_fails :
    (∀ uninit, parse uninit "+(x,y,z)" =
      .ok (.Call 5 [.Variable "x", .Variable "y", .Variable "z"])) ∧
    (∀ fmt, Ast.to_string fmt (.Call 5 [.Variable "x", .Variable "y", .Variable "z"]) =
      "x + y + z") ∧
    (∀ uninit, parse uninit "x + y + z" =
      .ok (.Call 5 [.Call 5 [.Variable "x", .Variable "y"], .Variable "z"])) ∧
    Ast.eq (.Call 5 [.Call 5 [.Variable "x", .Variable "y"], .Variable "z"])
      (.Call 5 [.Variable "x", .Variable "y", .Variable "z"]) = false ∧
    (∀ uninit, parse uninit "x+(y*z)" =
      .ok (.Call 5 [.Variable "x", .Call 2 [.Variable "y", .Variable "z"]])) ∧
    (∀ fmt, Ast.to_string fmt (.Call 5 [.Variable "x", .Call 2 [.Variable "y", .Variable "z"]]) =
      "x + y * z") ∧
    (∀ uninit, parse uninit "x + y * z" =
      .error (Failure.Error 8 Message.expected_expression)) :=
  ⟨fun _ => rfl, fun _ => rfl, fun _ => rfl, rfl, fun _ => rfl, fun _ => rfl, fun _ => rfl⟩

/-- Unresolved arity with the 8-bit count. Where `parse_primary` reads a
function identifier followed by `(`, a comma-separated list of `n` arguments
each of which `parse_expression` parses, and `)`, and the lookup
`function::get` with the count converted to its 8-bit arity, `n % 256`, finds
no descriptor, it throws the parse error "no overload found" at the column of
the `)`; where it reads a function identifier not followed by `(` and
`function::get(identifier, 1)` finds no descriptor, it throws the parse error
"function is not a unary operator" at the column of the identifier. This is
so at every position of every token buffer (the first two parts), and
therefore for `parse` on every text that begins so (the last two parts). -/
theorem unresolved_arity_is_syntax_error (o : List Nat) (identifier : String) :
    (∀ (Ts : List (List Token)) (xs : List Ast) (m : Nat) (pre post : List Token),
      List.Forall₂ (parses_expression o) Ts xs → get identifier (xs.length % 256) = none →
      post ≠ [] →
      4 * (Token.Identifier identifier :: Token.char '(' ::
        (arguments_tokens Ts ++ Token.char ')' :: post)).length ≤ m →
      parse_primary m (lexer_at o pre (Token.Identifier identifier :: Token.char '(' ::
          (arguments_tokens Ts ++ Token.char ')' :: post))) =
        .error (Failure.Error (o.getD (pre.length + 2 + (arguments_tokens Ts).length) 0)
          (Message.no_overload identifier xs.length))) ∧
    (∀ (next : Token) (m : Nat) (pre post : List Token),
      next.has_char '(' = false → get identifier 1 = none →
      parse_primary (m + 1) (lexer_at o pre (Token.Identifier identifier :: next :: post)) =
        .error (Failure.Error (o.getD pre.length 0) (Message.not_unary identifier))) ∧
    (∀ (uninit : Category) (s : String) (lx : Lexer) (Ts : List (List Token)) (xs : List Ast)
      (post : List Token), Lexer.new uninit s = .ok lx → lx._offsets = o →
      lx._tokens = Token.Identifier identifier :: Token.char '(' ::
        (arguments_tokens Ts ++ Token.char ')' :: post) →
      List.Forall₂ (parses_expression o) Ts xs → get identifier (xs.length % 256) = none →
      parse uninit s = .error (Failure.Error (o.getD (2 + (arguments_tokens Ts).length) 0)
        (Message.no_overload identifier xs.length))) ∧
    (∀ (uninit : Category) (s : String) (lx : Lexer) (next : Token) (post : List Token),
      Lexer.new uninit s = .ok lx → lx._offsets = o →
      lx._tokens = Token.Identifier identifier :: next :: post →
      next.has_char '(' = false → get identifier 1 = none →
      parse uninit s = .error (Failure.Error (o.getD 0 0) (Message.not_unary identifier))) := by
  refine ⟨?_, ?_, ?_, ?_⟩
  · intro Ts xs m pre post hTs hg hpost hm
    exact routine_call_unresolved hTs hg m pre post hpost hm
  · intro next m pre post hnext hg
    exact not_unary_unresolved o identifier next hnext hg m pre post
  · intro uninit s lx Ts xs post hlex ho htoks hTs hg
    have hpost : post ≠ [] := by
      obtain ⟨_, body, hb, _, _⟩ := Lexer_new_spec hlex
      intro hp
      subst hp
      have e1 : lx._tokens.getLast? = some (Token.char ')') := by
        rw [htoks, show Token.Identifier identifier :: Token.char '(' ::
          (arguments_tokens Ts ++ [Token.char ')']) =
          (Token.Identifier identifier :: Token.char '(' :: arguments_tokens Ts) ++
            [Token.char ')'] by simp, List.getLast?_concat]
      rw [hb, List.getLast?_concat] at e1
      cases e1
    refine parse_primary_error hlex ?_
    have hat := Lexer_new_lexer_at hlex
    rw [htoks, ho] at hat
    have := routine_call_unresolved hTs hg (fuel_for lx - 1) [] post hpost (by
      unfold fuel_for
      rw [htoks]
      omega)
    rw [← hat] at this
    simpa using this
  · intro uninit s lx next post hlex ho htoks hnext hg
    refine parse_primary_error hlex ?_
    have hat := Lexer_new_lexer_at hlex
    rw [htoks, ho] at hat
    have := not_unary_unresolved o identifier next hnext hg (fuel_for lx - 2) [] post
    rw [← hat, show fuel_for lx - 2 + 1 = fuel_for lx - 1 by unfold fuel_for; omega] at this
    simpa using this

/-- Witness of `unresolved_arity_is_syntax_error`: `sqrt(1,2)`, `min(1)` and `*3` are
parse errors. -/
theorem unresolved_arity_is_syntax_error_witness :
    parse Category.WHITESPACE "sqrt(1,2)" =
        .error (Failure.Error 8 (Message.no_overload "sqrt" 2)) ∧
      parse Category.WHITESPACE "min(1)" =
        .error (Failure.Error 5 (Message.no_overload "min" 1)) ∧
      parse Category.WHITESPACE "*3" = .error (Failure.Error 0 (Message.not_unary "*")) :=
  ⟨(unresolved_arity_is_syntax_error [0, 4, 5, 6, 7, 8, 9] "sqrt").2.2.1 Category.WHITESPACE
      "sqrt(1,2)" _ [[Token.double 1], [Token.double 2]] [.Literal 1, .Literal 2] [Token.EOL]
      (by rfl) rfl rfl
      (List.Forall₂.cons (parses_expression_double _ _)
        (List.Forall₂.cons (parses_expression_double _ _) List.Forall₂.nil)) (by decide),
    (unresolved_arity_is_syntax_error [0, 3, 4, 5, 6] "min").2.2.1 Category.WHITESPACE
      "min(1)" _ [[Token.double 1]] [.Literal 1] [Token.EOL] (by rfl) rfl rfl
      (List.Forall₂.cons (parses_expression_double _ _) List.Forall₂.nil) (by decide),
    (unresolved_arity_is_syntax_error [0, 1, 2] "*").2.2.2 Category.WHITESPACE
      "*3" _ (Token.double 3) [Token.EOL] (by rfl) rfl rfl (by decide) (by decide)⟩

/-- Claim C11 fails on the code: a catalog identifier followed by a
parenthesised list of `n` well-formed arguments for which
`function::get(id, n)` finds no descriptor is not always a parse error. For
`sqrt` and 257 arguments `get("sqrt", 257)` finds nothing, yet `parse` of the
text `sqrt_of_257`, `sqrt(1, 1, ..., 1)` with 257 arguments, returns the call
of `sqrt` on them: `parse_routine_call` hands the count, a `std::size_t`, to
the `std::uint8_t` parameter of `function::get`, which looks up arity 1. With
fewer than 256 arguments the parse error "no overload found" is thrown as
claimed, at the column of the `)`, and so is the parse error for an
identifier that is no unary operator and is not followed by `(`. -/
theorem unresolved_arity_accepted (uninit : Category) :
    "sqrt" ∈ IDENTIFIERS ∧ get "sqrt" 257 = none ∧
    parse uninit sqrt_of_257 = .ok (.Call 17 (List.replicate 257 (.Literal 1))) ∧
    (∀ column msg, parse uninit sqrt_of_257 ≠ .error (Failure.Error column msg)) ∧
    (∀ (identifier : String) (s : String) (lx : Lexer) (Ts : List (List Token))
      (xs : List Ast) (post : List Token), Lexer.new uninit s = .ok lx →
      lx._tokens = Token.Identifier identifier :: Token.char '(' ::
        (arguments_tokens Ts ++ Token.char ')' :: post) →
      List.Forall₂ (parses_expression lx._offsets) Ts xs → xs.length < 256 →
      get identifier xs.length = none →
      parse uninit s =
        .error (Failure.Error (lx._offsets.getD (2 + (arguments_tokens Ts).length) 0)
          (Message.no_overload identifier xs.length))) ∧
    (∀ (identifier : String) (s : String) (lx : Lexer) (next : Token) (post : List Token),
      Lexer.new uninit s = .ok lx →
      lx._tokens = Token.Identifier identifier :: next :: post →
      next.has_char '(' = false → get identifier 1 = none →
      parse uninit s =
        .error (Failure.Error (lx._offsets.getD 0 0) (Message.not_unary identifier))) ∧
    parse uninit "sqrt(1,2)" = .error (Failure.Error 8 (Message.no_overload "sqrt" 2)) ∧
    parse uninit "min(1)" = .error (Failure.Error 5 (Message.no_overload "min" 1)) ∧
    parse uninit "*3" = .error (Failure.Error 0 (Message.not_unary "*")) := by
  refine ⟨by decide, by decide, parse_sqrt_of_257 uninit, ?_, ?_, ?_, by rfl, by rfl, by rfl⟩
  · intro column msg h
    rw [parse_sqrt_of_257] at h
    cases h
  · intro identifier s lx Ts xs post hlex htoks hTs hlt hg
    exact (unresolved_arity_is_syntax_error lx._offsets identifier).2.2.1 uninit s lx Ts xs post
      hlex rfl htoks hTs (by rw [Nat.mod_eq_of_lt hlt]; exact hg)
  · intro identifier s lx next post hlex htoks hnext hg
    exact (unresolved_arity_is_syntax_error lx._offsets identifier).2.2.2 uninit s lx next post
      hlex rfl htoks hnext hg

/-- Claim C12, amended: for every input that contains a run of digits and
decimal points without any digit (a maximal run: the character before it and
the character after it, if any, are no digit and no decimal point),
`std::stod` throws in the `Lexer` constructor, and `parse` and `evaluate_str`
end in that exception: it is `std::invalid_argument` or `std::out_of_range`,
the exception of the first run `std::stod` rejects, and it is
`std::invalid_argument` when no run of the text converts to a value out of
the range of `double`. It is no `parser::Error` and has no column; no token
stream and no tree is produced. On the text of `1`, four hundred `0`, a blank
and `.` it is the `std::out_of_range` of the first run. -/
theorem malformed_number_fails (uninit : Category) (s : String) (before run after : List Char)
    (hs : s.data = before ++ run ++ after) (hne : run ≠ [])
    (hrun : ∀ c ∈ run, categorize c = Category.DIGIT)
    (hbefore : ∀ c, before.getLast? = some c → categorize c ≠ Category.DIGIT)
    (hafter : ∀ c, after.head? = some c → categorize c ≠ Category.DIGIT)
    (hnodigit : ∀ c ∈ run, c.isDigit = false) :
    (∃ e, (e = Failure.invalid_argument ∨ e = Failure.out_of_range) ∧
      e = tokenize_exception (categorize_str uninit s.data) ∧
      Lexer.new uninit s = .error e ∧ parse uninit s = .error e ∧
      engine.evaluate_str uninit s = .error e ∧
      ((∀ seg value, (Category.DIGIT, seg) ∈ categorize_str uninit s.data →
          strtod seg = some value → in_range value = true) →
        e = Failure.invalid_argument)) ∧
    (∀ column msg, parse uninit s ≠ .error (Failure.Error column msg)) ∧
    (∀ t, parse uninit s ≠ .ok t) ∧
    parse uninit (String.mk ('1' :: List.replicate 400 '0' ++ [' ', '.'])) =
      .error Failure.out_of_range := by
  have hmem := categorize_str_finds uninit Category.DIGIT before run after hne hrun hbefore hafter
  rw [← hs] at hmem
  have hnone : ∀ o, segment_tokens o (Category.DIGIT, run) = none := by
    intro o
    simp [segment_tokens, stod_no_digit run hnodigit]
  have hl : Lexer.new uninit s = .error (tokenize_exception (categorize_str uninit s.data)) := by
    unfold Lexer.new
    rw [tokenize_segments_none _ 0 _ hmem hnone]
  have hp : parse uninit s = .error (tokenize_exception (categorize_str uninit s.data)) := by
    unfold parse
    rw [hl]
  have hc := tokenize_exception_cases (categorize_str uninit s.data)
  refine ⟨⟨_, hc, rfl, hl, hp, ?_, tokenize_exception_in_range _⟩, ?_, ?_,
    overflowing_run_throws uninit⟩
  · unfold engine.evaluate_str
    rw [hp]
  · intro column msg h
    rw [hp] at h
    rcases hc with hc | hc <;> rw [hc] at h <;> cases h
  · intro t h
    rw [hp] at h
    cases h

/-- Witness of `malformed_number_fails` at the text `1 + . + 2`, whose run `.` has
no digit. -/
theorem malformed_number_fails_witness :
    parse Category.WHITESPACE "1 + . + 2" = .error Failure.invalid_argument ∧
      ∀ column msg, parse Category.WHITESPACE "1 + . + 2" ≠ .error (Failure.Error column msg) :=
  ⟨by rfl, (malformed_number_fails Category.WHITESPACE "1 + . + 2" "1 + ".data ".".data
    " + 2".data rfl (by decide) (by decide) (by decide) (by decide) (by decide)).2.1⟩

/-- Claim C12 as stated fails. The run `1.2.3` has two decimal points, yet
the tokenizer accepts it: `std::stod` converts the prefix `1.2` and the text
parses to the literal 1.2. And on the run `.`, without a digit, what reaches
the caller is the `std::invalid_argument` of `std::stod`, not a
`parser::Error` with a column. -/
theorem malformed_number_not_a_parse_error :
    parse Category.WHITESPACE "1.2.3" = .ok (.Literal (mkRat 12 10)) ∧
      parse Category.WHITESPACE "." = .error Failure.invalid_argument ∧
      ∀ column msg, parse Category.WHITESPACE "." ≠ .error (Failure.Error column msg) := by
  refine ⟨by rfl, by rfl, ?_⟩
  intro column msg h
  have h' : parse Category.WHITESPACE "." = .error Failure.invalid_argument := by rfl
  rw [h'] at h
  cases h

/-- Claim C13, amended: the constructor of `Rule` checks nothing and never
fails: for every predicate and every result it returns the rule that holds
them unchanged (with an empty `pivot_order`), also when the result refers to
a tag id that occurs nowhere in the predicate. -/
theorem rule_construction_unchecked (predicate : Predicate) (result : Result) :
    (Rule.new predicate result).predicate = predicate ∧
      (Rule.new predicate result).result = result ∧
      (Rule.new predicate result).pivot_order = [] ∧
      result_tags (Rule.new predicate result).result = result_tags result :=
  ⟨rfl, rfl, rfl, rfl⟩

/-- Claim C13 as stated fails: the rule with the predicate `Any` and the
result `Tag{5}` is constructed, although the tag id 5 of its result occurs
nowhere in its predicate. -/
theorem dangling_tag_accepted :
    (Rule.new Predicate.Any (Result.Tag 5)).result = Result.Tag 5 ∧
      5 ∈ result_tags (Rule.new Predicate.Any (Result.Tag 5)).result ∧
      5 ∉ predicate_tags (Rule.new Predicate.Any (Result.Tag 5)).predicate :=
  ⟨rfl, by simp [Rule.new, result_tags], by simp [Rule.new, predicate_tags]⟩

/-- Claim C14, amended: `Rule::apply` matches nothing: for every rule and
every tree, the call ends in the failed assertion of its body and returns no
tree, so no predicate succeeds against any tree and no binding set is
produced. -/
theorem apply_never_matches (rule : Rule) (expr : Ast) :
    Rule.apply rule expr = .error Abort.assertion_failed ∧ ∀ out, Rule.apply rule expr ≠ .ok out :=
  ⟨rfl, fun out h => by cases h⟩

/-- Claim C14 as stated fails: for a rule whose predicate is
`Call(+, [Tag(Any, 0), Tag(Literal(0), 1)])`, `apply` succeeds neither on
`Call(+, [x, 0])` nor on `Call(+, [0, x])`; both calls end in the failed
assertion. -/
theorem commutative_match_fails :
    engine.predicate.Call.from_identifier "+"
        [Predicate.Tag Predicate.Any 0, Predicate.Tag (Predicate.Literal (some 0)) 1] =
      some (Predicate.Call 5
        [Predicate.Tag Predicate.Any 0, Predicate.Tag (Predicate.Literal (some 0)) 1]) ∧
    Rule.apply (Rule.new (Predicate.Call 5
        [Predicate.Tag Predicate.Any 0, Predicate.Tag (Predicate.Literal (some 0)) 1])
        (Result.Tag 0)) (.Call 5 [.Variable "x", .Literal 0]) =
      .error Abort.assertion_failed ∧
    Rule.apply (Rule.new (Predicate.Call 5
        [Predicate.Tag Predicate.Any 0, Predicate.Tag (Predicate.Literal (some 0)) 1])
        (Result.Tag 0)) (.Call 5 [.Literal 0, .Variable "x"]) =
      .error Abort.assertion_failed :=
  ⟨by rfl, rfl, rfl⟩

/-- Claim C15, amended: for every source text `s` on which `evaluate_str`
succeeds with a canonical tree `t` that satisfies `renders_back` (every call
resolves to its own descriptor by identifier and argument count, no argument
of an infix call after the first is a binary-operator call of strictly
tighter precedence, an infix call on more than two arguments is of a
left-associative or fully associative operator, names are non-empty runs of
letters and underscores other than function identifiers, and `std::format`
writes every literal as a run of digits and decimal points that `std::stod`
reads back to its value), parsing the rendering of `t` succeeds and yields a
tree whose canonical form is `t`: evaluating the rendering returns `t`
again. The tree parsed from the rendering is `nest t`, in which a call of a
binary operator on more than two arguments is nested to the left. -/
theorem canonical_rendering_evaluates_back (uninit : Category) (fmt : ℚ → String) (s : String)
    (t : Ast) (hs : engine.evaluate_str uninit s = .ok t) (hrb : renders_back fmt t) :
    engine.evaluate_str uninit (Ast.to_string fmt t) = .ok t ∧
      parse uninit (Ast.to_string fmt t) = .ok (nest t) ∧ flatten (nest t) = t ∧
      Ast.eq (flatten (nest t)) t = true := by
  have hflat := evaluate_is_flat hs
  have h1 := flatten_nest fmt t hflat hrb
  exact ⟨evaluate_to_string uninit fmt t hflat hrb, parse_to_string_nest uninit fmt t hrb, h1,
    by rw [h1]; exact Ast_eq_refl t⟩

/-- Witness of `canonical_rendering_evaluates_back` at the text `2 + (x + y)`, whose canonical
tree is the call of `+` on `2`, `x` and `y` and renders as `2 + x + y`. -/
theorem canonical_rendering_evaluates_back_witness :
    engine.evaluate_str Category.ALPHA "2 + (x + y)" =
      .ok (.Call 5 [.Literal 2, .Variable "x", .Variable "y"]) ∧
    Ast.to_string (fun _ => "2") (.Call 5 [.Literal 2, .Variable "x", .Variable "y"]) =
      "2 + x + y" ∧
    engine.evaluate_str Category.ALPHA
        (Ast.to_string (fun _ => "2") (.Call 5 [.Literal 2, .Variable "x", .Variable "y"])) =
      .ok (.Call 5 [.Literal 2, .Variable "x", .Variable "y"]) :=
  ⟨by rfl, by rfl, (canonical_rendering_evaluates_back Category.ALPHA (fun _ => "2") "2 + (x + y)"
    (.Call 5 [.Literal 2, .Variable "x", .Variable "y"]) (by rfl)
    (by
      have hx : (Lexeme.name "x").valid := ⟨by decide, by decide, by decide⟩
      have hy : (Lexeme.name "y").valid := ⟨by decide, by decide, by decide⟩
      have h2 : (Lexeme.number "2" 2).valid := ⟨by decide, by decide, rfl⟩
      have ht : ∀ n, ¬ tighter_binary 5 (.Variable n) := by
        intro n
        simp only [tighter_binary, not_false_eq_true]
      refine ⟨?_, h2, hx, hy, trivial⟩
      unfold call_shape
      rw [if_pos (by decide)]
      refine ⟨by decide, ?_, fun _ => Or.inr (by decide)⟩
      intro a ha
      simp only [List.mem_cons, List.mem_singleton, List.not_mem_nil, or_false] at ha
      rcases ha with rfl | rfl <;> exact ht _)).1⟩

/-- Claim C15 as stated fails. On the text `x+y+z`, `evaluate_str` succeeds
with the call of `+` on three arguments, which renders as `x + y + z`;
parsing that yields the nested `+(+(x, y), z)`, which is not equal to the
canonical tree. -/
theorem canonical_rendering_not_equal :
    (∀ uninit, engine.evaluate_str uninit "x+y+z" =
      .ok (.Call 5 [.Variable "x", .Variable "y", .Variable "z"])) ∧
    (∀ fmt, Ast.to_string fmt (.Call 5 [.Variable "x", .Variable "y", .Variable "z"]) =
      "x + y + z") ∧
    (∀ uninit, parse uninit "x + y + z" =
      .ok (.Call 5 [.Call 5 [.Variable "x", .Variable "y"], .Variable "z"])) ∧
    Ast.eq (.Call 5 [.Call 5 [.Variable "x", .Variable "y"], .Variable "z"])
      (.Call 5 [.Variable "x", .Variable "y", .Variable "z"]) = false :=
  ⟨fun _ => rfl, fun _ => rfl, fun _ => rfl, rfl⟩

/-- Claim C16, amended: the tree `Call(+, [1, Call(*, [2, 3])])` renders with
the delimiter of `format_infix`, the identifier between two blanks, for both
operators: wherever `std::format` writes the values 1, 2 and 3 as `1`, `2`
and `3`, the text is exactly `1 + 2 * 3`. -/
theorem precedence_example_rendering (fmt : ℚ → String)
    (h1 : fmt 1 = "1") (h2 : fmt 2 = "2") (h3 : fmt 3 = "3") :
    (deref 5).identifier = "+" ∧ (deref 2).identifier = "*" ∧
      Ast.to_string fmt (.Call 5 [.Literal 1, .Call 2 [.Literal 2, .Literal 3]]) =
        "1 + 2 * 3" := by
  refine ⟨rfl, rfl, ?_⟩
  rw [precedence_example_text, h1, h2, h3]
  rfl

/-- Witness of `precedence_example_rendering` for a formatter that writes 1, 2 and 3 as
`1`, `2` and `3`. -/
theorem precedence_example_rendering_witness :
    Ast.to_string (fun v => if v = 1 then "1" else if v = 2 then "2" else "3")
      (.Call 5 [.Literal 1, .Call 2 [.Literal 2, .Literal 3]]) = "1 + 2 * 3" :=
  (precedence_example_rendering (fun v => if v = 1 then "1" else if v = 2 then "2" else "3")
    (by decide) (by decide) (by decide)).2.2

/-- Claim C16 as stated fails: whatever `std::format` writes for the numbers,
the rendering of `Call(+, [1, Call(*, [2, 3])])` is not the text `1 + 2*3`,
since it has a blank on either side of `*`. -/
theorem precedence_example_rendering_fails :
    ¬ ∃ fmt : ℚ → String,
      Ast.to_string fmt (.Call 5 [.Literal 1, .Call 2 [.Literal 2, .Literal 3]]) = "1 + 2*3" := by
  rintro ⟨fmt, h⟩
  rw [precedence_example_text] at h
  have hc := congrArg (fun s : String => s.data.count ' ') h
  simp only [String.data_append, List.count_append] at hc
  have e1 : " + ".data.count ' ' = 2 := by decide
  have e2 : " * ".data.count ' ' = 2 := by decide
  have e3 : "1 + 2*3".data.count ' ' = 2 := by decide
  rw [e1, e2, e3] at hc
  omega

/-- Claim C17: in the rendering of an infix call the text of an argument is
wrapped in parentheses exactly when the argument is a call whose precedence
level is looser than or equal to that of the parent function (`≤` on
`Precedence` is the order of the enumerators, `L6` the loosest): a call
argument of looser or equal level is wrapped, a call argument of strictly
tighter level is not, a literal or variable never is. A one-argument infix
call renders as the identifier immediately followed by the operand, and any
other infix call as its operands, each written by this rule, joined by the
identifier between two blanks. -/
theorem render_parenthesization (fmt : ℚ → String) (fn : FunctionPtr) :
    (∀ g xs out, (deref g).precedence ≤ (deref fn).precedence →
      impl.format_operand fn (.Call g xs) out = "(" ++ out ++ ")") ∧
    (∀ g xs out, (deref g).precedence > (deref fn).precedence →
      impl.format_operand fn (.Call g xs) out = out) ∧
    (∀ value out, impl.format_operand fn (.Literal value) out = out) ∧
    (∀ identifier out, impl.format_operand fn (.Variable identifier) out = out) ∧
    ((deref fn).syntax_ = Syntax.INFIX → ∀ arg,
      Ast.to_string fmt (.Call fn [arg]) =
        (deref fn).identifier ++ impl.format_operand fn arg (Ast.to_string fmt arg)) ∧
    ((deref fn).syntax_ = Syntax.INFIX → ∀ args, args.length ≠ 1 →
      Ast.to_string fmt (.Call fn args) =
        String.intercalate (" " ++ (deref fn).identifier ++ " ")
          (args.map fun arg => impl.format_operand fn arg (Ast.to_string fmt arg))) := by
  refine ⟨?_, ?_, ?_, ?_, ?_, ?_⟩
  · intro g xs out h
    simp [impl.format_operand, Ast.precedence, Ast.has_Call, h]
  · intro g xs out h
    have : ¬ (deref g).precedence ≤ (deref fn).precedence := by
      intro hle
      exact absurd (show (deref fn).precedence.to_uint8 < (deref g).precedence.to_uint8 from h)
        (Nat.not_lt.2 hle)
    simp [impl.format_operand, Ast.precedence, this]
  · intro value out
    simp [impl.format_operand, Ast.has_Call]
  · intro identifier out
    simp [impl.format_operand, Ast.has_Call]
  · intro h arg
    rw [Ast.to_string, if_pos h, impl.format_infix]
  · intro h args hlen
    rw [Ast.to_string, if_pos h]
    exact format_infix_intercalate fmt fn args hlen

/-- Witness of `render_parenthesization`: as an argument of `*` the call
`1 + 1` of `+`, of looser level, is wrapped, so `(1 + 1) * x`; as an argument
of `+` the call `1 * x` of `*`, of tighter level, is not, so `1 + 1 * x`. -/
theorem render_parenthesization_witness :
    impl.format_operand 2 (.Call 5 [.Literal 1, .Literal 1]) "1 + 1" = "(1 + 1)" ∧
      Ast.to_string (fun _ => "1") (.Call 2 [.Call 5 [.Literal 1, .Literal 1], .Variable "x"]) =
        "(1 + 1) * x" ∧
      Ast.to_string (fun _ => "1") (.Call 5 [.Literal 1, .Call 2 [.Literal 1, .Variable "x"]]) =
        "1 + 1 * x" :=
  ⟨(render_parenthesization (fun _ => "1") 2).1 5 [.Literal 1, .Literal 1] "1 + 1" (by decide),
    rfl, rfl⟩

/-- Claim C18: the tokens the `SYMBOL` case of the tokenizer emits for a run
are the greedy tokenization of the run: at each position the longest prefix
of the remaining run that is a registered function identifier, as an
`Identifier` token, or the first character, as a `char` token, when no prefix
is registered; and the texts of the tokens, concatenated, give back the run.
The text `+===` yields `Identifier "+"`, `Identifier "=="` and `char '='`. -/
theorem greedy_symbol_tokenization (fmt : ℚ → String) (current_offset : Nat) (run : List Char) :
    (∃ toks, segment_tokens current_offset (Category.SYMBOL, run) = some toks ∧
      greedy run (toks.map Prod.fst) ∧
      (toks.map fun p => (p.1.to_string fmt).data).flatten = run) ∧
    (segment_tokens 0 (Category.SYMBOL, "+===".data)).map (List.map Prod.fst) =
      some [Token.Identifier "+", Token.Identifier "==", Token.char '='] :=
  ⟨⟨_, rfl, (symbol_tokens_greedy fmt _ _ run (le_refl _)).1,
    (symbol_tokens_greedy fmt _ _ run (le_refl _)).2⟩, by decide⟩

/-- Claim C19: for every input text on which tokenization does not fail, the
token sequence built by the `Lexer` constructor is not empty, its last token
is the end marker `EOL`, and no earlier token is `EOL`. -/
theorem end_marker (uninit : Category) (s : String) (lx : Lexer)
    (h : Lexer.new uninit s = .ok lx) :
    lx._tokens ≠ [] ∧ lx._tokens.getLast? = some Token.EOL ∧
      (∀ i, i + 1 < lx._tokens.length → lx._tokens.get? i ≠ some Token.EOL) ∧
      ∃ body, lx._tokens = body ++ [Token.EOL] ∧ Token.EOL ∉ body := by
  obtain ⟨_, body, hb, hn, _⟩ := Lexer_new_spec h
  refine ⟨by simp [hb], by simp [hb], ?_, body, hb, hn⟩
  intro i hi he
  rw [hb] at hi he
  simp only [List.length_append, List.length_singleton] at hi
  have hlt : i < body.length := by omega
  rw [List.get?_eq_getElem?, List.getElem?_append_left hlt] at he
  exact hn (List.getElem?_mem he)

/-- Witness of `end_marker` at the text `x + 1`: the tokens are `x`, `+`, `1`
and the end marker. -/
theorem end_marker_witness :
    Lexer.new Category.WHITESPACE "x + 1" =
        .ok { _tokens := [Token.string_view "x", Token.Identifier "+", Token.double 1, Token.EOL],
              _offsets := [0, 2, 4, 5], _cursor := 0 } ∧
      [Token.string_view "x", Token.Identifier "+", Token.double 1, Token.EOL].getLast? =
        some Token.EOL :=
  ⟨by rfl, (end_marker Category.WHITESPACE "x + 1"
    { _tokens := [Token.string_view "x", Token.Identifier "+", Token.double 1, Token.EOL],
      _offsets := [0, 2, 4, 5], _cursor := 0 } (by rfl)).2.1⟩

/-- Claim C20: for every non-empty input on which tokenization succeeds, the
tokens before the end marker come each with the index of the source text at
which the text of the token begins (the text before it, blanks included, has
that many characters), the recorded offsets are strictly increasing, and the
offset of the end marker is the length of the source text. -/
theorem token_offsets (uninit : Category) (s : String) (lx : Lexer) (hne : s.data ≠ [])
    (h : Lexer.new uninit s = .ok lx) :
    ∃ body : List (Token × Nat),
      lx._tokens = body.map Prod.fst ++ [Token.EOL] ∧
      lx._offsets = body.map Prod.snd ++ [s.data.length] ∧
      (∀ p ∈ body, ∃ before text after, s.data = before ++ text ++ after ∧
        before.length = p.2 ∧ text ≠ [] ∧ spelled_by p.1 text) ∧
      tiling 0 s.data body ∧
      List.Pairwise (· < ·) lx._offsets := by
  obtain ⟨body, htile, ht, ho⟩ := Lexer_new_tiling hne h
  obtain ⟨b1, b2, b3⟩ := tiling_bounds htile
  refine ⟨body, ht, ho, ?_, htile, ?_⟩
  · intro p hp
    obtain ⟨pre, txt, post, e, l, n, sp⟩ := b3 p hp
    exact ⟨pre, txt, post, e, by omega, n, sp⟩
  · rw [ho, List.pairwise_append]
    refine ⟨b2, by simp, ?_⟩
    intro a ha b hb
    obtain ⟨p, hp, rfl⟩ := List.mem_map.1 ha
    simp only [List.mem_singleton] at hb
    subst hb
    have := (b1 p hp).2
    omega

/-- Witness of `token_offsets` at the text ` x  >= 10`: the tokens `x`, `>=` and
`10` begin at the indices 1, 4 and 7, and the text has 9 characters. -/
theorem token_offsets_witness :
    Lexer.new Category.WHITESPACE " x  >= 10" =
        .ok { _tokens := [Token.string_view "x", Token.Identifier ">=", Token.double 10, Token.EOL],
              _offsets := [1, 4, 7, 9], _cursor := 0 } ∧
      List.Pairwise (· < ·) [1, 4, 7, 9] := by
  obtain ⟨_, _, _, _, _, h⟩ := token_offsets Category.WHITESPACE " x  >= 10"
    { _tokens := [Token.string_view "x", Token.Identifier ">=", Token.double 10, Token.EOL],
      _offsets := [1, 4, 7, 9], _cursor := 0 } (by decide) (by rfl)
  exact ⟨by rfl, h⟩

/-- Claim C21, amended: in every tokenizer state, after a `read` or `discard`
of a token other than the end marker, `last_token_start()` returns the
recorded offset of that token; after a `read` or `discard` of the end marker
the cursor has not moved and `last_token_start()` returns the recorded offset
of the token before the end marker (of the end marker itself when it is the
only token). Every `parser::Error` of `parse` carries `last_token_start()` of
the state in which `error` was called: the traced parser, which records that
state and otherwise is the parser (erasing the record gives `parse`), calls
`error` with the same message in a state `lt` with that column, and `lt` is the
state right after a `read` or `discard` in a state `lx0` the parser reached.
So the column is the recorded offset of the token just consumed, the one at
the cursor of `lx0`, or, when that token is the end marker, of the token
before it. -/
theorem error_column :
    (∀ lx : Lexer, well_formed lx →
      (lx.peek ≠ Token.EOL →
        lx.read.2.last_token_start = lx._offsets.getD lx._cursor 0 ∧
        lx.discard.last_token_start = lx._offsets.getD lx._cursor 0) ∧
      (lx.peek = Token.EOL →
        lx.read.2.last_token_start = lx._offsets.getD (lx._cursor - 1) 0 ∧
        lx.discard.last_token_start = lx._offsets.getD (lx._cursor - 1) 0)) ∧
    (∀ (uninit : Category) (s : String), traced.erase (traced.parse uninit s) = parse uninit s) ∧
    (∀ (uninit : Category) (s : String) (lx : Lexer) (column : Nat) (msg : Message),
      Lexer.new uninit s = .ok lx → parse uninit s = .error (Failure.Error column msg) →
      ∃ lt lx0, traced.parse uninit s = .error (traced.Thrown.raised lt msg) ∧
        column = lt.last_token_start ∧ reaches lx lx0 ∧ lt = lx0.read.2 ∧
        (lx0.peek ≠ Token.EOL → column = lx._offsets.getD lx0._cursor 0) ∧
        (lx0.peek = Token.EOL → column = lx._offsets.getD (lx0._cursor - 1) 0)) := by
  refine ⟨?_, parse_simulation, ?_⟩
  · intro lx hwf
    obtain ⟨h1, h2⟩ := last_token_start_discard hwf
    exact ⟨fun hp => ⟨h1 hp, h1 hp⟩, fun hp => ⟨h2 hp, h2 hp⟩⟩
  · intro uninit s lx column msg hlex herr
    obtain ⟨lt, ht, hc⟩ := parse_error_traced hlex herr
    obtain ⟨lx0, hr, hlt⟩ := parse_throw_state hlex ht
    obtain ⟨h1, h2⟩ := last_token_start_discard hr.wf
    refine ⟨lt, lx0, ht, hc, hr, hlt, ?_, ?_⟩
    · intro hp
      rw [hc, hlt, h1 hp, hr.offsets_eq]
    · intro hp
      rw [hc, hlt, h2 hp, hr.offsets_eq]

/-- Witness of `error_column` at the text `1)`: `error` is called in the state
right after the read of `)`, and the column 1 is the recorded offset of
`)`. -/
theorem error_column_witness :
    parse Category.WHITESPACE "1)" =
        .error (Failure.Error 1 (Message.unexpected (Token.char ')'))) ∧
      traced.parse Category.WHITESPACE "1)" =
        .error (traced.Thrown.raised
          { _tokens := [.double 1, .char ')', .EOL], _offsets := [0, 1, 2], _cursor := 2 }
          (Message.unexpected (Token.char ')'))) ∧
      ∃ lt lx0 : Lexer, traced.parse Category.WHITESPACE "1)" =
          .error (traced.Thrown.raised lt (Message.unexpected (Token.char ')'))) ∧
        1 = lt.last_token_start ∧ lt = lx0.read.2 := by
  refine ⟨by rfl, by rfl, ?_⟩
  obtain ⟨lt, lx0, h1, h2, _, h4, _⟩ := error_column.2.2 Category.WHITESPACE "1)"
    { _tokens := [.double 1, .char ')', .EOL], _offsets := [0, 1, 2], _cursor := 0 }
    1 (Message.unexpected (Token.char ')')) (by rfl) (by rfl)
  exact ⟨lt, lx0, h1, h2, h4⟩

/-- Claim C21 as stated fails when the token consumed is the end marker. In
the tokenizer state of the text `1+` with the cursor on the end marker, `read`
returns the end marker, whose recorded offset is 2, and leaves the cursor
where it is, so that `last_token_start()` returns 1, the offset of `+`; and
the error `parse("1+")` raises after reading the end marker carries the
column 1. -/
theorem error_column_at_end_marker :
    Lexer.new Category.WHITESPACE "1+" =
      .ok { _tokens := [.double 1, .Identifier "+", .EOL], _offsets := [0, 1, 2], _cursor := 0 } ∧
    (Lexer.read
      { _tokens := [.double 1, .Identifier "+", .EOL], _offsets := [0, 1, 2], _cursor := 2 }).1 =
      Token.EOL ∧
    (Lexer.read
      { _tokens := [.double 1, .Identifier "+", .EOL], _offsets := [0, 1, 2], _cursor := 2 }
      ).2.last_token_start = 1 ∧
    ([0, 1, 2] : List Nat).getD 2 0 = 2 ∧
    parse Category.WHITESPACE "1+" =
      .error (Failure.Error 1 Message.expected_expression) :=
  ⟨by rfl, by rfl, by rfl, by rfl, by rfl⟩

/-- Claim C22: the arity half of the Call invariant is broken by the parser.
The text `sqrt_of_257`, the call `sqrt(1, 1, ..., 1)` with 257 arguments,
parses to a call of `sqrt` with 257 arguments, although `sqrt` is `STATIC` of
arity 1, so that the tree does not satisfy `arity_ok`: `parse_routine_call`
hands the argument count, a `std::size_t`, to the `std::uint8_t` parameter of
`function::get`, which therefore looks `sqrt` up with arity 257 mod 256 = 1
where the lookup with 257 finds nothing. What every tree returned by `parse`
does satisfy is the constraint on the argument count modulo 256
(`arity_ok_uint8`); the function of a call is always an entry of `ARRAY`. -/
theorem static_arity_escapes (uninit : Category) :
    parse uninit sqrt_of_257 = .ok (.Call 17 (List.replicate 257 (.Literal 1))) ∧
    (deref 17).identifier = "sqrt" ∧ (deref 17).arity_type = ArityType.STATIC ∧
    (deref 17).arity = 1 ∧
    arity_match (deref 17) 257 = false ∧
    arity_ok (.Call 17 (List.replicate 257 (.Literal 1))) = false ∧
    get "sqrt" 257 = none ∧ get "sqrt" (257 % 256) = some 17 ∧
    (∀ s t, parse uninit s = .ok t → arity_ok_uint8 t = true) ∧
    (∀ fn : FunctionPtr, deref fn ∈ ARRAY) := by
  refine ⟨parse_sqrt_of_257 uninit, rfl, rfl, rfl, by decide, ?_, by decide, by decide,
    fun s t h => parse_arity_ok_uint8 h, by decide⟩
  cases h : arity_ok (.Call 17 (List.replicate 257 (.Literal 1))) with
  | false => rfl
  | true => exact absurd (arity_ok_replicate 17 257 _ h) (by decide)

/-- Claim C23: for every tree `t`, the left-to-right sequence of the `Literal`
and `Variable` leaves of `flatten(t)` is that of `t` (no leaf is added,
dropped, duplicated or moved), and a tree that is no call is returned
unchanged. -/
theorem flatten_preserves_leaves (t : Ast) :
    leaves (flatten t) = leaves t ∧ (t.has_Call = false → flatten t = t) := by
  refine ⟨flatten_leaves t, ?_⟩
  intro h
  cases t with
  | Call fn args => simp [Ast.has_Call] at h
  | Literal v => simp [flatten]
  | Variable n => simp [flatten]

/-- Claim C24: for every expression tree `t`, every call of `flatten(t)` is in
normal form: for an `ALL` function no argument is a call of the same
function, for a `LEFT` function the first argument is not, for a `RIGHT`
function the last argument is not; and a call of a `NONE` function keeps its
number of arguments: its arguments are the flattened arguments, none is
spliced. An expression tree is one all of whose calls have at least one
argument: so is every tree that satisfies the Call invariant of the data
model (`arity_ok`) and every tree the parser returns. The statements on `ALL`
and `NONE` functions at the root hold of every tree whatsoever. -/
theorem flatten_normal_form (t : Ast) :
    (args_nonempty t = true → normal_form (flatten t)) ∧
    (∀ fn sub, flatten t = .Call fn sub → (deref fn).associativity = Associativity.ALL →
      ∀ y ∈ sub, is_call_to fn y = false) ∧
    (∀ fn args, t = .Call fn args → (deref fn).associativity = Associativity.NONE →
      flatten t = .Call fn (args.map flatten) ∧
      (call_args (flatten t)).length = args.length) ∧
    (arity_ok t = true → normal_form (flatten t)) ∧
    (∀ uninit s, parse uninit s = .ok t → normal_form (flatten t)) := by
  have key : args_nonempty t = true → normal_form (flatten t) :=
    fun h => normal_form_of_is_flat _ (flatten_good t h).1
  refine ⟨key, flatten_all t, ?_, fun h => key (arity_ok_args_nonempty t h),
    fun _ _ h => key (parse_args_nonempty h)⟩
  intro fn args ht hnone
  subst ht
  rw [flatten_call_shape, flatten_loop_none hnone]
  simp [call_args]

/-- Witness of `flatten_normal_form` at the tree of `(a - b) - (c - d)`: for the
`LEFT` function `-` the first argument `a - b` is spliced and the last is
kept, and the first argument of the result is no call of `-`. -/
theorem flatten_normal_form_witness :
    flatten (.Call 6 [.Call 6 [.Variable "a", .Variable "b"],
        .Call 6 [.Variable "c", .Variable "d"]]) =
      .Call 6 [.Variable "a", .Variable "b", .Call 6 [.Variable "c", .Variable "d"]] ∧
    normal_form (flatten (.Call 6 [.Call 6 [.Variable "a", .Variable "b"],
      .Call 6 [.Variable "c", .Variable "d"]])) :=
  ⟨rfl, (flatten_normal_form _).1 rfl⟩

/-- Outside the data model, on a tree with a call without arguments, the
result of `flatten` need not be in normal form: for the `LEFT` function `/`,
flattening `/(/(), /(x, y))` splices the empty first argument away and keeps
the second, so the first argument of the result `/(/(x, y))` is a call of
`/`. Such a tree violates the Call invariant and the parser builds none. -/
theorem flatten_first_argument_not_normal :
    (deref 3).identifier = "/" ∧ (deref 3).associativity = Associativity.LEFT ∧
    arity_ok (.Call 3 [.Call 3 [], .Call 3 [.Variable "x", .Variable "y"]]) = false ∧
    flatten (.Call 3 [.Call 3 [], .Call 3 [.Variable "x", .Variable "y"]]) =
      .Call 3 [.Call 3 [.Variable "x", .Variable "y"]] ∧
    is_call_to 3 (.Call 3 [.Variable "x", .Variable "y"]) = true := by
  refine ⟨rfl, rfl, rfl, rfl, rfl⟩

/-- Claim C25: if every call of `t` has a number of arguments that satisfies
the arity constraint of its descriptor (`STATIC` exact, `DYNAMIC` minimum),
then so has every call of `flatten(t)`; and flattening a call of a `STATIC`
function leaves its number of arguments as it is. -/
theorem flatten_preserves_arity (t : Ast) (h : arity_ok t = true) :
    arity_ok (flatten t) = true ∧
      ∀ fn args, t = .Call fn args → (deref fn).arity_type = ArityType.STATIC →
        (call_args (flatten t)).length = args.length := by
  refine ⟨flatten_arity_ok t h, ?_⟩
  intro fn args ht hst
  subst ht
  simp only [arity_ok, Bool.and_eq_true] at h
  obtain ⟨_, _, l3⟩ := flatten_loop_arity fn (args.length - 1) args 0
    (flatten_arity_ok_list args h.2)
  rw [flatten_call_shape]
  exact l3 hst

/-- Witness of `flatten_preserves_arity` at the tree of `-(-(sqrt(x)))`: the nested
unary `-`, a `STATIC` function, is spliced and one argument remains. -/
theorem flatten_preserves_arity_witness :
    flatten (.Call 0 [.Call 0 [.Call 17 [.Variable "x"]]]) =
        .Call 0 [.Call 17 [.Variable "x"]] ∧
      arity_ok (flatten (.Call 0 [.Call 0 [.Call 17 [.Variable "x"]]])) = true :=
  ⟨rfl, (flatten_preserves_arity (.Call 0 [.Call 0 [.Call 17 [.Variable "x"]]]) rfl).1⟩

/-- Claim C26: for every unary operator `u` (an infix function of `STATIC`
arity, which is declared with associativity `RIGHT` and arity 1) and every
tree `t`, `flatten(Call(u, [Call(u, [t])]))` equals `flatten(Call(u, [t]))`;
evaluating the text `-(-x)` yields the tree `Call(-, [x])`, which renders as
`-x`. -/
theorem flatten_collapses_nested_unary (u : FunctionPtr) (t : Ast)
    (hinf : (deref u).syntax_ = Syntax.INFIX)
    (hst : (deref u).arity_type = ArityType.STATIC) :
    (deref u).associativity = Associativity.RIGHT ∧
      flatten (.Call u [.Call u [t]]) = flatten (.Call u [t]) ∧
      (∀ uninit, engine.evaluate_str uninit "-(-x)" = .ok (.Call 0 [.Variable "x"])) ∧
      (∀ fmt, Ast.to_string fmt (.Call 0 [.Variable "x"]) = "-x") :=
  ⟨(unary_is_right u hinf hst).1, flatten_nested_single (unary_is_right u hinf hst).1 t,
    fun _ => rfl, fun _ => rfl⟩

/-- Witness of `flatten_collapses_nested_unary` for the operator `!` and the tree `x`. -/
theorem flatten_collapses_nested_unary_witness :
    (deref 13).identifier = "!" ∧
      flatten (.Call 13 [.Call 13 [.Variable "x"]]) = flatten (.Call 13 [.Variable "x"]) :=
  ⟨rfl, (flatten_collapses_nested_unary 13 (.Variable "x") rfl rfl).2.1⟩

/-- Claim C27, amended: entered with a non-null `from` whose precedence is at
least `min`, in a state of a token sequence that ends in the end marker,
`parse_precedence` returns no tree, whatever the fuel, and with fuel for the
remaining tokens it throws a `parser::Error`. The inner loop enters it so:
an operator that climbs over `fn` (strictly higher precedence, or equal
precedence when `fn` is right-associative, which among the binary operators
only `**` is) has a precedence of at least `next(min)`. Hence an iteration of
the operator loop whose right operand, a primary, is followed by a binary
operator that climbs throws a `parser::Error`, and so does `parse` on every
text that the tokenizer accepts and in which the operator loop comes to such
an operator (`climb_ahead`): at the top level after operands and operators
that were parsed, or further in, in a parenthesised expression, an argument
of a routine call, the operand of a unary operator, a right operand or the
primary taken by an implicit multiplication. The error is raised when
`parse_primary` meets the end marker, as on `1+2*3` and `2**3**2`, or before,
at a token with which no primary starts. A text the tokenizer rejects ends in
the exception of `std::stod` instead. -/
theorem precedence_from_never_returns :
    (∀ (n : Nat) (lx : Lexer) (lhs : Ast) (min : Precedence) (f : FunctionPtr),
      well_formed lx → (deref f).precedence ≥ min →
      (∀ t lx', parse_precedence n lx lhs min (some f) ≠ .ok (t, lx')) ∧
      (4 * remaining lx + 1 ≤ n →
        ∃ column msg, parse_precedence n lx lhs min (some f) =
          .error (Failure.Error column msg))) ∧
    (∀ (sub_fn fn : FunctionPtr) (min : Precedence),
      climbs sub_fn fn = true → (deref fn).precedence ≥ min →
      (deref sub_fn).precedence ≥ next min) ∧
    (∀ sub_fn fn : FunctionPtr,
      climbs sub_fn fn = true ↔
        ((deref sub_fn).precedence > (deref fn).precedence ∨
          ((deref sub_fn).precedence = (deref fn).precedence ∧
            (deref fn).associativity = Associativity.RIGHT))) ∧
    (∀ fn : FunctionPtr,
      (deref fn).associativity = Associativity.RIGHT → arity_match (deref fn) 2 = true →
      fn = 1 ∧ (deref fn).identifier = "**") ∧
    (∀ (n : Nat) (o : List Nat) (pre T2 rest : List Token) (lhs x2 : Ast) (op1 op2 : String)
      (fn sub_fn : FunctionPtr) (min : Precedence),
      well_formed (lexer_at o pre (Token.Identifier op1 :: (T2 ++ Token.Identifier op2 :: rest))) →
      4 * remaining (lexer_at o pre (Token.Identifier op1 ::
        (T2 ++ Token.Identifier op2 :: rest))) + 1 ≤ n →
      parses_primary o T2 x2 → get op1 2 = some fn → (deref fn).precedence ≥ min →
      get op2 2 = some sub_fn → climbs sub_fn fn = true →
      ∃ column msg,
        parse_precedence n (lexer_at o pre (Token.Identifier op1 ::
          (T2 ++ Token.Identifier op2 :: rest))) lhs min none =
          .error (Failure.Error column msg)) ∧
    (∀ (uninit : Category) (s : String) (lx : Lexer) (T1 T2 rest : List Token) (x1 x2 : Ast)
      (op1 op2 : String) (fn sub_fn : FunctionPtr),
      Lexer.new uninit s = .ok lx →
      lx._tokens = T1 ++ Token.Identifier op1 :: (T2 ++ Token.Identifier op2 :: rest) →
      parses_primary lx._offsets T1 x1 → parses_primary lx._offsets T2 x2 →
      get op1 2 = some fn → get op2 2 = some sub_fn → climbs sub_fn fn = true →
      ∃ column msg, parse uninit s = .error (Failure.Error column msg)) ∧
    (∀ uninit, parse uninit "1+2*3" = .error (Failure.Error 4 Message.expected_expression)) ∧
    (∀ uninit, parse uninit "2**3**2" = .error (Failure.Error 6 Message.expected_expression)) ∧
    (∀ (o : List Nat) (primary : Bool) (S : List Token), climb_ahead o primary S →
      (primary = true → throws_primary o S) ∧ (primary = false → throws_expression o S)) ∧
    (∀ (uninit : Category) (s : String) (lx : Lexer), Lexer.new uninit s = .ok lx →
      climb_ahead lx._offsets false lx._tokens →
      ∃ column msg, parse uninit s = .error (Failure.Error column msg)) ∧
    (∀ (uninit : Category) (s : String) (e : Failure), Lexer.new uninit s = .error e →
      parse uninit s = .error e ∧ (e = Failure.invalid_argument ∨ e = Failure.out_of_range)) := by
  refine ⟨?_, ?_, climbs_iff, right_binary_is_power, ?_, ?_, fun _ => by rfl, fun _ => by rfl,
    fun _ _ _ h => climb_ahead_throws h, fun _ _ _ hlex h => climb_ahead_parse hlex h,
    fun _ _ _ hl => ⟨by simp [parse, hl], Lexer_new_error hl⟩⟩
  · intro n lx lhs min f hwf hmin
    exact ⟨precedence_from_no_tree hwf n lhs hmin, fun hn => precedence_from_throws lhs hwf hn hmin⟩
  · intro sub_fn fn min hcl hmin
    exact climbs_ge_next hcl hmin
  · intro n o pre T2 rest lhs x2 op1 op2 fn sub_fn min hwf hn h2 hfn hmin hsub hcl
    exact precedence_loop_climb_throws lhs hwf hn h2 hfn hmin hsub hcl
  · intro uninit s lx T1 T2 rest x1 x2 op1 op2 fn sub_fn hlex htoks h1 h2 hfn hsub hcl
    exact climbing_operator_throws hlex htoks h1 h2 hfn hsub hcl

/-- Witness of `precedence_from_never_returns` at the texts `1+2*3` and
`4-sqrt(1+2*3)`: in the first the tokens are the primary `1`, the operator
`+`, the primary `2` and the operator `*`, which climbs over `+`; in the
second the same stand in the argument of a routine call in the right operand
of `-`. -/
theorem precedence_from_never_returns_witness :
    climbs 2 5 = true ∧
      (∃ column msg, parse Category.WHITESPACE "1+2*3" = .error (Failure.Error column msg)) ∧
      ∃ column msg,
        parse Category.WHITESPACE "4-sqrt(1+2*3)" = .error (Failure.Error column msg) :=
  ⟨by decide, precedence_from_never_returns.2.2.2.2.2.1 Category.WHITESPACE "1+2*3"
    { _tokens := [.double 1, .Identifier "+", .double 2, .Identifier "*", .double 3, .EOL], _offsets := [0, 1, 2, 3, 4, 5], _cursor := 0 }
    [.double 1] [.double 2] [.double 3, .EOL] (.Literal 1) (.Literal 2) "+" "*" 5 2
    (by rfl) rfl (parses_primary_double _ 1) (parses_primary_double _ 2)
    (by decide) (by decide) (by decide),
    precedence_from_never_returns.2.2.2.2.2.2.2.2.2.1 Category.WHITESPACE "4-sqrt(1+2*3)"
    { _tokens := [.double 4, .Identifier "-", .Identifier "sqrt", .char '(', .double 1, .Identifier "+", .double 2, .Identifier "*", .double 3, .char ')', .EOL], _offsets := [0, 1, 2, 6, 7, 8, 9, 10, 11, 12, 13], _cursor := 0 }
    (by rfl)
    (climb_ahead.operand [.double 4] _ (.Literal 4) (fun _ => True) "-" 6
      (primary_continues (parses_primary_double _ 4) (by simp)) trivial (by decide)
      (climb_ahead.argument_first "sqrt" (.double 1) _ (by decide)
        (climb_ahead.pair [.double 1] [.double 2] [.double 3, .char ')', .EOL] (.Literal 1)
          (.Literal 2) (fun _ => True) "+" "*" 5 2
          (primary_continues (parses_primary_double _ 1) (by simp)) trivial
          (parses_primary_double _ 2) (by decide) (by decide) (by decide))))⟩

/-- Claim C27 as stated fails in its account of where the error comes from,
and for the texts the tokenizer rejects. In the text `1+2*)` the operator `*`
climbs over `+`, so `parse_precedence` is entered with `from` = `*` in the
state with the cursor on `*`; it discards `*`, and `parse_primary` meets `)`,
not the end marker, and throws "invalid token" at column 4. And the text
`1+2*3 .`, in which `*` follows the right operand of `+`, does not end in a
parse error: `std::stod` throws `std::invalid_argument` on the run `.` in the
`Lexer` constructor. -/
theorem from_call_error_before_end_marker :
    parse_precedence 30
        { _tokens := [.double 1, .Identifier "+", .double 2, .Identifier "*", .char ')', .EOL], _offsets := [0, 1, 2, 3, 4, 5], _cursor := 3 }
        (.Literal 2) (next LOWEST) (some 2) =
      .error (Failure.Error 4 (Message.invalid_token (.char ')'))) ∧
    (Lexer.discard
        { _tokens := [.double 1, .Identifier "+", .double 2, .Identifier "*", .char ')', .EOL], _offsets := [0, 1, 2, 3, 4, 5], _cursor := 3 }).peek =
      .char ')' ∧
    Lexer.new Category.WHITESPACE "1+2*)" =
      .ok { _tokens := [.double 1, .Identifier "+", .double 2, .Identifier "*", .char ')', .EOL], _offsets := [0, 1, 2, 3, 4, 5], _cursor := 0 } ∧
    parse Category.WHITESPACE "1+2*)" =
      .error (Failure.Error 4 (Message.invalid_token (.char ')'))) ∧
    Message.invalid_token (.char ')') ≠ Message.expected_expression ∧
    parse Category.WHITESPACE "1+2*3 ." = .error Failure.invalid_argument :=
  ⟨by rfl, by rfl, by rfl, by rfl, by decide, by rfl⟩

/-- Claim C28: for a tokenizer whose token sequence ends in the end marker
(which occurs nowhere else) and whose cursor is inside it, after any finite
sequence of `peek`, `read` and `discard` the cursor is a valid index of the
unchanged token sequence and `peek` returns the token at the cursor; `read`
and `discard` advance the cursor by exactly one unless it is on the last
token, in which case the state is unchanged; and once the end marker is
reached, every further `read` returns the end marker. -/
theorem lexer_cursor_invariant (lx : Lexer) (hwf : well_formed lx) (ops : List Operation) :
    (run ops lx)._tokens = lx._tokens ∧
    (run ops lx)._cursor < (run ops lx)._tokens.length ∧
    (run ops lx)._tokens.get? (run ops lx)._cursor = some (run ops lx).peek ∧
    lx.read.1 = lx.peek ∧ lx.read.2 = lx.discard ∧
    (lx._cursor + 1 < lx._tokens.length → lx.discard._cursor = lx._cursor + 1) ∧
    (lx._cursor + 1 = lx._tokens.length → lx.discard = lx) ∧
    (lx.peek = Token.EOL → (run ops lx).read.1 = Token.EOL ∧ run ops lx = lx) := by
  have hr := run_reaches ops lx hwf
  refine ⟨hr.tokens_eq, hr.wf.cursor_lt, peek_in_bounds hr.wf, rfl, rfl, ?_, ?_, ?_⟩
  · intro h
    simp [Lexer.discard, h]
  · intro h
    simp [Lexer.discard, h]
  · intro hp
    have := run_at_EOL ops lx hwf hp
    rw [this]
    exact ⟨hp, rfl⟩

/-- Witness of `lexer_cursor_invariant` for the tokens of `x` and four reads: the cursor
stops on the end marker. -/
theorem lexer_cursor_invariant_witness :
    run [Operation.read, Operation.peek, Operation.read, Operation.discard, Operation.read]
        { _tokens := [.string_view "x", .EOL], _offsets := [0, 1], _cursor := 0 } =
      { _tokens := [.string_view "x", .EOL], _offsets := [0, 1], _cursor := 1 } ∧
    (run [Operation.read, Operation.peek, Operation.read, Operation.discard, Operation.read]
        { _tokens := [.string_view "x", .EOL], _offsets := [0, 1], _cursor := 0 })._cursor <
      (run [Operation.read, Operation.peek, Operation.read, Operation.discard, Operation.read]
        { _tokens := [.string_view "x", .EOL], _offsets := [0, 1], _cursor := 0 })._tokens.length :=
  ⟨by rfl, (lexer_cursor_invariant
    { _tokens := [.string_view "x", .EOL], _offsets := [0, 1], _cursor := 0 }
    (Lexer_new_well_formed (show Lexer.new Category.WHITESPACE "x" = .ok _ from by rfl))
    [Operation.read, Operation.peek, Operation.read, Operation.discard, Operation.read]).2.1⟩

/-- Claim C29: in every state `lx` of a token sequence that ends in the end
marker (`well_formed`: the cursor is inside the sequence and the end marker is
its last token and no other), `parse_expression` terminates: run with fuel for
the remaining tokens it returns a tree or throws a `parser::Error`, and more
fuel gives the same result. Whenever `parse_expression` or `parse_primary`
returns, the token at the cursor was not the end marker and the cursor has
moved forward, within the same sequence; an iteration of the operator loop of
`parse_precedence` whose operand is parsed has moved the cursor forward; an
iteration of the inner loop, entered on an operator that climbs, returns
nothing (it throws); on the end marker `discard` and `read` leave the state
as it is. Hence `parse` returns a tree or throws a `parser::Error` on every
text that is tokenized. -/
theorem parser_terminates (lx : Lexer) (hwf : well_formed lx) :
    (((∃ t lx', parse_expression (4 * remaining lx + 1) lx = .ok (t, lx')) ∨
        ∃ column msg, parse_expression (4 * remaining lx + 1) lx =
          .error (Failure.Error column msg)) ∧
      ∀ n, 4 * remaining lx + 1 ≤ n →
        parse_expression n lx = parse_expression (4 * remaining lx + 1) lx) ∧
    (∀ n t lx', (parse_expression n lx = .ok (t, lx') ∨ parse_primary n lx = .ok (t, lx')) →
      lx.peek ≠ Token.EOL ∧ lx._cursor < lx'._cursor ∧ lx'._cursor < lx'._tokens.length ∧
        lx'._tokens = lx._tokens) ∧
    (∀ n t lx', parse_primary n lx.discard = .ok (t, lx') →
      lx._cursor < lx'._cursor ∧ lx'._tokens = lx._tokens) ∧
    (∀ (n : Nat) (rhs : Ast) (fn sub_fn : FunctionPtr) (min : Precedence),
      (deref fn).precedence ≥ min → peek_function lx 2 = some sub_fn →
      climbs sub_fn fn = true →
      ∀ t lx', parse_precedence_rhs n lx rhs fn min ≠ .ok (t, lx')) ∧
    (lx.peek = Token.EOL → lx.discard = lx ∧ lx.read = (Token.EOL, lx)) ∧
    (∀ uninit s, Lexer.new uninit s = .ok lx →
      (∃ t, parse uninit s = .ok t) ∨
        ∃ column msg, parse uninit s = .error (Failure.Error column msg)) := by
  refine ⟨⟨?_, expression_stable lx hwf⟩, ?_, ?_, ?_, ?_, ?_⟩
  · have hp := (parser_invariant _).expression lx hwf (le_refl _)
    cases hres : parse_expression (4 * remaining lx + 1) lx with
    | error e =>
      obtain ⟨c, m, rfl⟩ := hp.1 e hres
      exact Or.inr ⟨c, m, rfl⟩
    | ok p => exact Or.inl ⟨p.1, p.2, rfl⟩
  · intro n t lx' h
    have hp : reaches lx lx' ∧ lx._cursor + 1 ≤ lx'._cursor := by
      rcases h with h | h
      · exact expression_progress hwf h
      · exact primary_progress hwf h
    exact ⟨consumed_not_EOL hwf hp.1 hp.2, hp.2, hp.1.wf.cursor_lt, hp.1.tokens_eq⟩
  · intro n t lx' h
    have hd := reaches_discard hwf
    obtain ⟨hr, hc⟩ := primary_progress hd.wf h
    have := hd.cursor_le
    exact ⟨by omega, hr.tokens_eq.trans hd.tokens_eq⟩
  · intro n rhs fn sub_fn min hmin hpf hcl
    exact precedence_rhs_iteration_throws hwf n rhs hmin hpf hcl
  · intro hp
    have hd := discard_of_EOL hwf hp
    refine ⟨hd, ?_⟩
    rw [Lexer.read, hd, hp]
  · intro uninit s hlex
    exact parse_terminates_of_tokenized hlex

/-- Witness of `parser_terminates` in the initial state of the tokens of
`1+2`: with fuel 17 `parse_expression` returns the tree of `1+2` with the
cursor on the end marker, and so it does with fuel 1000. -/
theorem parser_terminates_witness :
    parse_expression 17
        { _tokens := [.double 1, .Identifier "+", .double 2, .EOL], _offsets := [0, 1, 2, 3], _cursor := 0 } =
      .ok (.Call 5 [.Literal 1, .Literal 2],
        { _tokens := [.double 1, .Identifier "+", .double 2, .EOL], _offsets := [0, 1, 2, 3], _cursor := 3 }) ∧
    parse_expression 1000
        { _tokens := [.double 1, .Identifier "+", .double 2, .EOL], _offsets := [0, 1, 2, 3], _cursor := 0 } =
      parse_expression 17
        { _tokens := [.double 1, .Identifier "+", .double 2, .EOL], _offsets := [0, 1, 2, 3], _cursor := 0 } :=
  ⟨by rfl, (parser_terminates
    { _tokens := [.double 1, .Identifier "+", .double 2, .EOL], _offsets := [0, 1, 2, 3], _cursor := 0 }
    (Lexer_new_well_formed (show Lexer.new Category.WHITESPACE "1+2" = .ok _ from by rfl))).1.2
    1000 (by decide)⟩
